import Mathlib

/-!
dynamodb-helpers: a shallow embedding of the attribute-value codec.

The development follows the three Go units of the package:

* `attributevalue.go`: the wire value (`AttributeValue`) and its text projection,
* `encoder.go`: `convertToAttribute`, `encodeStruct`, `convertToNumericString`,
* `decoder.go`: `decodeAttribute`, `decodeStruct`, `decodeMap`, `decodeArray`.

Conventions of the embedding.

* A Go pointer or a nil-able slice or map is an `Option`; `none` is `nil`.
* A Go `string` and a `[]byte` are sequences of bytes. A `String` of the model holds one
  character per byte, a `[]byte` is a `List Nat`.
* A `reflect.Value` is a triple of a type (`GoType`), the addressability flag and the datum
  (`Data`). Go values are trees here: aliasing and cyclic values are outside the model.
* `int`, `uint` and `uintptr` are identified with their 64-bit forms.
* The fields of a record are exported: the read-only flag that `reflect` puts on a value
  obtained through an unexported field is not modelled, and a field can be set as soon as it
  is addressable.
* The recursive functions take a fuel argument, one unit per nested call, and answer
  `Outcome.outOfFuel` when it is exhausted.
* Standard-library and user-supplied code that the package calls (JSON text rendering, base64,
  float formatting, the conversion hooks) and the helpers of the package that live outside the
  three units (`cachedTypeFields`, `isEmptyValue`) are fields of `Env`.
* The messages of errors and panics are shortened: the parts that print a Go type are left
  out.
-/

namespace Dynamodb

/-! ## Outcomes -/

/-- The result of a call: a value, a returned Go error, a panic, or exhausted fuel. -/
inductive Outcome (ε α : Type) where
  | ok (a : α)
  | error (e : ε)
  | panic (msg : String)
  | outOfFuel

/-! ## attributevalue.go -/

/-- The Go struct `AttributeValue`; every one of its seven fields can be nil. -/
inductive AttributeValue where
  | mk (B : Option (List Nat)) (BOOL : Option Bool) (S : Option String) (N : Option String)
      (NULL : Option Bool) (M : Option (List (String × Option AttributeValue)))
      (L : Option (List (Option AttributeValue)))

/-- The Go type `AttributeValueMap`, `map[string]*AttributeValue`, as an association list. -/
abbrev AttributeValueMap := List (String × Option AttributeValue)

namespace AttributeValue

def B : AttributeValue → Option (List Nat)
  | mk b _ _ _ _ _ _ => b

def BOOL : AttributeValue → Option Bool
  | mk _ b _ _ _ _ _ => b

def S : AttributeValue → Option String
  | mk _ _ s _ _ _ _ => s

def N : AttributeValue → Option String
  | mk _ _ _ n _ _ _ => n

def NULL : AttributeValue → Option Bool
  | mk _ _ _ _ n _ _ => n

def M : AttributeValue → Option AttributeValueMap
  | mk _ _ _ _ _ m _ => m

def L : AttributeValue → Option (List (Option AttributeValue))
  | mk _ _ _ _ _ _ l => l

/-- The literal `AttributeValue{}`. -/
def empty : AttributeValue := mk none none none none none none none

/-- The literal `AttributeValue{B: b}`. -/
def ofB (b : List Nat) : AttributeValue := mk (some b) none none none none none none

/-- The literal `AttributeValue{BOOL: &b}`. -/
def ofBOOL (b : Bool) : AttributeValue := mk none (some b) none none none none none

/-- The literal `AttributeValue{S: &s}`. -/
def ofS (s : String) : AttributeValue := mk none none (some s) none none none none

/-- The literal `AttributeValue{N: &n}`. -/
def ofN (n : String) : AttributeValue := mk none none none (some n) none none none

/-- The literal `AttributeValue{NULL: &b}`. -/
def ofNULL (b : Bool) : AttributeValue := mk none none none none (some b) none none

/-- The literal `AttributeValue{M: m}` for a non-nil map. -/
def ofM (m : AttributeValueMap) : AttributeValue := mk none none none none none (some m) none

/-- The literal `AttributeValue{L: l}` for a non-nil slice. -/
def ofL (l : List (Option AttributeValue)) : AttributeValue :=
  mk none none none none none none (some l)

/-- `func (a *AttributeValue) IsValid() bool`. -/
def IsValid (a : AttributeValue) : Bool :=
  a.B.isSome || a.BOOL.isSome || a.S.isSome || a.N.isSome || a.NULL.isSome || a.M.isSome
    || a.L.isSome

end AttributeValue

/-- The Go enumeration `AttributeValueType`. -/
inductive AttributeValueType where
  | INVALID_ATTRIBUTEVALUE_TYPE
  | B
  | BOOL
  | L
  | M
  | N
  | NULL
  | S
  deriving DecidableEq, Repr

/-- `func (a *AttributeValue) Type() AttributeValueType`. -/
def AttributeValue.Type_ (a : AttributeValue) : AttributeValueType :=
  if a.B.isSome then .B
  else if a.BOOL.isSome then .BOOL
  else if a.S.isSome then .S
  else if a.N.isSome then .N
  else if a.NULL.isSome then .NULL
  else if a.M.isSome then .M
  else if a.L.isSome then .L
  else .INVALID_ATTRIBUTEVALUE_TYPE

/-- `func (a AttributeValueType) String() string`. -/
def AttributeValueType.String : AttributeValueType → String
  | .B => "B"
  | .BOOL => "BOOL"
  | .L => "L"
  | .M => "M"
  | .N => "N"
  | .NULL => "NULL"
  | .S => "S"
  | .INVALID_ATTRIBUTEVALUE_TYPE => "INVALID"

/-- The part of `encoding/json` and `encoding/base64` that rendering a wire value relies on. -/
structure JSONText where
  /-- The JSON string literal, quotes included, that `json.Marshal` writes for a Go string. -/
  quote : String → String
  /-- The text of `base64.StdEncoding.EncodeToString`. -/
  base64 : List Nat → String

/-- What `json.Marshal` writes for a struct with the single field `key`. -/
def jsonObject1 (key payload : String) : String :=
  "\x7b\"" ++ key ++ "\":" ++ payload ++ "\x7d"

/-- What `json.Marshal` writes for a Go `bool`. -/
def jsonBool (b : Bool) : String := if b then "true" else "false"

/-- Join rendered members with commas. -/
def jsonJoin : List String → String
  | [] => ""
  | [x] => x
  | x :: y :: rest => x ++ "," ++ jsonJoin (y :: rest)

/-- Bytewise lexicographic order, the order in which `json.Marshal` sorts map keys. -/
def bytesLess : List Char → List Char → Bool
  | _, [] => false
  | [], _ :: _ => true
  | a :: as, b :: bs =>
    if a.toNat < b.toNat then true
    else if b.toNat < a.toNat then false
    else bytesLess as bs

/-- Insert an entry into a key-sorted association list. -/
def insertByKey {α : Type} (e : String × α) : List (String × α) → List (String × α)
  | [] => [e]
  | x :: xs => if bytesLess e.1.data x.1.data then e :: x :: xs else x :: insertByKey e xs

/-- The entries of a map in the key order in which `json.Marshal` writes them. -/
def sortByKey {α : Type} : List (String × α) → List (String × α)
  | [] => []
  | x :: xs => insertByKey x (sortByKey xs)

/-- The message of the error of `MarshalJSON`. -/
def noValuesMessage : String := "cannot serialize an AttributeValue with no values set"

/-- How `json.Marshal` renders a `*AttributeValue` member: `null` for nil, else the text of the
member's own `MarshalJSON`, whose error it wraps. -/
def marshalPointer (self : AttributeValue → Outcome String String) :
    Option AttributeValue → Outcome String String
  | none => .ok "null"
  | some c =>
    match self c with
    | .ok s => .ok s
    | .error e =>
      .error ("json: error calling MarshalJSON for type *dynamodb.AttributeValue: " ++ e)
    | .panic m => .panic m
    | .outOfFuel => .outOfFuel

/-- The rendered elements of a `[]*AttributeValue`, stopping at the first failure. -/
def marshalElems (self : AttributeValue → Outcome String String) :
    List (Option AttributeValue) → Outcome String (List String)
  | [] => .ok []
  | c :: rest =>
    match marshalPointer self c with
    | .ok s =>
      match marshalElems self rest with
      | .ok ss => .ok (s :: ss)
      | .error e => .error e
      | .panic m => .panic m
      | .outOfFuel => .outOfFuel
    | .error e => .error e
    | .panic m => .panic m
    | .outOfFuel => .outOfFuel

/-- The rendered members of an `AttributeValueMap`, given in key order. -/
def marshalEntries (J : JSONText) (self : AttributeValue → Outcome String String) :
    List (String × Option AttributeValue) → Outcome String (List String)
  | [] => .ok []
  | (k, c) :: rest =>
    match marshalPointer self c with
    | .ok s =>
      match marshalEntries J self rest with
      | .ok ss => .ok ((J.quote k ++ ":" ++ s) :: ss)
      | .error e => .error e
      | .panic m => .panic m
      | .outOfFuel => .outOfFuel
    | .error e => .error e
    | .panic m => .panic m
    | .outOfFuel => .outOfFuel

/-- One call of `MarshalJSON`, with the nested calls made through `self`. -/
def marshalJSONBody (J : JSONText) (self : AttributeValue → Outcome String String)
    (a : AttributeValue) : Outcome String String :=
  match a.B with
  | some b => .ok (jsonObject1 "B" ("\"" ++ J.base64 b ++ "\""))
  | none =>
  match a.BOOL with
  | some b => .ok (jsonObject1 "BOOL" (jsonBool b))
  | none =>
  match a.S with
  | some s => .ok (jsonObject1 "S" (J.quote s))
  | none =>
  match a.N with
  | some n => .ok (jsonObject1 "N" (J.quote n))
  | none =>
  match a.NULL with
  | some b => .ok (jsonObject1 "NULL" (jsonBool b))
  | none =>
  match a.M with
  | some m =>
    if m.length = 0 then .ok "\x7b\"M\":\x7b\x7d\x7d"
    else
      match marshalEntries J self (sortByKey m) with
      | .ok ss => .ok (jsonObject1 "M" ("\x7b" ++ jsonJoin ss ++ "\x7d"))
      | .error e => .error e
      | .panic msg => .panic msg
      | .outOfFuel => .outOfFuel
  | none =>
  match a.L with
  | some l =>
    if l.length = 0 then .ok "\x7b\"L\":[]\x7d"
    else
      match marshalElems self l with
      | .ok ss => .ok (jsonObject1 "L" ("[" ++ jsonJoin ss ++ "]"))
      | .error e => .error e
      | .panic msg => .panic msg
      | .outOfFuel => .outOfFuel
  | none => .error noValuesMessage

/-- `func (a *AttributeValue) MarshalJSON() ([]byte, error)`. -/
def AttributeValue.MarshalJSON (J : JSONText) : Nat → AttributeValue → Outcome String String
  | 0, _ => .outOfFuel
  | fuel + 1, a => marshalJSONBody J (AttributeValue.MarshalJSON J fuel) a

/-! ## Native types and values (what `reflect` shows of them) -/

/-- What the package asks about the method set of a type: `NumMethod` and which of the
conversion interfaces the type implements. -/
structure MethodSet where
  numMethod : Nat
  jsonMarshaler : Bool
  jsonUnmarshaler : Bool
  textMarshaler : Bool
  textUnmarshaler : Bool
  deriving DecidableEq, Repr

/-- The method set of a type without methods. -/
def MethodSet.empty : MethodSet := ⟨0, false, false, false, false⟩

/-- A field declaration of a struct type: its name, the alias of its tag, the `omitempty`
option of its tag, and whether the field is embedded. -/
structure StructField where
  Name : String
  Alias : Option String
  OmitEmpty : Bool
  Anonymous : Bool
  deriving DecidableEq, Repr

/-- Go types. `named` is a defined type with the method sets of `T` and of `*T`; `other` stands
for the kinds without a conversion rule (complex numbers, channels, functions). -/
inductive GoType where
  | bool
  | int (bits : Nat)
  | uint (bits : Nat)
  | float (bits : Nat)
  | string
  | ptr (elem : GoType)
  | iface (ms : MethodSet)
  | slice (elem : GoType)
  | array (len : Nat) (elem : GoType)
  | map (key elem : GoType)
  | struct (fields : List (StructField × GoType))
  | named (name : String) (ms pms : MethodSet) (underlying : GoType)
  | other (kind : String)

/-- A Go `float32` or `float64`: not a number, an infinity, or `num * 2 ^ exp`. -/
inductive GoFloat where
  | nan
  | inf (negative : Bool)
  | finite (num : Int) (exp : Int)
  deriving DecidableEq, Repr

/-- The datum of a Go value, without its type. -/
inductive Data where
  | bool (b : Bool)
  | int (n : Int)
  | uint (n : Nat)
  | float (f : GoFloat)
  | str (s : String)
  | ptr (p : Option Data)
  | iface (dyn : Option (GoType × Data))
  | slice (xs : Option (List Data))
  | array (xs : List Data)
  | map (m : Option (List (Data × Data)))
  | struct (fs : List Data)
  | other

/-- A `reflect.Value`: type, addressability, datum. -/
structure Value where
  typ : GoType
  canAddr : Bool
  data : Data

namespace GoType

/-- The type under the definitions: the kind of a type is the shape of this type. -/
def underlying : GoType → GoType
  | named _ _ _ u => u.underlying
  | t => t

/-- The method set that `reflect` reports for a type: the declared one of a defined type, the
pointer method set for a pointer to a defined type, the methods of an interface type. -/
def methods : GoType → MethodSet
  | named _ ms _ _ => ms
  | ptr (named _ _ pms _) => pms
  | iface ms => ms
  | _ => MethodSet.empty

/-- `t.Kind() == reflect.Ptr`. -/
def isPtr (t : GoType) : Bool :=
  match t.underlying with
  | ptr _ => true
  | _ => false

/-- `t.Kind() == reflect.String`. -/
def isString (t : GoType) : Bool :=
  match t.underlying with
  | string => true
  | _ => false

/-- `t.Kind() == reflect.Uint8`. -/
def isUint8 (t : GoType) : Bool :=
  match t.underlying with
  | uint 8 => true
  | _ => false

/-- `t.Elem()` for a pointer, slice, array or map type. -/
def elem (t : GoType) : GoType :=
  match t.underlying with
  | ptr e => e
  | slice e => e
  | array _ e => e
  | map _ e => e
  | _ => other "invalid"

end GoType

mutual
/-- `reflect.Zero(t)`: the zero value of a type. -/
def zero : GoType → Data
  | .bool => .bool false
  | .int _ => .int 0
  | .uint _ => .uint 0
  | .float _ => .float (.finite 0 0)
  | .string => .str ""
  | .ptr _ => .ptr none
  | .iface _ => .iface none
  | .slice _ => .slice none
  | .array n e => .array (List.replicate n (zero e))
  | .map _ _ => .map none
  | .struct fs => .struct (zeroFields fs)
  | .named _ _ _ u => zero u
  | .other _ => .other
/-- The zero values of the fields of a struct type. -/
def zeroFields : List (StructField × GoType) → List Data
  | [] => []
  | (_, t) :: rest => zero t :: zeroFields rest
end

/-- One entry of the per-type field table (`field` in the package): the wire key, the index
path to the field and the `omitempty` flag. -/
structure Field where
  name : String
  index : List Nat
  omitEmpty : Bool
  deriving DecidableEq, Repr

/-- The code that the package calls and that lies outside the three units. -/
structure Env where
  /-- The per-type field table, `cachedTypeFields(t)`. -/
  cachedTypeFields : GoType → List Field
  /-- The emptiness test behind `omitempty`, `isEmptyValue(v)`. -/
  isEmptyValue : Value → Bool
  /-- `json.Marshal(v.Interface())` for a value whose type implements `json.Marshaler`. -/
  jsonMarshal : Value → Except String (List Nat)
  /-- The `MarshalText` method of a value. -/
  marshalText : Value → Except String (List Nat)
  /-- `json.Unmarshal(b, v.Interface())`: the datum of `v` afterwards (for a pointer, the
  pointer with its updated pointee) and the returned error, if any. -/
  jsonUnmarshal : List Nat → Value → Data × Option String
  /-- The `UnmarshalText` method called on `v.Interface()`: the datum of `v` afterwards and the
  returned error, if any. -/
  unmarshalText : List Nat → Value → Data × Option String
  /-- `strconv.FormatFloat(f, 'g', -1, bits)`. -/
  formatFloat : GoFloat → Nat → String
  /-- `strconv.ParseFloat(s, bits)`; `none` when it returns an error. -/
  parseFloat : String → Nat → Option GoFloat
  /-- `reflect.Value.OverflowFloat` for a destination of the given width. -/
  overflowFloat : Nat → GoFloat → Bool
  /-- `base64.StdEncoding.DecodeString`. -/
  base64Decode : String → Except String (List Nat)

/-! ## strconv -/

/-- The value of a decimal digit. -/
def digitValue (c : Char) : Option Nat :=
  if 48 ≤ c.toNat ∧ c.toNat ≤ 57 then some (c.toNat - 48) else none

/-- The number written by a sequence of decimal digits, most significant first, continuing
from `acc`; `none` when a character is not a digit. -/
def decimalValue : List Char → Nat → Option Nat
  | [], acc => some acc
  | c :: cs, acc =>
    match digitValue c with
    | some d => decimalValue cs (acc * 10 + d)
    | none => none

/-- `strconv.ParseUint(s, 10, 64)`; `none` when it returns an error (syntax or range). -/
def ParseUint (s : String) : Option Nat :=
  match s.data with
  | [] => none
  | cs =>
    match decimalValue cs 0 with
    | some n => if n < 2 ^ 64 then some n else none
    | none => none

/-- `strconv.ParseInt(s, 10, 64)`; `none` when it returns an error (syntax or range). -/
def ParseInt (s : String) : Option Int :=
  match s.data with
  | [] => none
  | c :: cs =>
    let neg := c = '-'
    let digits := if c = '+' ∨ c = '-' then cs else c :: cs
    match digits with
    | [] => none
    | ds =>
      match decimalValue ds 0 with
      | some un =>
        if ¬ neg ∧ un ≥ 2 ^ 63 then none
        else if neg ∧ un > 2 ^ 63 then none
        else some (if neg then - (un : Int) else (un : Int))
      | none => none

/-- The decimal digits of a number, most significant first, in front of `acc`. -/
def decimalDigits : Nat → Nat → List Char → List Char
  | 0, _, acc => acc
  | fuel + 1, n, acc =>
    let d := Char.ofNat (48 + n % 10)
    if n / 10 = 0 then d :: acc else decimalDigits fuel (n / 10) (d :: acc)

/-- `strconv.FormatUint(n, 10)`. -/
def FormatUint (n : Nat) : String := String.mk (decimalDigits (n + 1) n [])

/-- `strconv.FormatInt(n, 10)`. -/
def FormatInt (n : Int) : String :=
  if n < 0 then String.mk ('-' :: decimalDigits (n.natAbs + 1) n.natAbs [])
  else FormatUint n.natAbs

/-- `reflect.Value.OverflowInt` for a destination of `bits` bits. -/
def OverflowInt (bits : Nat) (n : Int) : Bool :=
  decide (n < - (2 : Int) ^ (bits - 1) ∨ (2 : Int) ^ (bits - 1) ≤ n)

/-- `reflect.Value.OverflowUint` for a destination of `bits` bits. -/
def OverflowUint (bits : Nat) (n : Nat) : Bool :=
  decide (2 ^ bits ≤ n)

/-! ## encoder.go -/

/-- The Go type `EncodeError`. -/
structure EncodeError where
  Message : String
  deriving DecidableEq, Repr

/-- What a conversion to a wire value yields: `(*AttributeValue, error)`, or a panic. -/
abbrev EncOut := Outcome EncodeError (Option AttributeValue)

/-- The statement pair `b := true; return &AttributeValue{NULL: &b}, nil`. -/
def nullAttribute : EncOut := .ok (some (AttributeValue.ofNULL true))

namespace Value

/-- `v.Kind() == reflect.Ptr && v.IsNil()`. -/
def isNilPtr (v : Value) : Bool :=
  v.typ.isPtr &&
    match v.data with
    | .ptr none => true
    | _ => false

/-- `v.Addr()` for an addressable value: the pointer to it, itself not addressable. -/
def Addr (v : Value) : Value := ⟨.ptr v.typ, false, .ptr (some v.data)⟩

/-- `v.Field(i)`; `none` when the value is not a struct with a field `i`. -/
def Field (v : Value) (i : Nat) : Option Value :=
  match v.typ.underlying, v.data with
  | .struct fts, .struct fs =>
    match fts.get? i, fs.get? i with
    | some ft, some d => some ⟨ft.2, v.canAddr, d⟩
    | _, _ => none
  | _, _ => none

end Value

/-- `func encodeJSONValue(v reflect.Value) (*AttributeValue, error)`. -/
def encodeJSONValue (env : Env) (v : Value) : EncOut :=
  match env.jsonMarshal v with
  | .error e => .error ⟨"error encoding json value type: " ++ e⟩
  | .ok d => if d.length > 0 then .ok (some (AttributeValue.ofB d)) else nullAttribute

/-- `func encodeTextValue(v reflect.Value) (*AttributeValue, error)`. The type assertion of its
first line panics on a nil interface value. -/
def encodeTextValue (env : Env) (v : Value) : EncOut :=
  match v.data with
  | .iface none => .panic "interface conversion: interface is nil, not encoding.TextMarshaler"
  | _ =>
    match env.marshalText v with
    | .error e => .error ⟨"error encoding opaque value type: " ++ e⟩
    | .ok b =>
      if b.length > 0 then .ok (some (AttributeValue.ofS (String.mk (b.map Char.ofNat))))
      else nullAttribute

/-- `func convertToNumericString(v reflect.Value) string`. -/
def convertToNumericString (env : Env) (v : Value) : Outcome EncodeError String :=
  match v.typ.underlying, v.data with
  | .bool, .bool x => if x then .ok "1" else .ok "0"
  | .int _, .int n => .ok (FormatInt n)
  | .uint _, .uint n => .ok (FormatUint n)
  | .float bits, .float f =>
    match f with
    | .finite _ _ => .ok (env.formatFloat f bits)
    | _ => .panic "aws.dynamodb.convertToNumericString: NaN and infinite floats not supported"
  | _, _ => .panic "aws.dynamodb.convertToNumericString: unsupported type"

/-- The two hook blocks at the head of `convertToAttribute`: the answer when a conversion hook
of the type of the value, or of the pointer to an addressable value, decides the call. -/
def encodeHooks (env : Env) (v : Value) : Option EncOut :=
  let vt := v.typ
  if vt.methods.numMethod > 0 ∧ vt.methods.jsonMarshaler = true then
    some (if v.isNilPtr then nullAttribute else encodeJSONValue env v)
  else if vt.methods.numMethod > 0 ∧ vt.methods.textMarshaler = true then
    some (if v.isNilPtr then nullAttribute else encodeTextValue env v)
  else if (!v.typ.isPtr) ∧ v.canAddr = true then
    let addr := v.Addr
    if addr.typ.methods.numMethod > 0 ∧ addr.typ.methods.jsonMarshaler = true then
      some (encodeJSONValue env addr)
    else if addr.typ.methods.numMethod > 0 ∧ addr.typ.methods.textMarshaler = true then
      some (encodeTextValue env addr)
    else none
  else none

/-- The loop `for v.Kind() == reflect.Ptr || v.Kind() == reflect.Interface`: `none` when it
meets a nil layer, else the value under all pointer and interface layers. -/
def indirect : GoType → Bool → Data → Option Value
  | t, a, d =>
    match t.underlying, d with
    | .ptr e, .ptr (some d1) => indirect e true d1
    | .ptr _, _ => none
    | .iface _, .iface (some (dt, d1)) => indirect dt false d1
    | .iface _, _ => none
    | _, _ => some ⟨t, a, d⟩

/-- The statement `m[k] = v` on an association list. -/
def mapSet {β : Type} (m : List (String × β)) (k : String) (v : β) : List (String × β) :=
  match m with
  | [] => [(k, v)]
  | (k1, v1) :: rest => if k1 = k then (k, v) :: rest else (k1, v1) :: mapSet rest k v

/-- The check `if v2 != nil` of the container loops: a nil result is stored as Null. -/
def orNull : Option AttributeValue → Option AttributeValue
  | some a => some a
  | none => some (AttributeValue.ofNULL true)

/-- The loop over the elements of a slice or array in `convertToAttribute`. -/
def encodeElems (self : Value → EncOut) (t : GoType) (a : Bool) :
    List Data → Outcome EncodeError (List (Option AttributeValue))
  | [] => .ok []
  | x :: rest =>
    match self ⟨t, a, x⟩ with
    | .ok v2 =>
      match encodeElems self t a rest with
      | .ok out => .ok (orNull v2 :: out)
      | .error e => .error e
      | .panic m => .panic m
      | .outOfFuel => .outOfFuel
    | .error e => .error e
    | .panic m => .panic m
    | .outOfFuel => .outOfFuel

/-- `key.String()` for a map key of string kind. -/
def keyString : Data → String
  | .str k => k
  | _ => ""

/-- The loop over `v.MapKeys()` in `convertToAttribute`, starting from `containerOut`. -/
def encodeEntries (self : Value → EncOut) (t : GoType) :
    List (Data × Data) → AttributeValueMap → Outcome EncodeError AttributeValueMap
  | [], containerOut => .ok containerOut
  | (key, x) :: rest, containerOut =>
    match self ⟨t, false, x⟩ with
    | .ok v2 => encodeEntries self t rest (mapSet containerOut (keyString key) (orNull v2))
    | .error e => .error e
    | .panic m => .panic m
    | .outOfFuel => .outOfFuel

/-- Modelled from the spec: `fieldByIndex`, which `encodeStruct` calls and the three units do
not contain.
It follows the access path of a descriptor, "traversing through embedded sub-records and through
optional/pointer indirections"; a nil pointer on the path makes the field unreachable (the
invalid `reflect.Value`, here `none`). A step that does not fit the type is answered the same
way. -/
def fieldByIndex : Value → List Nat → Option Value
  | v, [] => some v
  | v, i :: rest =>
    match v.typ.underlying, v.data with
    | .ptr _, .ptr none => none
    | .ptr e, .ptr (some d) =>
      match (Value.mk e true d).Field i with
      | some fv => fieldByIndex fv rest
      | none => none
    | _, _ =>
      match v.Field i with
      | some fv => fieldByIndex fv rest
      | none => none

/-- The loop of `encodeStruct` over the field table, starting from `out`. -/
def encodeFields (env : Env) (self : Value → EncOut) (v : Value) :
    List Field → AttributeValueMap → Outcome EncodeError AttributeValueMap
  | [], out => .ok out
  | f :: rest, out =>
    match fieldByIndex v f.index with
    | none => encodeFields env self v rest out
    | some fv =>
      if f.omitEmpty = true ∧ env.isEmptyValue fv = true then
        encodeFields env self v rest out
      else
        match self fv with
        | .ok attr =>
          match attr with
          | some a => encodeFields env self v rest (mapSet out f.name (some a))
          | none => encodeFields env self v rest out
        | .error e => .error e
        | .panic m => .panic m
        | .outOfFuel => .outOfFuel

/-- `func encodeStruct(v reflect.Value) (AttributeValueMap, error)`. -/
def encodeStruct (env : Env) (self : Value → EncOut) (v : Value) :
    Outcome EncodeError AttributeValueMap :=
  encodeFields env self v (env.cachedTypeFields v.typ) []

/-- The `switch v.Kind()` of `convertToAttribute`, entered after the indirection loop. -/
def encodeKind (env : Env) (self : Value → EncOut) (v : Value) : EncOut :=
  match v.typ.underlying, v.data with
  | .bool, .bool b => .ok (some (AttributeValue.ofBOOL b))
  | .int _, _ | .uint _, _ | .float _, _ =>
    match convertToNumericString env v with
    | .ok n => .ok (some (AttributeValue.ofN n))
    | .error e => .error e
    | .panic m => .panic m
    | .outOfFuel => .outOfFuel
  | .string, .str s =>
    if s.length = 0 then nullAttribute else .ok (some (AttributeValue.ofS s))
  | .struct _, .struct _ =>
    match encodeStruct env self v with
    | .ok out => .ok (some (AttributeValue.ofM out))
    | .error e => .error e
    | .panic m => .panic m
    | .outOfFuel => .outOfFuel
  | .map _ _, .map none => nullAttribute
  | .map k e, .map (some entries) =>
    if k.isString = false then .error ⟨"only maps with string keys are supported"⟩
    else
      match encodeEntries self e entries [] with
      | .ok containerOut => .ok (some (AttributeValue.ofM containerOut))
      | .error e => .error e
      | .panic m => .panic m
      | .outOfFuel => .outOfFuel
  | .slice _, .slice none => nullAttribute
  | .slice e, .slice (some xs) =>
    if xs.length = 0 then nullAttribute
    else if e.isUint8 then
      .ok (some (AttributeValue.ofB (xs.map fun x => match x with | .uint n => n | _ => 0)))
    else
      match encodeElems self e true xs with
      | .ok containerOut => .ok (some (AttributeValue.ofL containerOut))
      | .error e => .error e
      | .panic m => .panic m
      | .outOfFuel => .outOfFuel
  | .array _ e, .array xs =>
    match encodeElems self e v.canAddr xs with
    | .ok containerOut => .ok (some (AttributeValue.ofL containerOut))
    | .error e => .error e
    | .panic m => .panic m
    | .outOfFuel => .outOfFuel
  | .ptr _, _ | .iface _, _ => .panic "could not handle multiple layers of pointers"
  | .other _, _ => .error ⟨"aws.dynamodb.EncodeError: unsupported type for field"⟩
  | _, _ => .panic "reflect: the datum does not have the type of the value"

/-- One call of `convertToAttribute`, with the nested calls made through `self`. -/
def convertBody (env : Env) (self : Value → EncOut) (v : Value) : EncOut :=
  match encodeHooks env v with
  | some r => r
  | none =>
    match indirect v.typ v.canAddr v.data with
    | none => nullAttribute
    | some v1 => encodeKind env self v1

/-- `func convertToAttribute(v reflect.Value) (*AttributeValue, error)`. -/
def convertToAttribute (env : Env) : Nat → Value → EncOut
  | 0, _ => .outOfFuel
  | fuel + 1, v => convertBody env (convertToAttribute env fuel) v

/-- The argument `item interface{}` of the entry points: nil, a `*AttributeValue`, or a value
of another type. -/
inductive Item where
  | nil
  | wire (av : Option AttributeValue)
  | native (t : GoType) (d : Data)

/-- `func EncodeToAttributeValue(item interface{}) (*AttributeValue, error)`. -/
def EncodeToAttributeValue (env : Env) (fuel : Nat) : Item → EncOut
  | .wire av => .ok av
  | .native t d => convertToAttribute env fuel ⟨t, false, d⟩
  | .nil => .panic "reflect: call of reflect.Value.Type on zero Value"

/-! ## decoder.go -/

/-- The Go type `DecodeError`. -/
structure DecodeError where
  Message : String
  IsNumericOverflow : Bool
  deriving DecidableEq, Repr

/-- How a decoding call ends: `nil`, a returned error, or a panic. -/
abbrev DecStatus := Outcome DecodeError Unit

/-- What a decoding call leaves behind: the datum of the destination and how the call ended. -/
structure DecOut where
  dest : Data
  status : DecStatus

/-- The panic of reading a field of a nil `*AttributeValue`. -/
def nilDereference : String := "runtime error: invalid memory address or nil pointer dereference"

/-- `v.Set(x)`, `v.SetInt(x)` and the like: they panic on a value that is not addressable. -/
def setValue (v : Value) (x : Data) : DecOut :=
  if v.canAddr then ⟨x, .ok ()⟩
  else ⟨v.data, .panic "reflect: reflect.Value.Set using unaddressable value"⟩

/-- `v.Set(x)` for an `x` whose type is assignable to the type of `v` only when `fits`. -/
def setAssignable (v : Value) (fits : Bool) (x : Data) : DecOut :=
  if fits then setValue v x
  else if v.canAddr then ⟨v.data, .panic "reflect.Set: value is not assignable to the type"⟩
  else ⟨v.data, .panic "reflect: reflect.Value.Set using unaddressable value"⟩

/-- The datum behind the pointer that a hook received. -/
def pointee (r : Data) (fallback : Data) : Data :=
  match r with
  | .ptr (some d) => d
  | _ => fallback

/-- The call of a consuming hook `h` from `decodeJSONValue` and `decodeTextValue`, after the
statement `if v.Kind() != reflect.Ptr && v.CanAddr() { v = v.Addr() }`. -/
def callHook (h : Value → Data × Option String) (v : Value) : Data × Option String :=
  if (!v.typ.isPtr) ∧ v.canAddr = true then
    let r := h v.Addr
    (pointee r.1 v.data, r.2)
  else if v.typ.isPtr then h v
  else (v.data, (h v).2)

/-- `func decodeJSONValue(attr *AttributeValue, v reflect.Value) error`. -/
def decodeJSONValue (env : Env) (attr : Option AttributeValue) (v : Value) : DecOut :=
  match attr with
  | none => ⟨v.data, .panic nilDereference⟩
  | some a =>
    match a.B with
    | some b =>
      match callHook (env.jsonUnmarshal b) v with
      | (d, some e) => ⟨d, .error ⟨"error decoding json value type: " ++ e, false⟩⟩
      | (d, none) => ⟨d, .ok ()⟩
    | none =>
      if a.NULL.isSome then setValue v (zero v.typ) else ⟨v.data, .ok ()⟩

/-- The panic of the type assertion of `decodeTextValue` on the pointer to an interface. -/
def textAssertionOnPointer : String :=
  "interface conversion: pointer to interface is not encoding.TextUnmarshaler: " ++
    "missing method UnmarshalText"

/-- The panic of the type assertion of `decodeTextValue` on a nil interface. -/
def textAssertionOnNil : String :=
  "interface conversion: interface is nil, not encoding.TextUnmarshaler"

/-- The statement `v.Interface().(encoding.TextUnmarshaler).UnmarshalText(b)` of
`decodeTextValue`, after `if v.Kind() != reflect.Ptr && v.CanAddr() { v = v.Addr() }`, with `h`
for the method. For a destination of interface kind the type assertion decides: taken by
address, the destination is a pointer to an interface, which has no methods, and the assertion
panics; not addressable, `v.Interface()` is the value that the interface holds, the assertion
panics on the nil interface and the method is called on the held value otherwise. -/
def callTextHook (h : Value → Data × Option String) (v : Value) : Data × DecStatus :=
  let finish : Data × Option String → Data × DecStatus := fun r =>
    match r with
    | (d, some e) => (d, .error ⟨"error decoding text value type: " ++ e, false⟩)
    | (d, none) => (d, .ok ())
  match v.typ.underlying with
  | .iface _ =>
    if v.canAddr then (v.data, .panic textAssertionOnPointer)
    else
      match v.data with
      | .iface (some (dt, d)) =>
        let r := finish (callHook h ⟨dt, false, d⟩)
        (.iface (some (dt, r.1)), r.2)
      | _ => (v.data, .panic textAssertionOnNil)
  | _ => finish (callHook h v)

/-- `func decodeTextValue(attr *AttributeValue, v reflect.Value) error`. -/
def decodeTextValue (env : Env) (attr : Option AttributeValue) (v : Value) : DecOut :=
  match attr with
  | none => ⟨v.data, .panic nilDereference⟩
  | some a =>
    match a.S with
    | some s =>
      let r := callTextHook (env.unmarshalText (s.data.map Char.toNat)) v
      ⟨r.1, r.2⟩
    | none =>
      if a.NULL.isSome then setValue v (zero v.typ) else ⟨v.data, .ok ()⟩

/-- The two hook blocks of `decodeAttribute`. `JSONUnmarshalerType` is declared in the source as
the type of `json.Marshaler`, so that block tests for the producing method. The addressed form
is handed to `decodeJSONValue`, the value itself to `decodeTextValue`. -/
def decodeHooks (env : Env) (attr : Option AttributeValue) (v : Value) : Option DecOut :=
  if v.typ.methods.numMethod > 0 ∧ v.typ.methods.jsonMarshaler = true then
    some (decodeJSONValue env attr v)
  else if v.typ.methods.numMethod > 0 ∧ v.typ.methods.textUnmarshaler = true then
    some (decodeTextValue env attr v)
  else if (!v.typ.isPtr) ∧ v.canAddr = true then
    let addr := v.Addr
    if addr.typ.methods.numMethod > 0 ∧ addr.typ.methods.jsonMarshaler = true then
      let r := decodeJSONValue env attr addr
      some ⟨pointee r.dest v.data, r.status⟩
    else if addr.typ.methods.numMethod > 0 ∧ addr.typ.methods.textUnmarshaler = true then
      some (decodeTextValue env attr v)
    else none
  else none

/-- The walk of `decodeStruct` along the index path of a descriptor, allocating nil pointers
on the way, followed by the call `decodeAttribute(attr, fv)` on the field it reaches. The
result is the datum of the value the walk started from. -/
def decodeField (self : Option AttributeValue → Value → DecOut) (attr : Option AttributeValue) :
    Value → List Nat → DecOut
  | v, [] => self attr v
  | v, i :: rest =>
    match v.typ.underlying, v.data with
    | .ptr e, .ptr p =>
      match p, v.canAddr with
      | none, false => ⟨v.data, .panic "reflect: reflect.Value.Set using unaddressable value"⟩
      | _, _ =>
        let d := match p with
          | some d => d
          | none => zero e
        match e.underlying, d with
        | .struct fts, .struct fs =>
          match fts.get? i, fs.get? i with
          | some ft, some fd =>
            let r := decodeField self attr ⟨ft.2, true, fd⟩ rest
            ⟨.ptr (some (.struct (fs.set i r.dest))), r.status⟩
          | _, _ => ⟨.ptr (some d), .panic "reflect: Field index out of range"⟩
        | _, _ => ⟨.ptr (some d), .panic "reflect: call of reflect.Value.Field on a non-struct"⟩
    | .struct fts, .struct fs =>
      match fts.get? i, fs.get? i with
      | some ft, some fd =>
        let r := decodeField self attr ⟨ft.2, v.canAddr, fd⟩ rest
        ⟨.struct (fs.set i r.dest), r.status⟩
      | _, _ => ⟨v.data, .panic "reflect: Field index out of range"⟩
    | _, _ => ⟨v.data, .panic "reflect: call of reflect.Value.Field on a non-struct"⟩

/-- The loop `for k, attr := range attrs` of `decodeStruct`, on the entries in list order. -/
def decodeStructEntries (self : Option AttributeValue → Value → DecOut) (fields : List Field)
    (t : GoType) (a : Bool) : List (String × Option AttributeValue) → Data → DecOut
  | [], d => ⟨d, .ok ()⟩
  | (k, attr) :: rest, d =>
    match fields.find? (fun f => f.name = k) with
    | none => decodeStructEntries self fields t a rest d
    | some f =>
      match decodeField self attr ⟨t, a, d⟩ f.index with
      | ⟨d1, .ok _⟩ => decodeStructEntries self fields t a rest d1
      | r => r

/-- `func decodeStruct(attrs AttributeValueMap, v reflect.Value) error`, for a `v` of struct
kind, as `decodeAttribute` calls it. -/
def decodeStruct (env : Env) (self : Option AttributeValue → Value → DecOut)
    (attrs : AttributeValueMap) (v : Value) : DecOut :=
  decodeStructEntries self (env.cachedTypeFields v.typ) v.typ v.canAddr attrs v.data

/-- `v.SetMapIndex(k, x)` on the entries of a map with keys of string kind. -/
def setMapIndex (m : List (Data × Data)) (k : String) (x : Data) : List (Data × Data) :=
  match m with
  | [] => [(.str k, x)]
  | (k1, x1) :: rest =>
    match k1 with
    | .str s => if s = k then (.str k, x) :: rest else (k1, x1) :: setMapIndex rest k x
    | _ => (k1, x1) :: setMapIndex rest k x

/-- `func decodeMap(attr AttributeValueMap, v reflect.Value) error`: the loop over the wire
entries in list order; `m` is the datum of the map `v`, nil or its entries. The guard
`!v.IsValid()` of its first statement holds of no value of the model. -/
def decodeMap (self : Option AttributeValue → Value → DecOut) (elemType : GoType) :
    List (String × Option AttributeValue) → Option (List (Data × Data)) → DecOut
  | [], m => ⟨.map m, .ok ()⟩
  | (key, subAttr) :: rest, m =>
    match self subAttr ⟨elemType, true, zero elemType⟩ with
    | ⟨value, .ok _⟩ =>
      match m with
      | none => ⟨.map none, .panic "assignment to entry in nil map"⟩
      | some entries => decodeMap self elemType rest (some (setMapIndex entries key value))
    | ⟨_, st⟩ => ⟨.map m, st⟩

/-- The two loops of `decodeArray`: decode list element `i` into slot `i` while both exist,
then reset the remaining slots to the zero value. The check on `av` after each call in the
default branch (`!av.IsValid() || !av.Type().AssignableTo(t.Elem())`) holds of no element, which
has the element type by construction. -/
def decodeElems (self : Option AttributeValue → Value → DecOut) (elemType : GoType) (a : Bool) :
    List (Option AttributeValue) → List Data → List Data × DecStatus
  | _, [] => ([], .ok ())
  | [], x :: xs =>
    if a then ((x :: xs).map (fun _ => zero elemType), .ok ())
    else (x :: xs, .panic "reflect: reflect.Value.Set using unaddressable value")
  | el :: els, x :: xs =>
    match self el ⟨elemType, a, x⟩ with
    | ⟨x1, .ok _⟩ =>
      let r := decodeElems self elemType a els xs
      (x1 :: r.1, r.2)
    | ⟨x1, st⟩ => (x1 :: xs, st)

/-- `func decodeArray(attr *AttributeValue, v reflect.Value) error`, for a `v` of slice or
array kind. -/
def decodeArray (self : Option AttributeValue → Value → DecOut) (attr : Option AttributeValue)
    (v : Value) : DecOut :=
  match attr with
  | none => ⟨v.data, .panic nilDereference⟩
  | some a =>
    match a.NULL, a.L with
    | some _, _ => setValue v (zero v.typ)
    | none, none => setValue v (zero v.typ)
    | none, some l =>
      match v.typ.underlying, v.data with
      | .slice e, _ =>
        if v.canAddr = false then
          ⟨v.data, .panic "reflect: reflect.Value.Set using unaddressable value"⟩
        else if l.length = 0 then ⟨.slice (some []), .ok ()⟩
        else
          match e.underlying with
          | .iface ms =>
            if ms.numMethod ≠ 0 then
              ⟨.slice (some (List.replicate l.length (zero e))),
                .error ⟨"cannot decode into array of non-empty interface types", false⟩⟩
            else
              let r := decodeElems self e true l (List.replicate l.length (zero e))
              ⟨.slice (some r.1), r.2⟩
          | _ =>
            let r := decodeElems self e true l (List.replicate l.length (zero e))
            ⟨.slice (some r.1), r.2⟩
      | .array _ e, .array xs =>
        if xs.length = 0 then ⟨v.data, .ok ()⟩
        else
          match e.underlying with
          | .iface ms =>
            if ms.numMethod ≠ 0 then
              ⟨v.data, .error ⟨"cannot decode into array of non-empty interface types", false⟩⟩
            else
              let r := decodeElems self e v.canAddr l xs
              ⟨.array r.1, r.2⟩
          | _ =>
            let r := decodeElems self e v.canAddr l xs
            ⟨.array r.1, r.2⟩
      | _, _ => ⟨v.data, .panic "reflect: the datum does not have the type of the value"⟩

/-- The type `map[string]interface{}` (`imapType`). -/
def imapType : GoType := .map .string (.iface MethodSet.empty)

/-- The type `[]interface{}` (`ilistType`). -/
def ilistType : GoType := .slice (.iface MethodSet.empty)

/-- The `case reflect.Interface` of `decodeAttribute`. -/
def decodeInterface (env : Env) (self : Option AttributeValue → Value → DecOut)
    (attr : Option AttributeValue) (v : Value) : DecOut :=
  if v.typ.methods.numMethod ≠ 0 then
    ⟨v.data, .error ⟨"cannot decode into non-empty interface type", false⟩⟩
  else
    match attr with
    | none => ⟨v.data, .panic nilDereference⟩
    | some a =>
      match a.B with
      | some b => setValue v (.iface (some (.slice (.uint 8), .slice (some (b.map Data.uint)))))
      | none =>
      match a.BOOL with
      | some b => setValue v (.iface (some (.bool, .bool b)))
      | none =>
      match a.S with
      | some s => setValue v (.iface (some (.string, .str s)))
      | none =>
      match a.N with
      | some n =>
        match env.parseFloat n 64 with
        | none => ⟨v.data, .error ⟨"error parsing number " ++ n ++ " into type float64", false⟩⟩
        | some f => setValue v (.iface (some (.float 64, .float f)))
      | none =>
      match a.NULL with
      | some _ => setValue v (zero v.typ)
      | none =>
      match a.M with
      | some m =>
        match decodeMap self imapType.elem m (some []) with
        | ⟨d, .ok _⟩ => setValue v (.iface (some (imapType, d)))
        | ⟨_, st⟩ => ⟨v.data, st⟩
      | none =>
      match a.L with
      | some _ =>
        match decodeArray self attr ⟨ilistType, true, zero ilistType⟩ with
        | ⟨d, .ok _⟩ => setValue v (.iface (some (ilistType, d)))
        | ⟨_, st⟩ => ⟨v.data, st⟩
      | none => ⟨v.data, .panic "unknown error decoding interface value"⟩

/-- The `[]byte` branch of `case reflect.Slice` in `decodeAttribute`. -/
def decodeBytes (env : Env) (attr : Option AttributeValue) (v : Value) : DecOut :=
  match attr with
  | none => ⟨v.data, .panic nilDereference⟩
  | some a =>
    let fits := match v.typ.underlying with
      | .slice (.uint 8) => true
      | _ => false
    match a.B with
    | some b => setAssignable v fits (.slice (some (b.map Data.uint)))
    | none =>
    match a.S with
    | some s =>
      match env.base64Decode s with
      | .error e => ⟨v.data, .error ⟨"cannot base64 decode string: " ++ e, false⟩⟩
      | .ok d => setAssignable v fits (.slice (some (d.map Data.uint)))
    | none =>
    match a.NULL with
    | some _ => setValue v (zero v.typ)
    | none => ⟨v.data, .ok ()⟩

/-- The `switch v.Kind()` of `decodeAttribute`. -/
def decodeKind (env : Env) (self : Option AttributeValue → Value → DecOut)
    (attr : Option AttributeValue) (v : Value) : DecOut :=
  match v.typ.underlying with
  | .bool =>
    match attr with
    | none => ⟨v.data, .panic nilDereference⟩
    | some a =>
      let fits := match v.typ with
        | .bool => true
        | _ => false
      match a.BOOL with
      | some b => setAssignable v fits (.bool b)
      | none => if a.NULL.isSome then setAssignable v fits (.bool false) else ⟨v.data, .ok ()⟩
  | .int bits =>
    match attr with
    | none => ⟨v.data, .panic nilDereference⟩
    | some a =>
      match a.N with
      | some s =>
        match ParseInt s with
        | none => ⟨v.data, .error ⟨"overflow number " ++ s, true⟩⟩
        | some n =>
          if OverflowInt bits n then ⟨v.data, .error ⟨"overflow number " ++ s, true⟩⟩
          else setValue v (.int n)
      | none => if a.NULL.isSome then setValue v (zero v.typ) else ⟨v.data, .ok ()⟩
  | .uint bits =>
    match attr with
    | none => ⟨v.data, .panic nilDereference⟩
    | some a =>
      match a.N with
      | some s =>
        match ParseUint s with
        | none => ⟨v.data, .error ⟨"overflow number " ++ s, true⟩⟩
        | some n =>
          if OverflowUint bits n then ⟨v.data, .error ⟨"overflow number " ++ s, true⟩⟩
          else setValue v (.uint n)
      | none => if a.NULL.isSome then setValue v (zero v.typ) else ⟨v.data, .ok ()⟩
  | .float bits =>
    match attr with
    | none => ⟨v.data, .panic nilDereference⟩
    | some a =>
      match a.N with
      | some s =>
        match env.parseFloat s bits with
        | none => ⟨v.data, .error ⟨"overflow number " ++ s, true⟩⟩
        | some f =>
          if env.overflowFloat bits f then ⟨v.data, .error ⟨"overflow number " ++ s, true⟩⟩
          else setValue v (.float f)
      | none => if a.NULL.isSome then setValue v (zero v.typ) else ⟨v.data, .ok ()⟩
  | .string =>
    match attr with
    | none => ⟨v.data, .panic nilDereference⟩
    | some a =>
      match a.S with
      | some s => setValue v (.str s)
      | none => if a.NULL.isSome then setValue v (zero v.typ) else ⟨v.data, .ok ()⟩
  | .struct _ =>
    match attr with
    | none => ⟨v.data, .panic nilDereference⟩
    | some a =>
      match a.M with
      | some m => decodeStruct env self m v
      | none => if a.NULL.isSome then setValue v (zero v.typ) else ⟨v.data, .ok ()⟩
  | .map k e =>
    match attr with
    | none => ⟨v.data, .panic nilDereference⟩
    | some a =>
      match a.M with
      | some m =>
        if k.isString = false then
          ⟨v.data, .error ⟨"cannot decode a map with a non-string key", false⟩⟩
        else
          match v.data with
          | .map none =>
            if v.canAddr then decodeMap self e m (some [])
            else ⟨v.data, .panic "reflect: reflect.Value.Set using unaddressable value"⟩
          | .map (some entries) => decodeMap self e m (some entries)
          | _ => ⟨v.data, .panic "reflect: the datum does not have the type of the value"⟩
      | none => if a.NULL.isSome then setValue v (zero v.typ) else ⟨v.data, .ok ()⟩
  | .slice e => if e.isUint8 then decodeBytes env attr v else decodeArray self attr v
  | .array _ _ => decodeArray self attr v
  | .iface _ => decodeInterface env self attr v
  | .ptr _ => ⟨v.data, .panic "could not handle multiple layers of pointers"⟩
  | _ => ⟨v.data, .error ⟨"aws.dynamodb.EncodeError: unsupported type for field", false⟩⟩

/-- The part of `decodeAttribute` after its pointer block: hooks, then the kind switch. -/
def decodeValue (env : Env) (self : Option AttributeValue → Value → DecOut)
    (attr : Option AttributeValue) (v : Value) : DecOut :=
  match decodeHooks env attr v with
  | some r => r
  | none => decodeKind env self attr v

/-- One call of `decodeAttribute`, with the nested calls made through `self`. -/
def decodeBody (env : Env) (self : Option AttributeValue → Value → DecOut)
    (attr : Option AttributeValue) (v : Value) : DecOut :=
  match v.typ.underlying with
  | .ptr e =>
    match attr with
    | none => ⟨v.data, .panic nilDereference⟩
    | some a =>
      if a.NULL.isSome then setValue v (zero v.typ)
      else if v.canAddr = false then
        ⟨v.data, .panic "reflect: reflect.Value.Set using unaddressable value"⟩
      else
        let r := decodeValue env self attr ⟨e, true, zero e⟩
        ⟨.ptr (some r.dest), r.status⟩
  | _ => decodeValue env self attr v

/-- `func decodeAttribute(attr *AttributeValue, v reflect.Value) error`. The result carries
the datum that the destination `v` holds when the call ends. -/
def decodeAttribute (env : Env) : Nat → Option AttributeValue → Value → DecOut
  | 0, _, v => ⟨v.data, .outOfFuel⟩
  | fuel + 1, attr, v => decodeBody env (decodeAttribute env fuel) attr v

/-! ## Vocabulary of the statements -/



mutual
/-- The depth of a wire tree: the number of nested calls that a traversal of it makes. -/
def AttributeValue.depth : AttributeValue → Nat
  | .mk _ _ _ _ _ m l => 1 + max (depthRecord m) (depthList l)
/-- The largest depth of a member of a Record that may be nil. -/
def depthRecord : Option (List (String × Option AttributeValue)) → Nat
  | none => 0
  | some es => depthEntries es
/-- The largest depth of a member of a List that may be nil. -/
def depthList : Option (List (Option AttributeValue)) → Nat
  | none => 0
  | some cs => depthElems cs
/-- The largest depth of a member of a Record. -/
def depthEntries : List (String × Option AttributeValue) → Nat
  | [] => 0
  | (_, none) :: rest => depthEntries rest
  | (_, some c) :: rest => max c.depth (depthEntries rest)
/-- The largest depth of a member of a List. -/
def depthElems : List (Option AttributeValue) → Nat
  | [] => 0
  | none :: rest => depthElems rest
  | some c :: rest => max c.depth (depthElems rest)
end

/-- The number of variants that are set in a wire value. -/
def AttributeValue.variantCount (a : AttributeValue) : Nat :=
  a.B.isSome.toNat + a.BOOL.isSome.toNat + a.S.isSome.toNat + a.N.isSome.toNat
    + a.NULL.isSome.toNat + a.M.isSome.toNat + a.L.isSome.toNat

/-- A wire tree is well formed when every node of it has exactly one variant set and no member
of a Record or List in it is a nil pointer. -/
inductive WellFormed : AttributeValue → Prop
  | intro (a : AttributeValue) (one : a.variantCount = 1)
      (mSome : ∀ m k, a.M = some m → (k, none) ∉ m)
      (mKids : ∀ m k c, a.M = some m → (k, some c) ∈ m → WellFormed c)
      (lSome : ∀ l, a.L = some l → none ∉ l)
      (lKids : ∀ l c, a.L = some l → some c ∈ l → WellFormed c) : WellFormed a

/-- Every member of the Record and of the List of a wire value is a well-formed tree. -/
def ChildrenWellFormed (a : AttributeValue) : Prop :=
  (∀ m k c, a.M = some m → (k, c) ∈ m → ∃ c1, c = some c1 ∧ WellFormed c1) ∧
  (∀ l c, a.L = some l → c ∈ l → ∃ c1, c = some c1 ∧ WellFormed c1)

/-- A wire value with two variants set and a List of one Null member. -/
def sampleTwoVariants : AttributeValue :=
  AttributeValue.mk none none (some "x") none none none (some [some (AttributeValue.ofNULL true)])


/-- A method set with a producing conversion hook that the encoder acts on. -/
def MethodSet.marshals (ms : MethodSet) : Bool :=
  decide (ms.numMethod > 0) && (ms.jsonMarshaler || ms.textMarshaler)

/-- A type whose values the encoder converts by the rule of their shape: neither the type nor
the pointer to it exposes a producing conversion hook. Every type without methods is one. -/
def GoType.encHookFree (t : GoType) : Bool :=
  !t.methods.marshals && !(GoType.ptr t).methods.marshals

/-- A pointer that is not nil and points at a well-formed tree. -/
def GoodMember (c : Option AttributeValue) : Prop := ∃ av, c = some av ∧ WellFormed av

/-- What a conversion function returns without error is a non-nil, well-formed tree. -/
def ReturnsWellFormed (self : Value → EncOut) : Prop :=
  ∀ v r, self v = .ok r → GoodMember r

/-- The field table of a struct type all of whose fields are resolved directly: one descriptor
per declared field, in order, keyed by the alias of the field or else by its name. -/
def directFields : List (StructField × GoType) → Nat → List Field
  | [], _ => []
  | (f, _) :: rest, i =>
    ⟨f.Alias.getD f.Name, [i], f.OmitEmpty⟩ :: directFields rest (i + 1)

/-- A sample environment, used to evaluate the model on concrete inputs: direct field tables,
an emptiness test that holds of false, zero, the empty string, nil and zero-length containers,
and hooks that produce and consume nothing. -/
def sampleEnv : Env where
  cachedTypeFields := fun t =>
    match t.underlying with
    | .struct fs => directFields fs 0
    | _ => []
  isEmptyValue := fun v =>
    match v.data with
    | .bool b => !b
    | .int n => decide (n = 0)
    | .uint n => decide (n = 0)
    | .str s => decide (s.length = 0)
    | .ptr none => true
    | .iface none => true
    | .slice none => true
    | .slice (some xs) => decide (xs.length = 0)
    | .map none => true
    | .map (some xs) => decide (xs.length = 0)
    | .array xs => decide (xs.length = 0)
    | _ => false
  jsonMarshal := fun _ => .ok []
  marshalText := fun _ => .ok []
  jsonUnmarshal := fun _ v => (v.data, none)
  unmarshalText := fun _ v => (v.data, none)
  formatFloat := fun _ _ => "0"
  parseFloat := fun _ _ => some (.finite 0 0)
  overflowFloat := fun _ _ => false
  base64Decode := fun _ => .ok []

/-- A sample text codec: strings are quoted without escaping, base64 is not rendered. -/
def sampleJSON : JSONText := ⟨fun s => "\"" ++ s ++ "\"", fun _ => ""⟩

/-- What C10 says of the conversion result `r` of a slice or array with the elements `xs` of
type `e`: if every element converts without error, `r` is the List of the element results, in
order; if an element fails after its predecessors converted, `r` is that error. -/
def ListEncoded (env : Env) (fuel : Nat) (e : GoType) (a : Bool) (xs : List Data)
    (r : EncOut) : Prop :=
  ((∀ x ∈ xs, ∃ o, convertToAttribute env fuel ⟨e, a, x⟩ = .ok o) →
    ∃ outs : List AttributeValue,
      List.Forall₂ (fun x o => convertToAttribute env fuel ⟨e, a, x⟩ = .ok (some o)) xs outs ∧
      r = .ok (some (AttributeValue.ofL (outs.map some)))) ∧
  (∀ pre x post err, xs = pre ++ x :: post →
    (∀ y ∈ pre, ∃ o, convertToAttribute env fuel ⟨e, a, y⟩ = .ok o) →
    convertToAttribute env fuel ⟨e, a, x⟩ = .error err → r = .error err)

/-- A method set with a conversion hook that the decoder acts on: the method it tests for in
its first hook block, or the text-consuming method. -/
def MethodSet.unmarshals (ms : MethodSet) : Bool :=
  decide (ms.numMethod > 0) && (ms.jsonMarshaler || ms.textUnmarshaler)

/-- A type whose values the decoder fills by the rule of their shape: neither the type nor the
pointer to it exposes a hook that the decoder acts on. Every type without methods is one. -/
def GoType.decHookFree (t : GoType) : Bool :=
  !t.methods.unmarshals && !(GoType.ptr t).methods.unmarshals

/-- The number written by one or more decimal digits; `none` for any other text. -/
def digitsNumber : List Char → Option Nat
  | [] => none
  | c :: cs => decimalValue (c :: cs) 0

/-- The integer denoted by a signed decimal literal: one or more decimal digits, optionally
preceded by one sign, `+` or `-`. -/
def signedLiteral (t : String) : Option Int :=
  match t.data with
  | [] => none
  | c :: cs =>
    if c = '-' then (digitsNumber cs).map (fun (n : Nat) => - (n : Int))
    else if c = '+' then (digitsNumber cs).map (fun (n : Nat) => (n : Int))
    else (digitsNumber (c :: cs)).map (fun (n : Nat) => (n : Int))

/-- The number denoted by an unsigned decimal literal: one or more decimal digits, no sign. -/
def unsignedLiteral (t : String) : Option Nat := digitsNumber t.data

/-- The integer fits a signed destination of `w` bits. -/
def fitsSigned (w : Nat) (n : Int) : Prop := - (2 : Int) ^ (w - 1) ≤ n ∧ n < (2 : Int) ^ (w - 1)

/-- The number fits an unsigned destination of `w` bits. -/
def fitsUnsigned (w : Nat) (n : Nat) : Prop := n < 2 ^ w

/-- C7 as it is stated, for a reading `lit` of "base-10 integer literal" that gives the integer
a literal denotes: into a signed and into an unsigned destination of `w` bits alike, decoding
the Number `t` stores the value when `t` is a literal whose value fits, and otherwise returns
the overflow error and keeps the prior value. -/
def OverflowClaim (env : Env) (fuel : Nat) (lit : String → Option Int) : Prop :=
  ∀ (w : Nat) (t : String), w ∈ [8, 16, 32, 64] →
    (∀ prior : Int,
      (∀ n : Int, lit t = some n → fitsSigned w n →
        decodeAttribute env (fuel + 1) (some (AttributeValue.ofN t)) ⟨.int w, true, .int prior⟩
          = ⟨.int n, .ok ()⟩) ∧
      ((∀ n : Int, lit t = some n → ¬ fitsSigned w n) →
        ∃ msg,
          decodeAttribute env (fuel + 1) (some (AttributeValue.ofN t)) ⟨.int w, true, .int prior⟩
            = ⟨.int prior, .error ⟨msg, true⟩⟩)) ∧
    (∀ prior : Nat,
      (∀ n : Nat, lit t = some (n : Int) → fitsUnsigned w n →
        decodeAttribute env (fuel + 1) (some (AttributeValue.ofN t)) ⟨.uint w, true, .uint prior⟩
          = ⟨.uint n, .ok ()⟩) ∧
      ((∀ n : Nat, lit t = some (n : Int) → ¬ fitsUnsigned w n) →
        ∃ msg,
          decodeAttribute env (fuel + 1) (some (AttributeValue.ofN t))
              ⟨.uint w, true, .uint prior⟩
            = ⟨.uint prior, .error ⟨msg, true⟩⟩))

/-- The round trip of C1 at a given fuel: converting the value `d` of type `t` returns a wire
value, and decoding that wire value into a fresh zero destination of type `t` returns no error
and leaves `d` in the destination. -/
def RoundTrips (env : Env) (fuel : Nat) (a : Bool) (t : GoType) (d : Data) : Prop :=
  ∃ av, convertToAttribute env fuel ⟨t, a, d⟩ = .ok (some av) ∧
    decodeAttribute env fuel (some av) ⟨t, true, zero t⟩ = ⟨d, .ok ()⟩

/-- The round trip with what the induction needs besides: it holds whether or not the value
is addressable, and the wire value is Null only for a nil pointer or a nil map. -/
def RoundTripsStrong (env : Env) (fuel : Nat) (t : GoType) (d : Data) : Prop :=
  ∀ a : Bool, ∃ av, convertToAttribute env fuel ⟨t, a, d⟩ = .ok (some av) ∧
    (d ≠ .ptr none → d ≠ .map none → av.NULL = none) ∧
    decodeAttribute env fuel (some av) ⟨t, true, zero t⟩ = ⟨d, .ok ()⟩

/-- A sample record type: `struct { Value int8; Names []string }`. -/
def sampleRecord : GoType :=
  .struct [(⟨"Value", none, false, false⟩, .int 8), (⟨"Names", none, false, false⟩, .slice .string)]

/-- A value of the sample record type: `{Value: -3, Names: []string{"a"}}`. -/
def sampleRecordValue : Data := .struct [.int (-3), .slice (some [.str "a"])]

/-- The method set exposes the binary-conversion hook of the encoder (`json.Marshaler`). -/
def MethodSet.exposesBinary (ms : MethodSet) : Bool :=
  decide (ms.numMethod > 0) && ms.jsonMarshaler

/-- The method set exposes the text-conversion hook of the encoder
(`encoding.TextMarshaler`). -/
def MethodSet.exposesText (ms : MethodSet) : Bool :=
  decide (ms.numMethod > 0) && ms.textMarshaler

/-- A sample environment with hooks that produce something: the text hook returns `foo`, the
binary hook the JSON text `""`. -/
def sampleHookEnv : Env :=
  { sampleEnv with
    marshalText := fun _ => .ok [102, 111, 111]
    jsonMarshal := fun _ => .ok [34, 34] }

/-- The field that a descriptor contributes to the Record of `v`: the field must be reachable
along the index path and must not be left out by the omit-if-empty flag. -/
def keptField (env : Env) (v : Value) (f : Field) : Option Value :=
  match fieldByIndex v f.index with
  | none => none
  | some fv => if f.omitEmpty = true ∧ env.isEmptyValue fv = true then none else some fv

/-- The Record entry of a descriptor: its wire key with the conversion of its kept field. -/
def recordEntry (env : Env) (self : Value → EncOut) (v : Value) (f : Field) :
    Option (String × Option AttributeValue) :=
  match keptField env v f with
  | none => none
  | some fv =>
    match self fv with
    | .ok (some a) => some (f.name, some a)
    | _ => none

/-- What C13 says of the outcome `r` of converting the record `v` with the descriptor list
`table`, the fields being converted by `self`. -/
def RecordEncoded (env : Env) (self : Value → EncOut) (v : Value) (table : List Field)
    (r : EncOut) : Prop :=
  ((∀ f ∈ table, ∀ fv, keptField env v f = some fv → ∃ o, self fv = .ok o) →
    ∃ out : AttributeValueMap, r = .ok (some (AttributeValue.ofM out)) ∧
      (out.map Prod.fst).Nodup ∧
      (∀ f ∈ table, (f.name ∈ out.map Prod.fst ↔ (keptField env v f).isSome = true)) ∧
      (∀ f ∈ table, ∀ fv, keptField env v f = some fv →
        ∃ av, self fv = .ok (some av) ∧ (f.name, some av) ∈ out) ∧
      (∀ e ∈ out, ∃ f ∈ table, f.name = e.1)) ∧
  (∀ (pre post : List Field) (f : Field) (fv : Value) (err : EncodeError),
    table = pre ++ f :: post →
    (∀ g ∈ pre, ∀ gv, keptField env v g = some gv → ∃ o, self gv = .ok o) →
    keptField env v f = some fv → self fv = .error err → r = .error err)

/-- A sample record type with an omit-if-empty field:
`struct { Count int64 "omitempty"; Name *string; Tag string }`. -/
def sampleOmitRecord : GoType :=
  .struct [(⟨"Count", none, true, false⟩, .int 64), (⟨"Name", none, false, false⟩, .ptr .string),
    (⟨"Tag", none, false, false⟩, .string)]

/-- The method set exposes both producing hooks. -/
def MethodSet.exposesBoth (ms : MethodSet) : Bool := ms.exposesBinary && ms.exposesText

/-- What C14 says of the outcome `r` of the conversion when the text hook answered `h`. -/
def TextHookResult (h : Except String (List Nat)) (r : EncOut) : Prop :=
  (∀ b, h = .ok b → b ≠ [] →
    r = .ok (some (AttributeValue.ofS (String.mk (b.map Char.ofNat))))) ∧
  (h = .ok [] → r = .ok (some (AttributeValue.ofNULL true))) ∧
  (∀ e, h = .error e → ∃ err : EncodeError, r = .error err)

/-- What C14 says of the outcome `r` of the conversion when the binary hook answered `h`. -/
def BinaryHookResult (h : Except String (List Nat)) (r : EncOut) : Prop :=
  (∀ b, h = .ok b → b ≠ [] → r = .ok (some (AttributeValue.ofB b))) ∧
  (h = .ok [] → r = .ok (some (AttributeValue.ofNULL true))) ∧
  (∀ e, h = .error e → ∃ err : EncodeError, r = .error err)

/-- A wire value returned by the conversion is a non-empty Binary or Null. -/
def BinaryOrNull (r : EncOut) : Prop :=
  ∀ o, r = .ok o →
    (∃ b : List Nat, b ≠ [] ∧ o = some (AttributeValue.ofB b)) ∨
      o = some (AttributeValue.ofNULL true)

/-- C15 as stated: when the type of a value exposes both hooks, on the value form or on the
addressed form, no Text is returned. -/
def HookPrecedenceClaim (env : Env) (fuel : Nat) : Prop :=
  ∀ v : Value,
    (v.typ.methods.exposesBoth = true ∨ v.Addr.typ.methods.exposesBoth = true) →
    ∀ av, convertToAttribute env (fuel + 1) v = .ok (some av) → av.S = none

/-- The type `AliasedString` of the tests: `MarshalText` on the value form, `UnmarshalText`
on the pointer form (the method `String` is counted too). -/
def sampleTextType : GoType :=
  .named "AliasedString" ⟨2, false, false, true, false⟩ ⟨3, false, false, true, true⟩ .string

/-- The type `fakeJSON` of the tests: `MarshalJSON` and `UnmarshalJSON` on the pointer form. -/
def sampleBinaryType : GoType :=
  .named "fakeJSON" MethodSet.empty ⟨2, true, true, false, false⟩
    (.struct [(⟨"F", none, false, false⟩, .string)])

/-- A string type with `MarshalText` on the value form and `MarshalJSON` on the pointer form:
the pointer form exposes both hooks, the value form the text hook only. -/
def sampleShadowType : GoType :=
  .named "Shadow" ⟨1, false, false, true, false⟩ ⟨2, true, false, true, false⟩ .string

/-- A string type with both `MarshalJSON` and `MarshalText` on the pointer form only. -/
def samplePointerHooksType : GoType :=
  .named "PointerHooks" MethodSet.empty ⟨2, true, false, true, false⟩ .string

/-- The interface type `encoding.TextMarshaler`. -/
def sampleTextInterface : GoType := .iface ⟨1, false, false, true, false⟩

/-- The type `NestedStruct` of the tests, `struct { Next *NestedStruct }`, unrolled to `n`
links. -/
def sampleChain : Nat → GoType
  | 0 => .struct []
  | n + 1 => .struct [(⟨"Next", none, false, false⟩, .ptr (sampleChain n))]

/-- Whether the wire value `a` has the variant set that matches the shape of the destination
type `t`: Boolean for a bool, Number for the three numeric shapes, Text for a string, Record
for a record; `none` for the other shapes. -/
def shapeVariantSet (t : GoType) (a : AttributeValue) : Option Bool :=
  match t.underlying with
  | .bool => some a.BOOL.isSome
  | .int _ => some a.N.isSome
  | .uint _ => some a.N.isSome
  | .float _ => some a.N.isSome
  | .string => some a.S.isSome
  | .struct _ => some a.M.isSome
  | _ => none

/-- The destination shapes of C19, the boolean shape being taken as the type `bool` itself. -/
def nullShape (t : GoType) : Bool :=
  match t.underlying with
  | .bool =>
    match t with
    | .bool => true
    | _ => false
  | .int _ => true
  | .uint _ => true
  | .float _ => true
  | .string => true
  | .struct _ => true
  | .map _ _ => true
  | .slice _ => true
  | .array _ _ => true
  | .ptr _ => true
  | _ => false

/-- A defined boolean type without methods, `type Flag bool`. -/
def sampleFlagType : GoType := .named "Flag" MethodSet.empty MethodSet.empty .bool

/-- The wire key `k` is the name of a descriptor of the list. -/
def matchesDescriptor (table : List Field) (k : String) : Bool :=
  (table.find? (fun f => f.name = k)).isSome

/-- The lookup `m[k]` on the entries of a map with keys of string kind. -/
def mapIndex : List (Data × Data) → String → Option Data
  | [], _ => none
  | (k1, x1) :: rest, k =>
    match k1 with
    | .str s => if s = k then some x1 else mapIndex rest k
    | _ => mapIndex rest k

/-- What C21 says of the entries `out` of the destination map after decoding the Record `r`
into a map that held the entries `d`, the members being decoded by `self` into fresh elements
of type `e`: the keys are those of `d` and of `r`, a key that `r` lacks keeps its value, and a
key of `r` holds the value decoded from the entry of `r`. -/
def MapMerged (self : Option AttributeValue → Value → DecOut) (e : GoType)
    (d : List (Data × Data)) (r : AttributeValueMap) (out : List (Data × Data)) : Prop :=
  (∀ k, (mapIndex out k).isSome = true ↔
    ((mapIndex d k).isSome = true ∨ k ∈ r.map Prod.fst)) ∧
  (∀ k, k ∉ r.map Prod.fst → mapIndex out k = mapIndex d k) ∧
  (∀ k sub, (k, sub) ∈ r → mapIndex out k = some (self sub ⟨e, true, zero e⟩).dest)

/-- The type is an interface type with at least one method (`t.Kind() == reflect.Interface`
and `t.NumMethod() != 0`). -/
def GoType.isNonEmptyInterface (e : GoType) : Bool :=
  match e.underlying with
  | .iface ms => decide (ms.numMethod ≠ 0)
  | _ => false

/-- What C24 says of the slots `out` of an array that held `xs` after decoding the List `l`
into it, the members being decoded by `self` into the slots of element type `e`: slot `i` holds
the decoding of member `i` while both exist, the slots past the List hold the zero value, and
the number of slots is unchanged. -/
def ArrayDecoded (self : Option AttributeValue → Value → DecOut) (e : GoType)
    (l : List (Option AttributeValue)) (xs out : List Data) : Prop :=
  (∀ i el x, l.get? i = some el → xs.get? i = some x →
    out.get? i = some (self el ⟨e, true, x⟩).dest) ∧
  (∀ i, l.length ≤ i → i < xs.length → out.get? i = some (zero e)) ∧
  out.length = xs.length

/-- The interface type `fmt.Stringer`: one method, no conversion hook. -/
def sampleStringer : GoType := .iface ⟨1, false, false, false, false⟩

/-- A defined string type with the method `String` and no conversion hook. -/
def sampleNamedString : GoType :=
  .named "Name" ⟨1, false, false, false, false⟩ ⟨1, false, false, false, false⟩ .string

/-- Prepend a defined head to a defined tail. -/
def optCons {α : Type} : Option α → Option (List α) → Option (List α)
  | some x, some xs => some (x :: xs)
  | _, _ => none

/-- The generic decoding of one node from its variants, its Record and its List being given
by the generic decodings `m` and `l` of their members (`some none` when a member has none):
Binary gives the bytes as `[]byte`, Boolean the `bool`, Text the `string`, Number the `float64`
that the text parses to, Null the nil interface, Record a `map[string]interface{}` and List a
`[]interface{}`. -/
def genericPick (env : Env) (b : Option (List Nat)) (bool : Option Bool) (s n : Option String)
    (null : Option Bool) (m : Option (Option (List (Data × Data))))
    (l : Option (Option (List Data))) : Option Data :=
  match b with
  | some bs => some (.iface (some (.slice (.uint 8), .slice (some (bs.map Data.uint)))))
  | none =>
  match bool with
  | some x => some (.iface (some (.bool, .bool x)))
  | none =>
  match s with
  | some x => some (.iface (some (.string, .str x)))
  | none =>
  match n with
  | some x => (env.parseFloat x 64).map (fun f => .iface (some (.float 64, .float f)))
  | none =>
  match null with
  | some _ => some (.iface none)
  | none =>
  match m with
  | some es => es.map (fun ds => .iface (some (imapType, .map (some ds))))
  | none =>
  match l with
  | some xs => xs.map (fun ds => .iface (some (ilistType, .slice (some ds))))
  | none => none

mutual
/-- The generic decoding of a wire tree, as C27 words it: the datum that an empty interface
holds after the tree is decoded into it, by variant and recursively at every depth. It is
undefined for a node without variant, for a Number whose text is no float, for a nil member and
for a Record that lists a key twice (a Go map holds each key once). -/
def AttributeValue.generic (env : Env) : AttributeValue → Option Data
  | .mk b bool s n null m l =>
    genericPick env b bool s n null (genericRecord env m) (genericList env l)
/-- The generic decodings of the members of a Record that may be unset. -/
def genericRecord (env : Env) :
    Option (List (String × Option AttributeValue)) → Option (Option (List (Data × Data)))
  | none => none
  | some es => some (genericEntries env es)
/-- The generic decodings of the members of a List that may be unset. -/
def genericList (env : Env) :
    Option (List (Option AttributeValue)) → Option (Option (List Data))
  | none => none
  | some cs => some (genericElems env cs)
/-- The entries of the generic map of a Record: each key with the generic decoding of its
member. -/
def genericEntries (env : Env) :
    List (String × Option AttributeValue) → Option (List (Data × Data))
  | [] => some []
  | (_, none) :: _ => none
  | (k, some c) :: rest =>
    if k ∈ rest.map Prod.fst then none
    else optCons ((c.generic env).map (fun d => (Data.str k, d))) (genericEntries env rest)
/-- The elements of the generic sequence of a List: the generic decoding of each member. -/
def genericElems (env : Env) : List (Option AttributeValue) → Option (List Data)
  | [] => some []
  | none :: _ => none
  | some c :: rest => optCons (c.generic env) (genericElems env rest)
end

/-- The Records of a wire tree list each key once, as the Go map that holds a Record does. -/
inductive DistinctKeys : AttributeValue → Prop
  | intro (a : AttributeValue)
      (keys : ∀ m, a.M = some m → (m.map Prod.fst).Nodup)
      (mKids : ∀ m k c, a.M = some m → (k, some c) ∈ m → DistinctKeys c)
      (lKids : ∀ l c, a.L = some l → some c ∈ l → DistinctKeys c) : DistinctKeys a

/-- The text of every Number of a wire tree parses as a `float64`. -/
inductive NumbersParse (env : Env) : AttributeValue → Prop
  | intro (a : AttributeValue)
      (num : ∀ s, a.N = some s → (env.parseFloat s 64).isSome = true)
      (mKids : ∀ m k c, a.M = some m → (k, some c) ∈ m → NumbersParse env c)
      (lKids : ∀ l c, a.L = some l → some c ∈ l → NumbersParse env c) : NumbersParse env a

/-- A wire tree with a Record in a List in a Record:
`{"M": {"a": {"L": [{"S": "x"}, {"M": {"b": {"NULL": true}}}]}, "c": {"BOOL": true}}}`. -/
def sampleTree : AttributeValue :=
  AttributeValue.ofM
    [("a", some (AttributeValue.ofL [some (AttributeValue.ofS "x"),
        some (AttributeValue.ofM [("b", some (AttributeValue.ofNULL true))])])),
      ("c", some (AttributeValue.ofBOOL true))]

/-- A sample environment whose `ParseFloat` reads the decimal integer literals and returns an
error for every other text, as `strconv.ParseFloat` does for the text `abc`. -/
def sampleNumberEnv : Env :=
  { sampleEnv with
    parseFloat := fun s _ => (ParseInt s).map (fun (n : Int) => GoFloat.finite n 0) }

/-- A well-formed wire tree with a Number that is no number: `{"L": [{"N": "abc"}]}`. -/
def sampleBadNumber : AttributeValue :=
  AttributeValue.ofL [some (AttributeValue.ofN "abc")]

/-- C27 as stated: every well-formed wire tree decodes into an empty interface without
error. -/
def GenericDecodeClaim (env : Env) : Prop :=
  ∀ w : AttributeValue, WellFormed w →
    ∃ (fuel : Nat) (g : Data),
      decodeAttribute env fuel (some w) ⟨.iface MethodSet.empty, true, .iface none⟩
        = ⟨g, .ok ()⟩

/-- A field met by the breadth-first visit of a record type: its resolved wire key, the depth
at which it is met, the access path to it and its omit-if-empty flag. -/
structure Candidate where
  key : String
  depth : Nat
  index : List Nat
  omitEmpty : Bool
  deriving DecidableEq, Repr

/-- The type is a record or a pointer to a record: what an embedded field must be to count as
an embedded sub-record. -/
def GoType.isRecord (t : GoType) : Bool :=
  match t.underlying with
  | .struct _ => true
  | .ptr e =>
    match e.underlying with
    | .struct _ => true
    | _ => false
  | _ => false

mutual
/-- Modelled from the spec: the visit of the Field Resolver (section 4.1), whose code
(`cachedTypeFields`) the three units do not contain.
"Visit the type's own fields at depth 0, then the fields of embedded sub-records at depth 1,
then their embedded sub-records at depth 2, and so on." The result lists every field met,
with its depth and with the access path that leads to it from the record of type `t` found at
`path`. -/
def embeddedCandidates : GoType → Nat → List Nat → List Candidate
  | .struct fs, depth, path => fieldCandidates fs depth path 0
  | .named _ _ _ u, depth, path => embeddedCandidates u depth path
  | .ptr e, depth, path => embeddedCandidates e depth path
  | _, _, _ => []
/-- Modelled from the spec: the fields of one record in the visit of the Field Resolver,
field `i` onwards. An embedded field of record type without alias is an embedded sub-record,
whose fields are met one level deeper; any other field is met here, under its alias ("an
explicit alias annotation on a field always defines its resolved key") or else its name. -/
def fieldCandidates : List (StructField × GoType) → Nat → List Nat → Nat → List Candidate
  | [], _, _, _ => []
  | (f, ft) :: rest, depth, path, i =>
    (if f.Anonymous = true ∧ f.Alias = none ∧ ft.isRecord = true then
      embeddedCandidates ft (depth + 1) (path ++ [i])
    else [⟨f.Alias.getD f.Name, depth, path ++ [i], f.OmitEmpty⟩])
      ++ fieldCandidates rest depth path (i + 1)
end

/-- Modelled from the spec: "If exactly one field carries that key at that minimum depth, it
is the dominant, resolved field". A field met is dominant when it is the only one among the
fields met that carries its key at its depth or above it. -/
def dominantCandidate (cs : List Candidate) (c : Candidate) : Bool :=
  decide ((cs.filter (fun x => x.key = c.key ∧ x.depth ≤ c.depth)).length = 1)

/-- Modelled from the spec: the Field Resolver, `cachedTypeFields(t)`: the descriptors of the
dominant fields of the record type `t`, in the order of the visit. A key that two or more
fields share at its minimum depth has no descriptor. -/
def typeFields (t : GoType) : List Field :=
  ((embeddedCandidates t 0 []).filter (dominantCandidate (embeddedCandidates t 0 []))).map
    (fun c => ⟨c.key, c.index, c.omitEmpty⟩)

/-- The sample environment with the Field Resolver of the spec as field table. -/
def specEnv : Env := { sampleEnv with cachedTypeFields := typeFields }

/-- The record type `S5` of the tests: `struct { S6; S7; S8 }` with `S6 struct { X int }`,
`S7 S6`, `S8 struct { S9 }` and `S9 struct { X int; Y int }`. -/
def sampleS5 : GoType :=
  .named "S5" MethodSet.empty MethodSet.empty (.struct
    [(⟨"S6", none, false, true⟩, .named "S6" MethodSet.empty MethodSet.empty
        (.struct [(⟨"X", none, false, false⟩, .int 64)])),
      (⟨"S7", none, false, true⟩, .named "S7" MethodSet.empty MethodSet.empty
        (.struct [(⟨"X", none, false, false⟩, .int 64)])),
      (⟨"S8", none, false, true⟩, .named "S8" MethodSet.empty MethodSet.empty
        (.struct [(⟨"S9", none, false, true⟩, .named "S9" MethodSet.empty MethodSet.empty
          (.struct [(⟨"X", none, false, false⟩, .int 64),
            (⟨"Y", none, false, false⟩, .int 64)]))]))])

/-- The destination shapes that ignore a wire value without variant: boolean, the three
numeric shapes, string, record, map and byte slice. -/
def ignoresEmpty (t : GoType) : Bool :=
  match t.underlying with
  | .bool => true
  | .int _ => true
  | .uint _ => true
  | .float _ => true
  | .string => true
  | .struct _ => true
  | .map _ _ => true
  | .slice e => e.isUint8
  | _ => false

/-- A sample record type with two direct fields: `struct { A int64; B string }`. -/
def samplePair : GoType :=
  .struct [(⟨"A", none, false, false⟩, .int 64), (⟨"B", none, false, false⟩, .string)]

/-- The method set exposes the consume side of the binary pair (`json.Unmarshaler`). -/
def MethodSet.consumesBinary (ms : MethodSet) : Bool :=
  decide (ms.numMethod > 0) && ms.jsonUnmarshaler

/-- The method set exposes the consume side of the text pair
(`encoding.TextUnmarshaler`). -/
def MethodSet.consumesText (ms : MethodSet) : Bool :=
  decide (ms.numMethod > 0) && ms.textUnmarshaler

/-- The binary pair of the method set is whole or absent: it has the consume side exactly
when it has the produce side. -/
def MethodSet.binaryPairWhole (ms : MethodSet) : Prop :=
  ms.jsonMarshaler = ms.jsonUnmarshaler

/-- A sample environment with consuming hooks that leave a mark: the binary hook stores the
string `json` behind the pointer it receives, the text hook the string `text`. -/
def sampleConsumeEnv : Env :=
  { sampleEnv with
    jsonUnmarshal := fun _ _ => (.ptr (some (.str "json")), none)
    unmarshalText := fun _ _ => (.ptr (some (.str "text")), none) }

/-- A string type with `UnmarshalText` on the value form, and with `MarshalJSON` and
`UnmarshalJSON` added on the pointer form. -/
def sampleTextFirst : GoType :=
  .named "TextFirst" ⟨1, false, false, false, true⟩ ⟨3, true, true, false, true⟩ .string

/-- The interface type `encoding.TextUnmarshaler`. -/
def sampleTextConsumer : GoType := .iface ⟨1, false, false, false, true⟩

/-- The binary-hook path of the decoder on the addressed form of `v`. -/
def binaryPathAddr (env : Env) (attr : Option AttributeValue) (v : Value) : DecOut :=
  ⟨pointee (decodeJSONValue env attr v.Addr).dest v.data,
    (decodeJSONValue env attr v.Addr).status⟩

/-- C32 as stated, for a destination that is not a pointer: the binary-hook path is taken
when the type exposes the consume side of the binary pair, and when the value is addressable
and its addressed form does. -/
def DecoderDispatchClaim (env : Env) (fuel : Nat) : Prop :=
  ∀ (attr : Option AttributeValue) (v : Value), v.typ.isPtr = false →
    (v.typ.methods.consumesBinary = true →
      decodeAttribute env (fuel + 1) attr v = decodeJSONValue env attr v) ∧
    (v.typ.methods.consumesBinary = false → v.canAddr = true →
      v.Addr.typ.methods.consumesBinary = true →
      decodeAttribute env (fuel + 1) attr v = binaryPathAddr env attr v)

/-- No type reachable in the value `d` of type `t` exposes a producing conversion hook: the
type itself is hook-free, and so are the pointee, the value held by an interface, the elements
of a slice or array, the values of a map and the fields of a record, with all that they
reach. -/
inductive HookFree : GoType → Data → Prop
  | intro (t : GoType) (d : Data) (free : t.encHookFree = true)
      (ptr : ∀ e d1, t.underlying = .ptr e → d = .ptr (some d1) → HookFree e d1)
      (iface : ∀ ms dt d1, t.underlying = .iface ms → d = .iface (some (dt, d1)) →
        HookFree dt d1)
      (slice : ∀ e xs x, t.underlying = .slice e → d = .slice (some xs) → x ∈ xs →
        HookFree e x)
      (array : ∀ n e xs x, t.underlying = .array n e → d = .array xs → x ∈ xs → HookFree e x)
      (map : ∀ k e es kx, t.underlying = .map k e → d = .map (some es) → kx ∈ es →
        HookFree e kx.2)
      (struct : ∀ fts fs i ft x, t.underlying = .struct fts → d = .struct fs →
        fts.get? i = some ft → fs.get? i = some x → HookFree ft.2 x) : HookFree t d

/-- The emptiness test behind `omitempty` looks at the type and the datum of a value, not at
whether the value is addressable. -/
def EmptyIgnoresAddr (env : Env) : Prop :=
  ∀ (t : GoType) (a b : Bool) (d : Data),
    env.isEmptyValue ⟨t, a, d⟩ = env.isEmptyValue ⟨t, b, d⟩

/-- A type that exposes no conversion hook that the package acts on, neither on the type nor
on the pointer to it: the encoder and the decoder treat its values by the rule of their
shape. Every type without methods is one. -/
def GoType.hookFree (t : GoType) : Bool := t.encHookFree && t.decHookFree

/-- Two access paths part ways: at some step they name different fields, so that neither path
is a prefix of the other. -/
def diverge : List Nat → List Nat → Bool
  | i :: p, j :: q => if i = j then diverge p q else true
  | _, _ => false

/-- The field table resolves each field once: the wire keys are pairwise distinct, and the
access paths part ways pairwise. -/
def Unambiguous (table : List Field) : Prop :=
  (table.map (fun f => f.name)).Nodup ∧
    table.Pairwise (fun f g => diverge f.index g.index = true)

/-- One step of the walk of `decodeStruct` into the addressable value `d` of type `t`, before
the field is taken: a pointer is followed, a nil pointer being replaced by a pointer to a zero
record first. The result is the field types and the field data of the record arrived at, and
whether a pointer was followed; `none` when the value is neither a record nor a pointer to
one. -/
def openRecord (t : GoType) (d : Data) :
    Option (List (StructField × GoType) × List Data × Bool) :=
  match t.underlying, d with
  | .ptr e, .ptr p =>
    match e.underlying, p.getD (zero e) with
    | .struct fts, .struct fs => some (fts, fs, true)
    | _, _ => none
  | .struct fts, .struct fs => some (fts, fs, false)
  | _, _ => none

/-- The value that `openRecord` opened, with the field data `fs` in the place of its own. -/
def closeRecord (viaPtr : Bool) (fs : List Data) : Data :=
  if viaPtr then .ptr (some (.struct fs)) else .struct fs

/-- The datum of the record `d` of type `t` after `x` is stored in the field at an access
path, by the walk of `decodeStruct`: a pointer on the path is followed, a nil pointer being
replaced by a pointer to a zero record first. A path that does not fit the type leaves `d`. -/
def storeField (x : Data) : GoType → Data → List Nat → Data
  | _, _, [] => x
  | t, d, i :: rest =>
    match openRecord t d with
    | some (fts, fs, viaPtr) =>
      match fts.get? i, fs.get? i with
      | some ft, some fd => closeRecord viaPtr (fs.set i (storeField x ft.2 fd rest))
      | _, _ => d
    | none => d

/-- The field at an access path as the walk of `decodeStruct` finds it in the addressable
record `d` of type `t`: its type and its datum, a nil pointer on the path counting as a pointer
to a zero record; `none` when the path does not fit the type. -/
def reachField : GoType → Data → List Nat → Option (GoType × Data)
  | t, d, [] => some (t, d)
  | t, d, i :: rest =>
    match openRecord t d with
    | some (fts, fs, _) =>
      match fts.get? i, fs.get? i with
      | some ft, some fd => reachField ft.2 fd rest
      | _, _ => none
    | none => none

/-- The record that the fields of `v` kept by the encoder determine: starting from `cur`, the
datum of each field that a descriptor of the list reaches and that omit-if-empty does not leave
out is stored at the access path of the descriptor. -/
def rebuild (env : Env) (v : Value) : List Field → Data → Data
  | [], cur => cur
  | f :: rest, cur =>
    match keptField env v f with
    | none => rebuild env v rest cur
    | some fv => rebuild env v rest (storeField fv.data v.typ cur f.index)

/-- The native values of C1, with their types. The types expose no conversion hook. The values
are booleans, integers that fit their width, non-empty strings, non-empty byte sequences,
non-empty sequences, fixed-size arrays, string-keyed maps, records with an unambiguous field
table whose encoded fields are such values, and pointers to such values.
With `strict` set, a boolean has the type `bool` itself, the element type of a byte sequence is
`byte` itself, a record is the one that its encoded fields determine (a field that no
descriptor stores holds the zero value of its type), and the pointee of a non-nil pointer is
neither of pointer type nor a nil map. -/
inductive Built (env : Env) (strict : Bool) : GoType → Data → Prop
  | bool (t : GoType) (b : Bool) (hu : t.underlying = .bool) (hf : t.hookFree = true)
      (hs : strict = true → t = .bool) : Built env strict t (.bool b)
  | int (t : GoType) (w : Nat) (n : Int) (hu : t.underlying = .int w) (hf : t.hookFree = true)
      (hw : w ∈ [8, 16, 32, 64]) (hn : fitsSigned w n) : Built env strict t (.int n)
  | uint (t : GoType) (w : Nat) (n : Nat) (hu : t.underlying = .uint w)
      (hf : t.hookFree = true) (hw : w ∈ [8, 16, 32, 64]) (hn : fitsUnsigned w n) :
      Built env strict t (.uint n)
  | string (t : GoType) (s : String) (hu : t.underlying = .string) (hf : t.hookFree = true)
      (hs : s.length ≠ 0) : Built env strict t (.str s)
  | bytes (t e : GoType) (xs : List Data) (hu : t.underlying = .slice e)
      (hf : t.hookFree = true) (he : e.isUint8 = true) (hne : xs ≠ [])
      (hb : ∀ x ∈ xs, ∃ b : Nat, x = .uint b) (hs : strict = true → e = .uint 8) :
      Built env strict t (.slice (some xs))
  | slice (t e : GoType) (xs : List Data) (hu : t.underlying = .slice e)
      (hf : t.hookFree = true) (he : e.isUint8 = false) (hne : xs ≠ [])
      (hx : ∀ x ∈ xs, Built env strict e x) : Built env strict t (.slice (some xs))
  | array (t e : GoType) (xs : List Data) (hu : t.underlying = .array xs.length e)
      (hf : t.hookFree = true) (hx : ∀ x ∈ xs, Built env strict e x) :
      Built env strict t (.array xs)
  | nilMap (t k e : GoType) (hu : t.underlying = .map k e) (hf : t.hookFree = true)
      (hk : k.isString = true) : Built env strict t (.map none)
  | map (t k e : GoType) (entries : List (Data × Data)) (hu : t.underlying = .map k e)
      (hf : t.hookFree = true) (hk : k.isString = true)
      (hkeys : ∀ kv ∈ entries, ∃ s : String, kv.1 = .str s)
      (hnd : (entries.map (fun kv => keyString kv.1)).Nodup)
      (hx : ∀ kv ∈ entries, Built env strict e kv.2) : Built env strict t (.map (some entries))
  | struct (t : GoType) (fts : List (StructField × GoType)) (fs : List Data)
      (hu : t.underlying = .struct fts) (hf : t.hookFree = true)
      (htable : Unambiguous (env.cachedTypeFields t))
      (hx : ∀ (a : Bool) (f : Field) (fv : Value), f ∈ env.cachedTypeFields t →
        keptField env ⟨t, a, .struct fs⟩ f = some fv → Built env strict fv.typ fv.data)
      (hs : strict = true → ∀ a : Bool,
        rebuild env ⟨t, a, .struct fs⟩ (env.cachedTypeFields t) (zero t) = .struct fs) :
      Built env strict t (.struct fs)
  | nilPtr (t e : GoType) (hu : t.underlying = .ptr e) (hf : t.hookFree = true) :
      Built env strict t (.ptr none)
  | ptr (t e : GoType) (x : Data) (hu : t.underlying = .ptr e) (hf : t.hookFree = true)
      (hx : Built env strict e x) (hs : strict = true → e.isPtr = false ∧ x ≠ .map none) :
      Built env strict t (.ptr (some x))

/-- A defined string type without methods, `type Label string`. -/
def sampleLabel : GoType := .named "Label" MethodSet.empty MethodSet.empty .string

/-- A defined record type, `type Inner struct { Name string }`. -/
def sampleInner : GoType :=
  .named "Inner" MethodSet.empty MethodSet.empty (.struct [(⟨"Name", none, false, false⟩, .string)])

/-- A defined record type, `type Extra struct { Note string }`. -/
def sampleExtra : GoType :=
  .named "Extra" MethodSet.empty MethodSet.empty (.struct [(⟨"Note", none, false, false⟩, .string)])

/-- A defined record type with an embedded record and an embedded pointer to a record:
`type Outer struct { Inner; *Extra; Count int8 "omitempty"; Tags []Label }`. -/
def sampleOuter : GoType :=
  .named "Outer" MethodSet.empty MethodSet.empty (.struct
    [(⟨"Inner", none, false, true⟩, sampleInner),
      (⟨"Extra", none, false, true⟩, .ptr sampleExtra),
      (⟨"Count", none, true, false⟩, .int 8),
      (⟨"Tags", none, false, false⟩, .slice sampleLabel)])

/-- The value `Outer{Inner{"n"}, &Extra{"x"}, 0, []Label{"a"}}`. -/
def sampleOuterValue : Data :=
  .struct [.struct [.str "n"], .ptr (some (.struct [.str "x"])), .int 0,
    .slice (some [.str "a"])]

/-- A defined byte type without methods, `type MyByte uint8`. -/
def sampleByteType : GoType := .named "MyByte" MethodSet.empty MethodSet.empty (.uint 8)

/-- A record type with an omit-if-empty map: `struct { M map[string]int64 "omitempty" }`. -/
def sampleOmitMap : GoType :=
  .struct [(⟨"M", none, true, false⟩, .map .string (.int 64))]

/-! ## Lemmas on wire trees -/

theorem depth_le_depthEntries {k : String} {c : AttributeValue} :
    ∀ {m : List (String × Option AttributeValue)}, (k, some c) ∈ m → c.depth ≤ depthEntries m
  | [], h => by cases h
  | (k1, none) :: rest, h => by
    simp only [List.mem_cons, Prod.mk.injEq, reduceCtorEq, and_false, false_or] at h
    simpa [depthEntries] using depth_le_depthEntries h
  | (k1, some c1) :: rest, h => by
    simp only [List.mem_cons, Prod.mk.injEq, Option.some.injEq] at h
    rcases h with ⟨_, rfl⟩ | h
    · simp [depthEntries]
    · have := depth_le_depthEntries h
      simp only [depthEntries]
      omega

theorem depth_le_depthElems {c : AttributeValue} :
    ∀ {l : List (Option AttributeValue)}, some c ∈ l → c.depth ≤ depthElems l
  | [], h => by cases h
  | none :: rest, h => by
    simp only [List.mem_cons, reduceCtorEq, false_or] at h
    simpa [depthElems] using depth_le_depthElems h
  | some c1 :: rest, h => by
    simp only [List.mem_cons, Option.some.injEq] at h
    rcases h with rfl | h
    · simp [depthElems]
    · have := depth_le_depthElems h
      simp only [depthElems]
      omega

theorem WellFormed.children {a : AttributeValue} (h : WellFormed a) : ChildrenWellFormed a := by
  cases h with
  | intro _ one mSome mKids lSome lKids =>
    refine ⟨?_, ?_⟩
    · intro m k c hm hc
      cases c with
      | none => exact absurd hc (mSome m k hm)
      | some c1 => exact ⟨c1, rfl, mKids m k c1 hm hc⟩
    · intro l c hl hc
      cases c with
      | none => exact absurd hc (lSome l hl)
      | some c1 => exact ⟨c1, rfl, lKids l c1 hl hc⟩

theorem WellFormed.variantCount_eq {a : AttributeValue} (h : WellFormed a) :
    a.variantCount = 1 := by
  cases h with
  | intro _ one _ _ _ _ => exact one

theorem isValid_of_variantCount {a : AttributeValue} (h : a.variantCount = 1) :
    a.IsValid = true := by
  obtain ⟨b, bo, s, n, nu, m, l⟩ := a
  cases b <;> cases bo <;> cases s <;> cases n <;> cases nu <;> cases m <;> cases l <;>
    simp_all [AttributeValue.variantCount, AttributeValue.IsValid, AttributeValue.B,
      AttributeValue.BOOL, AttributeValue.S, AttributeValue.N, AttributeValue.NULL,
      AttributeValue.M, AttributeValue.L]

theorem WellFormed.isValid {a : AttributeValue} (h : WellFormed a) : a.IsValid = true :=
  isValid_of_variantCount h.variantCount_eq

/-! ## Lemmas on the text projection -/

theorem mem_insertByKey {α : Type} (e x : String × α) (l : List (String × α)) :
    x ∈ insertByKey e l ↔ x = e ∨ x ∈ l := by
  induction l with
  | nil => simp [insertByKey]
  | cons y ys ih =>
    simp only [insertByKey]
    split
    · simp
    · simp only [List.mem_cons, ih]
      tauto

theorem mem_sortByKey {α : Type} (x : String × α) (l : List (String × α)) :
    x ∈ sortByKey l ↔ x ∈ l := by
  induction l with
  | nil => simp [sortByKey]
  | cons y ys ih => simp [sortByKey, mem_insertByKey, ih]

theorem marshalElems_ok (self : AttributeValue → Outcome String String)
    (l : List (Option AttributeValue))
    (h : ∀ c ∈ l, ∃ s, marshalPointer self c = .ok s) :
    ∃ ss, marshalElems self l = .ok ss := by
  induction l with
  | nil => exact ⟨[], rfl⟩
  | cons c rest ih =>
    obtain ⟨s, hs⟩ := h c (List.mem_cons_self _ _)
    obtain ⟨ss, hss⟩ := ih (fun c1 hc1 => h c1 (List.mem_cons_of_mem _ hc1))
    exact ⟨s :: ss, by simp [marshalElems, hs, hss]⟩

theorem marshalEntries_ok (J : JSONText) (self : AttributeValue → Outcome String String)
    (l : List (String × Option AttributeValue))
    (h : ∀ e ∈ l, ∃ s, marshalPointer self e.2 = .ok s) :
    ∃ ss, marshalEntries J self l = .ok ss := by
  induction l with
  | nil => exact ⟨[], rfl⟩
  | cons e rest ih =>
    obtain ⟨k, c⟩ := e
    obtain ⟨s, hs⟩ := h (k, c) (List.mem_cons_self _ _)
    obtain ⟨ss, hss⟩ := ih (fun e1 he1 => h e1 (List.mem_cons_of_mem _ he1))
    exact ⟨(J.quote k ++ ":" ++ s) :: ss, by simp [marshalEntries, hs, hss]⟩

theorem depth_lt_of_mem_M {b : Option (List Nat)} {bo : Option Bool} {s n : Option String}
    {nu : Option Bool} {m : AttributeValueMap} {l : Option (List (Option AttributeValue))}
    {k : String} {c : AttributeValue} (h : (k, some c) ∈ m) :
    c.depth < (AttributeValue.mk b bo s n nu (some m) l).depth := by
  have h1 := depth_le_depthEntries h
  rw [AttributeValue.depth, depthRecord]
  have h2 := Nat.le_max_left (depthEntries m) (depthList l)
  omega

theorem depth_lt_of_mem_L {b : Option (List Nat)} {bo : Option Bool} {s n : Option String}
    {nu : Option Bool} {m : Option AttributeValueMap} {l : List (Option AttributeValue)}
    {c : AttributeValue} (h : some c ∈ l) :
    c.depth < (AttributeValue.mk b bo s n nu m (some l)).depth := by
  have h1 := depth_le_depthElems h
  rw [AttributeValue.depth, depthList]
  have h2 := Nat.le_max_right (depthRecord m) (depthElems l)
  omega

/-- With its nested calls succeeding on the members, one call of `MarshalJSON` on a value with
a variant set succeeds, and its text is the one-key object named after `Type()`. -/
theorem marshalJSONBody_ok (J : JSONText) (self : AttributeValue → Outcome String String)
    (a : AttributeValue) (hv : a.IsValid = true)
    (hm : ∀ m k c, a.M = some m → (k, c) ∈ m → ∃ s, marshalPointer self c = .ok s)
    (hl : ∀ l c, a.L = some l → c ∈ l → ∃ s, marshalPointer self c = .ok s) :
    ∃ payload, marshalJSONBody J self a = .ok (jsonObject1 a.Type_.String payload) := by
  obtain ⟨b, bo, s, n, nu, m, l⟩ := a
  simp only [AttributeValue.M, AttributeValue.L] at hm hl
  rcases b with _ | b
  swap
  · exact ⟨"\"" ++ J.base64 b ++ "\"", by simp [marshalJSONBody, AttributeValue.B,
      AttributeValue.Type_, AttributeValueType.String]⟩
  rcases bo with _ | bo
  swap
  · exact ⟨jsonBool bo, by simp [marshalJSONBody, AttributeValue.B, AttributeValue.BOOL,
      AttributeValue.Type_, AttributeValueType.String]⟩
  rcases s with _ | s
  swap
  · exact ⟨J.quote s, by simp [marshalJSONBody, AttributeValue.B, AttributeValue.BOOL,
      AttributeValue.S, AttributeValue.Type_, AttributeValueType.String]⟩
  rcases n with _ | n
  swap
  · exact ⟨J.quote n, by simp [marshalJSONBody, AttributeValue.B, AttributeValue.BOOL,
      AttributeValue.S, AttributeValue.N, AttributeValue.Type_, AttributeValueType.String]⟩
  rcases nu with _ | nu
  swap
  · exact ⟨jsonBool nu, by simp [marshalJSONBody, AttributeValue.B, AttributeValue.BOOL,
      AttributeValue.S, AttributeValue.N, AttributeValue.NULL, AttributeValue.Type_,
      AttributeValueType.String]⟩
  rcases m with _ | m
  swap
  · by_cases h0 : m.length = 0
    · refine ⟨"\x7b\x7d", ?_⟩
      simp only [marshalJSONBody, AttributeValue.B, AttributeValue.BOOL, AttributeValue.S,
        AttributeValue.N, AttributeValue.NULL, AttributeValue.M, AttributeValue.Type_,
        AttributeValueType.String, h0, if_true, Option.isSome_none, Option.isSome_some]
      rfl
    · obtain ⟨ss, hss⟩ := marshalEntries_ok J self (sortByKey m) (by
        intro e he
        obtain ⟨k, c⟩ := e
        exact hm m k c rfl ((mem_sortByKey _ _).1 he))
      exact ⟨"\x7b" ++ jsonJoin ss ++ "\x7d", by simp [marshalJSONBody, AttributeValue.B,
        AttributeValue.BOOL, AttributeValue.S, AttributeValue.N, AttributeValue.NULL,
        AttributeValue.M, AttributeValue.Type_, AttributeValueType.String, h0, hss]⟩
  rcases l with _ | l
  swap
  · by_cases h0 : l.length = 0
    · refine ⟨"[]", ?_⟩
      simp only [marshalJSONBody, AttributeValue.B, AttributeValue.BOOL, AttributeValue.S,
        AttributeValue.N, AttributeValue.NULL, AttributeValue.M, AttributeValue.L,
        AttributeValue.Type_, AttributeValueType.String, h0, if_true, Option.isSome_none,
        Option.isSome_some]
      rfl
    · obtain ⟨ss, hss⟩ := marshalElems_ok self l (fun c hc => hl l c rfl hc)
      exact ⟨"[" ++ jsonJoin ss ++ "]", by simp [marshalJSONBody, AttributeValue.B,
        AttributeValue.BOOL, AttributeValue.S, AttributeValue.N, AttributeValue.NULL,
        AttributeValue.M, AttributeValue.L, AttributeValue.Type_, AttributeValueType.String,
        h0, hss]⟩
  simp [AttributeValue.IsValid, AttributeValue.B, AttributeValue.BOOL, AttributeValue.S,
    AttributeValue.N, AttributeValue.NULL, AttributeValue.M, AttributeValue.L] at hv

/-- Serialising a value with a variant set and well-formed members succeeds once the fuel
reaches the depth of the value. -/
theorem marshalJSON_ok (J : JSONText) : ∀ (fuel : Nat) (a : AttributeValue),
    a.IsValid = true → ChildrenWellFormed a → a.depth ≤ fuel →
    ∃ payload, a.MarshalJSON J fuel = .ok (jsonObject1 a.Type_.String payload) := by
  intro fuel
  induction fuel with
  | zero =>
    intro a _ _ h
    obtain ⟨b, bo, s, n, nu, m, l⟩ := a
    rw [AttributeValue.depth] at h
    omega
  | succ fuel ih =>
    intro a hv hc hsz
    have kid : ∀ c1 : AttributeValue, WellFormed c1 → c1.depth < a.depth →
        ∃ s, marshalPointer (AttributeValue.MarshalJSON J fuel) (some c1) = .ok s := by
      intro c1 hw hlt
      obtain ⟨p, hp⟩ := ih c1 hw.isValid hw.children (by omega)
      exact ⟨jsonObject1 c1.Type_.String p, by simp [marshalPointer, hp]⟩
    simp only [AttributeValue.MarshalJSON]
    apply marshalJSONBody_ok J _ a hv
    · intro m k c hm hmem
      obtain ⟨c1, rfl, hw⟩ := hc.1 m k c hm hmem
      apply kid c1 hw
      obtain ⟨b, bo, s, n, nu, m0, l⟩ := a
      simp only [AttributeValue.M] at hm
      subst hm
      exact depth_lt_of_mem_M hmem
    · intro l c hl hmem
      obtain ⟨c1, rfl, hw⟩ := hc.2 l c hl hmem
      apply kid c1 hw
      obtain ⟨b, bo, s, n, nu, m, l0⟩ := a
      simp only [AttributeValue.L] at hl
      subst hl
      exact depth_lt_of_mem_L hmem


/-- A wire value without Record and List members is well formed when one variant is set. -/
theorem wellFormed_of_leaf (a : AttributeValue) (one : a.variantCount = 1) (hm : a.M = none)
    (hl : a.L = none) : WellFormed a := by
  refine WellFormed.intro a one ?_ ?_ ?_ ?_
  · intro m k h; rw [hm] at h; cases h
  · intro m k c h; rw [hm] at h; cases h
  · intro l h; rw [hl] at h; cases h
  · intro l c h; rw [hl] at h; cases h

theorem wellFormed_ofNULL (b : Bool) : WellFormed (AttributeValue.ofNULL b) :=
  wellFormed_of_leaf _ rfl rfl rfl

theorem wellFormed_ofBOOL (b : Bool) : WellFormed (AttributeValue.ofBOOL b) :=
  wellFormed_of_leaf _ rfl rfl rfl

theorem wellFormed_ofS (s : String) : WellFormed (AttributeValue.ofS s) :=
  wellFormed_of_leaf _ rfl rfl rfl

theorem wellFormed_ofN (s : String) : WellFormed (AttributeValue.ofN s) :=
  wellFormed_of_leaf _ rfl rfl rfl

theorem wellFormed_ofB (b : List Nat) : WellFormed (AttributeValue.ofB b) :=
  wellFormed_of_leaf _ rfl rfl rfl

/-- Whatever the nested calls answer, a successful call of `MarshalJSON` yields the one-key
object named after `Type()`. -/
theorem marshalJSONBody_shape (J : JSONText) (self : AttributeValue → Outcome String String)
    (a : AttributeValue) (s : String) (h : marshalJSONBody J self a = .ok s) :
    ∃ payload, s = jsonObject1 a.Type_.String payload := by
  obtain ⟨b, bo, st, n, nu, m, l⟩ := a
  rcases b with _ | b
  swap
  · simp only [marshalJSONBody, AttributeValue.B, Outcome.ok.injEq] at h
    exact ⟨_, h.symm⟩
  rcases bo with _ | bo
  swap
  · simp only [marshalJSONBody, AttributeValue.B, AttributeValue.BOOL, Outcome.ok.injEq] at h
    exact ⟨_, h.symm⟩
  rcases st with _ | st
  swap
  · simp only [marshalJSONBody, AttributeValue.B, AttributeValue.BOOL, AttributeValue.S,
      Outcome.ok.injEq] at h
    exact ⟨_, h.symm⟩
  rcases n with _ | n
  swap
  · simp only [marshalJSONBody, AttributeValue.B, AttributeValue.BOOL, AttributeValue.S,
      AttributeValue.N, Outcome.ok.injEq] at h
    exact ⟨_, h.symm⟩
  rcases nu with _ | nu
  swap
  · simp only [marshalJSONBody, AttributeValue.B, AttributeValue.BOOL, AttributeValue.S,
      AttributeValue.N, AttributeValue.NULL, Outcome.ok.injEq] at h
    exact ⟨_, h.symm⟩
  rcases m with _ | m
  swap
  · simp only [marshalJSONBody, AttributeValue.B, AttributeValue.BOOL, AttributeValue.S,
      AttributeValue.N, AttributeValue.NULL, AttributeValue.M] at h
    split at h
    · simp only [Outcome.ok.injEq] at h
      exact ⟨"\x7b\x7d", by rw [← h]; rfl⟩
    · split at h
      · simp only [Outcome.ok.injEq] at h
        exact ⟨_, h.symm⟩
      all_goals cases h
  rcases l with _ | l
  swap
  · simp only [marshalJSONBody, AttributeValue.B, AttributeValue.BOOL, AttributeValue.S,
      AttributeValue.N, AttributeValue.NULL, AttributeValue.M, AttributeValue.L] at h
    split at h
    · simp only [Outcome.ok.injEq] at h
      exact ⟨"[]", by rw [← h]; rfl⟩
    · split at h
      · simp only [Outcome.ok.injEq] at h
        exact ⟨_, h.symm⟩
      all_goals cases h
  simp [marshalJSONBody, AttributeValue.B, AttributeValue.BOOL, AttributeValue.S,
    AttributeValue.N, AttributeValue.NULL, AttributeValue.M, AttributeValue.L] at h

theorem type_of_isValid (a : AttributeValue) (hv : a.IsValid = true) :
    a.Type_ ∈ [AttributeValueType.B, .BOOL, .S, .N, .NULL, .M, .L] := by
  obtain ⟨b, bo, s, n, nu, m, l⟩ := a
  cases b <;> cases bo <;> cases s <;> cases n <;> cases nu <;> cases m <;> cases l <;>
    simp_all [AttributeValue.Type_, AttributeValue.IsValid, AttributeValue.B,
      AttributeValue.BOOL, AttributeValue.S, AttributeValue.N, AttributeValue.NULL,
      AttributeValue.M, AttributeValue.L]

/-! ## Claims on the text projection -/

/-- C3. No-value failure: `MarshalJSON` of the wire value with no variant set returns the
no-values error (and hence no bytes); `MarshalJSON` of a wire value with at least one variant
set whose Record and List members are all well formed returns a text, not an error. -/
theorem C3_no_value_failure (J : JSONText) (fuel : Nat) :
    AttributeValue.empty.MarshalJSON J (fuel + 1) = .error noValuesMessage ∧
    ∀ a : AttributeValue, a.IsValid = true → ChildrenWellFormed a → a.depth ≤ fuel + 1 →
      ∃ s, a.MarshalJSON J (fuel + 1) = .ok s := by
  refine ⟨rfl, ?_⟩
  intro a hv hc hsz
  obtain ⟨p, hp⟩ := marshalJSON_ok J (fuel + 1) a hv hc hsz
  exact ⟨_, hp⟩

theorem childrenWellFormed_sampleTwoVariants : ChildrenWellFormed sampleTwoVariants := by
  refine ⟨?_, ?_⟩
  · intro m k c h; cases h
  · intro l c h hc
    simp only [sampleTwoVariants, AttributeValue.L, Option.some.injEq] at h
    subst h
    simp only [List.mem_singleton] at hc
    exact ⟨_, hc, wellFormed_ofNULL true⟩

theorem C3_no_value_failure_witness :
    sampleTwoVariants.IsValid = true ∧ ChildrenWellFormed sampleTwoVariants ∧
    sampleTwoVariants.depth ≤ 1 + 1 ∧
    ∃ s, sampleTwoVariants.MarshalJSON ⟨id, fun _ => ""⟩ (1 + 1) = .ok s :=
  ⟨rfl, childrenWellFormed_sampleTwoVariants, by decide,
    (C3_no_value_failure ⟨id, fun _ => ""⟩ 1).2 sampleTwoVariants rfl
      childrenWellFormed_sampleTwoVariants (by decide)⟩

/-- C4. Empty-container literal: a wire value whose only variant is a non-nil Record with no
entry serialises to exactly `{"M":{}}`, one whose only variant is a non-nil List with no element
to exactly `{"L":[]}`. -/
theorem C4_empty_container_literal (J : JSONText) (fuel : Nat) :
    (AttributeValue.ofM []).MarshalJSON J (fuel + 1) = .ok "\x7b\"M\":\x7b\x7d\x7d" ∧
    (AttributeValue.ofL []).MarshalJSON J (fuel + 1) = .ok "\x7b\"L\":[]\x7d" :=
  ⟨rfl, rfl⟩

/-- C5. For a wire value with at least one variant set, `Type()` is one of the seven variants,
every text that `MarshalJSON` returns is the object with the single top-level key
`Type().String()`, and that text is returned when the members are well formed. -/
theorem C5_single_key_is_type (J : JSONText) (fuel : Nat) (a : AttributeValue)
    (hv : a.IsValid = true) :
    a.Type_ ∈ [AttributeValueType.B, .BOOL, .S, .N, .NULL, .M, .L] ∧
    a.Type_.String ∈ ["B", "BOOL", "S", "N", "NULL", "M", "L"] ∧
    (∀ s, a.MarshalJSON J fuel = .ok s → ∃ payload, s = jsonObject1 a.Type_.String payload) ∧
    (ChildrenWellFormed a → a.depth ≤ fuel →
      ∃ payload, a.MarshalJSON J fuel = .ok (jsonObject1 a.Type_.String payload)) := by
  have ht := type_of_isValid a hv
  refine ⟨ht, ?_, ?_, ?_⟩
  · simp only [List.mem_cons, List.mem_singleton, List.not_mem_nil, or_false] at ht
    rcases ht with h | h | h | h | h | h | h <;> rw [h] <;> decide
  · intro s hs
    cases fuel with
    | zero => cases hs
    | succ fuel => exact marshalJSONBody_shape J _ a s hs
  · intro hc hsz
    exact marshalJSON_ok J fuel a hv hc hsz

theorem C5_single_key_is_type_witness :
    sampleTwoVariants.IsValid = true ∧
    sampleTwoVariants.Type_ = AttributeValueType.S ∧
    sampleTwoVariants.MarshalJSON ⟨id, fun _ => ""⟩ 3 = .ok (jsonObject1 "S" "x") ∧
    (∀ s, sampleTwoVariants.MarshalJSON ⟨id, fun _ => ""⟩ 3 = .ok s →
      ∃ payload, s = jsonObject1 sampleTwoVariants.Type_.String payload) :=
  ⟨rfl, rfl, rfl, (C5_single_key_is_type ⟨id, fun _ => ""⟩ 3 sampleTwoVariants rfl).2.2.1⟩

/-! ## Lemmas on the encoder -/

theorem encodeHooks_none (env : Env) (t : GoType) (a : Bool) (d : Data)
    (hf : t.encHookFree = true) : encodeHooks env ⟨t, a, d⟩ = none := by
  simp only [GoType.encHookFree, MethodSet.marshals, Bool.and_eq_true, Bool.not_eq_true',
    Bool.and_eq_false_iff, Bool.or_eq_false_iff, decide_eq_false_iff_not] at hf
  obtain ⟨h1, h2⟩ := hf
  simp only [encodeHooks, Value.Addr]
  have a1 : ¬ (t.methods.numMethod > 0 ∧ t.methods.jsonMarshaler = true) := by
    rintro ⟨x, y⟩
    rcases h1 with h | h
    · exact h x
    · rw [h.1] at y; cases y
  have a2 : ¬ (t.methods.numMethod > 0 ∧ t.methods.textMarshaler = true) := by
    rintro ⟨x, y⟩
    rcases h1 with h | h
    · exact h x
    · rw [h.2] at y; cases y
  have a3 : ¬ ((GoType.ptr t).methods.numMethod > 0 ∧
      (GoType.ptr t).methods.jsonMarshaler = true) := by
    rintro ⟨x, y⟩
    rcases h2 with h | h
    · exact h x
    · rw [h.1] at y; cases y
  have a4 : ¬ ((GoType.ptr t).methods.numMethod > 0 ∧
      (GoType.ptr t).methods.textMarshaler = true) := by
    rintro ⟨x, y⟩
    rcases h2 with h | h
    · exact h x
    · rw [h.2] at y; cases y
  simp only [a1, a2, a3, a4, if_false, ite_self]

theorem mem_mapSet {β : Type} (m : List (String × β)) (k : String) (v : β) (x : String × β)
    (h : x ∈ mapSet m k v) : x = (k, v) ∨ x ∈ m := by
  induction m with
  | nil =>
    simp only [mapSet, List.mem_singleton] at h
    exact Or.inl h
  | cons e rest ih =>
    obtain ⟨k1, v1⟩ := e
    simp only [mapSet] at h
    split at h
    · simp only [List.mem_cons] at h ⊢
      rcases h with h | h
      · exact Or.inl h
      · exact Or.inr (Or.inr h)
    · simp only [List.mem_cons] at h ⊢
      rcases h with h | h
      · exact Or.inr (Or.inl h)
      · rcases ih h with h | h
        · exact Or.inl h
        · exact Or.inr (Or.inr h)

theorem goodMember_orNull (c : Option AttributeValue) (h : ∀ av, c = some av → WellFormed av) :
    GoodMember (orNull c) := by
  cases c with
  | none => exact ⟨_, rfl, wellFormed_ofNULL true⟩
  | some av => exact ⟨av, rfl, h av rfl⟩

theorem wellFormed_ofM (m : AttributeValueMap) (h : ∀ e ∈ m, GoodMember e.2) :
    WellFormed (AttributeValue.ofM m) := by
  refine WellFormed.intro _ rfl ?_ ?_ ?_ ?_
  · intro m1 k hm hk
    cases hm
    obtain ⟨av, hav, _⟩ := h _ hk
    cases hav
  · intro m1 k c hm hk
    cases hm
    obtain ⟨av, hav, hw⟩ := h _ hk
    cases hav
    exact hw
  · intro l hl; cases hl
  · intro l c hl; cases hl

theorem wellFormed_ofL (l : List (Option AttributeValue)) (h : ∀ c ∈ l, GoodMember c) :
    WellFormed (AttributeValue.ofL l) := by
  refine WellFormed.intro _ rfl ?_ ?_ ?_ ?_
  · intro m k hm; cases hm
  · intro m k c hm; cases hm
  · intro l1 hl hk
    cases hl
    obtain ⟨av, hav, _⟩ := h _ hk
    cases hav
  · intro l1 c hl hk
    cases hl
    obtain ⟨av, hav, hw⟩ := h _ hk
    cases hav
    exact hw

theorem encodeElems_wellFormed (self : Value → EncOut) (hs : ReturnsWellFormed self)
    (t : GoType) (a : Bool) (xs : List Data) (outs : List (Option AttributeValue))
    (h : encodeElems self t a xs = .ok outs) : ∀ c ∈ outs, GoodMember c := by
  induction xs generalizing outs with
  | nil =>
    simp only [encodeElems, Outcome.ok.injEq] at h
    subst h
    intro c hc
    cases hc
  | cons x rest ih =>
    simp only [encodeElems] at h
    split at h
    · rename_i v2 hv2
      split at h
      · rename_i out hout
        simp only [Outcome.ok.injEq] at h
        subst h
        intro c hc
        simp only [List.mem_cons] at hc
        rcases hc with rfl | hc
        · apply goodMember_orNull
          intro av hav
          obtain ⟨av1, h1, hw⟩ := hs _ _ hv2
          rw [hav] at h1
          cases h1
          exact hw
        · exact ih out hout c hc
      all_goals cases h
    all_goals cases h

theorem encodeEntries_wellFormed (self : Value → EncOut) (hs : ReturnsWellFormed self)
    (t : GoType) (es : List (Data × Data)) (acc out : AttributeValueMap)
    (hacc : ∀ e ∈ acc, GoodMember e.2)
    (h : encodeEntries self t es acc = .ok out) : ∀ e ∈ out, GoodMember e.2 := by
  induction es generalizing acc with
  | nil =>
    simp only [encodeEntries, Outcome.ok.injEq] at h
    subst h
    exact hacc
  | cons x rest ih =>
    obtain ⟨key, d⟩ := x
    simp only [encodeEntries] at h
    split at h
    · rename_i v2 hv2
      refine ih _ ?_ h
      intro e he
      rcases mem_mapSet _ _ _ _ he with rfl | he
      · apply goodMember_orNull
        intro av hav
        obtain ⟨av1, h1, hw⟩ := hs _ _ hv2
        rw [hav] at h1
        cases h1
        exact hw
      · exact hacc e he
    all_goals cases h

theorem encodeFields_wellFormed (env : Env) (self : Value → EncOut)
    (hs : ReturnsWellFormed self) (v : Value) (fs : List Field) (acc out : AttributeValueMap)
    (hacc : ∀ e ∈ acc, GoodMember e.2)
    (h : encodeFields env self v fs acc = .ok out) : ∀ e ∈ out, GoodMember e.2 := by
  induction fs generalizing acc with
  | nil =>
    simp only [encodeFields, Outcome.ok.injEq] at h
    subst h
    exact hacc
  | cons f rest ih =>
    simp only [encodeFields] at h
    split at h
    · exact ih _ hacc h
    · rename_i fv hfv
      split at h
      · exact ih _ hacc h
      · split at h
        · rename_i attr hattr
          split at h
          · rename_i a0
            refine ih _ ?_ h
            intro e he
            rcases mem_mapSet _ _ _ _ he with rfl | he
            · obtain ⟨av1, h1, hw⟩ := hs _ _ hattr
              exact ⟨av1, h1, hw⟩
            · exact hacc e he
          · exact ih _ hacc h
        all_goals cases h

theorem encodeHooks_wellFormed (env : Env) (v : Value) (r : Option AttributeValue)
    (h : encodeHooks env v = some (.ok r)) : GoodMember r := by
  have hnull : ∀ r1 : Option AttributeValue, nullAttribute = Outcome.ok r1 → GoodMember r1 := by
    intro r1 h1
    simp only [nullAttribute, Outcome.ok.injEq] at h1
    subst h1
    exact ⟨_, rfl, wellFormed_ofNULL true⟩
  have hjson : ∀ (w : Value) (r1 : Option AttributeValue),
      encodeJSONValue env w = .ok r1 → GoodMember r1 := by
    intro w r1 h1
    simp only [encodeJSONValue] at h1
    split at h1
    · cases h1
    · split at h1
      · simp only [Outcome.ok.injEq] at h1
        subst h1
        exact ⟨_, rfl, wellFormed_ofB _⟩
      · exact hnull _ h1
  have htext : ∀ (w : Value) (r1 : Option AttributeValue),
      encodeTextValue env w = .ok r1 → GoodMember r1 := by
    intro w r1 h1
    simp only [encodeTextValue] at h1
    split at h1
    · cases h1
    · split at h1
      · cases h1
      · split at h1
        · simp only [Outcome.ok.injEq] at h1
          subst h1
          exact ⟨_, rfl, wellFormed_ofS _⟩
        · exact hnull _ h1
  simp only [encodeHooks] at h
  split at h
  · simp only [Option.some.injEq] at h
    split at h
    · exact hnull _ h
    · exact hjson _ _ h
  · split at h
    · simp only [Option.some.injEq] at h
      split at h
      · exact hnull _ h
      · exact htext _ _ h
    · split at h
      · split at h
        · simp only [Option.some.injEq] at h
          exact hjson _ _ h
        · split at h
          · simp only [Option.some.injEq] at h
            exact htext _ _ h
          · cases h
      · cases h

theorem encodeKind_wellFormed (env : Env) (self : Value → EncOut)
    (hs : ReturnsWellFormed self) (v : Value) (r : Option AttributeValue)
    (h : encodeKind env self v = .ok r) : GoodMember r := by
  have hnull : ∀ r1 : Option AttributeValue, nullAttribute = Outcome.ok r1 → GoodMember r1 := by
    intro r1 h1
    simp only [nullAttribute, Outcome.ok.injEq] at h1
    subst h1
    exact ⟨_, rfl, wellFormed_ofNULL true⟩
  unfold encodeKind at h
  split at h
  · simp only [Outcome.ok.injEq] at h
    subst h
    exact ⟨_, rfl, wellFormed_ofBOOL _⟩
  · split at h
    · simp only [Outcome.ok.injEq] at h
      subst h
      exact ⟨_, rfl, wellFormed_ofN _⟩
    all_goals cases h
  · split at h
    · simp only [Outcome.ok.injEq] at h
      subst h
      exact ⟨_, rfl, wellFormed_ofN _⟩
    all_goals cases h
  · split at h
    · simp only [Outcome.ok.injEq] at h
      subst h
      exact ⟨_, rfl, wellFormed_ofN _⟩
    all_goals cases h
  · split at h
    · exact hnull _ h
    · simp only [Outcome.ok.injEq] at h
      subst h
      exact ⟨_, rfl, wellFormed_ofS _⟩
  · split at h
    · rename_i out hout
      simp only [Outcome.ok.injEq] at h
      subst h
      refine ⟨_, rfl, wellFormed_ofM _ ?_⟩
      exact encodeFields_wellFormed env self hs _ _ [] out (by intro e he; cases he) hout
    all_goals cases h
  · exact hnull _ h
  · split at h
    · cases h
    · split at h
      · rename_i out hout
        simp only [Outcome.ok.injEq] at h
        subst h
        refine ⟨_, rfl, wellFormed_ofM _ ?_⟩
        exact encodeEntries_wellFormed self hs _ _ [] out (by intro e he; cases he) hout
      all_goals cases h
  · exact hnull _ h
  · split at h
    · exact hnull _ h
    · split at h
      · simp only [Outcome.ok.injEq] at h
        subst h
        exact ⟨_, rfl, wellFormed_ofB _⟩
      · split at h
        · rename_i out hout
          simp only [Outcome.ok.injEq] at h
          subst h
          exact ⟨_, rfl, wellFormed_ofL _ (encodeElems_wellFormed self hs _ _ _ out hout)⟩
        all_goals cases h
  · split at h
    · rename_i out hout
      simp only [Outcome.ok.injEq] at h
      subst h
      exact ⟨_, rfl, wellFormed_ofL _ (encodeElems_wellFormed self hs _ _ _ out hout)⟩
    all_goals cases h
  all_goals cases h

theorem convertBody_wellFormed (env : Env) (self : Value → EncOut)
    (hs : ReturnsWellFormed self) : ReturnsWellFormed (convertBody env self) := by
  intro v r h
  simp only [convertBody] at h
  split at h
  · rename_i r1 hr1
    subst h
    exact encodeHooks_wellFormed env v r hr1
  · split at h
    · simp only [nullAttribute, Outcome.ok.injEq] at h
      subst h
      exact ⟨_, rfl, wellFormed_ofNULL true⟩
    · exact encodeKind_wellFormed env self hs _ r h

theorem convertToAttribute_wellFormed (env : Env) (fuel : Nat) :
    ReturnsWellFormed (convertToAttribute env fuel) := by
  induction fuel with
  | zero =>
    intro v r h
    cases h
  | succ fuel ih => exact convertBody_wellFormed env _ ih

theorem indirect_of_shape (t : GoType) (a : Bool) (d : Data)
    (hp : ∀ e, t.underlying ≠ .ptr e) (hi : ∀ ms, t.underlying ≠ .iface ms) :
    indirect t a d = some ⟨t, a, d⟩ := by
  unfold indirect
  split <;> simp_all

theorem encodeElems_forall (self : Value → EncOut) (hs : ReturnsWellFormed self) (t : GoType)
    (a : Bool) (xs : List Data) (h : ∀ x ∈ xs, ∃ o, self ⟨t, a, x⟩ = .ok o) :
    ∃ outs : List AttributeValue,
      List.Forall₂ (fun x o => self ⟨t, a, x⟩ = .ok (some o)) xs outs ∧
      encodeElems self t a xs = .ok (outs.map some) := by
  induction xs with
  | nil => exact ⟨[], List.Forall₂.nil, rfl⟩
  | cons x rest ih =>
    obtain ⟨o, ho⟩ := h x (List.mem_cons_self _ _)
    obtain ⟨av, rfl, _⟩ := hs _ _ ho
    obtain ⟨outs, h1, h2⟩ := ih (fun y hy => h y (List.mem_cons_of_mem _ hy))
    exact ⟨av :: outs, List.Forall₂.cons ho h1, by simp [encodeElems, ho, h2, orNull]⟩

theorem encodeElems_error (self : Value → EncOut) (t : GoType) (a : Bool)
    (pre : List Data) (x : Data) (post : List Data) (err : EncodeError)
    (h : ∀ y ∈ pre, ∃ o, self ⟨t, a, y⟩ = .ok o) (hx : self ⟨t, a, x⟩ = .error err) :
    encodeElems self t a (pre ++ x :: post) = .error err := by
  induction pre with
  | nil => simp [encodeElems, hx]
  | cons y rest ih =>
    obtain ⟨o, ho⟩ := h y (List.mem_cons_self _ _)
    have := ih (fun z hz => h z (List.mem_cons_of_mem _ hz))
    simp [encodeElems, ho, this]

/-- Converting a string of a hook-free string type. -/
theorem convert_string (env : Env) (fuel : Nat) (t : GoType) (a : Bool) (s : String)
    (ht : t.underlying = .string) (hf : t.encHookFree = true) :
    convertToAttribute env (fuel + 1) ⟨t, a, .str s⟩
      = (if s.length = 0 then .ok (some (AttributeValue.ofNULL true))
         else .ok (some (AttributeValue.ofS s))) := by
  have hi := indirect_of_shape t a (.str s) (by simp [ht]) (by simp [ht])
  simp only [convertToAttribute, convertBody, encodeHooks_none env t a _ hf, hi]
  unfold encodeKind
  simp only [ht, nullAttribute]

/-! ## Claims on the encoder -/

/-- C2. Encoder output is well formed: whatever `convertToAttribute`, and hence
`EncodeToAttributeValue` on an item that is not itself a wire value, returns without error is a
non-nil tree in which every node has exactly one variant set; `IsValid` holds of it and its
serialisation returns a text, not the no-values error. -/
theorem C2_encoder_output_well_formed (env : Env) (J : JSONText) (fuel : Nat) :
    (∀ v r, convertToAttribute env fuel v = .ok r →
      ∃ av, r = some av ∧ WellFormed av ∧ av.IsValid = true ∧
        ∀ n, av.depth ≤ n → ∃ s, av.MarshalJSON J n = .ok s) ∧
    (∀ t d r, EncodeToAttributeValue env fuel (.native t d) = .ok r →
      ∃ av, r = some av ∧ WellFormed av ∧ av.IsValid = true ∧
        ∀ n, av.depth ≤ n → ∃ s, av.MarshalJSON J n = .ok s) := by
  have key : ∀ v r, convertToAttribute env fuel v = .ok r →
      ∃ av, r = some av ∧ WellFormed av ∧ av.IsValid = true ∧
        ∀ n, av.depth ≤ n → ∃ s, av.MarshalJSON J n = .ok s := by
    intro v r h
    obtain ⟨av, rfl, hw⟩ := convertToAttribute_wellFormed env fuel v r h
    refine ⟨av, rfl, hw, hw.isValid, ?_⟩
    intro n hn
    obtain ⟨p, hp⟩ := marshalJSON_ok J n av hw.isValid hw.children hn
    exact ⟨_, hp⟩
  exact ⟨key, fun t d r h => key _ r h⟩

theorem C2_encoder_output_well_formed_witness :
    convertToAttribute sampleEnv 2 ⟨.slice (.int 64), false, .slice (some [.int 1])⟩
      = .ok (some (AttributeValue.ofL [some (AttributeValue.ofN "1")])) ∧
    ∃ av, some (AttributeValue.ofL [some (AttributeValue.ofN "1")]) = some av ∧ WellFormed av ∧
      av.IsValid = true ∧ ∀ n, av.depth ≤ n → ∃ s, av.MarshalJSON sampleJSON n = .ok s :=
  ⟨rfl, (C2_encoder_output_well_formed sampleEnv sampleJSON 2).1
    ⟨.slice (.int 64), false, .slice (some [.int 1])⟩ _ rfl⟩

/-- C8. A string `s` of a hook-free string type converts to Null when it is empty and to Text
carrying exactly `s` otherwise; the result is never Text with an empty payload. -/
theorem C8_string_encoding (env : Env) (fuel : Nat) (t : GoType) (a : Bool) (s : String)
    (ht : t.underlying = .string) (hf : t.encHookFree = true) :
    convertToAttribute env (fuel + 1) ⟨t, a, .str s⟩
      = (if s.length = 0 then .ok (some (AttributeValue.ofNULL true))
         else .ok (some (AttributeValue.ofS s))) ∧
    convertToAttribute env (fuel + 1) ⟨t, a, .str s⟩ ≠ .ok (some (AttributeValue.ofS "")) := by
  have h1 := convert_string env fuel t a s ht hf
  refine ⟨h1, ?_⟩
  rw [h1]
  split
  · intro h
    cases h
  · rename_i hne
    intro h
    simp only [Outcome.ok.injEq, Option.some.injEq, AttributeValue.ofS, AttributeValue.mk.injEq,
      true_and, and_true] at h
    subst h
    exact hne rfl

theorem C8_string_encoding_witness :
    GoType.string.underlying = .string ∧ GoType.string.encHookFree = true ∧
    convertToAttribute sampleEnv (0 + 1) ⟨.string, false, .str "foo"⟩
      = (if "foo".length = 0 then .ok (some (AttributeValue.ofNULL true))
         else .ok (some (AttributeValue.ofS "foo"))) :=
  ⟨rfl, rfl, (C8_string_encoding sampleEnv 0 .string false "foo" rfl rfl).1⟩

/-- C9. A slice of any element type converts to Null when it is nil and also when it is not
nil and has length zero. The slice type is `[]e` or any hook-free type with that underlying
type. -/
theorem C9_empty_slice_is_null (env : Env) (fuel : Nat) (t e : GoType) (a : Bool)
    (ht : t.underlying = .slice e) (hf : t.encHookFree = true) :
    convertToAttribute env (fuel + 1) ⟨t, a, .slice none⟩
      = .ok (some (AttributeValue.ofNULL true)) ∧
    convertToAttribute env (fuel + 1) ⟨t, a, .slice (some [])⟩
      = .ok (some (AttributeValue.ofNULL true)) := by
  have hi := fun d => indirect_of_shape t a d (by simp [ht]) (by simp [ht])
  constructor
  · simp only [convertToAttribute, convertBody, encodeHooks_none env t a _ hf, hi]
    unfold encodeKind
    simp only [ht, nullAttribute]
  · simp only [convertToAttribute, convertBody, encodeHooks_none env t a _ hf, hi]
    unfold encodeKind
    simp only [ht, nullAttribute, List.length_nil, if_true]

theorem C9_empty_slice_is_null_witness :
    (GoType.slice (.int 64)).underlying = .slice (.int 64) ∧
    (GoType.slice (.int 64)).encHookFree = true ∧
    convertToAttribute sampleEnv (0 + 1) ⟨.slice (.int 64), false, .slice none⟩
      = .ok (some (AttributeValue.ofNULL true)) ∧
    convertToAttribute sampleEnv (0 + 1) ⟨.slice (.int 64), false, .slice (some [])⟩
      = .ok (some (AttributeValue.ofNULL true)) :=
  ⟨rfl, rfl, C9_empty_slice_is_null sampleEnv 0 _ (.int 64) false rfl rfl⟩

/-- C10. A non-empty slice whose elements are not bytes, and a fixed-size array of length
at least one, converts to the List of the conversions of its elements, with as many members
and in the same order, when every element converts without error; when an element fails, the
conversion fails with the error of that element. The types are hook-free. -/
theorem C10_list_encoding (env : Env) (fuel : Nat) (e : GoType) :
    (∀ (t : GoType) (a : Bool) (xs : List Data), t.underlying = .slice e →
      t.encHookFree = true → e.isUint8 = false → xs ≠ [] →
      ListEncoded env fuel e true xs
        (convertToAttribute env (fuel + 1) ⟨t, a, .slice (some xs)⟩)) ∧
    (∀ (t : GoType) (n : Nat) (a : Bool) (xs : List Data), t.underlying = .array n e →
      t.encHookFree = true → 1 ≤ xs.length →
      ListEncoded env fuel e a xs
        (convertToAttribute env (fuel + 1) ⟨t, a, .array xs⟩)) := by
  have hs := convertToAttribute_wellFormed env fuel
  constructor
  · intro t a xs ht hf he hne
    have hi := indirect_of_shape t a (.slice (some xs)) (by simp [ht]) (by simp [ht])
    have hlen : ¬ xs.length = 0 := by
      intro h
      exact hne (List.length_eq_zero.1 h)
    have hconv : convertToAttribute env (fuel + 1) ⟨t, a, .slice (some xs)⟩
        = (match encodeElems (convertToAttribute env fuel) e true xs with
          | .ok containerOut => .ok (some (AttributeValue.ofL containerOut))
          | .error e => .error e
          | .panic m => .panic m
          | .outOfFuel => .outOfFuel) := by
      simp only [convertToAttribute, convertBody, encodeHooks_none env t a _ hf, hi]
      unfold encodeKind
      simp only [ht, hlen, he, if_false, Bool.false_eq_true]
    rw [hconv]
    constructor
    · intro hall
      obtain ⟨outs, h1, h2⟩ := encodeElems_forall _ hs e true xs hall
      exact ⟨outs, h1, by rw [h2]⟩
    · intro pre x post err hxs hpre hx
      subst hxs
      rw [encodeElems_error _ e true pre x post err hpre hx]
  · intro t n a xs ht hf _
    have hi := indirect_of_shape t a (.array xs) (by simp [ht]) (by simp [ht])
    have hconv : convertToAttribute env (fuel + 1) ⟨t, a, .array xs⟩
        = (match encodeElems (convertToAttribute env fuel) e a xs with
          | .ok containerOut => .ok (some (AttributeValue.ofL containerOut))
          | .error e => .error e
          | .panic m => .panic m
          | .outOfFuel => .outOfFuel) := by
      simp only [convertToAttribute, convertBody, encodeHooks_none env t a _ hf, hi]
      unfold encodeKind
      simp only [ht]
    rw [hconv]
    constructor
    · intro hall
      obtain ⟨outs, h1, h2⟩ := encodeElems_forall _ hs e a xs hall
      exact ⟨outs, h1, by rw [h2]⟩
    · intro pre x post err hxs hpre hx
      subst hxs
      rw [encodeElems_error _ e a pre x post err hpre hx]

theorem C10_list_encoding_witness :
    (GoType.slice (.ptr .string)).underlying = .slice (.ptr .string) ∧
    (GoType.slice (.ptr .string)).encHookFree = true ∧
    (GoType.ptr .string).isUint8 = false ∧
    [Data.ptr (some (.str "a")), .ptr none] ≠ [] ∧
    convertToAttribute sampleEnv (1 + 1)
        ⟨.slice (.ptr .string), false, .slice (some [.ptr (some (.str "a")), .ptr none])⟩
      = .ok (some (AttributeValue.ofL
          [some (AttributeValue.ofS "a"), some (AttributeValue.ofNULL true)])) ∧
    ListEncoded sampleEnv 1 (.ptr .string) true [.ptr (some (.str "a")), .ptr none]
      (convertToAttribute sampleEnv (1 + 1)
        ⟨.slice (.ptr .string), false, .slice (some [.ptr (some (.str "a")), .ptr none])⟩) :=
  ⟨rfl, rfl, rfl, by simp, rfl,
    (C10_list_encoding sampleEnv 1 (.ptr .string)).1 (.slice (.ptr .string)) false
      [.ptr (some (.str "a")), .ptr none] rfl rfl rfl (by simp)⟩

/-! ## Lemmas on strconv -/

theorem digitValue_ofNat : ∀ m : Nat, m < 10 → digitValue (Char.ofNat (48 + m)) = some m := by
  decide

theorem ofNat_digit_ne_sign : ∀ m : Nat, m < 10 →
    Char.ofNat (48 + m) ≠ '+' ∧ Char.ofNat (48 + m) ≠ '-' := by
  decide

theorem decimalValue_decimalDigits : ∀ (fuel n : Nat) (rest : List Char), n < fuel →
    ∃ k, ∀ acc, decimalValue (decimalDigits fuel n rest) acc
      = decimalValue rest (acc * 10 ^ k + n) := by
  intro fuel
  induction fuel with
  | zero => intro n rest h; exact absurd h (Nat.not_lt_zero _)
  | succ fuel ih =>
    intro n rest h
    have hd := digitValue_ofNat (n % 10) (Nat.mod_lt _ (by decide))
    by_cases h0 : n / 10 = 0
    · refine ⟨1, fun acc => ?_⟩
      have hn : n % 10 = n := by omega
      rw [hn] at hd
      simp only [decimalDigits, h0, if_true, decimalValue, hn, hd, pow_one]
    · have hlt : n / 10 < fuel := by omega
      obtain ⟨k, hk⟩ := ih (n / 10) (Char.ofNat (48 + n % 10) :: rest) hlt
      refine ⟨k + 1, fun acc => ?_⟩
      simp only [decimalDigits, h0, if_false, hk, decimalValue, hd]
      congr 1
      have := Nat.div_add_mod n 10
      rw [pow_succ]
      nlinarith [Nat.div_add_mod n 10]

theorem decimalDigits_head : ∀ (fuel n : Nat) (rest : List Char), 0 < fuel →
    ∃ m, m < 10 ∧ ∃ tail, decimalDigits fuel n rest = Char.ofNat (48 + m) :: tail := by
  intro fuel
  induction fuel with
  | zero => intro n rest h; exact absurd h (Nat.lt_irrefl _)
  | succ fuel ih =>
    intro n rest _
    by_cases h0 : n / 10 = 0
    · exact ⟨n % 10, Nat.mod_lt _ (by decide), rest, by simp [decimalDigits, h0]⟩
    · cases fuel with
      | zero => exact ⟨n % 10, Nat.mod_lt _ (by decide), rest, by simp [decimalDigits, h0]⟩
      | succ fuel =>
        obtain ⟨m, hm, tail, ht⟩ := ih (n / 10) (Char.ofNat (48 + n % 10) :: rest)
          (Nat.succ_pos _)
        exact ⟨m, hm, tail, by simp only [decimalDigits, h0, if_false] at ht ⊢; exact ht⟩

theorem decimalValue_format (n : Nat) : decimalValue (decimalDigits (n + 1) n []) 0 = some n := by
  obtain ⟨k, hk⟩ := decimalValue_decimalDigits (n + 1) n [] (Nat.lt_succ_self _)
  rw [hk 0]
  simp [decimalValue]

theorem ParseUint_FormatUint (n : Nat) (h : n < 2 ^ 64) : ParseUint (FormatUint n) = some n := by
  obtain ⟨m, _, tail, ht⟩ := decimalDigits_head (n + 1) n [] (Nat.succ_pos _)
  have hv := decimalValue_format n
  simp only [ParseUint, FormatUint]
  rw [ht] at hv ⊢
  simp only [hv, h, if_true]

theorem ParseInt_FormatInt (n : Int) (h1 : -(2 : Int) ^ 63 ≤ n) (h2 : n < (2 : Int) ^ 63) :
    ParseInt (FormatInt n) = some n := by
  obtain ⟨m, hm, tail, ht⟩ := decimalDigits_head (n.natAbs + 1) n.natAbs [] (Nat.succ_pos _)
  have hv := decimalValue_format n.natAbs
  obtain ⟨hp, hq⟩ := ofNat_digit_ne_sign m hm
  by_cases hneg : n < 0
  · have hk : ((n.natAbs : Nat) : Int) = -n := by omega
    have hb : ¬ (n.natAbs > 2 ^ 63) := by omega
    simp only [ParseInt, FormatInt, hneg, if_true]
    generalize n.natAbs = k at ht hv hk hb
    rw [ht] at hv ⊢
    simp [hv, hb]
    omega
  · have hk : ((n.natAbs : Nat) : Int) = n := by omega
    have hb : ¬ (n.natAbs ≥ 2 ^ 63) := by omega
    simp only [ParseInt, FormatInt, FormatUint, hneg, if_false]
    generalize n.natAbs = k at ht hv hk hb
    rw [ht] at hv ⊢
    simp only [hp, hq, or_self, if_false, hv]
    rw [if_neg (by simp only [hq, not_false_eq_true, true_and]; exact hb),
      if_neg (by simp [hq])]
    simp only [hq, if_false, hk]

theorem digitChar_eq : ∀ m : Nat, m < 10 → Nat.digitChar m = Char.ofNat (48 + m) := by
  decide

theorem decimalDigits_eq_toDigitsCore : ∀ (fuel n : Nat) (acc : List Char),
    decimalDigits fuel n acc = Nat.toDigitsCore 10 fuel n acc := by
  intro fuel
  induction fuel with
  | zero => intro n acc; rfl
  | succ fuel ih =>
    intro n acc
    have hd := digitChar_eq (n % 10) (Nat.mod_lt _ (by decide))
    simp only [decimalDigits, Nat.toDigitsCore, hd, ih]

theorem FormatUint_eq_repr (n : Nat) : FormatUint n = toString n := by
  simp only [FormatUint, decimalDigits_eq_toDigitsCore]
  rfl

theorem FormatInt_eq_repr (n : Int) : FormatInt n = toString n := by
  cases n with
  | ofNat m =>
    have : ¬ ((Int.ofNat m) < 0) := by simp
    simp only [FormatInt, this, if_false, FormatUint_eq_repr]
    rfl
  | negSucc m =>
    have : (Int.negSucc m) < 0 := Int.negSucc_lt_zero m
    simp only [FormatInt, this, if_true, decimalDigits_eq_toDigitsCore]
    rfl

theorem decodeHooks_none (env : Env) (attr : Option AttributeValue) (t : GoType) (a : Bool)
    (d : Data) (hf : t.decHookFree = true) : decodeHooks env attr ⟨t, a, d⟩ = none := by
  simp only [GoType.decHookFree, MethodSet.unmarshals, Bool.and_eq_true, Bool.not_eq_true',
    Bool.and_eq_false_iff, Bool.or_eq_false_iff, decide_eq_false_iff_not] at hf
  obtain ⟨h1, h2⟩ := hf
  simp only [decodeHooks, Value.Addr]
  have a1 : ¬ (t.methods.numMethod > 0 ∧ t.methods.jsonMarshaler = true) := by
    rintro ⟨x, y⟩
    rcases h1 with h | h
    · exact h x
    · rw [h.1] at y; cases y
  have a2 : ¬ (t.methods.numMethod > 0 ∧ t.methods.textUnmarshaler = true) := by
    rintro ⟨x, y⟩
    rcases h1 with h | h
    · exact h x
    · rw [h.2] at y; cases y
  have a3 : ¬ ((GoType.ptr t).methods.numMethod > 0 ∧
      (GoType.ptr t).methods.jsonMarshaler = true) := by
    rintro ⟨x, y⟩
    rcases h2 with h | h
    · exact h x
    · rw [h.1] at y; cases y
  have a4 : ¬ ((GoType.ptr t).methods.numMethod > 0 ∧
      (GoType.ptr t).methods.textUnmarshaler = true) := by
    rintro ⟨x, y⟩
    rcases h2 with h | h
    · exact h x
    · rw [h.2] at y; cases y
  simp only [a1, a2, a3, a4, if_false, ite_self]

/-- Decoding a Number into an addressable hook-free destination of signed integer kind. -/
theorem decode_int (env : Env) (fuel : Nat) (t : GoType) (w : Nat) (s : String) (prior : Data)
    (ht : t.underlying = .int w) (hf : t.decHookFree = true) :
    decodeAttribute env (fuel + 1) (some (AttributeValue.ofN s)) ⟨t, true, prior⟩
      = (match ParseInt s with
        | none => ⟨prior, .error ⟨"overflow number " ++ s, true⟩⟩
        | some n =>
          if OverflowInt w n then ⟨prior, .error ⟨"overflow number " ++ s, true⟩⟩
          else ⟨.int n, .ok ()⟩) := by
  simp only [decodeAttribute, decodeBody, ht, decodeValue, decodeHooks_none env _ t true _ hf]
  unfold decodeKind
  simp only [ht, AttributeValue.ofN, AttributeValue.N, setValue, if_true]

/-- Decoding a Number into an addressable hook-free destination of unsigned integer kind. -/
theorem decode_uint (env : Env) (fuel : Nat) (t : GoType) (w : Nat) (s : String) (prior : Data)
    (ht : t.underlying = .uint w) (hf : t.decHookFree = true) :
    decodeAttribute env (fuel + 1) (some (AttributeValue.ofN s)) ⟨t, true, prior⟩
      = (match ParseUint s with
        | none => ⟨prior, .error ⟨"overflow number " ++ s, true⟩⟩
        | some n =>
          if OverflowUint w n then ⟨prior, .error ⟨"overflow number " ++ s, true⟩⟩
          else ⟨.uint n, .ok ()⟩) := by
  simp only [decodeAttribute, decodeBody, ht, decodeValue, decodeHooks_none env _ t true _ hf]
  unfold decodeKind
  simp only [ht, AttributeValue.ofN, AttributeValue.N, setValue, if_true]

/-- Converting a value of a hook-free integer kind. -/
theorem convert_int (env : Env) (fuel : Nat) (t : GoType) (w : Nat) (a : Bool) (n : Int)
    (ht : t.underlying = .int w) (hf : t.encHookFree = true) :
    convertToAttribute env (fuel + 1) ⟨t, a, .int n⟩
      = .ok (some (AttributeValue.ofN (FormatInt n))) := by
  have hi := indirect_of_shape t a (.int n) (by simp [ht]) (by simp [ht])
  simp only [convertToAttribute, convertBody, encodeHooks_none env t a _ hf, hi]
  unfold encodeKind
  simp only [ht, convertToNumericString]

theorem convert_uint (env : Env) (fuel : Nat) (t : GoType) (w : Nat) (a : Bool) (n : Nat)
    (ht : t.underlying = .uint w) (hf : t.encHookFree = true) :
    convertToAttribute env (fuel + 1) ⟨t, a, .uint n⟩
      = .ok (some (AttributeValue.ofN (FormatUint n))) := by
  have hi := indirect_of_shape t a (.uint n) (by simp [ht]) (by simp [ht])
  simp only [convertToAttribute, convertBody, encodeHooks_none env t a _ hf, hi]
  unfold encodeKind
  simp only [ht, convertToNumericString]

/-! ## Claims on numbers -/

/-- C6. Integer round trip: a signed 64-bit integer `n` converts to the Number whose text is
the base-10 representation of `n`, and decoding that Number into a signed 64-bit destination
returns no error and sets it to `n`, whatever it held; likewise for unsigned 64-bit integers.
The types are hook-free types of 64-bit integer kind. -/
theorem C6_integer_round_trip (env : Env) (fuel : Nat) (t : GoType) (a : Bool)
    (he : t.encHookFree = true) (hd : t.decHookFree = true) :
    (t.underlying = .int 64 → ∀ (n : Int) (prior : Data),
      - (2 : Int) ^ 63 ≤ n → n < (2 : Int) ^ 63 →
      FormatInt n = toString n ∧
      convertToAttribute env (fuel + 1) ⟨t, a, .int n⟩
        = .ok (some (AttributeValue.ofN (FormatInt n))) ∧
      decodeAttribute env (fuel + 1) (some (AttributeValue.ofN (FormatInt n))) ⟨t, true, prior⟩
        = ⟨.int n, .ok ()⟩) ∧
    (t.underlying = .uint 64 → ∀ (n : Nat) (prior : Data), n < 2 ^ 64 →
      FormatUint n = toString n ∧
      convertToAttribute env (fuel + 1) ⟨t, a, .uint n⟩
        = .ok (some (AttributeValue.ofN (FormatUint n))) ∧
      decodeAttribute env (fuel + 1) (some (AttributeValue.ofN (FormatUint n))) ⟨t, true, prior⟩
        = ⟨.uint n, .ok ()⟩) := by
  constructor
  · intro ht n prior h1 h2
    refine ⟨FormatInt_eq_repr n, convert_int env fuel t 64 a n ht he, ?_⟩
    rw [decode_int env fuel t 64 _ prior ht hd, ParseInt_FormatInt n h1 h2]
    have : OverflowInt 64 n = false := by
      simp only [OverflowInt, decide_eq_false_iff_not]
      omega
    simp [this]
  · intro ht n prior h
    refine ⟨FormatUint_eq_repr n, convert_uint env fuel t 64 a n ht he, ?_⟩
    rw [decode_uint env fuel t 64 _ prior ht hd, ParseUint_FormatUint n h]
    have : OverflowUint 64 n = false := by
      simp only [OverflowUint, decide_eq_false_iff_not]
      omega
    simp [this]

theorem C6_integer_round_trip_witness :
    (GoType.int 64).encHookFree = true ∧ (GoType.int 64).decHookFree = true ∧
    (GoType.int 64).underlying = .int 64 ∧
    - (2 : Int) ^ 63 ≤ -1234567167890123456 ∧ (-1234567167890123456 : Int) < (2 : Int) ^ 63 ∧
    FormatInt (-1234567167890123456) = "-1234567167890123456" ∧
    decodeAttribute sampleEnv (0 + 1) (some (AttributeValue.ofN (FormatInt (-1234567167890123456))))
        ⟨.int 64, true, .int 7⟩
      = ⟨.int (-1234567167890123456), .ok ()⟩ :=
  ⟨rfl, rfl, rfl, by decide, by decide, by rfl,
    (((C6_integer_round_trip sampleEnv 0 (.int 64) false rfl rfl).1 rfl
      (-1234567167890123456) (.int 7) (by decide) (by decide))).2.2⟩

theorem ParseInt_eq_some (s : String) (n : Int) :
    ParseInt s = some n ↔
      signedLiteral s = some n ∧ - (2 : Int) ^ 63 ≤ n ∧ n < (2 : Int) ^ 63 := by
  simp only [ParseInt, signedLiteral]
  rcases hdata : s.data with _ | ⟨c, cs⟩
  · simp
  · simp only
    by_cases hm : c = '-'
    · subst hm
      simp only [or_true, if_true, true_and, not_true_eq_false, false_and, if_false]
      rcases cs with _ | ⟨c1, cs1⟩
      · simp [digitsNumber]
      · simp only [digitsNumber]
        rcases hv : decimalValue (c1 :: cs1) 0 with _ | un
        · simp
        · simp only [Option.map_some']
          by_cases hb : un > 2 ^ 63
          · simp only [hb, if_true, reduceCtorEq, Option.some.injEq, false_iff, not_and]
            intro h
            omega
          · simp only [hb, if_false, Option.some.injEq]
            constructor
            · intro h
              omega
            · intro h
              exact h.1
    · by_cases hp : c = '+'
      · subst hp
        simp only [true_or, if_true, hm, if_false, not_false_eq_true, true_and, false_and]
        rcases cs with _ | ⟨c1, cs1⟩
        · simp [digitsNumber]
        · simp only [digitsNumber]
          rcases hv : decimalValue (c1 :: cs1) 0 with _ | un
          · simp
          · simp only [Option.map_some']
            by_cases hb : un ≥ 2 ^ 63
            · simp only [hb, if_true, reduceCtorEq, Option.some.injEq, false_iff, not_and]
              intro h
              omega
            · simp only [hb, if_false, Option.some.injEq]
              constructor
              · intro h
                omega
              · intro h
                exact h.1
      · simp only [hm, hp, or_self, if_false, not_false_eq_true, true_and, false_and,
          digitsNumber]
        rcases hv : decimalValue (c :: cs) 0 with _ | un
        · simp
        · simp only [Option.map_some']
          by_cases hb : un ≥ 2 ^ 63
          · simp only [hb, if_true, reduceCtorEq, Option.some.injEq, false_iff, not_and]
            intro h
            omega
          · simp only [hb, if_false, Option.some.injEq]
            constructor
            · intro h
              omega
            · intro h
              exact h.1

theorem ParseUint_eq_some (s : String) (n : Nat) :
    ParseUint s = some n ↔ unsignedLiteral s = some n ∧ n < 2 ^ 64 := by
  simp only [ParseUint, unsignedLiteral]
  rcases hdata : s.data with _ | ⟨c, cs⟩
  · simp [digitsNumber]
  · simp only [digitsNumber]
    rcases hv : decimalValue (c :: cs) 0 with _ | un
    · simp
    · by_cases hb : un < 2 ^ 64
      · simp only [hb, if_true, Option.some.injEq]
        constructor
        · intro h
          subst h
          exact ⟨rfl, hb⟩
        · intro h
          exact h.1
      · simp only [hb, if_false, reduceCtorEq, Option.some.injEq, false_iff, not_and]
        intro h
        omega

theorem pow_le_of_width (w : Nat) (hw : w ∈ [8, 16, 32, 64]) :
    (2 : Int) ^ (w - 1) ≤ (2 : Int) ^ 63 ∧ 2 ^ w ≤ 2 ^ 64 := by
  simp only [List.mem_cons, List.mem_singleton, List.not_mem_nil, or_false] at hw
  rcases hw with rfl | rfl | rfl | rfl <;> constructor <;> norm_num

/-- C7, amended. Integer overflow detection: decoding a Number with text `t` into an integer
destination of `w` bits stores the value of `t` when `t` is a decimal literal accepted for the
signedness of the destination (one or more digits, with an optional sign `+` or `-` for a signed
destination and no sign at all for an unsigned one) whose value fits the width; in every other
case it returns a DecodeError with the overflow flag set and the destination keeps its prior
value. -/
theorem C7_integer_overflow_detection (env : Env) (fuel : Nat) (w : Nat) (t : GoType)
    (text : String) (prior : Data) (hw : w ∈ [8, 16, 32, 64]) (hf : t.decHookFree = true) :
    (t.underlying = .int w →
      (∀ n : Int, signedLiteral text = some n → fitsSigned w n →
        decodeAttribute env (fuel + 1) (some (AttributeValue.ofN text)) ⟨t, true, prior⟩
          = ⟨.int n, .ok ()⟩) ∧
      ((∀ n : Int, signedLiteral text = some n → ¬ fitsSigned w n) →
        ∃ msg, decodeAttribute env (fuel + 1) (some (AttributeValue.ofN text)) ⟨t, true, prior⟩
          = ⟨prior, .error ⟨msg, true⟩⟩)) ∧
    (t.underlying = .uint w →
      (∀ n : Nat, unsignedLiteral text = some n → fitsUnsigned w n →
        decodeAttribute env (fuel + 1) (some (AttributeValue.ofN text)) ⟨t, true, prior⟩
          = ⟨.uint n, .ok ()⟩) ∧
      ((∀ n : Nat, unsignedLiteral text = some n → ¬ fitsUnsigned w n) →
        ∃ msg, decodeAttribute env (fuel + 1) (some (AttributeValue.ofN text)) ⟨t, true, prior⟩
          = ⟨prior, .error ⟨msg, true⟩⟩)) := by
  obtain ⟨hp1, hp2⟩ := pow_le_of_width w hw
  constructor
  · intro ht
    rw [decode_int env fuel t w text prior ht hf]
    constructor
    · intro n hl hfit
      have hfit2 := hfit
      simp only [fitsSigned] at hfit
      have hparse : ParseInt text = some n := (ParseInt_eq_some text n).2 ⟨hl, by omega, by omega⟩
      have hov : OverflowInt w n = false := by
        simp only [OverflowInt, decide_eq_false_iff_not]
        omega
      simp [hparse, hov]
    · intro hno
      rcases hparse : ParseInt text with _ | n
      · exact ⟨_, rfl⟩
      · have hl := ((ParseInt_eq_some text n).1 hparse).1
        have hnf := hno n hl
        have hov : OverflowInt w n = true := by
          simp only [OverflowInt, decide_eq_true_eq]
          simp only [fitsSigned] at hnf
          omega
        exact ⟨"overflow number " ++ text, by simp [hov]⟩
  · intro ht
    rw [decode_uint env fuel t w text prior ht hf]
    constructor
    · intro n hl hfit
      simp only [fitsUnsigned] at hfit
      have hparse : ParseUint text = some n := (ParseUint_eq_some text n).2 ⟨hl, by omega⟩
      have hov : OverflowUint w n = false := by
        simp only [OverflowUint, decide_eq_false_iff_not]
        omega
      simp [hparse, hov]
    · intro hno
      rcases hparse : ParseUint text with _ | n
      · exact ⟨_, rfl⟩
      · have hl := ((ParseUint_eq_some text n).1 hparse).1
        have hnf := hno n hl
        have hov : OverflowUint w n = true := by
          simp only [OverflowUint, decide_eq_true_eq]
          simp only [fitsUnsigned] at hnf
          omega
        exact ⟨"overflow number " ++ text, by simp [hov]⟩

theorem C7_integer_overflow_detection_witness :
    (8 ∈ [8, 16, 32, 64]) ∧ (GoType.int 8).decHookFree = true ∧
    (GoType.int 8).underlying = .int 8 ∧
    (∀ n : Int, signedLiteral "200" = some n → ¬ fitsSigned 8 n) ∧
    ∃ msg, decodeAttribute sampleEnv (0 + 1) (some (AttributeValue.ofN "200"))
      ⟨.int 8, true, .int 3⟩ = ⟨.int 3, .error ⟨msg, true⟩⟩ :=
  have h200 : ∀ n : Int, signedLiteral "200" = some n → ¬ fitsSigned 8 n := by
    intro n hn
    have : signedLiteral "200" = some 200 := by decide
    rw [this] at hn
    cases hn
    simp [fitsSigned]
  ⟨by decide, rfl, rfl, h200,
    ((C7_integer_overflow_detection sampleEnv 0 8 (.int 8) "200" (.int 3) (by decide) rfl).1
      rfl).2 h200⟩

/-- C7 as stated fails for every reading of "base-10 integer literal": the text `+5` is
stored as 5 in a signed 8-bit destination, so a reading under which the claim holds there has
to give it the value 5, which fits 8 bits unsigned as well; decoding `+5` into an unsigned
8-bit destination returns the overflow error. -/
theorem C7_counterexample : ¬ ∃ lit : String → Option Int, OverflowClaim sampleEnv 0 lit := by
  rintro ⟨lit, h⟩
  obtain ⟨hs, hu⟩ := h 8 "+5" (by decide)
  have dS : decodeAttribute sampleEnv (0 + 1) (some (AttributeValue.ofN "+5"))
      ⟨.int 8, true, .int 0⟩ = ⟨.int 5, .ok ()⟩ := rfl
  have dU : decodeAttribute sampleEnv (0 + 1) (some (AttributeValue.ofN "+5"))
      ⟨.uint 8, true, .uint 0⟩ = ⟨.uint 0, .error ⟨"overflow number +5", true⟩⟩ := rfl
  have hlit : lit "+5" = some 5 := by
    by_contra hne
    have hnone : ∀ n : Int, lit "+5" = some n → ¬ fitsSigned 8 n := by
      intro n hn hfit
      have h1 := (hs 0).1 n hn hfit
      rw [dS] at h1
      simp only [DecOut.mk.injEq, Data.int.injEq, and_true] at h1
      subst h1
      exact hne hn
    obtain ⟨msg, h2⟩ := (hs 0).2 hnone
    rw [dS] at h2
    simp at h2
  have h3 := (hu 0).1 5 hlit (by simp [fitsUnsigned])
  rw [dU] at h3
  simp at h3
/-! ## Lemmas on lists, maps and field tables -/

theorem zeroFields_eq_map (fields : List (StructField × GoType)) :
    zeroFields fields = fields.map (fun f => zero f.2) := by
  induction fields with
  | nil => rfl
  | cons f rest ih =>
    obtain ⟨sf, t⟩ := f
    simp [zeroFields, ih]

theorem mem_zip_of_get? {α β : Type} : ∀ (l1 : List α) (l2 : List β) (i : Nat) (a : α) (b : β),
    l1.get? i = some a → l2.get? i = some b → (a, b) ∈ l1.zip l2
  | [], _, _, _, _, h, _ => by cases h
  | _ :: _, [], _, _, _, _, h => by cases h
  | x :: xs, y :: ys, 0, a, b, h1, h2 => by
    simp only [List.get?_cons_zero, Option.some.injEq] at h1 h2
    subst h1 h2
    simp
  | x :: xs, y :: ys, i + 1, a, b, h1, h2 => by
    simp only [List.get?_cons_succ] at h1 h2
    have := mem_zip_of_get? xs ys i a b h1 h2
    simp only [List.zip_cons_cons, List.mem_cons]
    exact Or.inr this

/-- A common fuel bound for the members of a list. -/
theorem exists_common_bound {α : Type} (Q : Nat → α → Prop) (l : List α)
    (h : ∀ x ∈ l, ∃ n, ∀ fuel, n ≤ fuel → Q fuel x) :
    ∃ N, ∀ fuel, N ≤ fuel → ∀ x ∈ l, Q fuel x := by
  induction l with
  | nil => exact ⟨0, fun _ _ x hx => by cases hx⟩
  | cons y rest ih =>
    obtain ⟨n1, h1⟩ := h y (List.mem_cons_self _ _)
    obtain ⟨n2, h2⟩ := ih (fun x hx => h x (List.mem_cons_of_mem _ hx))
    refine ⟨max n1 n2, fun fuel hf x hx => ?_⟩
    simp only [List.mem_cons] at hx
    rcases hx with rfl | hx
    · exact h1 fuel (le_trans (le_max_left _ _) hf)
    · exact h2 fuel (le_trans (le_max_right _ _) hf) x hx

theorem map_uint_bytes (xs : List Data) (hb : ∀ x ∈ xs, ∃ b : Nat, x = .uint b) :
    (xs.map (fun x => match x with
      | .uint n => n
      | _ => 0)).map Data.uint = xs := by
  induction xs with
  | nil => rfl
  | cons x rest ih =>
    obtain ⟨b, rfl⟩ := hb x (List.mem_cons_self _ _)
    simp only [List.map_cons, List.cons.injEq, true_and]
    exact ih (fun y hy => hb y (List.mem_cons_of_mem _ hy))

theorem forall₂_of_forall_mem {α β : Type} (R : α → β → Prop) (xs : List α)
    (h : ∀ x ∈ xs, ∃ o, R x o) : ∃ outs, List.Forall₂ R xs outs := by
  induction xs with
  | nil => exact ⟨[], List.Forall₂.nil⟩
  | cons x rest ih =>
    obtain ⟨o, ho⟩ := h x (List.mem_cons_self _ _)
    obtain ⟨outs, houts⟩ := ih (fun y hy => h y (List.mem_cons_of_mem _ hy))
    exact ⟨o :: outs, List.Forall₂.cons ho houts⟩

theorem encodeElems_of_forall₂ (self : Value → EncOut) (t : GoType) (a : Bool)
    (xs : List Data) (outs : List AttributeValue)
    (h : List.Forall₂ (fun x o => self ⟨t, a, x⟩ = .ok (some o)) xs outs) :
    encodeElems self t a xs = .ok (outs.map some) := by
  induction h with
  | nil => rfl
  | cons h1 _ ih => simp [encodeElems, h1, ih, orNull]

theorem decodeElems_of_forall₂ (self : Option AttributeValue → Value → DecOut) (e : GoType)
    (xs : List Data) (outs : List AttributeValue)
    (h : List.Forall₂ (fun x o => self (some o) ⟨e, true, zero e⟩ = ⟨x, .ok ()⟩) xs outs) :
    decodeElems self e true (outs.map some) (List.replicate xs.length (zero e))
      = (xs, .ok ()) := by
  induction h with
  | nil => rfl
  | cons h1 _ ih =>
    simp only [List.map_cons, List.length_cons, List.replicate_succ, decodeElems, h1, ih]

theorem mapSet_append {β : Type} (acc : List (String × β)) (k : String) (v : β)
    (h : k ∉ acc.map Prod.fst) : mapSet acc k v = acc ++ [(k, v)] := by
  induction acc with
  | nil => rfl
  | cons e rest ih =>
    obtain ⟨k1, v1⟩ := e
    simp only [List.map_cons, List.mem_cons, not_or] at h
    have hne : ¬ k1 = k := fun h1 => h.1 h1.symm
    simp only [mapSet, hne, if_false, List.cons_append, ih h.2]

theorem setMapIndex_append (acc : List (Data × Data)) (k : String) (x : Data)
    (h : ∀ kv ∈ acc, ∃ s : String, kv.1 = .str s ∧ s ≠ k) :
    setMapIndex acc k x = acc ++ [(.str k, x)] := by
  induction acc with
  | nil => rfl
  | cons e rest ih =>
    obtain ⟨k1, x1⟩ := e
    obtain ⟨s, hs, hne⟩ := h (k1, x1) (List.mem_cons_self _ _)
    simp only at hs
    subst hs
    simp only [setMapIndex, hne, if_false, List.cons_append,
      ih (fun kv hkv => h kv (List.mem_cons_of_mem _ hkv))]

theorem encodeEntries_of_forall₂ (self : Value → EncOut) (t : GoType)
    (entries : List (Data × Data)) (wire : AttributeValueMap)
    (h : List.Forall₂ (fun kv we => we.1 = keyString kv.1 ∧
      ∃ o, we.2 = some o ∧ self ⟨t, false, kv.2⟩ = .ok (some o)) entries wire) :
    ∀ acc : AttributeValueMap, (wire.map Prod.fst).Nodup →
      (∀ k ∈ wire.map Prod.fst, k ∉ acc.map Prod.fst) →
      encodeEntries self t entries acc = .ok (acc ++ wire) := by
  induction h with
  | nil => intro acc _ _; simp [encodeEntries]
  | @cons kv we rest wrest h1 _ ih =>
    intro acc hnd hdis
    obtain ⟨key, x⟩ := kv
    obtain ⟨k, c⟩ := we
    obtain ⟨hk, o, ho, hs⟩ := h1
    simp only at hk ho hs
    subst hk ho
    simp only [List.map_cons, List.nodup_cons] at hnd
    have hk : keyString key ∉ acc.map Prod.fst :=
      hdis _ (by simp)
    simp only [encodeEntries, hs, orNull, mapSet_append acc _ _ hk]
    rw [ih _ hnd.2]
    · simp
    · intro k1 hk1
      simp only [List.map_append, List.map_cons, List.map_nil, List.mem_append,
        List.mem_singleton, not_or]
      refine ⟨hdis k1 (by simp [hk1]), ?_⟩
      intro heq
      subst heq
      exact hnd.1 hk1

theorem decodeMap_of_forall₂ (self : Option AttributeValue → Value → DecOut) (e : GoType)
    (entries : List (Data × Data)) (wire : AttributeValueMap)
    (h : List.Forall₂ (fun kv we => kv.1 = Data.str we.1 ∧
      ∃ o, we.2 = some o ∧ self (some o) ⟨e, true, zero e⟩ = ⟨kv.2, .ok ()⟩) entries wire) :
    ∀ acc : List (Data × Data), (wire.map Prod.fst).Nodup →
      (∀ kv ∈ acc, ∃ s : String, kv.1 = .str s ∧ s ∉ wire.map Prod.fst) →
      decodeMap self e wire (some acc) = ⟨.map (some (acc ++ entries)), .ok ()⟩ := by
  induction h with
  | nil => intro acc _ _; simp [decodeMap]
  | @cons kv we rest wrest h1 _ ih =>
    intro acc hnd hdis
    obtain ⟨key, x⟩ := kv
    obtain ⟨k, c⟩ := we
    obtain ⟨hk, o, ho, hs⟩ := h1
    simp only at hk ho hs
    subst hk ho
    simp only [List.map_cons, List.nodup_cons] at hnd
    have happ : setMapIndex acc k x = acc ++ [(.str k, x)] := by
      apply setMapIndex_append
      intro kv hkv
      obtain ⟨s, hs1, hs2⟩ := hdis kv hkv
      refine ⟨s, hs1, ?_⟩
      intro heq
      subst heq
      exact hs2 (by simp)
    simp only [decodeMap, hs, happ]
    rw [ih _ hnd.2]
    · simp
    · intro kv hkv
      simp only [List.mem_append, List.mem_singleton] at hkv
      rcases hkv with hkv | rfl
      · obtain ⟨s, hs1, hs2⟩ := hdis kv hkv
        exact ⟨s, hs1, fun hmem => hs2 (by simp [hmem])⟩
      · exact ⟨k, rfl, hnd.1⟩

theorem find?_of_nodup_names (table : List Field) (g : Field)
    (hnd : (table.map (fun f => f.name)).Nodup) (hg : g ∈ table) :
    table.find? (fun f => decide (f.name = g.name)) = some g := by
  induction table with
  | nil => cases hg
  | cons h rest ih =>
    simp only [List.map_cons, List.nodup_cons] at hnd
    simp only [List.mem_cons] at hg
    rcases hg with rfl | hg
    · simp [List.find?]
    · have hne : ¬ h.name = g.name := by
        intro heq
        apply hnd.1
        rw [heq]
        exact List.mem_map_of_mem (fun f => f.name) hg
      simp only [List.find?, hne, decide_False]
      exact ih hnd.2 hg

theorem get?_zeroFields (fields : List (StructField × GoType)) (i : Nat)
    (ft : StructField × GoType) (h : fields.get? i = some ft) :
    (zeroFields fields).get? i = some (zero ft.2) := by
  rw [List.get?_eq_getElem?] at h
  rw [zeroFields_eq_map, List.get?_eq_getElem?, List.getElem?_map, h]
  rfl

/-! ## Claims on byte slices, map keys and floats -/

theorem map_uint_extract (bs : List Nat) :
    (bs.map Data.uint).map (fun x => match x with
      | .uint n => n
      | _ => 0) = bs := by
  induction bs with
  | nil => rfl
  | cons b rest ih => simp only [List.map_cons, ih]

/-- C11. A byte slice converts to Binary carrying exactly its bytes when it is not empty and
to Null when it is nil or empty; decoding the Binary of a non-empty byte slice into a byte-slice
destination returns no error and leaves the same bytes there. The type is `[]byte` or a
hook-free defined type over it. -/
theorem C11_byte_slice (env : Env) (fuel : Nat) (t : GoType) (a : Bool)
    (ht : t.underlying = .slice (.uint 8)) (he : t.encHookFree = true)
    (hd : t.decHookFree = true) :
    (∀ bs : List Nat, bs ≠ [] →
      convertToAttribute env (fuel + 1) ⟨t, a, .slice (some (bs.map Data.uint))⟩
        = .ok (some (AttributeValue.ofB bs))) ∧
    convertToAttribute env (fuel + 1) ⟨t, a, .slice none⟩
      = .ok (some (AttributeValue.ofNULL true)) ∧
    convertToAttribute env (fuel + 1) ⟨t, a, .slice (some [])⟩
      = .ok (some (AttributeValue.ofNULL true)) ∧
    (∀ (bs : List Nat) (prior : Data), bs ≠ [] →
      decodeAttribute env (fuel + 1) (some (AttributeValue.ofB bs)) ⟨t, true, prior⟩
        = ⟨.slice (some (bs.map Data.uint)), .ok ()⟩) := by
  have hi := fun d => indirect_of_shape t a d (by simp [ht]) (by simp [ht])
  refine ⟨?_, ?_, ?_, ?_⟩
  · intro bs hne
    have hlen : ¬ (bs.map Data.uint).length = 0 := by
      rw [List.length_map]
      exact fun h => hne (List.length_eq_zero.1 h)
    simp only [convertToAttribute, convertBody, encodeHooks_none env t a _ he, hi]
    unfold encodeKind
    simp only [ht, hlen, if_false, GoType.isUint8, GoType.underlying, if_true,
      map_uint_extract]
  · simp only [convertToAttribute, convertBody, encodeHooks_none env t a _ he, hi]
    unfold encodeKind
    simp only [ht, nullAttribute]
  · simp only [convertToAttribute, convertBody, encodeHooks_none env t a _ he, hi]
    unfold encodeKind
    simp only [ht, nullAttribute, List.length_nil, if_true]
  · intro bs prior _
    simp only [decodeAttribute, decodeBody, ht, decodeValue,
      decodeHooks_none env _ t true _ hd]
    unfold decodeKind
    simp only [ht, GoType.isUint8, GoType.underlying, if_true, decodeBytes, AttributeValue.ofB,
      AttributeValue.B, setAssignable, setValue]

theorem C11_byte_slice_witness :
    (GoType.slice (.uint 8)).underlying = .slice (.uint 8) ∧
    (GoType.slice (.uint 8)).encHookFree = true ∧ (GoType.slice (.uint 8)).decHookFree = true ∧
    ([123, 34] : List Nat) ≠ [] ∧
    convertToAttribute sampleEnv (0 + 1)
        ⟨.slice (.uint 8), false, .slice (some (([123, 34] : List Nat).map Data.uint))⟩
      = .ok (some (AttributeValue.ofB [123, 34])) ∧
    decodeAttribute sampleEnv (0 + 1) (some (AttributeValue.ofB [123, 34]))
        ⟨.slice (.uint 8), true, .slice none⟩
      = ⟨.slice (some (([123, 34] : List Nat).map Data.uint)), .ok ()⟩ :=
  ⟨rfl, rfl, rfl, by simp,
    (C11_byte_slice sampleEnv 0 (.slice (.uint 8)) false rfl rfl rfl).1 [123, 34] (by simp),
    (C11_byte_slice sampleEnv 0 (.slice (.uint 8)) false rfl rfl rfl).2.2.2 [123, 34]
      (.slice none) (by simp)⟩

/-- C12, amended. A map value that is not nil and whose key type is not of string kind fails
to convert with an EncodeError and yields no wire value; a nil map converts to Null whatever
its key type. The map type is hook-free. -/
theorem C12_non_string_key (env : Env) (fuel : Nat) (t k e : GoType) (a : Bool)
    (ht : t.underlying = .map k e) (hk : k.isString = false) (hf : t.encHookFree = true) :
    (∀ entries : List (Data × Data),
      convertToAttribute env (fuel + 1) ⟨t, a, .map (some entries)⟩
        = .error ⟨"only maps with string keys are supported"⟩) ∧
    convertToAttribute env (fuel + 1) ⟨t, a, .map none⟩
      = .ok (some (AttributeValue.ofNULL true)) := by
  have hi := fun d => indirect_of_shape t a d (by simp [ht]) (by simp [ht])
  constructor
  · intro entries
    simp only [convertToAttribute, convertBody, encodeHooks_none env t a _ hf, hi]
    unfold encodeKind
    simp only [ht, hk, if_true]
  · simp only [convertToAttribute, convertBody, encodeHooks_none env t a _ hf, hi]
    unfold encodeKind
    simp only [ht, nullAttribute]

theorem C12_non_string_key_witness :
    (GoType.map (.int 64) (.int 64)).underlying = .map (.int 64) (.int 64) ∧
    (GoType.int 64).isString = false ∧
    (GoType.map (.int 64) (.int 64)).encHookFree = true ∧
    convertToAttribute sampleEnv (0 + 1)
        ⟨.map (.int 64) (.int 64), false, .map (some [(.int 1, .int 2)])⟩
      = .error ⟨"only maps with string keys are supported"⟩ :=
  ⟨rfl, rfl, rfl,
    (C12_non_string_key sampleEnv 0 (.map (.int 64) (.int 64)) (.int 64) (.int 64) false rfl rfl
      rfl).1 [(.int 1, .int 2)]⟩

/-- C12 as stated fails on nil maps: the nil value of `map[int]int`, whose key type is not of
string kind, converts to Null and not to an error. -/
theorem C12_counterexample :
    (GoType.int 64).isString = false ∧
    convertToAttribute sampleEnv 1 ⟨.map (.int 64) (.int 64), false, .map none⟩
      = .ok (some (AttributeValue.ofNULL true)) ∧
    ¬ ∃ err, convertToAttribute sampleEnv 1 ⟨.map (.int 64) (.int 64), false, .map none⟩
      = .error err := by
  refine ⟨rfl, rfl, ?_⟩
  rintro ⟨err, h⟩
  have h1 : convertToAttribute sampleEnv 1 ⟨.map (.int 64) (.int 64), false, .map none⟩
      = .ok (some (AttributeValue.ofNULL true)) := rfl
  rw [h1] at h
  cases h

/-- C17. Converting a floating-point value that is infinite or not a number panics: the call
returns neither a wire value nor an EncodeError. Converting a finite floating-point value
returns the Number of its formatted text. The type is a hook-free type of float kind. -/
theorem C17_non_finite_float (env : Env) (fuel : Nat) (t : GoType) (bits : Nat) (a : Bool)
    (ht : t.underlying = .float bits) (hf : t.encHookFree = true) :
    (∀ num exp : Int,
      convertToAttribute env (fuel + 1) ⟨t, a, .float (.finite num exp)⟩
        = .ok (some (AttributeValue.ofN (env.formatFloat (.finite num exp) bits)))) ∧
    convertToAttribute env (fuel + 1) ⟨t, a, .float .nan⟩
      = .panic "aws.dynamodb.convertToNumericString: NaN and infinite floats not supported" ∧
    (∀ negative : Bool,
      convertToAttribute env (fuel + 1) ⟨t, a, .float (.inf negative)⟩
        = .panic "aws.dynamodb.convertToNumericString: NaN and infinite floats not supported")
    := by
  have hi := fun d => indirect_of_shape t a d (by simp [ht]) (by simp [ht])
  refine ⟨?_, ?_, ?_⟩
  · intro num exp
    simp only [convertToAttribute, convertBody, encodeHooks_none env t a _ hf, hi]
    unfold encodeKind
    simp only [ht, convertToNumericString]
  · simp only [convertToAttribute, convertBody, encodeHooks_none env t a _ hf, hi]
    unfold encodeKind
    simp only [ht, convertToNumericString]
  · intro negative
    simp only [convertToAttribute, convertBody, encodeHooks_none env t a _ hf, hi]
    unfold encodeKind
    simp only [ht, convertToNumericString]

theorem C17_non_finite_float_witness :
    (GoType.float 64).underlying = .float 64 ∧ (GoType.float 64).encHookFree = true ∧
    convertToAttribute sampleEnv (0 + 1) ⟨.float 64, false, .float (.inf true)⟩
      = .panic "aws.dynamodb.convertToNumericString: NaN and infinite floats not supported" ∧
    convertToAttribute sampleEnv (0 + 1) ⟨.float 64, false, .float (.finite 101 (-2))⟩
      = .ok (some (AttributeValue.ofN "0")) :=
  ⟨rfl, rfl, (C17_non_finite_float sampleEnv 0 (.float 64) 64 false rfl rfl).2.2 true,
    (C17_non_finite_float sampleEnv 0 (.float 64) 64 false rfl rfl).1 101 (-2)⟩

/-! ## Record encoding, field by field -/

theorem encodeFields_cons (env : Env) (self : Value → EncOut) (v : Value) (f : Field)
    (rest : List Field) (acc : AttributeValueMap) :
    encodeFields env self v (f :: rest) acc =
      match keptField env v f with
      | none => encodeFields env self v rest acc
      | some fv =>
        match self fv with
        | .ok (some a) => encodeFields env self v rest (mapSet acc f.name (some a))
        | .ok none => encodeFields env self v rest acc
        | .error e => .error e
        | .panic m => .panic m
        | .outOfFuel => .outOfFuel := by
  rw [encodeFields, keptField]
  cases fieldByIndex v f.index with
  | none => rfl
  | some fv =>
    by_cases hc : f.omitEmpty = true ∧ env.isEmptyValue fv = true
    · simp only [hc, and_self, if_true]
    · simp only [hc, if_false]
      cases self fv with
      | ok o => cases o <;> rfl
      | error e => rfl
      | panic m => rfl
      | outOfFuel => rfl

theorem recordEntry_name (env : Env) (self : Value → EncOut) (v : Value) (f : Field)
    (e : String × Option AttributeValue) (h : recordEntry env self v f = some e) :
    e.1 = f.name ∧ ∃ fv av, keptField env v f = some fv ∧ self fv = .ok (some av) ∧
      e = (f.name, some av) := by
  unfold recordEntry at h
  cases hk : keptField env v f with
  | none => simp only [hk] at h; cases h
  | some fv =>
    simp only [hk] at h
    cases hs : self fv with
    | ok o =>
      cases o with
      | none => simp only [hs] at h; cases h
      | some av =>
        simp only [hs, Option.some.injEq] at h
        subst h
        exact ⟨rfl, fv, av, rfl, hs, rfl⟩
    | error e => simp only [hs] at h; cases h
    | panic m => simp only [hs] at h; cases h
    | outOfFuel => simp only [hs] at h; cases h

theorem recordEntry_keys_sublist (env : Env) (self : Value → EncOut) (v : Value)
    (table : List Field) :
    ((table.filterMap (recordEntry env self v)).map Prod.fst).Sublist
      (table.map Field.name) := by
  induction table with
  | nil => exact List.Sublist.slnil
  | cons f rest ih =>
    cases h : recordEntry env self v f with
    | none =>
      rw [List.filterMap_cons_none h, List.map_cons]
      exact List.Sublist.cons _ ih
    | some e =>
      rw [List.filterMap_cons_some h, List.map_cons, List.map_cons,
        (recordEntry_name env self v f e h).1]
      exact List.Sublist.cons₂ _ ih

theorem encodeFields_closed (env : Env) (self : Value → EncOut) (v : Value) :
    ∀ (table : List Field) (acc : AttributeValueMap),
      (table.map Field.name).Nodup →
      (∀ f ∈ table, f.name ∉ acc.map Prod.fst) →
      (∀ f ∈ table, ∀ fv, keptField env v f = some fv → ∃ o, self fv = .ok o) →
      encodeFields env self v table acc
        = .ok (acc ++ table.filterMap (recordEntry env self v)) := by
  intro table
  induction table with
  | nil =>
    intro acc _ _ _
    simp only [encodeFields, List.filterMap_nil, List.append_nil]
  | cons f rest ih =>
    intro acc hnd hacc hok
    rw [List.map_cons, List.nodup_cons] at hnd
    have hrest : ∀ g ∈ rest, g.name ∉ acc.map Prod.fst :=
      fun g hg => hacc g (List.mem_cons_of_mem _ hg)
    have hokr : ∀ g ∈ rest, ∀ gv, keptField env v g = some gv → ∃ o, self gv = .ok o :=
      fun g hg => hok g (List.mem_cons_of_mem _ hg)
    rw [encodeFields_cons]
    cases hk : keptField env v f with
    | none =>
      have hre : recordEntry env self v f = none := by simp only [recordEntry, hk]
      simp only [List.filterMap_cons_none hre]
      exact ih acc hnd.2 hrest hokr
    | some fv =>
      obtain ⟨o, ho⟩ := hok f (List.mem_cons_self _ _) fv hk
      cases o with
      | none =>
        have hre : recordEntry env self v f = none := by simp only [recordEntry, hk, ho]
        simp only [ho, List.filterMap_cons_none hre]
        exact ih acc hnd.2 hrest hokr
      | some a =>
        have hre : recordEntry env self v f = some (f.name, some a) := by
          simp only [recordEntry, hk, ho]
        simp only [ho, List.filterMap_cons_some hre]
        rw [mapSet_append acc f.name (some a) (hacc f (List.mem_cons_self _ _))]
        rw [ih (acc ++ [(f.name, some a)]) hnd.2 ?_ hokr]
        · simp only [List.append_assoc, List.singleton_append]
        · intro g hg hmem
          simp only [List.map_append, List.map_cons, List.map_nil, List.mem_append,
            List.mem_singleton] at hmem
          rcases hmem with hmem | hmem
          · exact hrest g hg hmem
          · exact hnd.1 (hmem ▸ List.mem_map_of_mem Field.name hg)

theorem encodeFields_error (env : Env) (self : Value → EncOut) (v : Value) (f : Field)
    (post : List Field) (fv : Value) (err : EncodeError)
    (hk : keptField env v f = some fv) (he : self fv = .error err) :
    ∀ (pre : List Field) (acc : AttributeValueMap),
      (∀ g ∈ pre, ∀ gv, keptField env v g = some gv → ∃ o, self gv = .ok o) →
      encodeFields env self v (pre ++ f :: post) acc = .error err := by
  intro pre
  induction pre with
  | nil =>
    intro acc _
    rw [List.nil_append, encodeFields_cons]
    simp only [hk, he]
  | cons g rest ih =>
    intro acc hok
    have hokr : ∀ x ∈ rest, ∀ xv, keptField env v x = some xv → ∃ o, self xv = .ok o :=
      fun x hx => hok x (List.mem_cons_of_mem _ hx)
    rw [List.cons_append, encodeFields_cons]
    cases hg : keptField env v g with
    | none => exact ih acc hokr
    | some gv =>
      obtain ⟨o, ho⟩ := hok g (List.mem_cons_self _ _) gv hg
      cases o with
      | none =>
        simp only [ho]
        exact ih acc hokr
      | some a =>
        simp only [ho]
        exact ih _ hokr

theorem recordEncoded_of_fields (env : Env) (self : Value → EncOut) (v : Value)
    (table : List Field) (hw : ReturnsWellFormed self)
    (hnd : (table.map Field.name).Nodup) :
    RecordEncoded env self v table
      (match encodeFields env self v table [] with
      | .ok out => .ok (some (AttributeValue.ofM out))
      | .error e => .error e
      | .panic m => .panic m
      | .outOfFuel => .outOfFuel) := by
  constructor
  · intro hok
    have hsome : ∀ f ∈ table, ∀ fv, keptField env v f = some fv →
        ∃ av, self fv = .ok (some av) := by
      intro f hf fv hk
      obtain ⟨o, ho⟩ := hok f hf fv hk
      obtain ⟨av, hav, _⟩ := hw fv o ho
      exact ⟨av, hav ▸ ho⟩
    have hentry : ∀ f ∈ table, ∀ fv, keptField env v f = some fv →
        ∃ av, self fv = .ok (some av) ∧
          (f.name, some av) ∈ table.filterMap (recordEntry env self v) := by
      intro f hf fv hk
      obtain ⟨av, hav⟩ := hsome f hf fv hk
      refine ⟨av, hav, List.mem_filterMap.2 ⟨f, hf, ?_⟩⟩
      simp only [recordEntry, hk, hav]
    refine ⟨table.filterMap (recordEntry env self v), ?_, ?_, ?_, hentry, ?_⟩
    · rw [encodeFields_closed env self v table [] hnd (fun _ _ h => by cases h) hok,
        List.nil_append]
    · exact hnd.sublist (recordEntry_keys_sublist env self v table)
    · intro f hf
      constructor
      · intro hmem
        obtain ⟨e, he, hname⟩ := List.mem_map.1 hmem
        obtain ⟨g, hg, hge⟩ := List.mem_filterMap.1 he
        obtain ⟨h1, fv, av, hk, _, _⟩ := recordEntry_name env self v g e hge
        have hfg : g = f := List.inj_on_of_nodup_map hnd hg hf (by rw [← h1, hname])
        rw [← hfg, hk]
        rfl
      · intro hk
        cases hkf : keptField env v f with
        | none => rw [hkf] at hk; cases hk
        | some fv =>
          obtain ⟨av, _, hmem⟩ := hentry f hf fv hkf
          exact List.mem_map.2 ⟨_, hmem, rfl⟩
    · intro e he
      obtain ⟨g, hg, hge⟩ := List.mem_filterMap.1 he
      exact ⟨g, hg, (recordEntry_name env self v g e hge).1.symm⟩
  · intro pre post f fv err htable hok hk he
    rw [htable, encodeFields_error env self v f post fv err hk he pre [] hok]

/-- C13. Record encoding with omit-if-empty. For a record value of a hook-free record type
whose descriptor list has pairwise distinct wire keys: if the conversions of all kept fields
succeed, the result is a Record whose keys are distinct, that holds the key of a descriptor of
the list exactly when its field is reachable and not both flagged omit-if-empty and empty, that
stores under this key the conversion of the field, and that holds no other key; and the error
of the first kept field whose conversion fails is the result of the whole conversion. -/
theorem C13_record_encoding (env : Env) (fuel : Nat) (t : GoType)
    (fields : List (StructField × GoType)) (a : Bool) (fs : List Data)
    (ht : t.underlying = .struct fields) (hf : t.encHookFree = true)
    (hnd : ((env.cachedTypeFields t).map Field.name).Nodup) :
    RecordEncoded env (convertToAttribute env fuel) ⟨t, a, .struct fs⟩ (env.cachedTypeFields t)
      (convertToAttribute env (fuel + 1) ⟨t, a, .struct fs⟩) := by
  have hi := indirect_of_shape t a (.struct fs) (by simp [ht]) (by simp [ht])
  have h := recordEncoded_of_fields env (convertToAttribute env fuel) ⟨t, a, .struct fs⟩
    (env.cachedTypeFields t) (convertToAttribute_wellFormed env fuel) hnd
  have heq : convertToAttribute env (fuel + 1) ⟨t, a, .struct fs⟩ =
      (match encodeFields env (convertToAttribute env fuel) ⟨t, a, .struct fs⟩
        (env.cachedTypeFields t) [] with
      | .ok out => .ok (some (AttributeValue.ofM out))
      | .error e => .error e
      | .panic m => .panic m
      | .outOfFuel => .outOfFuel) := by
    simp only [convertToAttribute, convertBody, encodeHooks_none env t a _ hf, hi]
    unfold encodeKind
    simp only [ht, encodeStruct]
  rw [heq]
  exact h

theorem C13_record_encoding_witness :
    sampleOmitRecord.underlying = sampleOmitRecord ∧ sampleOmitRecord.encHookFree = true ∧
    ((sampleEnv.cachedTypeFields sampleOmitRecord).map Field.name).Nodup ∧
    RecordEncoded sampleEnv (convertToAttribute sampleEnv 1)
      ⟨sampleOmitRecord, false, .struct [.int 0, .ptr none, .str "x"]⟩
      (sampleEnv.cachedTypeFields sampleOmitRecord)
      (convertToAttribute sampleEnv (1 + 1)
        ⟨sampleOmitRecord, false, .struct [.int 0, .ptr none, .str "x"]⟩) ∧
    convertToAttribute sampleEnv (1 + 1)
        ⟨sampleOmitRecord, false, .struct [.int 0, .ptr none, .str "x"]⟩
      = .ok (some (AttributeValue.ofM
          [("Name", some (AttributeValue.ofNULL true)), ("Tag", some (AttributeValue.ofS "x"))]))
    :=
  ⟨rfl, rfl, by decide,
    C13_record_encoding sampleEnv 1 sampleOmitRecord _ false
      [.int 0, .ptr none, .str "x"] rfl rfl (by decide), rfl⟩

/-! ## Conversion hooks of the encoder and nil layers -/

theorem encodeHooks_binary (env : Env) (v : Value) (h : v.typ.methods.exposesBinary = true) :
    encodeHooks env v = some (if v.isNilPtr then nullAttribute else encodeJSONValue env v) := by
  simp only [MethodSet.exposesBinary, Bool.and_eq_true, decide_eq_true_eq] at h
  simp only [encodeHooks, h, and_self, if_true]

theorem encodeHooks_text (env : Env) (v : Value) (hb : v.typ.methods.exposesBinary = false)
    (h : v.typ.methods.exposesText = true) :
    encodeHooks env v = some (if v.isNilPtr then nullAttribute else encodeTextValue env v) := by
  simp only [MethodSet.exposesText, Bool.and_eq_true, decide_eq_true_eq] at h
  have hj : v.typ.methods.jsonMarshaler = false := by
    simp only [MethodSet.exposesBinary, h.1, decide_True, Bool.true_and] at hb
    exact hb
  simp only [encodeHooks, h, hj, and_self, and_false, if_true, if_false]
  simp

theorem encodeHooks_addr (env : Env) (v : Value) (hm : v.typ.methods.marshals = false)
    (hp : v.typ.isPtr = false) (ha : v.canAddr = true) :
    (v.Addr.typ.methods.exposesBinary = true →
      encodeHooks env v = some (encodeJSONValue env v.Addr)) ∧
    (v.Addr.typ.methods.exposesBinary = false → v.Addr.typ.methods.exposesText = true →
      encodeHooks env v = some (encodeTextValue env v.Addr)) := by
  simp only [MethodSet.marshals, Bool.and_eq_false_iff, Bool.or_eq_false_iff,
    decide_eq_false_iff_not] at hm
  have a1 : ¬ (v.typ.methods.numMethod > 0 ∧ v.typ.methods.jsonMarshaler = true) := by
    rintro ⟨x, y⟩
    rcases hm with h | h
    · exact h x
    · rw [h.1] at y; cases y
  have a2 : ¬ (v.typ.methods.numMethod > 0 ∧ v.typ.methods.textMarshaler = true) := by
    rintro ⟨x, y⟩
    rcases hm with h | h
    · exact h x
    · rw [h.2] at y; cases y
  constructor
  · intro h
    simp only [MethodSet.exposesBinary, Bool.and_eq_true, decide_eq_true_eq] at h
    simp only [encodeHooks, a1, a2, if_false, hp, ha, Bool.not_false, and_self, if_true, h]
  · intro hb h
    simp only [MethodSet.exposesText, Bool.and_eq_true, decide_eq_true_eq] at h
    have hj : v.Addr.typ.methods.jsonMarshaler = false := by
      simp only [MethodSet.exposesBinary, h.1, decide_True, Bool.true_and] at hb
      exact hb
    simp only [encodeHooks, a1, a2, if_false, hp, ha, Bool.not_false, and_self, if_true, h, hj,
      and_false]
    simp

theorem encodeTextValue_result (env : Env) (v : Value) (hn : v.data ≠ .iface none) :
    TextHookResult (env.marshalText v) (encodeTextValue env v) := by
  have hu : encodeTextValue env v =
      match env.marshalText v with
      | .error e => .error ⟨"error encoding opaque value type: " ++ e⟩
      | .ok b =>
        if b.length > 0 then .ok (some (AttributeValue.ofS (String.mk (b.map Char.ofNat))))
        else nullAttribute := by
    unfold encodeTextValue
    split
    · rename_i h
      exact absurd h hn
    · rfl
  rw [hu]
  refine ⟨?_, ?_, ?_⟩
  · intro b hb hne
    have hl : b.length > 0 := List.length_pos.2 hne
    simp only [hb, hl, if_true]
  · intro hb
    simp only [hb, List.length_nil, gt_iff_lt, lt_self_iff_false, if_false, nullAttribute]
  · intro e he
    exact ⟨⟨"error encoding opaque value type: " ++ e⟩, by simp only [he]⟩

theorem encodeJSONValue_result (env : Env) (v : Value) :
    BinaryHookResult (env.jsonMarshal v) (encodeJSONValue env v) := by
  unfold encodeJSONValue
  refine ⟨?_, ?_, ?_⟩
  · intro b hb hne
    have hl : b.length > 0 := List.length_pos.2 hne
    simp only [hb, hl, if_true]
  · intro hb
    simp only [hb, List.length_nil, gt_iff_lt, lt_self_iff_false, if_false, nullAttribute]
  · intro e he
    exact ⟨⟨"error encoding json value type: " ++ e⟩, by simp only [he]⟩

theorem encodeJSONValue_binaryOrNull (env : Env) (v : Value) :
    BinaryOrNull (encodeJSONValue env v) := by
  intro o ho
  unfold encodeJSONValue at ho
  cases hj : env.jsonMarshal v with
  | error e => simp only [hj] at ho; cases ho
  | ok d =>
    simp only [hj] at ho
    by_cases hl : d.length > 0
    · simp only [hl, if_true, Outcome.ok.injEq] at ho
      exact Or.inl ⟨d, List.length_pos.1 hl, ho.symm⟩
    · simp only [hl, if_false, nullAttribute, Outcome.ok.injEq] at ho
      exact Or.inr ho.symm

theorem binaryOrNull_null : BinaryOrNull nullAttribute := by
  intro o ho
  simp only [nullAttribute, Outcome.ok.injEq] at ho
  exact Or.inr ho.symm

theorem convertBody_of_hook (env : Env) (self : Value → EncOut) (v : Value) (r : EncOut)
    (h : encodeHooks env v = some r) : convertBody env self v = r := by
  simp only [convertBody, h]

/-- C14. Hook results. For a value that is not nil and whose type exposes the text hook and
not the binary one, the conversion yields the Text of the bytes that the hook returns when they
are not empty, Null when they are empty, and an EncodeError when the hook returns an error; for
a type that exposes the binary hook the same holds with Binary of the payload. The same rules
hold for an addressable value that is not a pointer, whose own type exposes neither hook and of
which the pointer type exposes the hook: the hook then runs on the address of the value. -/
theorem C14_hook_results (env : Env) (fuel : Nat) (v : Value) :
    (v.typ.methods.exposesText = true → v.typ.methods.exposesBinary = false →
      v.isNilPtr = false → v.data ≠ .iface none →
      TextHookResult (env.marshalText v) (convertToAttribute env (fuel + 1) v)) ∧
    (v.typ.methods.exposesBinary = true → v.isNilPtr = false →
      BinaryHookResult (env.jsonMarshal v) (convertToAttribute env (fuel + 1) v)) ∧
    (v.typ.methods.marshals = false → v.typ.isPtr = false → v.canAddr = true →
      v.Addr.typ.methods.exposesText = true → v.Addr.typ.methods.exposesBinary = false →
      TextHookResult (env.marshalText v.Addr) (convertToAttribute env (fuel + 1) v)) ∧
    (v.typ.methods.marshals = false → v.typ.isPtr = false → v.canAddr = true →
      v.Addr.typ.methods.exposesBinary = true →
      BinaryHookResult (env.jsonMarshal v.Addr) (convertToAttribute env (fuel + 1) v)) := by
  refine ⟨?_, ?_, ?_, ?_⟩
  · intro ht hb hnil hn
    have h := encodeHooks_text env v hb ht
    rw [hnil] at h
    rw [convertToAttribute, convertBody_of_hook env _ v _ h]
    simpa using encodeTextValue_result env v hn
  · intro hb hnil
    have h := encodeHooks_binary env v hb
    rw [hnil] at h
    rw [convertToAttribute, convertBody_of_hook env _ v _ h]
    simpa using encodeJSONValue_result env v
  · intro hm hp ha ht hb
    have h := (encodeHooks_addr env v hm hp ha).2 hb ht
    rw [convertToAttribute, convertBody_of_hook env _ v _ h]
    exact encodeTextValue_result env v.Addr (by simp [Value.Addr])
  · intro hm hp ha hb
    have h := (encodeHooks_addr env v hm hp ha).1 hb
    rw [convertToAttribute, convertBody_of_hook env _ v _ h]
    exact encodeJSONValue_result env v.Addr

theorem C14_hook_results_witness :
    sampleTextType.methods.exposesText = true ∧ sampleTextType.methods.exposesBinary = false ∧
    (Value.mk sampleTextType false (.str "x")).isNilPtr = false ∧
    Data.str "x" ≠ .iface none ∧
    TextHookResult (sampleHookEnv.marshalText ⟨sampleTextType, false, .str "x"⟩)
      (convertToAttribute sampleHookEnv (0 + 1) ⟨sampleTextType, false, .str "x"⟩) ∧
    convertToAttribute sampleHookEnv (0 + 1) ⟨sampleTextType, false, .str "x"⟩
      = .ok (some (AttributeValue.ofS "foo")) ∧
    convertToAttribute sampleHookEnv (0 + 1) ⟨sampleBinaryType, true, .struct [.str "x"]⟩
      = .ok (some (AttributeValue.ofB [34, 34])) :=
  ⟨rfl, rfl, rfl, by simp,
    (C14_hook_results sampleHookEnv 0 ⟨sampleTextType, false, .str "x"⟩).1 rfl rfl rfl
      (by simp), rfl, rfl⟩

/-- C15, amended. Hook precedence. When the type of a value exposes both the binary and the
text hook on the value form, the conversion is that of the binary hook (Null for a nil
pointer); when the value is addressable and not a pointer, its own type exposes neither hook
and the pointer type exposes both, the conversion is that of the binary hook run on the address
of the value. In both cases a returned wire value is a Binary or Null, never a Text. -/
theorem C15_hook_precedence (env : Env) (fuel : Nat) (v : Value) :
    (v.typ.methods.exposesBoth = true →
      convertToAttribute env (fuel + 1) v
        = (if v.isNilPtr then nullAttribute else encodeJSONValue env v) ∧
      BinaryOrNull (convertToAttribute env (fuel + 1) v)) ∧
    (v.typ.methods.marshals = false → v.typ.isPtr = false → v.canAddr = true →
      v.Addr.typ.methods.exposesBoth = true →
      convertToAttribute env (fuel + 1) v = encodeJSONValue env v.Addr ∧
      BinaryOrNull (convertToAttribute env (fuel + 1) v)) := by
  constructor
  · intro hb
    simp only [MethodSet.exposesBoth, Bool.and_eq_true] at hb
    have h := encodeHooks_binary env v hb.1
    have heq : convertToAttribute env (fuel + 1) v
        = (if v.isNilPtr then nullAttribute else encodeJSONValue env v) := by
      rw [convertToAttribute, convertBody_of_hook env _ v _ h]
    refine ⟨heq, ?_⟩
    rw [heq]
    cases v.isNilPtr with
    | true => exact binaryOrNull_null
    | false => exact encodeJSONValue_binaryOrNull env v
  · intro hm hp ha hb
    simp only [MethodSet.exposesBoth, Bool.and_eq_true] at hb
    have h := (encodeHooks_addr env v hm hp ha).1 hb.1
    have heq : convertToAttribute env (fuel + 1) v = encodeJSONValue env v.Addr := by
      rw [convertToAttribute, convertBody_of_hook env _ v _ h]
    refine ⟨heq, ?_⟩
    rw [heq]
    exact encodeJSONValue_binaryOrNull env v.Addr

theorem C15_hook_precedence_witness :
    (Value.mk samplePointerHooksType true (.str "x")).typ.methods.marshals = false ∧
    (Value.mk samplePointerHooksType true (.str "x")).typ.isPtr = false ∧
    (Value.mk samplePointerHooksType true (.str "x")).Addr.typ.methods.exposesBoth = true ∧
    convertToAttribute sampleHookEnv (0 + 1) ⟨samplePointerHooksType, true, .str "x"⟩
      = encodeJSONValue sampleHookEnv (Value.mk samplePointerHooksType true (.str "x")).Addr ∧
    BinaryOrNull
      (convertToAttribute sampleHookEnv (0 + 1) ⟨samplePointerHooksType, true, .str "x"⟩) ∧
    convertToAttribute sampleHookEnv (0 + 1) ⟨samplePointerHooksType, true, .str "x"⟩
      = .ok (some (AttributeValue.ofB [34, 34])) :=
  ⟨rfl, rfl, rfl,
    ((C15_hook_precedence sampleHookEnv 0 ⟨samplePointerHooksType, true, .str "x"⟩).2 rfl rfl
      rfl rfl).1,
    ((C15_hook_precedence sampleHookEnv 0 ⟨samplePointerHooksType, true, .str "x"⟩).2 rfl rfl
      rfl rfl).2, rfl⟩

/-- C15 as stated fails. An addressable value of a type whose value form exposes the text hook
only, while its pointer form exposes both hooks, converts through the text hook to a Text; and
a value that is not addressable, of a type that exposes both hooks on the pointer form only,
converts by the rule of its shape, here to the Text of a string. -/
theorem C15_counterexample :
    (Value.mk sampleShadowType true (.str "x")).Addr.typ.methods.exposesBoth = true ∧
    convertToAttribute sampleHookEnv 1 ⟨sampleShadowType, true, .str "x"⟩
      = .ok (some (AttributeValue.ofS "foo")) ∧
    (Value.mk samplePointerHooksType false (.str "x")).Addr.typ.methods.exposesBoth = true ∧
    convertToAttribute sampleHookEnv 1 ⟨samplePointerHooksType, false, .str "x"⟩
      = .ok (some (AttributeValue.ofS "x")) ∧
    ¬ HookPrecedenceClaim sampleHookEnv 0 := by
  refine ⟨rfl, rfl, rfl, rfl, ?_⟩
  intro h
  have h1 := h ⟨sampleShadowType, true, .str "x"⟩ (Or.inr rfl) (AttributeValue.ofS "foo") rfl
  cases h1

theorem convertBody_nilPtr (env : Env) (self : Value → EncOut) (t : GoType) (a : Bool)
    (hp : t.isPtr = true) : convertBody env self ⟨t, a, .ptr none⟩ = nullAttribute := by
  have hnil : (Value.mk t a (.ptr none)).isNilPtr = true := by
    simp only [Value.isNilPtr, hp, Bool.and_self]
  have hind : indirect t a (.ptr none) = none := by
    unfold GoType.isPtr at hp
    unfold indirect
    cases hu : t.underlying with
    | ptr e => rfl
    | bool => rw [hu] at hp; cases hp
    | int w => rw [hu] at hp; cases hp
    | uint w => rw [hu] at hp; cases hp
    | float w => rw [hu] at hp; cases hp
    | string => rw [hu] at hp; cases hp
    | iface ms => rfl
    | slice e => rw [hu] at hp; cases hp
    | array n e => rw [hu] at hp; cases hp
    | map k e => rw [hu] at hp; cases hp
    | struct fs => rw [hu] at hp; cases hp
    | named n ms pms u => rw [hu] at hp; cases hp
    | other s => rw [hu] at hp; cases hp
  cases hh : encodeHooks env ⟨t, a, .ptr none⟩ with
  | none => simp only [convertBody, hh, hind]
  | some r =>
    simp only [convertBody, hh]
    unfold encodeHooks at hh
    simp only [hnil, if_true, hp, Bool.not_true, Bool.false_eq_true, false_and, if_false] at hh
    split at hh
    · cases hh
      rfl
    · split at hh
      · cases hh
        rfl
      · cases hh

/-- C16. Nil layers. A nil pointer converts to Null whatever its type exposes, hook types
included; a value of a hook-free type whose chain of pointer and interface layers meets a nil
layer converts to Null; a chain of records linked by a pointer field ends in Null at the nil
link. The nil value of an interface type that exposes the text hook is the exception: its
conversion panics in the type assertion of `encodeTextValue`, since the hook block tests
`v.Kind() == reflect.Ptr && v.IsNil()` only. -/
theorem C16_nil_layer (env : Env) (fuel : Nat) :
    (∀ (t : GoType) (a : Bool), t.isPtr = true →
      convertToAttribute env (fuel + 1) ⟨t, a, .ptr none⟩
        = .ok (some (AttributeValue.ofNULL true))) ∧
    (∀ (t : GoType) (a : Bool) (d : Data), t.encHookFree = true → indirect t a d = none →
      convertToAttribute env (fuel + 1) ⟨t, a, d⟩ = .ok (some (AttributeValue.ofNULL true))) ∧
    convertToAttribute sampleEnv 3
        ⟨.ptr (sampleChain 2), false,
          .ptr (some (.struct [.ptr (some (.struct [.ptr none]))]))⟩
      = .ok (some (AttributeValue.ofM [("Next", some (AttributeValue.ofM
          [("Next", some (AttributeValue.ofNULL true))]))])) ∧
    (∀ a : Bool, convertToAttribute env (fuel + 1) ⟨sampleTextInterface, a, .iface none⟩
      = .panic "interface conversion: interface is nil, not encoding.TextMarshaler") ∧
    convertToAttribute sampleEnv 2
        ⟨.struct [(⟨"X", none, false, false⟩, sampleTextInterface)], false,
          .struct [.iface none]⟩
      = .panic "interface conversion: interface is nil, not encoding.TextMarshaler" := by
  refine ⟨?_, ?_, rfl, ?_, rfl⟩
  · intro t a hp
    rw [convertToAttribute, convertBody_nilPtr env _ t a hp]
    rfl
  · intro t a d hf hind
    simp only [convertToAttribute, convertBody, encodeHooks_none env t a d hf, hind,
      nullAttribute]
  · intro a
    rfl

theorem C16_nil_layer_witness :
    (GoType.ptr sampleBinaryType).isPtr = true ∧
    convertToAttribute sampleEnv (0 + 1) ⟨.ptr sampleBinaryType, false, .ptr none⟩
      = .ok (some (AttributeValue.ofNULL true)) ∧
    (GoType.ptr (.iface MethodSet.empty)).encHookFree = true ∧
    indirect (.ptr (.iface MethodSet.empty)) false (.ptr (some (.iface none))) = none ∧
    convertToAttribute sampleEnv (0 + 1)
        ⟨.ptr (.iface MethodSet.empty), false, .ptr (some (.iface none))⟩
      = .ok (some (AttributeValue.ofNULL true)) :=
  ⟨rfl, (C16_nil_layer sampleEnv 0).1 (.ptr sampleBinaryType) false rfl, rfl, rfl,
    (C16_nil_layer sampleEnv 0).2.1 (.ptr (.iface MethodSet.empty)) false
      (.ptr (some (.iface none))) rfl rfl⟩

/-! ## Decoder: overlay, Null coercion and unmatched keys -/

theorem eq_none_of_isSome_false {α : Type} (o : Option α) (h : o.isSome = false) :
    o = none := by
  cases o with
  | none => rfl
  | some x => cases h

theorem decodeAttribute_kind (env : Env) (fuel : Nat) (attr : Option AttributeValue)
    (t : GoType) (c : Bool) (d : Data) (hf : t.decHookFree = true) (hp : t.isPtr = false) :
    decodeAttribute env (fuel + 1) attr ⟨t, c, d⟩
      = decodeKind env (decodeAttribute env fuel) attr ⟨t, c, d⟩ := by
  have hb : decodeBody env (decodeAttribute env fuel) attr ⟨t, c, d⟩
      = decodeValue env (decodeAttribute env fuel) attr ⟨t, c, d⟩ := by
    unfold decodeBody
    unfold GoType.isPtr at hp
    split
    · rename_i e he
      simp only [he] at hp
      cases hp
    · rfl
  rw [decodeAttribute, hb, decodeValue, decodeHooks_none env attr t c d hf]

/-- C18. Overlay decode for scalars and records. For a destination of hook-free boolean,
integer, unsigned, floating, string or record shape and a wire value in which neither the
variant matching that shape (Boolean, Number, Number, Number, Text, Record) nor Null is set,
decoding returns no error and leaves the destination at its prior value. -/
theorem C18_overlay_decode (env : Env) (fuel : Nat) (t : GoType) (c : Bool) (prior : Data)
    (a : AttributeValue) (hf : t.decHookFree = true)
    (hs : shapeVariantSet t a = some false) (hn : a.NULL = none) :
    decodeAttribute env (fuel + 1) (some a) ⟨t, c, prior⟩ = ⟨prior, .ok ()⟩ := by
  unfold shapeVariantSet at hs
  have hp : t.isPtr = false := by
    unfold GoType.isPtr
    cases hu : t.underlying <;> simp only [hu] at hs ⊢
    cases hs
  rw [decodeAttribute_kind env fuel (some a) t c prior hf hp]
  unfold decodeKind
  cases hu : t.underlying <;> simp only [hu, Option.some.injEq] at hs ⊢ <;>
    first
    | cases hs
    | simp only [eq_none_of_isSome_false _ hs, hn, Option.isSome_none, Bool.false_eq_true,
        if_false]

theorem C18_overlay_decode_witness :
    (GoType.int 8).decHookFree = true ∧
    shapeVariantSet (.int 8) (AttributeValue.ofS "7") = some false ∧
    (AttributeValue.ofS "7").NULL = none ∧
    decodeAttribute sampleEnv (0 + 1) (some (AttributeValue.ofS "7")) ⟨.int 8, true, .int 5⟩
      = ⟨.int 5, .ok ()⟩ :=
  ⟨rfl, rfl, rfl,
    C18_overlay_decode sampleEnv 0 (.int 8) true (.int 5) (AttributeValue.ofS "7") rfl rfl rfl⟩

theorem decodeAttribute_null_ptr (env : Env) (fuel : Nat) (t e : GoType) (prior : Data)
    (b : Bool) (hu : t.underlying = .ptr e) :
    decodeAttribute env (fuel + 1) (some (AttributeValue.ofNULL b)) ⟨t, true, prior⟩
      = ⟨zero t, .ok ()⟩ := by
  simp only [decodeAttribute, decodeBody, hu, AttributeValue.ofNULL, AttributeValue.NULL,
    Option.isSome_some, if_true, setValue]

/-- C19. Null coercion. Decoding the Null variant into an addressable hook-free destination of
type `bool` or of integer, unsigned, floating, string, record, map, slice, fixed-size array or
pointer shape returns no error and sets the destination to the zero value of its type, whatever
it held. A destination of a defined boolean type is the exception: the decoder stores
`reflect.ValueOf(false)`, which is not assignable to such a type, and the call panics with the
destination unchanged. -/
theorem C19_null_coercion (env : Env) (fuel : Nat) :
    (∀ (t : GoType) (prior : Data) (b : Bool), t.decHookFree = true → nullShape t = true →
      decodeAttribute env (fuel + 1) (some (AttributeValue.ofNULL b)) ⟨t, true, prior⟩
        = ⟨zero t, .ok ()⟩) ∧
    (∀ (prior : Data) (b : Bool),
      decodeAttribute env (fuel + 1) (some (AttributeValue.ofNULL b))
          ⟨sampleFlagType, true, prior⟩
        = ⟨prior, .panic "reflect.Set: value is not assignable to the type"⟩) ∧
    decodeAttribute sampleEnv 2 (some (AttributeValue.ofM [("F", some (AttributeValue.ofNULL true))]))
        ⟨.struct [(⟨"F", none, false, false⟩, sampleFlagType)], true, .struct [.bool true]⟩
      = ⟨.struct [.bool true], .panic "reflect.Set: value is not assignable to the type"⟩ := by
  refine ⟨?_, ?_, rfl⟩
  · intro t prior b hf hs
    cases hu : t.underlying with
    | ptr e => exact decodeAttribute_null_ptr env fuel t e prior b hu
    | bool =>
      have ht : t = .bool := by
        unfold nullShape at hs
        rw [hu] at hs
        cases t <;> first | rfl | cases hs
      subst ht
      rfl
    | int w =>
      rw [decodeAttribute_kind env fuel _ t true prior hf (by simp only [GoType.isPtr, hu])]
      unfold decodeKind
      simp only [hu, AttributeValue.ofNULL, AttributeValue.NULL, AttributeValue.N,
        Option.isSome_some, if_true, setValue]
    | uint w =>
      rw [decodeAttribute_kind env fuel _ t true prior hf (by simp only [GoType.isPtr, hu])]
      unfold decodeKind
      simp only [hu, AttributeValue.ofNULL, AttributeValue.NULL, AttributeValue.N,
        Option.isSome_some, if_true, setValue]
    | float w =>
      rw [decodeAttribute_kind env fuel _ t true prior hf (by simp only [GoType.isPtr, hu])]
      unfold decodeKind
      simp only [hu, AttributeValue.ofNULL, AttributeValue.NULL, AttributeValue.N,
        Option.isSome_some, if_true, setValue]
    | string =>
      rw [decodeAttribute_kind env fuel _ t true prior hf (by simp only [GoType.isPtr, hu])]
      unfold decodeKind
      simp only [hu, AttributeValue.ofNULL, AttributeValue.NULL, AttributeValue.S,
        Option.isSome_some, if_true, setValue]
    | struct fs =>
      rw [decodeAttribute_kind env fuel _ t true prior hf (by simp only [GoType.isPtr, hu])]
      unfold decodeKind
      simp only [hu, AttributeValue.ofNULL, AttributeValue.NULL, AttributeValue.M,
        Option.isSome_some, if_true, setValue]
    | map k e =>
      rw [decodeAttribute_kind env fuel _ t true prior hf (by simp only [GoType.isPtr, hu])]
      unfold decodeKind
      simp only [hu, AttributeValue.ofNULL, AttributeValue.NULL, AttributeValue.M,
        Option.isSome_some, if_true, setValue]
    | slice e =>
      rw [decodeAttribute_kind env fuel _ t true prior hf (by simp only [GoType.isPtr, hu])]
      unfold decodeKind
      simp only [hu]
      by_cases he : e.isUint8 = true
      · simp only [he, if_true, decodeBytes, AttributeValue.ofNULL, AttributeValue.NULL,
          AttributeValue.B, AttributeValue.S, setValue]
      · simp only [he, if_false, decodeArray, AttributeValue.ofNULL, AttributeValue.NULL,
          setValue, if_true, Bool.false_eq_true]
    | array n e =>
      rw [decodeAttribute_kind env fuel _ t true prior hf (by simp only [GoType.isPtr, hu])]
      unfold decodeKind
      simp only [hu, decodeArray, AttributeValue.ofNULL, AttributeValue.NULL, setValue, if_true]
    | iface ms => simp only [nullShape, hu] at hs; cases hs
    | named n ms pms u => simp only [nullShape, hu] at hs; cases hs
    | other s => simp only [nullShape, hu] at hs; cases hs
  · intro prior b
    rfl

theorem C19_null_coercion_witness :
    (GoType.array 2 (.int 8)).decHookFree = true ∧ nullShape (.array 2 (.int 8)) = true ∧
    decodeAttribute sampleEnv (0 + 1) (some (AttributeValue.ofNULL true))
        ⟨.array 2 (.int 8), true, .array [.int 4, .int 5]⟩
      = ⟨zero (.array 2 (.int 8)), .ok ()⟩ ∧
    zero (.array 2 (.int 8)) = .array [.int 0, .int 0] ∧
    zero .bool = .bool false ∧ zero .string = .str "" ∧ zero (.slice .string) = .slice none ∧
    zero (.map .string .bool) = .map none ∧ zero (.ptr .bool) = .ptr none :=
  ⟨rfl, rfl,
    (C19_null_coercion sampleEnv 0).1 (.array 2 (.int 8)) (.array [.int 4, .int 5]) true rfl rfl,
    rfl, rfl, rfl, rfl, rfl, rfl⟩

theorem decodeStructEntries_filter (self : Option AttributeValue → Value → DecOut)
    (table : List Field) (t : GoType) (c : Bool) :
    ∀ (m : List (String × Option AttributeValue)) (d : Data),
      decodeStructEntries self table t c m d
        = decodeStructEntries self table t c
            (m.filter (fun e => matchesDescriptor table e.1)) d := by
  intro m
  induction m with
  | nil => intro d; rfl
  | cons e rest ih =>
    intro d
    obtain ⟨k, attr⟩ := e
    cases hfind : table.find? (fun f => f.name = k) with
    | none =>
      have hm : matchesDescriptor table k = false := by
        simp only [matchesDescriptor, hfind, Option.isSome_none]
      rw [List.filter_cons_of_neg (by simp only [hm, Bool.false_eq_true, not_false_eq_true])]
      rw [decodeStructEntries]
      simp only [hfind]
      exact ih d
    | some f =>
      have hm : matchesDescriptor table k = true := by
        simp only [matchesDescriptor, hfind, Option.isSome_some]
      rw [List.filter_cons_of_pos (by simp only [hm])]
      rw [decodeStructEntries, decodeStructEntries]
      simp only [hfind]
      rcases decodeField self attr ⟨t, c, d⟩ f.index with ⟨d1, st⟩
      cases st with
      | ok u => exact ih d1
      | error x => rfl
      | panic x => rfl
      | outOfFuel => rfl

/-- C20. Wire keys that match no descriptor name are ignored without error: decoding a Record
into a hook-free record destination gives the same status and the same final destination as
decoding the Record with those keys removed, and a Record that holds only such keys leaves the
destination unchanged and returns no error. -/
theorem C20_unmatched_keys (env : Env) (fuel : Nat) (t : GoType)
    (fields : List (StructField × GoType)) (c : Bool) (prior : Data)
    (m : List (String × Option AttributeValue))
    (ht : t.underlying = .struct fields) (hf : t.decHookFree = true) :
    decodeAttribute env (fuel + 1) (some (AttributeValue.ofM m)) ⟨t, c, prior⟩
      = decodeAttribute env (fuel + 1)
          (some (AttributeValue.ofM
            (m.filter (fun e => matchesDescriptor (env.cachedTypeFields t) e.1))))
          ⟨t, c, prior⟩ ∧
    ((∀ e ∈ m, matchesDescriptor (env.cachedTypeFields t) e.1 = false) →
      decodeAttribute env (fuel + 1) (some (AttributeValue.ofM m)) ⟨t, c, prior⟩
        = ⟨prior, .ok ()⟩) := by
  have hp : t.isPtr = false := by simp only [GoType.isPtr, ht]
  have hk : ∀ m1 : List (String × Option AttributeValue),
      decodeAttribute env (fuel + 1) (some (AttributeValue.ofM m1)) ⟨t, c, prior⟩
        = decodeStructEntries (decodeAttribute env fuel) (env.cachedTypeFields t) t c m1 prior
      := by
    intro m1
    rw [decodeAttribute_kind env fuel _ t c prior hf hp]
    unfold decodeKind
    simp only [ht, AttributeValue.ofM, AttributeValue.M, decodeStruct]
  have hfil := decodeStructEntries_filter (decodeAttribute env fuel) (env.cachedTypeFields t)
    t c m prior
  constructor
  · rw [hk, hk]
    exact hfil
  · intro hall
    have hnil : m.filter (fun e => matchesDescriptor (env.cachedTypeFields t) e.1) = [] := by
      rw [List.filter_eq_nil_iff]
      intro e he
      simp only [hall e he, Bool.false_eq_true, not_false_eq_true]
    rw [hk, hfil, hnil]
    rfl

theorem C20_unmatched_keys_witness :
    sampleRecord.underlying = sampleRecord ∧ sampleRecord.decHookFree = true ∧
    (∀ e ∈ [("Bogus", some (AttributeValue.ofS "x")), ("Other", none)],
      matchesDescriptor (sampleEnv.cachedTypeFields sampleRecord) e.1 = false) ∧
    decodeAttribute sampleEnv (1 + 1)
        (some (AttributeValue.ofM [("Bogus", some (AttributeValue.ofS "x")), ("Other", none)]))
        ⟨sampleRecord, true, sampleRecordValue⟩
      = ⟨sampleRecordValue, .ok ()⟩ ∧
    decodeAttribute sampleEnv (1 + 1)
        (some (AttributeValue.ofM
          [("Bogus", some (AttributeValue.ofS "x")), ("Value", some (AttributeValue.ofN "7"))]))
        ⟨sampleRecord, true, sampleRecordValue⟩
      = ⟨.struct [.int 7, .slice (some [.str "a"])], .ok ()⟩ :=
  ⟨rfl, rfl, by decide,
    (C20_unmatched_keys sampleEnv 1 sampleRecord _ true sampleRecordValue
      [("Bogus", some (AttributeValue.ofS "x")), ("Other", none)] rfl rfl).2 (by decide),
    rfl⟩

/-! ## Map keys, byte slices and interfaces as destinations; empty containers on the wire -/

theorem zero_underlying : ∀ t : GoType, zero t = zero t.underlying
  | .named _ _ _ u => by
    rw [zero, GoType.underlying]
    exact zero_underlying u
  | .bool => rfl
  | .int _ => rfl
  | .uint _ => rfl
  | .float _ => rfl
  | .string => rfl
  | .ptr _ => rfl
  | .iface _ => rfl
  | .slice _ => rfl
  | .array _ _ => rfl
  | .map _ _ => rfl
  | .struct _ => rfl
  | .other _ => rfl

/-- C22, amended. For a hook-free map destination whose key type is not of string kind:
decoding a wire value in which the Record is set fails with a DecodeError whose overflow flag
is not set and leaves the destination unchanged; decoding any other wire value returns no
error, Null resetting an addressable destination to the nil map and every other wire value
leaving the destination unchanged. -/
theorem C22_non_string_key_destination (env : Env) (fuel : Nat) (t k e : GoType)
    (ht : t.underlying = .map k e) (hk : k.isString = false) (hf : t.decHookFree = true) :
    (∀ (a : AttributeValue) (m : AttributeValueMap) (c : Bool) (prior : Data), a.M = some m →
      decodeAttribute env (fuel + 1) (some a) ⟨t, c, prior⟩
        = ⟨prior, .error ⟨"cannot decode a map with a non-string key", false⟩⟩) ∧
    (∀ (a : AttributeValue) (c : Bool) (prior : Data), a.M = none → a.NULL = none →
      decodeAttribute env (fuel + 1) (some a) ⟨t, c, prior⟩ = ⟨prior, .ok ()⟩) ∧
    (∀ (a : AttributeValue) (b : Bool) (prior : Data), a.M = none → a.NULL = some b →
      decodeAttribute env (fuel + 1) (some a) ⟨t, true, prior⟩ = ⟨.map none, .ok ()⟩) := by
  have hp : t.isPtr = false := by simp only [GoType.isPtr, ht]
  refine ⟨?_, ?_, ?_⟩
  · intro a m c prior hm
    rw [decodeAttribute_kind env fuel _ t c prior hf hp]
    unfold decodeKind
    simp only [ht, hm, hk, if_true]
  · intro a c prior hm hn
    rw [decodeAttribute_kind env fuel _ t c prior hf hp]
    unfold decodeKind
    simp only [ht, hm, hn, Option.isSome_none, Bool.false_eq_true, if_false]
  · intro a b prior hm hn
    rw [decodeAttribute_kind env fuel _ t true prior hf hp]
    unfold decodeKind
    have hz : zero t = .map none := by rw [zero_underlying t, ht, zero]
    simp only [ht, hm, hn, Option.isSome_some, if_true, setValue, hz]

theorem C22_non_string_key_destination_witness :
    (GoType.map (.int 64) (.int 64)).underlying = .map (.int 64) (.int 64) ∧
    (GoType.int 64).isString = false ∧ (GoType.map (.int 64) (.int 64)).decHookFree = true ∧
    (AttributeValue.ofM [("C", some (AttributeValue.ofN "40.2"))]).M
      = some [("C", some (AttributeValue.ofN "40.2"))] ∧
    decodeAttribute sampleEnv (0 + 1)
        (some (AttributeValue.ofM [("C", some (AttributeValue.ofN "40.2"))]))
        ⟨.map (.int 64) (.int 64), true, .map (some [])⟩
      = ⟨.map (some []), .error ⟨"cannot decode a map with a non-string key", false⟩⟩ :=
  ⟨rfl, rfl, rfl, rfl,
    (C22_non_string_key_destination sampleEnv 0 (.map (.int 64) (.int 64)) (.int 64) (.int 64)
      rfl rfl rfl).1 _ _ true (.map (some [])) rfl⟩

/-- C22 as stated fails on wire values other than a Record: decoding a Text and decoding Null
into a `map[int]int` destination return no error. -/
theorem C22_counterexample :
    (GoType.int 64).isString = false ∧
    decodeAttribute sampleEnv 1 (some (AttributeValue.ofS "x"))
        ⟨.map (.int 64) (.int 64), true, .map (some [(.int 1, .int 2)])⟩
      = ⟨.map (some [(.int 1, .int 2)]), .ok ()⟩ ∧
    decodeAttribute sampleEnv 1 (some (AttributeValue.ofNULL true))
        ⟨.map (.int 64) (.int 64), true, .map (some [(.int 1, .int 2)])⟩
      = ⟨.map none, .ok ()⟩ :=
  ⟨rfl, rfl, rfl⟩

/-- C23. Silent tolerance. For a hook-free byte-slice destination and a wire value in which
none of Binary, Text and Null is set (a Number, Boolean, Record or List), decoding returns no
error and leaves the destination at its prior value. -/
theorem C23_byte_slice_tolerance (env : Env) (fuel : Nat) (t e : GoType) (c : Bool)
    (prior : Data) (a : AttributeValue)
    (ht : t.underlying = .slice e) (he : e.isUint8 = true) (hf : t.decHookFree = true)
    (hb : a.B = none) (hs : a.S = none) (hn : a.NULL = none) :
    decodeAttribute env (fuel + 1) (some a) ⟨t, c, prior⟩ = ⟨prior, .ok ()⟩ := by
  have hp : t.isPtr = false := by simp only [GoType.isPtr, ht]
  rw [decodeAttribute_kind env fuel _ t c prior hf hp]
  unfold decodeKind
  simp only [ht, he, if_true, decodeBytes, hb, hs, hn]

theorem C23_byte_slice_tolerance_witness :
    (GoType.slice (.uint 8)).underlying = .slice (.uint 8) ∧ (GoType.uint 8).isUint8 = true ∧
    (GoType.slice (.uint 8)).decHookFree = true ∧
    (AttributeValue.ofN "10").B = none ∧ (AttributeValue.ofN "10").S = none ∧
    (AttributeValue.ofN "10").NULL = none ∧
    decodeAttribute sampleEnv (0 + 1) (some (AttributeValue.ofN "10"))
        ⟨.slice (.uint 8), true, .slice (some [.uint 102])⟩
      = ⟨.slice (some [.uint 102]), .ok ()⟩ :=
  ⟨rfl, rfl, rfl, rfl, rfl, rfl,
    C23_byte_slice_tolerance sampleEnv 0 (.slice (.uint 8)) (.uint 8) true
      (.slice (some [.uint 102])) (AttributeValue.ofN "10") rfl rfl rfl rfl rfl rfl⟩

/-- C26. Decoding any wire value into a destination of interface kind whose type has at least
one method and exposes no conversion hook fails with a DecodeError whose overflow flag is not
set; the destination is left unchanged. -/
theorem C26_non_empty_interface (env : Env) (fuel : Nat) (t : GoType) (ms : MethodSet)
    (c : Bool) (prior : Data) (a : AttributeValue)
    (ht : t.underlying = .iface ms) (hm : t.methods.numMethod ≠ 0)
    (hf : t.decHookFree = true) :
    decodeAttribute env (fuel + 1) (some a) ⟨t, c, prior⟩
      = ⟨prior, .error ⟨"cannot decode into non-empty interface type", false⟩⟩ := by
  have hp : t.isPtr = false := by simp only [GoType.isPtr, ht]
  rw [decodeAttribute_kind env fuel _ t c prior hf hp]
  unfold decodeKind
  simp only [ht, decodeInterface, hm, ne_eq, not_false_eq_true, if_true]

theorem C26_non_empty_interface_witness :
    (GoType.iface ⟨1, false, false, false, false⟩).underlying
      = .iface ⟨1, false, false, false, false⟩ ∧
    (GoType.iface ⟨1, false, false, false, false⟩).methods.numMethod ≠ 0 ∧
    (GoType.iface ⟨1, false, false, false, false⟩).decHookFree = true ∧
    decodeAttribute sampleEnv (0 + 1) (some (AttributeValue.ofS "foo"))
        ⟨.iface ⟨1, false, false, false, false⟩, true, .iface none⟩
      = ⟨.iface none, .error ⟨"cannot decode into non-empty interface type", false⟩⟩ :=
  ⟨rfl, by decide, rfl,
    C26_non_empty_interface sampleEnv 0 (.iface ⟨1, false, false, false, false⟩)
      ⟨1, false, false, false, false⟩ true (.iface none) (AttributeValue.ofS "foo") rfl
      (by decide) rfl⟩

/-- C29, amended. A map value with keys of string kind that is not nil and has no entries
converts to the Record with no entries; only the nil map converts to Null. The map type is
hook-free. -/
theorem C29_empty_map (env : Env) (fuel : Nat) (t k e : GoType) (a : Bool)
    (ht : t.underlying = .map k e) (hk : k.isString = true) (hf : t.encHookFree = true) :
    convertToAttribute env (fuel + 1) ⟨t, a, .map (some [])⟩
      = .ok (some (AttributeValue.ofM [])) ∧
    convertToAttribute env (fuel + 1) ⟨t, a, .map none⟩
      = .ok (some (AttributeValue.ofNULL true)) := by
  have hi := fun d => indirect_of_shape t a d (by simp [ht]) (by simp [ht])
  constructor
  · simp only [convertToAttribute, convertBody, encodeHooks_none env t a _ hf, hi]
    unfold encodeKind
    simp only [ht, hk, Bool.true_eq_false, if_false, encodeEntries]
  · simp only [convertToAttribute, convertBody, encodeHooks_none env t a _ hf, hi]
    unfold encodeKind
    simp only [ht, nullAttribute]

theorem C29_empty_map_witness :
    (GoType.map .string (.int 64)).underlying = .map .string (.int 64) ∧
    GoType.string.isString = true ∧ (GoType.map .string (.int 64)).encHookFree = true ∧
    convertToAttribute sampleEnv (0 + 1) ⟨.map .string (.int 64), false, .map (some [])⟩
      = .ok (some (AttributeValue.ofM [])) :=
  ⟨rfl, rfl, rfl,
    (C29_empty_map sampleEnv 0 (.map .string (.int 64)) .string (.int 64) false rfl rfl rfl).1⟩

/-- C29 as stated fails: the empty non-nil `map[string]int` converts to a Record without
entries, which is not the Null that the nil map converts to. -/
theorem C29_counterexample :
    convertToAttribute sampleEnv 1 ⟨.map .string (.int 64), false, .map (some [])⟩
      = .ok (some (AttributeValue.ofM [])) ∧
    convertToAttribute sampleEnv 1 ⟨.map .string (.int 64), false, .map none⟩
      = .ok (some (AttributeValue.ofNULL true)) ∧
    convertToAttribute sampleEnv 1 ⟨.map .string (.int 64), false, .map (some [])⟩
      ≠ .ok (some (AttributeValue.ofNULL true)) := by
  refine ⟨rfl, rfl, ?_⟩
  intro h
  have h1 : convertToAttribute sampleEnv 1 ⟨.map .string (.int 64), false, .map (some [])⟩
      = .ok (some (AttributeValue.ofM [])) := rfl
  rw [h1] at h
  simp only [Outcome.ok.injEq, Option.some.injEq, AttributeValue.ofM, AttributeValue.ofNULL,
    AttributeValue.mk.injEq] at h
  exact absurd h.2.2.2.2.1 (by simp)

/-- C30. A fixed-size array value of length zero converts to the List with no members, not
to Null: the array case of `convertToAttribute` has no test of the length, unlike the slice
case above it, whose comment says that empty lists are not supported. The array type is
hook-free. -/
theorem C30_zero_length_array (env : Env) (fuel : Nat) (t e : GoType) (n : Nat) (a : Bool)
    (ht : t.underlying = .array n e) (hf : t.encHookFree = true) :
    convertToAttribute env (fuel + 1) ⟨t, a, .array []⟩ = .ok (some (AttributeValue.ofL [])) := by
  have hi := indirect_of_shape t a (.array []) (by simp [ht]) (by simp [ht])
  simp only [convertToAttribute, convertBody, encodeHooks_none env t a _ hf, hi]
  unfold encodeKind
  simp only [ht, encodeElems]

theorem C30_zero_length_array_witness :
    (GoType.array 0 (.int 64)).underlying = .array 0 (.int 64) ∧
    (GoType.array 0 (.int 64)).encHookFree = true ∧
    convertToAttribute sampleEnv (0 + 1) ⟨.array 0 (.int 64), false, .array []⟩
      = .ok (some (AttributeValue.ofL [])) :=
  ⟨rfl, rfl, C30_zero_length_array sampleEnv 0 (.array 0 (.int 64)) (.int 64) 0 false rfl rfl⟩

/-! ## Additive merge into a map destination -/

theorem mapIndex_setMapIndex_same (m : List (Data × Data)) (k : String) (x : Data) :
    mapIndex (setMapIndex m k x) k = some x := by
  induction m with
  | nil => simp only [setMapIndex, mapIndex, if_true]
  | cons kv rest ih =>
    obtain ⟨k1, x1⟩ := kv
    cases k1 with
    | str s =>
      by_cases hs : s = k
      · simp only [setMapIndex, hs, if_true, mapIndex]
      · simp only [setMapIndex, hs, if_false, mapIndex, ih]
    | _ => simp only [setMapIndex, mapIndex, ih]

theorem mapIndex_setMapIndex_ne (m : List (Data × Data)) (k k1 : String) (x : Data)
    (hne : k1 ≠ k) : mapIndex (setMapIndex m k x) k1 = mapIndex m k1 := by
  have hne2 : ¬ k = k1 := fun h => hne h.symm
  induction m with
  | nil => simp only [setMapIndex, mapIndex, hne2, if_false]
  | cons kv rest ih =>
    obtain ⟨k0, x0⟩ := kv
    cases k0 with
    | str s =>
      by_cases hs : s = k
      · simp only [setMapIndex, hs, if_true, mapIndex, hne2, if_false]
      · simp only [setMapIndex, hs, if_false, mapIndex, ih]
    | _ => simp only [setMapIndex, mapIndex, ih]

theorem decodeMap_merge (self : Option AttributeValue → Value → DecOut) (e : GoType) :
    ∀ (r : AttributeValueMap) (acc : List (Data × Data)),
      (r.map Prod.fst).Nodup →
      (∀ k sub, (k, sub) ∈ r → (self sub ⟨e, true, zero e⟩).status = .ok ()) →
      ∃ out, decodeMap self e r (some acc) = ⟨.map (some out), .ok ()⟩ ∧
        MapMerged self e acc r out := by
  intro r
  induction r with
  | nil =>
    intro acc _ _
    refine ⟨acc, rfl, ?_, ?_, ?_⟩
    · intro k
      simp only [List.map_nil, List.not_mem_nil, or_false]
    · intro k _
      rfl
    · intro k sub h
      cases h
  | cons kv rest ih =>
    intro acc hnd hok
    obtain ⟨k, sub⟩ := kv
    rw [List.map_cons, List.nodup_cons] at hnd
    have hst := hok k sub (List.mem_cons_self _ _)
    have hself : self sub ⟨e, true, zero e⟩ = ⟨(self sub ⟨e, true, zero e⟩).dest, .ok ()⟩ := by
      rcases hx : self sub ⟨e, true, zero e⟩ with ⟨x, st⟩
      rw [hx] at hst
      simp only at hst
      rw [hst]
    obtain ⟨out, hout, h1, h2, h3⟩ :=
      ih (setMapIndex acc k (self sub ⟨e, true, zero e⟩).dest) hnd.2
        (fun k1 s1 hm => hok k1 s1 (List.mem_cons_of_mem _ hm))
    refine ⟨out, ?_, ?_, ?_, ?_⟩
    · rw [decodeMap, hself]
      exact hout
    · intro k1
      rw [h1 k1]
      by_cases hk : k1 = k
      · subst hk
        simp only [mapIndex_setMapIndex_same, Option.isSome_some, true_or, List.map_cons,
          List.mem_cons, or_true]
      · simp only [mapIndex_setMapIndex_ne acc k k1 _ hk, List.map_cons, List.mem_cons, hk,
          false_or]
    · intro k1 hk1
      simp only [List.map_cons, List.mem_cons, not_or] at hk1
      rw [h2 k1 hk1.2, mapIndex_setMapIndex_ne acc k k1 _ hk1.1]
    · intro k1 s1 hm
      rcases List.mem_cons.1 hm with heq | hmem
      · cases heq
        rw [h2 k hnd.1, mapIndex_setMapIndex_same]
      · exact h3 k1 s1 hmem

/-- C21. Additive map merge. Decoding a Record with distinct keys, all of whose entries decode
without error into a fresh element, into a hook-free map destination with keys of string kind
returns no error; afterwards the keys of the destination are those it held and those of the
Record, a key that the Record lacks keeps its prior value, and a key of the Record holds the
value decoded from its entry. A nil destination map, which must be addressable, is allocated
first. -/
theorem C21_additive_map_merge (env : Env) (fuel : Nat) (t k e : GoType) (c : Bool)
    (d : Option (List (Data × Data))) (r : AttributeValueMap)
    (ht : t.underlying = .map k e) (hk : k.isString = true) (hf : t.decHookFree = true)
    (hc : d = none → c = true) (hnd : (r.map Prod.fst).Nodup)
    (hok : ∀ key sub, (key, sub) ∈ r →
      (decodeAttribute env fuel sub ⟨e, true, zero e⟩).status = .ok ()) :
    ∃ out, decodeAttribute env (fuel + 1) (some (AttributeValue.ofM r)) ⟨t, c, .map d⟩
        = ⟨.map (some out), .ok ()⟩ ∧
      MapMerged (decodeAttribute env fuel) e (d.getD []) r out := by
  have hp : t.isPtr = false := by simp only [GoType.isPtr, ht]
  rw [decodeAttribute_kind env fuel _ t c (.map d) hf hp]
  unfold decodeKind
  simp only [ht, AttributeValue.ofM, AttributeValue.M, hk, Bool.true_eq_false, if_false]
  cases d with
  | none =>
    simp only [hc rfl, if_true, Option.getD_none]
    exact decodeMap_merge (decodeAttribute env fuel) e r [] hnd hok
  | some entries =>
    simp only [Option.getD_some]
    exact decodeMap_merge (decodeAttribute env fuel) e r entries hnd hok

theorem C21_additive_map_merge_witness :
    (GoType.map .string (.int 64)).underlying = .map .string (.int 64) ∧
    GoType.string.isString = true ∧ (GoType.map .string (.int 64)).decHookFree = true ∧
    (([("A", some (AttributeValue.ofN "1"))] : AttributeValueMap).map Prod.fst).Nodup ∧
    (∃ out, decodeAttribute sampleEnv (1 + 1)
          (some (AttributeValue.ofM [("A", some (AttributeValue.ofN "1"))]))
          ⟨.map .string (.int 64), true, .map (some [(.str "B", .int 2)])⟩
        = ⟨.map (some out), .ok ()⟩ ∧
      MapMerged (decodeAttribute sampleEnv 1) (.int 64)
        ((some [(Data.str "B", Data.int 2)]).getD []) [("A", some (AttributeValue.ofN "1"))]
        out) ∧
    decodeAttribute sampleEnv (1 + 1)
        (some (AttributeValue.ofM [("A", some (AttributeValue.ofN "1"))]))
        ⟨.map .string (.int 64), true, .map (some [(.str "B", .int 2)])⟩
      = ⟨.map (some [(.str "B", .int 2), (.str "A", .int 1)]), .ok ()⟩ :=
  ⟨rfl, rfl, rfl, by simp,
    C21_additive_map_merge sampleEnv 1 (.map .string (.int 64)) .string (.int 64) true
      (some [(.str "B", .int 2)]) [("A", some (AttributeValue.ofN "1"))] rfl rfl rfl
      (fun h => by cases h) (by simp)
      (fun key sub h => by
        simp only [List.mem_singleton, Prod.mk.injEq] at h
        rw [h.2]
        rfl),
    rfl⟩

/-! ## Decoding a List into arrays and slices -/

theorem decodeElems_arrayDecoded (self : Option AttributeValue → Value → DecOut) (e : GoType) :
    ∀ (xs : List Data) (l : List (Option AttributeValue)),
      (∀ p ∈ l.zip xs, (self p.1 ⟨e, true, p.2⟩).status = .ok ()) →
      (decodeElems self e true l xs).2 = .ok () ∧
        ArrayDecoded self e l xs (decodeElems self e true l xs).1 := by
  intro xs
  induction xs with
  | nil =>
    intro l _
    cases l <;>
    · simp only [decodeElems]
      refine ⟨trivial, ?_, ?_, rfl⟩
      · intro i el x _ hx
        cases hx
      · intro i _ hi
        cases hi
  | cons x rest ih =>
    intro l hok
    cases l with
    | nil =>
      simp only [decodeElems, if_true]
      refine ⟨trivial, ?_, ?_, ?_⟩
      · intro i el y hl _
        cases hl
      · intro i _ hi
        rw [List.get?_eq_getElem?, List.getElem?_map]
        rw [List.getElem?_eq_getElem hi]
        rfl
      · simp only [List.length_map]
    | cons el els =>
      have h0 := hok (el, x) (by simp only [List.zip_cons_cons, List.mem_cons, true_or])
      have hrest : ∀ p ∈ els.zip rest, (self p.1 ⟨e, true, p.2⟩).status = .ok () := by
        intro p hp
        exact hok p (by simp only [List.zip_cons_cons, List.mem_cons, hp, or_true])
      obtain ⟨hst, h1, h2, h3⟩ := ih els hrest
      have hself : self el ⟨e, true, x⟩ = ⟨(self el ⟨e, true, x⟩).dest, .ok ()⟩ := by
        rcases hx : self el ⟨e, true, x⟩ with ⟨y, st⟩
        rw [hx] at h0
        simp only at h0
        rw [h0]
      have hd : decodeElems self e true (el :: els) (x :: rest)
          = ((self el ⟨e, true, x⟩).dest :: (decodeElems self e true els rest).1,
              (decodeElems self e true els rest).2) := by
        rw [decodeElems, hself]
      rw [hd]
      refine ⟨hst, ?_, ?_, ?_⟩
      · intro i el1 y hl hx
        cases i with
        | zero =>
          simp only [List.get?_cons_zero, Option.some.injEq] at hl hx ⊢
          rw [← hl, ← hx]
        | succ j =>
          simp only [List.get?_cons_succ] at hl hx ⊢
          exact h1 j el1 y hl hx
      · intro i hle hlt
        cases i with
        | zero => simp only [List.length_cons] at hle; omega
        | succ j =>
          simp only [List.length_cons] at hle hlt
          simp only [List.get?_cons_succ]
          exact h2 j (by omega) (by omega)
      · simp only [List.length_cons, h3]

theorem decodeElems_fresh (self : Option AttributeValue → Value → DecOut) (e : GoType) :
    ∀ l : List (Option AttributeValue),
      (∀ el ∈ l, (self el ⟨e, true, zero e⟩).status = .ok ()) →
      decodeElems self e true l (List.replicate l.length (zero e))
        = (l.map (fun el => (self el ⟨e, true, zero e⟩).dest), .ok ()) := by
  intro l
  induction l with
  | nil => intro _; rfl
  | cons el els ih =>
    intro hok
    have h0 := hok el (List.mem_cons_self _ _)
    have hself : self el ⟨e, true, zero e⟩ = ⟨(self el ⟨e, true, zero e⟩).dest, .ok ()⟩ := by
      rcases hx : self el ⟨e, true, zero e⟩ with ⟨y, st⟩
      rw [hx] at h0
      simp only at h0
      rw [h0]
    rw [List.length_cons, List.replicate_succ, decodeElems, hself]
    simp only [ih (fun x hx => hok x (List.mem_cons_of_mem _ hx)), List.map_cons]

/-- C24, amended. Fixed-size array decode. For an addressable hook-free array destination
whose element type is not an interface type with methods, and a List whose used members decode
without error into their slots: decoding returns no error, slot `i` holds the decoding of
member `i` for `i` below both lengths, every further slot holds the zero value of the element
type, members past the capacity are ignored, and the capacity is unchanged. For an element type
that is an interface type with methods and a capacity of at least one, decoding a List fails
with a DecodeError whose overflow flag is not set and leaves the array unchanged. -/
theorem C24_array_decode (env : Env) (fuel : Nat) (t e : GoType) (n : Nat)
    (xs : List Data) (l : List (Option AttributeValue))
    (ht : t.underlying = .array n e) (hf : t.decHookFree = true) :
    (e.isNonEmptyInterface = false →
      (∀ p ∈ l.zip xs, (decodeAttribute env fuel p.1 ⟨e, true, p.2⟩).status = .ok ()) →
      ∃ out, decodeAttribute env (fuel + 1) (some (AttributeValue.ofL l)) ⟨t, true, .array xs⟩
          = ⟨.array out, .ok ()⟩ ∧
        ArrayDecoded (decodeAttribute env fuel) e l xs out) ∧
    (e.isNonEmptyInterface = true → xs ≠ [] →
      decodeAttribute env (fuel + 1) (some (AttributeValue.ofL l)) ⟨t, true, .array xs⟩
        = ⟨.array xs,
            .error ⟨"cannot decode into array of non-empty interface types", false⟩⟩) := by
  have hp : t.isPtr = false := by simp only [GoType.isPtr, ht]
  have hk : decodeAttribute env (fuel + 1) (some (AttributeValue.ofL l)) ⟨t, true, .array xs⟩
      = decodeArray (decodeAttribute env fuel) (some (AttributeValue.ofL l))
          ⟨t, true, .array xs⟩ := by
    rw [decodeAttribute_kind env fuel _ t true (.array xs) hf hp]
    unfold decodeKind
    simp only [ht]
  rw [hk]
  constructor
  · intro he hok
    obtain ⟨hst, hdec⟩ := decodeElems_arrayDecoded (decodeAttribute env fuel) e xs l hok
    by_cases hx : xs.length = 0
    · have hnil : xs = [] := List.length_eq_zero.1 hx
      subst hnil
      refine ⟨[], ?_, ?_⟩
      · simp only [decodeArray, AttributeValue.ofL, AttributeValue.NULL, AttributeValue.L, ht,
          List.length_nil, if_true]
      · refine ⟨?_, ?_, rfl⟩
        · intro i el x _ h
          cases h
        · intro i _ h
          cases h
    · refine ⟨(decodeElems (decodeAttribute env fuel) e true l xs).1, ?_, hdec⟩
      simp only [decodeArray, AttributeValue.ofL, AttributeValue.NULL, AttributeValue.L, ht, hx,
        if_false]
      unfold GoType.isNonEmptyInterface at he
      split
      · rename_i ms hms
        simp only [hms, decide_eq_false_iff_not] at he
        simp only [he, if_false, hst]
      · simp only [hst]
  · intro he hx
    have hlen : ¬ xs.length = 0 := fun h => hx (List.length_eq_zero.1 h)
    unfold GoType.isNonEmptyInterface at he
    simp only [decodeArray, AttributeValue.ofL, AttributeValue.NULL, AttributeValue.L, ht, hlen,
      if_false]
    split
    · rename_i ms hms
      simp only [hms, decide_eq_true_eq] at he
      rw [if_pos he]
    · rename_i hni
      cases hu : e.underlying <;> simp only [hu] at he <;> first | cases he | skip
      rename_i ms
      exact absurd hu (hni ms)

theorem C24_array_decode_witness :
    (GoType.array 3 (.int 64)).underlying = .array 3 (.int 64) ∧
    (GoType.array 3 (.int 64)).decHookFree = true ∧
    (GoType.int 64).isNonEmptyInterface = false ∧
    (∃ out, decodeAttribute sampleEnv (1 + 1)
          (some (AttributeValue.ofL [some (AttributeValue.ofN "7")]))
          ⟨.array 3 (.int 64), true, .array [.int 1, .int 2, .int 3]⟩
        = ⟨.array out, .ok ()⟩ ∧
      ArrayDecoded (decodeAttribute sampleEnv 1) (.int 64) [some (AttributeValue.ofN "7")]
        [.int 1, .int 2, .int 3] out) ∧
    decodeAttribute sampleEnv (1 + 1) (some (AttributeValue.ofL [some (AttributeValue.ofN "7")]))
        ⟨.array 3 (.int 64), true, .array [.int 1, .int 2, .int 3]⟩
      = ⟨.array [.int 7, .int 0, .int 0], .ok ()⟩ ∧
    decodeAttribute sampleEnv (1 + 1)
        (some (AttributeValue.ofL [some (AttributeValue.ofN "7"), some (AttributeValue.ofN "8")]))
        ⟨.array 1 (.int 64), true, .array [.int 1]⟩
      = ⟨.array [.int 7], .ok ()⟩ :=
  ⟨rfl, rfl, rfl,
    (C24_array_decode sampleEnv 1 (.array 3 (.int 64)) (.int 64) 3 [.int 1, .int 2, .int 3]
      [some (AttributeValue.ofN "7")] rfl rfl).1 rfl
      (fun p hp => by
        simp only [List.zip_cons_cons, List.zip_nil_left, List.mem_singleton] at hp
        rw [hp]
        rfl),
    rfl, rfl⟩

/-- C24 as stated fails for an element type that is an interface with methods: decoding the
empty List, none of whose members is used, into an array of one `fmt.Stringer` returns a
DecodeError and leaves the slot at its prior value instead of resetting it to zero. -/
theorem C24_counterexample :
    (∀ p ∈ ([] : List (Option AttributeValue)).zip
        [Data.iface (some (sampleNamedString, Data.str "a"))],
      (decodeAttribute sampleEnv 0 p.1 ⟨sampleStringer, true, p.2⟩).status = .ok ()) ∧
    decodeAttribute sampleEnv 1 (some (AttributeValue.ofL []))
        ⟨.array 1 sampleStringer, true, .array [.iface (some (sampleNamedString, .str "a"))]⟩
      = ⟨.array [.iface (some (sampleNamedString, .str "a"))],
          .error ⟨"cannot decode into array of non-empty interface types", false⟩⟩ ∧
    zero sampleStringer = .iface none := by
  refine ⟨?_, rfl, rfl⟩
  intro p hp
  cases hp

/-- C25. Resizable sequence decode. Decoding a List of length `n`, all of whose members decode
without error into a fresh zero element, into an addressable hook-free slice destination that
is not a byte slice returns no error and leaves a slice of length `n` whose element `i` is the
decoding of member `i` into a fresh zero element, whatever the destination held. The element
type is not an interface type with methods, unless the List is empty. -/
theorem C25_slice_decode (env : Env) (fuel : Nat) (t e : GoType) (prior : Data)
    (l : List (Option AttributeValue))
    (ht : t.underlying = .slice e) (hb : e.isUint8 = false) (hf : t.decHookFree = true)
    (he : e.isNonEmptyInterface = false ∨ l = [])
    (hok : ∀ el ∈ l, (decodeAttribute env fuel el ⟨e, true, zero e⟩).status = .ok ()) :
    decodeAttribute env (fuel + 1) (some (AttributeValue.ofL l)) ⟨t, true, prior⟩
        = ⟨.slice (some (l.map
            (fun el => (decodeAttribute env fuel el ⟨e, true, zero e⟩).dest))), .ok ()⟩ ∧
    (l.map (fun el => (decodeAttribute env fuel el ⟨e, true, zero e⟩).dest)).length
      = l.length := by
  have hp : t.isPtr = false := by simp only [GoType.isPtr, ht]
  refine ⟨?_, List.length_map _ _⟩
  rw [decodeAttribute_kind env fuel _ t true prior hf hp]
  unfold decodeKind
  simp only [ht, hb, Bool.false_eq_true, if_false]
  by_cases hl : l.length = 0
  · have hnil : l = [] := List.length_eq_zero.1 hl
    subst hnil
    simp only [decodeArray, AttributeValue.ofL, AttributeValue.NULL, AttributeValue.L, ht,
      Bool.true_eq_false, if_false, List.length_nil, if_true, List.map_nil]
  · have hne : e.isNonEmptyInterface = false := by
      rcases he with h | h
      · exact h
      · rw [h] at hl
        exact absurd rfl hl
    have hfresh := decodeElems_fresh (decodeAttribute env fuel) e l hok
    simp only [decodeArray, AttributeValue.ofL, AttributeValue.NULL, AttributeValue.L, ht,
      Bool.true_eq_false, if_false, hl]
    unfold GoType.isNonEmptyInterface at hne
    split
    · rename_i ms hms
      simp only [hms, decide_eq_false_iff_not] at hne
      simp only [hne, if_false, hfresh]
    · simp only [hfresh]

theorem C25_slice_decode_witness :
    (GoType.slice (.int 64)).underlying = .slice (.int 64) ∧ (GoType.int 64).isUint8 = false ∧
    (GoType.slice (.int 64)).decHookFree = true ∧
    ((GoType.int 64).isNonEmptyInterface = false ∨
      [some (AttributeValue.ofN "7"), some (AttributeValue.ofN "8")] = []) ∧
    decodeAttribute sampleEnv (1 + 1)
        (some (AttributeValue.ofL [some (AttributeValue.ofN "7"), some (AttributeValue.ofN "8")]))
        ⟨.slice (.int 64), true, .slice (some [.int 1, .int 2, .int 3])⟩
      = ⟨.slice (some [.int 7, .int 8]), .ok ()⟩ :=
  ⟨rfl, rfl, rfl, Or.inl rfl,
    (C25_slice_decode sampleEnv 1 (.slice (.int 64)) (.int 64)
      (.slice (some [.int 1, .int 2, .int 3]))
      [some (AttributeValue.ofN "7"), some (AttributeValue.ofN "8")] rfl rfl rfl (Or.inl rfl)
      (fun el hel => by
        simp only [List.mem_cons, List.mem_singleton, List.not_mem_nil, or_false] at hel
        rcases hel with h | h <;> rw [h] <;> rfl)).1⟩

/-! ## Generic decoding into an empty interface -/

theorem optCons_eq_some {α : Type} {o : Option α} {os : Option (List α)} {r : List α}
    (h : optCons o os = some r) : ∃ x xs, o = some x ∧ os = some xs ∧ r = x :: xs := by
  cases o with
  | none => simp only [optCons] at h; cases h
  | some x =>
    cases os with
    | none => simp only [optCons] at h; cases h
    | some xs =>
      simp only [optCons, Option.some.injEq] at h
      exact ⟨x, xs, rfl, rfl, h.symm⟩

theorem decodeMap_generic (env : Env) (self : Option AttributeValue → Value → DecOut)
    (e : GoType) :
    ∀ (es : AttributeValueMap) (ds : List (Data × Data)),
      (∀ k c d, (k, some c) ∈ es → c.generic env = some d →
        self (some c) ⟨e, true, zero e⟩ = ⟨d, .ok ()⟩) →
      genericEntries env es = some ds →
      ∀ acc : List (Data × Data),
        (∀ kv ∈ acc, ∃ s : String, kv.1 = .str s ∧ s ∉ es.map Prod.fst) →
        decodeMap self e es (some acc) = ⟨.map (some (acc ++ ds)), .ok ()⟩ := by
  intro es
  induction es with
  | nil =>
    intro ds _ hg acc _
    rw [genericEntries, Option.some.injEq] at hg
    rw [← hg, decodeMap, List.append_nil]
  | cons kv rest ih =>
    intro ds hself hg acc hacc
    obtain ⟨k, o⟩ := kv
    cases o with
    | none => rw [genericEntries] at hg; cases hg
    | some c =>
      rw [genericEntries] at hg
      by_cases hk : k ∈ rest.map Prod.fst
      · rw [if_pos hk] at hg
        cases hg
      · rw [if_neg hk] at hg
        obtain ⟨x, xs, hx, hxs, hds⟩ := optCons_eq_some hg
        cases hc : c.generic env with
        | none => rw [hc] at hx; cases hx
        | some d =>
          rw [hc, Option.map_some', Option.some.injEq] at hx
          have hdec := hself k c d (List.mem_cons_self _ _) hc
          rw [decodeMap, hdec]
          have hset : setMapIndex acc k d = acc ++ [(.str k, d)] := by
            apply setMapIndex_append
            intro kv hkv
            obtain ⟨s, hs, hns⟩ := hacc kv hkv
            refine ⟨s, hs, ?_⟩
            intro heq
            exact hns (by simp only [List.map_cons, List.mem_cons, heq, true_or])
          simp only [hset]
          rw [ih xs (fun k1 c1 d1 hm => hself k1 c1 d1 (List.mem_cons_of_mem _ hm)) hxs
            (acc ++ [(Data.str k, d)]) ?_]
          · rw [hds, ← hx, List.append_assoc, List.singleton_append]
          · intro kv hkv
            rcases List.mem_append.1 hkv with h | h
            · obtain ⟨s, hs, hns⟩ := hacc kv h
              refine ⟨s, hs, ?_⟩
              intro hmem
              exact hns (by simp only [List.map_cons, List.mem_cons, hmem, or_true])
            · rw [List.mem_singleton] at h
              exact ⟨k, by rw [h], hk⟩

theorem decodeElems_generic (env : Env) (self : Option AttributeValue → Value → DecOut)
    (e : GoType) :
    ∀ (ls : List (Option AttributeValue)) (ds : List Data),
      (∀ c d, some c ∈ ls → c.generic env = some d →
        self (some c) ⟨e, true, zero e⟩ = ⟨d, .ok ()⟩) →
      genericElems env ls = some ds →
      decodeElems self e true ls (List.replicate ls.length (zero e)) = (ds, .ok ()) := by
  intro ls
  induction ls with
  | nil =>
    intro ds _ hg
    rw [genericElems, Option.some.injEq] at hg
    rw [← hg]
    rfl
  | cons o rest ih =>
    intro ds hself hg
    cases o with
    | none => rw [genericElems] at hg; cases hg
    | some c =>
      rw [genericElems] at hg
      obtain ⟨x, xs, hx, hxs, hds⟩ := optCons_eq_some hg
      have hdec := hself c x (List.mem_cons_self _ _) hx
      rw [List.length_cons, List.replicate_succ, decodeElems, hdec]
      simp only [ih xs (fun c1 d1 hm => hself c1 d1 (List.mem_cons_of_mem _ hm)) hxs, hds]

theorem zero_of_iface (t : GoType) (ms : MethodSet) (ht : t.underlying = .iface ms) :
    zero t = .iface none := by
  rw [zero_underlying t, ht, zero]

theorem decode_generic (env : Env) :
    ∀ (fuel : Nat) (w : AttributeValue) (g : Data) (t : GoType) (ms : MethodSet) (prior : Data),
      w.depth ≤ fuel → w.generic env = some g → t.underlying = .iface ms →
      t.methods.numMethod = 0 → t.decHookFree = true →
      decodeAttribute env fuel (some w) ⟨t, true, prior⟩ = ⟨g, .ok ()⟩ := by
  intro fuel
  induction fuel with
  | zero =>
    intro w g t ms prior hd
    obtain ⟨b, bo, s, n, nu, m, l⟩ := w
    rw [AttributeValue.depth] at hd
    omega
  | succ fuel ih =>
    intro w g t ms prior hd hg ht hm hf
    have hp : t.isPtr = false := by simp only [GoType.isPtr, ht]
    have hkids : ∀ c d, c.depth ≤ fuel → c.generic env = some d →
        decodeAttribute env fuel (some c)
          ⟨.iface MethodSet.empty, true, zero (.iface MethodSet.empty)⟩ = ⟨d, .ok ()⟩ :=
      fun c d hc hcg => ih c d (.iface MethodSet.empty) MethodSet.empty _ hc hcg rfl rfl rfl
    rw [decodeAttribute_kind env fuel _ t true prior hf hp]
    unfold decodeKind
    simp only [ht, decodeInterface, hm, ne_eq, not_true_eq_false, if_false]
    obtain ⟨b, bo, s, n, nu, m, l⟩ := w
    rw [AttributeValue.generic] at hg
    unfold genericPick at hg
    simp only [AttributeValue.B, AttributeValue.BOOL, AttributeValue.S, AttributeValue.N,
      AttributeValue.NULL, AttributeValue.M, AttributeValue.L]
    cases b with
    | some bs =>
      simp only [Option.some.injEq] at hg
      simp only [setValue, if_true, hg]
    | none =>
    cases bo with
    | some x =>
      simp only [Option.some.injEq] at hg
      simp only [setValue, if_true, hg]
    | none =>
    cases s with
    | some x =>
      simp only [Option.some.injEq] at hg
      simp only [setValue, if_true, hg]
    | none =>
    cases n with
    | some x =>
      simp only at hg
      cases hpf : env.parseFloat x 64 with
      | none => rw [hpf] at hg; cases hg
      | some f =>
        rw [hpf, Option.map_some', Option.some.injEq] at hg
        simp only [hpf, setValue, if_true, hg]
    | none =>
    cases nu with
    | some x =>
      simp only [Option.some.injEq] at hg
      simp only [setValue, if_true, zero_of_iface t ms ht, hg]
    | none =>
    cases m with
    | some es =>
      simp only [genericRecord] at hg
      cases hge : genericEntries env es with
      | none => rw [hge] at hg; cases hg
      | some ds =>
        rw [hge, Option.map_some', Option.some.injEq] at hg
        have hmap := decodeMap_generic env (decodeAttribute env fuel) (.iface MethodSet.empty)
          es ds
          (fun k c d hmem hcg => hkids c d (by
            have := @depth_lt_of_mem_M none none none none none es l k c hmem
            omega) hcg)
          hge [] (fun kv hkv => by cases hkv)
        have hel : imapType.elem = .iface MethodSet.empty := rfl
        dsimp only
        rw [hel, hmap]
        simp only [List.nil_append, setValue, if_true, hg]
    | none =>
    cases l with
    | none => simp only [genericRecord, genericList] at hg; cases hg
    | some ls =>
      simp only [genericRecord, genericList] at hg
      cases hge : genericElems env ls with
      | none => rw [hge] at hg; cases hg
      | some ds =>
        rw [hge, Option.map_some', Option.some.injEq] at hg
        have helems := decodeElems_generic env (decodeAttribute env fuel)
          (.iface MethodSet.empty) ls ds
          (fun c d hmem hcg => hkids c d (by
            have := @depth_lt_of_mem_L none none none none none none ls c hmem
            omega) hcg)
          hge
        have harr : decodeArray (decodeAttribute env fuel)
            (some (AttributeValue.mk none none none none none none (some ls)))
            ⟨ilistType, true, zero ilistType⟩ = ⟨.slice (some ds), .ok ()⟩ := by
          by_cases hl : ls.length = 0
          · have hnil : ls = [] := List.length_eq_zero.1 hl
            subst hnil
            rw [genericElems, Option.some.injEq] at hge
            rw [← hge]
            rfl
          · simp only [decodeArray, AttributeValue.NULL, AttributeValue.L, ilistType,
              GoType.underlying, Bool.true_eq_false, if_false, hl, MethodSet.empty, ne_eq,
              not_true_eq_false]
            have h2 := helems
            simp only [MethodSet.empty] at h2
            simp only [h2]
        dsimp only
        rw [harr]
        simp only [setValue, if_true, hg]

theorem genericEntries_defined (env : Env) :
    ∀ es : AttributeValueMap,
      (∀ k, (k, none) ∉ es) → (es.map Prod.fst).Nodup →
      (∀ k c, (k, some c) ∈ es → ∃ d, c.generic env = some d) →
      ∃ ds, genericEntries env es = some ds := by
  intro es
  induction es with
  | nil => intro _ _ _; exact ⟨[], by rw [genericEntries]⟩
  | cons kv rest ih =>
    intro hnone hnd hk
    obtain ⟨k, o⟩ := kv
    rw [List.map_cons, List.nodup_cons] at hnd
    cases o with
    | none => exact absurd (List.mem_cons_self _ _) (hnone k)
    | some c =>
      obtain ⟨d, hd⟩ := hk k c (List.mem_cons_self _ _)
      obtain ⟨ds, hds⟩ := ih (fun k1 h => hnone k1 (List.mem_cons_of_mem _ h)) hnd.2
        (fun k1 c1 h => hk k1 c1 (List.mem_cons_of_mem _ h))
      refine ⟨(Data.str k, d) :: ds, ?_⟩
      rw [genericEntries, if_neg hnd.1, hd, hds]
      rfl

theorem genericElems_defined (env : Env) :
    ∀ ls : List (Option AttributeValue),
      none ∉ ls → (∀ c, some c ∈ ls → ∃ d, c.generic env = some d) →
      ∃ ds, genericElems env ls = some ds := by
  intro ls
  induction ls with
  | nil => intro _ _; exact ⟨[], by rw [genericElems]⟩
  | cons o rest ih =>
    intro hnone hk
    cases o with
    | none => exact absurd (List.mem_cons_self _ _) hnone
    | some c =>
      obtain ⟨d, hd⟩ := hk c (List.mem_cons_self _ _)
      obtain ⟨ds, hds⟩ := ih (fun h => hnone (List.mem_cons_of_mem _ h))
        (fun c1 h => hk c1 (List.mem_cons_of_mem _ h))
      refine ⟨d :: ds, ?_⟩
      rw [genericElems, hd, hds]
      rfl

theorem generic_defined (env : Env) :
    ∀ (n : Nat) (w : AttributeValue), w.depth ≤ n → WellFormed w → DistinctKeys w →
      NumbersParse env w → ∃ g, w.generic env = some g := by
  intro n
  induction n with
  | zero =>
    intro w hd
    obtain ⟨b, bo, s, nn, nu, m, l⟩ := w
    rw [AttributeValue.depth] at hd
    omega
  | succ n ih =>
    intro w hd hw hk hi
    cases hw with
    | intro _ one mSome mKids lSome lKids =>
    cases hk with
    | intro _ keys kmKids klKids =>
    cases hi with
    | intro _ num gmKids glKids =>
    obtain ⟨b, bo, s, nn, nu, m, l⟩ := w
    rw [AttributeValue.generic]
    unfold genericPick
    cases b with
    | some bs => exact ⟨_, rfl⟩
    | none =>
    cases bo with
    | some x => exact ⟨_, rfl⟩
    | none =>
    cases s with
    | some x => exact ⟨_, rfl⟩
    | none =>
    cases nn with
    | some x =>
      have hp := num x rfl
      cases hpf : env.parseFloat x 64 with
      | none => rw [hpf] at hp; cases hp
      | some f =>
        exact ⟨.iface (some (.float 64, .float f)), by simp only [hpf, Option.map_some']⟩
    | none =>
    cases nu with
    | some x => exact ⟨_, rfl⟩
    | none =>
    cases m with
    | some es =>
      obtain ⟨ds, hds⟩ := genericEntries_defined env es (fun k => mSome es k rfl) (keys es rfl)
        (fun k c hmem => ih c (by
          have := @depth_lt_of_mem_M none none none none none es l k c hmem
          omega) (mKids es k c rfl hmem) (kmKids es k c rfl hmem) (gmKids es k c rfl hmem))
      exact ⟨.iface (some (imapType, .map (some ds))),
        by simp only [genericRecord, hds, Option.map_some']⟩
    | none =>
    cases l with
    | some ls =>
      obtain ⟨ds, hds⟩ := genericElems_defined env ls (lSome ls rfl)
        (fun c hmem => ih c (by
          have := @depth_lt_of_mem_L none none none none none none ls c hmem
          omega) (lKids ls c rfl hmem) (klKids ls c rfl hmem) (glKids ls c rfl hmem))
      exact ⟨.iface (some (ilistType, .slice (some ds))),
        by simp only [genericRecord, genericList, hds, Option.map_some']⟩
    | none =>
      simp only [AttributeValue.variantCount, AttributeValue.B, AttributeValue.BOOL,
        AttributeValue.S, AttributeValue.N, AttributeValue.NULL, AttributeValue.M,
        AttributeValue.L, Option.isSome_none, Bool.toNat_false, Nat.add_zero] at one
      omega

theorem genericEntries_mem (env : Env) :
    ∀ (es : AttributeValueMap) (ds : List (Data × Data)), genericEntries env es = some ds →
      ∀ k c, (k, some c) ∈ es → ∃ d, c.generic env = some d := by
  intro es
  induction es with
  | nil => intro ds _ k c hmem; cases hmem
  | cons kv rest ih =>
    intro ds hg k c hmem
    obtain ⟨k1, o⟩ := kv
    cases o with
    | none => rw [genericEntries] at hg; cases hg
    | some c1 =>
      rw [genericEntries] at hg
      by_cases hk : k1 ∈ rest.map Prod.fst
      · rw [if_pos hk] at hg
        cases hg
      · rw [if_neg hk] at hg
        obtain ⟨x, xs, hx, hxs, _⟩ := optCons_eq_some hg
        rcases List.mem_cons.1 hmem with h | h
        · simp only [Prod.mk.injEq, Option.some.injEq] at h
          rw [h.2]
          cases hc : c1.generic env with
          | none => rw [hc] at hx; cases hx
          | some d => exact ⟨d, rfl⟩
        · exact ih xs hxs k c h

theorem genericElems_mem (env : Env) :
    ∀ (ls : List (Option AttributeValue)) (ds : List Data), genericElems env ls = some ds →
      ∀ c, some c ∈ ls → ∃ d, c.generic env = some d := by
  intro ls
  induction ls with
  | nil => intro ds _ c hmem; cases hmem
  | cons o rest ih =>
    intro ds hg c hmem
    cases o with
    | none => rw [genericElems] at hg; cases hg
    | some c1 =>
      rw [genericElems] at hg
      obtain ⟨x, xs, hx, hxs, _⟩ := optCons_eq_some hg
      rcases List.mem_cons.1 hmem with h | h
      · simp only [Option.some.injEq] at h
        rw [h]
        exact ⟨x, hx⟩
      · exact ih xs hxs c h

/-- A well-formed tree with a generic decoding has Numbers that parse, at every depth. -/
theorem numbersParse_of_generic (env : Env) :
    ∀ (n : Nat) (w : AttributeValue) (g : Data), w.depth ≤ n → WellFormed w →
      w.generic env = some g → NumbersParse env w := by
  intro n
  induction n with
  | zero =>
    intro w g hd
    obtain ⟨b, bo, s, nn, nu, m, l⟩ := w
    rw [AttributeValue.depth] at hd
    omega
  | succ n ih =>
    intro w g hd hw hg
    cases hw with
    | intro _ one mSome mKids lSome lKids =>
    obtain ⟨b, bo, s, nn, nu, m, l⟩ := w
    simp only [AttributeValue.variantCount, AttributeValue.B, AttributeValue.BOOL,
      AttributeValue.S, AttributeValue.N, AttributeValue.NULL, AttributeValue.M,
      AttributeValue.L] at one
    rw [AttributeValue.generic] at hg
    unfold genericPick at hg
    refine NumbersParse.intro _ ?_ ?_ ?_
    · intro x hx
      simp only [AttributeValue.N] at hx
      subst hx
      cases b with
      | some bs => cases bo <;> cases s <;> cases nu <;> cases m <;> cases l <;>
          simp only [Option.isSome_some, Option.isSome_none, Bool.toNat_true,
            Bool.toNat_false] at one <;> omega
      | none =>
      cases bo with
      | some y => cases s <;> cases nu <;> cases m <;> cases l <;>
          simp only [Option.isSome_some, Option.isSome_none, Bool.toNat_true,
            Bool.toNat_false] at one <;> omega
      | none =>
      cases s with
      | some y => cases nu <;> cases m <;> cases l <;>
          simp only [Option.isSome_some, Option.isSome_none, Bool.toNat_true,
            Bool.toNat_false] at one <;> omega
      | none =>
      simp only at hg
      cases hpf : env.parseFloat x 64 with
      | none => rw [hpf] at hg; cases hg
      | some f => rfl
    · intro es k c hm hmem
      simp only [AttributeValue.M] at hm
      subst hm
      have hdepth : c.depth ≤ n := by
        have := @depth_lt_of_mem_M b bo s nn nu es l k c hmem
        omega
      have hwc := mKids es k c rfl hmem
      cases b with
      | some bs => cases bo <;> cases s <;> cases nn <;> cases nu <;> cases l <;>
          simp only [Option.isSome_some, Option.isSome_none, Bool.toNat_true,
            Bool.toNat_false] at one <;> omega
      | none =>
      cases bo with
      | some y => cases s <;> cases nn <;> cases nu <;> cases l <;>
          simp only [Option.isSome_some, Option.isSome_none, Bool.toNat_true,
            Bool.toNat_false] at one <;> omega
      | none =>
      cases s with
      | some y => cases nn <;> cases nu <;> cases l <;>
          simp only [Option.isSome_some, Option.isSome_none, Bool.toNat_true,
            Bool.toNat_false] at one <;> omega
      | none =>
      cases nn with
      | some y => cases nu <;> cases l <;>
          simp only [Option.isSome_some, Option.isSome_none, Bool.toNat_true,
            Bool.toNat_false] at one <;> omega
      | none =>
      cases nu with
      | some y => cases l <;>
          simp only [Option.isSome_some, Option.isSome_none, Bool.toNat_true,
            Bool.toNat_false] at one <;> omega
      | none =>
      simp only [genericRecord] at hg
      cases hge : genericEntries env es with
      | none => rw [hge] at hg; cases hg
      | some ds =>
        obtain ⟨d, hd1⟩ := genericEntries_mem env es ds hge k c hmem
        exact ih c d hdepth hwc hd1
    · intro ls c hl hmem
      simp only [AttributeValue.L] at hl
      subst hl
      have hdepth : c.depth ≤ n := by
        have := @depth_lt_of_mem_L b bo s nn nu m ls c hmem
        omega
      have hwc := lKids ls c rfl hmem
      cases b with
      | some bs => cases bo <;> cases s <;> cases nn <;> cases nu <;> cases m <;>
          simp only [Option.isSome_some, Option.isSome_none, Bool.toNat_true,
            Bool.toNat_false] at one <;> omega
      | none =>
      cases bo with
      | some y => cases s <;> cases nn <;> cases nu <;> cases m <;>
          simp only [Option.isSome_some, Option.isSome_none, Bool.toNat_true,
            Bool.toNat_false] at one <;> omega
      | none =>
      cases s with
      | some y => cases nn <;> cases nu <;> cases m <;>
          simp only [Option.isSome_some, Option.isSome_none, Bool.toNat_true,
            Bool.toNat_false] at one <;> omega
      | none =>
      cases nn with
      | some y => cases nu <;> cases m <;>
          simp only [Option.isSome_some, Option.isSome_none, Bool.toNat_true,
            Bool.toNat_false] at one <;> omega
      | none =>
      cases nu with
      | some y => cases m <;>
          simp only [Option.isSome_some, Option.isSome_none, Bool.toNat_true,
            Bool.toNat_false] at one <;> omega
      | none =>
      cases m with
      | some es => simp only [Option.isSome_some, Bool.toNat_true] at one; omega
      | none =>
      simp only [genericRecord, genericList] at hg
      cases hge : genericElems env ls with
      | none => rw [hge] at hg; cases hg
      | some ds =>
        obtain ⟨d, hd1⟩ := genericElems_mem env ls ds hge c hmem
        exact ih c d hdepth hwc hd1

/-- The loop of `decodeMap` stops with the error of the first member that has no generic
decoding. -/
theorem decodeMap_generic_error (env : Env) (self : Option AttributeValue → Value → DecOut)
    (e : GoType) :
    ∀ es : AttributeValueMap,
      (∀ k c d, (k, some c) ∈ es → c.generic env = some d →
        self (some c) ⟨e, true, zero e⟩ = ⟨d, .ok ()⟩) →
      (∀ k c, (k, some c) ∈ es → c.generic env = none →
        ∃ d msg, self (some c) ⟨e, true, zero e⟩ = ⟨d, .error ⟨msg, false⟩⟩) →
      (∀ k, (k, none) ∉ es) → (es.map Prod.fst).Nodup →
      genericEntries env es = none →
      ∀ acc : List (Data × Data),
        ∃ m msg, decodeMap self e es (some acc) = ⟨.map m, .error ⟨msg, false⟩⟩ := by
  intro es
  induction es with
  | nil =>
    intro _ _ _ _ hg
    rw [genericEntries] at hg
    cases hg
  | cons kv rest ih =>
    intro hok herr hnone hnd hg acc
    obtain ⟨k, o⟩ := kv
    rw [List.map_cons, List.nodup_cons] at hnd
    cases o with
    | none => exact absurd (List.mem_cons_self _ _) (hnone k)
    | some c =>
      rw [genericEntries, if_neg hnd.1] at hg
      cases hc : c.generic env with
      | none =>
        obtain ⟨d, msg, hdec⟩ := herr k c (List.mem_cons_self _ _) hc
        exact ⟨some acc, msg, by rw [decodeMap, hdec]⟩
      | some d =>
        have hdec := hok k c d (List.mem_cons_self _ _) hc
        have hrest : genericEntries env rest = none := by
          cases hr : genericEntries env rest with
          | none => rfl
          | some ds =>
            rw [hc, hr] at hg
            simp only [Option.map_some', optCons] at hg
            cases hg
        obtain ⟨m, msg, hm⟩ := ih
          (fun k1 c1 d1 h => hok k1 c1 d1 (List.mem_cons_of_mem _ h))
          (fun k1 c1 h => herr k1 c1 (List.mem_cons_of_mem _ h))
          (fun k1 h => hnone k1 (List.mem_cons_of_mem _ h)) hnd.2 hrest
          (setMapIndex acc k d)
        exact ⟨m, msg, by rw [decodeMap, hdec]; exact hm⟩

/-- The first loop of `decodeArray` stops with the error of the first member that has no
generic decoding. -/
theorem decodeElems_generic_error (env : Env) (self : Option AttributeValue → Value → DecOut)
    (e : GoType) :
    ∀ ls : List (Option AttributeValue),
      (∀ c d, some c ∈ ls → c.generic env = some d →
        self (some c) ⟨e, true, zero e⟩ = ⟨d, .ok ()⟩) →
      (∀ c, some c ∈ ls → c.generic env = none →
        ∃ d msg, self (some c) ⟨e, true, zero e⟩ = ⟨d, .error ⟨msg, false⟩⟩) →
      none ∉ ls → genericElems env ls = none →
      ∃ msg, (decodeElems self e true ls (List.replicate ls.length (zero e))).2
        = .error ⟨msg, false⟩ := by
  intro ls
  induction ls with
  | nil =>
    intro _ _ _ hg
    rw [genericElems] at hg
    cases hg
  | cons o rest ih =>
    intro hok herr hnone hg
    cases o with
    | none => exact absurd (List.mem_cons_self _ _) hnone
    | some c =>
      rw [genericElems] at hg
      rw [List.length_cons, List.replicate_succ]
      cases hc : c.generic env with
      | none =>
        obtain ⟨d, msg, hdec⟩ := herr c (List.mem_cons_self _ _) hc
        exact ⟨msg, by rw [decodeElems, hdec]⟩
      | some d =>
        have hdec := hok c d (List.mem_cons_self _ _) hc
        have hrest : genericElems env rest = none := by
          cases hr : genericElems env rest with
          | none => rfl
          | some ds =>
            rw [hc, hr] at hg
            simp only [optCons] at hg
            cases hg
        obtain ⟨msg, hm⟩ := ih
          (fun c1 d1 h => hok c1 d1 (List.mem_cons_of_mem _ h))
          (fun c1 h => herr c1 (List.mem_cons_of_mem _ h))
          (fun h => hnone (List.mem_cons_of_mem _ h)) hrest
        exact ⟨msg, by rw [decodeElems, hdec]; exact hm⟩

/-- Decoding a well-formed tree without generic decoding into an empty interface returns a
`DecodeError` without the overflow flag and leaves the destination as it was. -/
theorem decode_generic_error (env : Env) :
    ∀ (fuel : Nat) (w : AttributeValue) (t : GoType) (ms : MethodSet) (prior : Data),
      w.depth ≤ fuel → WellFormed w → DistinctKeys w → w.generic env = none →
      t.underlying = .iface ms → t.methods.numMethod = 0 → t.decHookFree = true →
      ∃ msg, decodeAttribute env fuel (some w) ⟨t, true, prior⟩
        = ⟨prior, .error ⟨msg, false⟩⟩ := by
  intro fuel
  induction fuel with
  | zero =>
    intro w t ms prior hd
    obtain ⟨b, bo, s, n, nu, m, l⟩ := w
    rw [AttributeValue.depth] at hd
    omega
  | succ fuel ih =>
    intro w t ms prior hd hw hk hg ht hm hf
    have hp : t.isPtr = false := by simp only [GoType.isPtr, ht]
    have hok : ∀ c d, c.depth ≤ fuel → c.generic env = some d →
        decodeAttribute env fuel (some c)
          ⟨.iface MethodSet.empty, true, zero (.iface MethodSet.empty)⟩ = ⟨d, .ok ()⟩ :=
      fun c d hc hcg =>
        decode_generic env fuel c d (.iface MethodSet.empty) MethodSet.empty _ hc hcg rfl rfl
          rfl
    have herr : ∀ c, c.depth ≤ fuel → WellFormed c → DistinctKeys c → c.generic env = none →
        ∃ d msg, decodeAttribute env fuel (some c)
          ⟨.iface MethodSet.empty, true, zero (.iface MethodSet.empty)⟩
            = ⟨d, .error ⟨msg, false⟩⟩ :=
      fun c hc hwc hkc hcg => by
        obtain ⟨msg, h⟩ := ih c (.iface MethodSet.empty) MethodSet.empty
          (zero (.iface MethodSet.empty)) hc hwc hkc hcg rfl rfl rfl
        exact ⟨_, msg, h⟩
    cases hw with
    | intro _ one mSome mKids lSome lKids =>
    cases hk with
    | intro _ keys kmKids klKids =>
    rw [decodeAttribute_kind env fuel _ t true prior hf hp]
    unfold decodeKind
    simp only [ht, decodeInterface, hm, ne_eq, not_true_eq_false, if_false]
    obtain ⟨b, bo, s, n, nu, m, l⟩ := w
    rw [AttributeValue.generic] at hg
    unfold genericPick at hg
    simp only [AttributeValue.B, AttributeValue.BOOL, AttributeValue.S, AttributeValue.N,
      AttributeValue.NULL, AttributeValue.M, AttributeValue.L]
    cases b with
    | some bs => cases hg
    | none =>
    cases bo with
    | some x => cases hg
    | none =>
    cases s with
    | some x => cases hg
    | none =>
    cases n with
    | some x =>
      simp only at hg
      cases hpf : env.parseFloat x 64 with
      | some f => rw [hpf] at hg; cases hg
      | none =>
        refine ⟨"error parsing number " ++ x ++ " into type float64", ?_⟩
        simp only [hpf]
    | none =>
    cases nu with
    | some x => cases hg
    | none =>
    cases m with
    | some es =>
      simp only [genericRecord] at hg
      have hge : genericEntries env es = none := by
        cases hr : genericEntries env es with
        | none => rfl
        | some ds => rw [hr] at hg; cases hg
      obtain ⟨m1, msg, hmap⟩ := decodeMap_generic_error env (decodeAttribute env fuel)
        (.iface MethodSet.empty) es
        (fun k c d hmem hcg => hok c d (by
          have := @depth_lt_of_mem_M none none none none none es l k c hmem
          omega) hcg)
        (fun k c hmem hcg => herr c (by
          have := @depth_lt_of_mem_M none none none none none es l k c hmem
          omega) (mKids es k c rfl hmem) (kmKids es k c rfl hmem) hcg)
        (fun k => mSome es k rfl) (keys es rfl) hge []
      have hel : imapType.elem = .iface MethodSet.empty := rfl
      dsimp only
      rw [hel, hmap]
      exact ⟨msg, rfl⟩
    | none =>
    cases l with
    | none =>
      simp only [AttributeValue.variantCount, AttributeValue.B, AttributeValue.BOOL,
        AttributeValue.S, AttributeValue.N, AttributeValue.NULL, AttributeValue.M,
        AttributeValue.L, Option.isSome_none, Bool.toNat_false, Nat.add_zero] at one
      omega
    | some ls =>
      simp only [genericRecord, genericList] at hg
      have hge : genericElems env ls = none := by
        cases hr : genericElems env ls with
        | none => rfl
        | some ds => rw [hr] at hg; cases hg
      obtain ⟨msg, helems⟩ := decodeElems_generic_error env (decodeAttribute env fuel)
        (.iface MethodSet.empty) ls
        (fun c d hmem hcg => hok c d (by
          have := @depth_lt_of_mem_L none none none none none none ls c hmem
          omega) hcg)
        (fun c hmem hcg => herr c (by
          have := @depth_lt_of_mem_L none none none none none none ls c hmem
          omega) (lKids ls c rfl hmem) (klKids ls c rfl hmem) hcg)
        (lSome ls rfl) hge
      have hl : ls.length ≠ 0 := by
        intro h0
        have hnil : ls = [] := List.length_eq_zero.1 h0
        subst hnil
        rw [genericElems] at hge
        cases hge
      have harr : (decodeArray (decodeAttribute env fuel)
          (some (AttributeValue.mk none none none none none none (some ls)))
          ⟨ilistType, true, zero ilistType⟩).status = .error ⟨msg, false⟩ := by
        simp only [decodeArray, AttributeValue.NULL, AttributeValue.L, ilistType,
          GoType.underlying, Bool.true_eq_false, if_false, hl, MethodSet.empty, ne_eq,
          not_true_eq_false]
        have h2 := helems
        simp only [MethodSet.empty] at h2
        exact h2
      dsimp only
      generalize decodeArray (decodeAttribute env fuel)
        (some (AttributeValue.mk none none none none none none (some ls)))
        ⟨ilistType, true, zero ilistType⟩ = r at harr
      obtain ⟨d, st⟩ := r
      simp only at harr
      subst harr
      exact ⟨msg, rfl⟩

/-- C27, amended. Generic decode. For a well-formed wire tree (its Records, Go maps, listing
each key once) and an addressable hook-free destination of an interface type without methods,
with fuel for the depth of the tree: when the text of every Number in the tree parses as a
`float64`, decoding returns no error and leaves the generic decoding of the tree in the
destination, defined by the variant of each node (Binary the bytes, Boolean the bool, Text the
string, Number the `float64` that its text parses to, Null the nil value, Record a
`map[string]interface{}` with exactly the keys of the Record, each mapped to the generic
decoding of its member, List a `[]interface{}` of the same length whose element `i` is the
generic decoding of member `i`); when the text of some Number does not parse, decoding returns
a `DecodeError` without the overflow flag and leaves the destination as it was. -/
theorem C27_generic_decode (env : Env) (w : AttributeValue) (hw : WellFormed w)
    (hk : DistinctKeys w) :
    (NumbersParse env w →
      ∃ g, w.generic env = some g ∧
        ∀ (fuel : Nat) (t : GoType) (ms : MethodSet) (prior : Data), w.depth ≤ fuel →
          t.underlying = .iface ms → t.methods.numMethod = 0 → t.decHookFree = true →
          decodeAttribute env fuel (some w) ⟨t, true, prior⟩ = ⟨g, .ok ()⟩) ∧
    (¬ NumbersParse env w →
      ∀ (fuel : Nat) (t : GoType) (ms : MethodSet) (prior : Data), w.depth ≤ fuel →
        t.underlying = .iface ms → t.methods.numMethod = 0 → t.decHookFree = true →
        ∃ msg, decodeAttribute env fuel (some w) ⟨t, true, prior⟩
          = ⟨prior, .error ⟨msg, false⟩⟩) := by
  refine ⟨fun hi => ?_, fun hi fuel t ms prior hd ht hm hf => ?_⟩
  · obtain ⟨g, hg⟩ := generic_defined env w.depth w (Nat.le_refl _) hw hk hi
    exact ⟨g, hg, fun fuel t ms prior hd ht hm hf =>
      decode_generic env fuel w g t ms prior hd hg ht hm hf⟩
  · have hg : w.generic env = none := by
      cases hc : w.generic env with
      | none => rfl
      | some g => exact absurd (numbersParse_of_generic env w.depth w g (Nat.le_refl _) hw hc) hi
    exact decode_generic_error env fuel w t ms prior hd hw hk hg ht hm hf

theorem numbersParse_of_leaf (env : Env) (a : AttributeValue)
    (hn : ∀ s, a.N = some s → (env.parseFloat s 64).isSome = true) (hm : a.M = none)
    (hl : a.L = none) : NumbersParse env a := by
  refine NumbersParse.intro a hn ?_ ?_
  · intro m k c h; rw [hm] at h; cases h
  · intro l c h; rw [hl] at h; cases h

theorem numbersParse_ofM (env : Env) (m : AttributeValueMap)
    (h : ∀ k c, (k, some c) ∈ m → NumbersParse env c) :
    NumbersParse env (AttributeValue.ofM m) := by
  refine NumbersParse.intro _ ?_ ?_ ?_
  · intro s hs; cases hs
  · intro m1 k c hm hk; cases hm; exact h k c hk
  · intro l c hl; cases hl

theorem numbersParse_ofL (env : Env) (l : List (Option AttributeValue))
    (h : ∀ c, some c ∈ l → NumbersParse env c) : NumbersParse env (AttributeValue.ofL l) := by
  refine NumbersParse.intro _ ?_ ?_ ?_
  · intro s hs; cases hs
  · intro m k c hm; cases hm
  · intro l1 c hl hk; cases hl; exact h c hk

theorem distinctKeys_of_leaf (a : AttributeValue) (hm : a.M = none) (hl : a.L = none) :
    DistinctKeys a := by
  refine DistinctKeys.intro a ?_ ?_ ?_
  · intro m h; rw [hm] at h; cases h
  · intro m k c h; rw [hm] at h; cases h
  · intro l c h; rw [hl] at h; cases h

theorem distinctKeys_ofM (m : AttributeValueMap) (hnd : (m.map Prod.fst).Nodup)
    (h : ∀ k c, (k, some c) ∈ m → DistinctKeys c) : DistinctKeys (AttributeValue.ofM m) := by
  refine DistinctKeys.intro _ ?_ ?_ ?_
  · intro m1 hm; cases hm; exact hnd
  · intro m1 k c hm hk; cases hm; exact h k c hk
  · intro l c hl; cases hl

theorem distinctKeys_ofL (l : List (Option AttributeValue))
    (h : ∀ c, some c ∈ l → DistinctKeys c) : DistinctKeys (AttributeValue.ofL l) := by
  refine DistinctKeys.intro _ ?_ ?_ ?_
  · intro m hm; cases hm
  · intro m k c hm; cases hm
  · intro l1 c hl hk; cases hl; exact h c hk

theorem wellFormed_sampleTree : WellFormed sampleTree := by
  have hb : WellFormed (AttributeValue.ofM [("b", some (AttributeValue.ofNULL true))]) := by
    apply wellFormed_ofM
    intro e he
    rw [List.mem_singleton] at he
    rw [he]
    exact ⟨_, rfl, wellFormed_ofNULL true⟩
  have ha : WellFormed (AttributeValue.ofL [some (AttributeValue.ofS "x"),
      some (AttributeValue.ofM [("b", some (AttributeValue.ofNULL true))])]) := by
    apply wellFormed_ofL
    intro c hc
    simp only [List.mem_cons, List.mem_singleton, List.not_mem_nil, or_false] at hc
    rcases hc with h | h
    · rw [h]; exact ⟨_, rfl, wellFormed_ofS "x"⟩
    · rw [h]; exact ⟨_, rfl, hb⟩
  apply wellFormed_ofM
  intro e he
  simp only [List.mem_cons, List.mem_singleton, List.not_mem_nil, or_false] at he
  rcases he with h | h
  · rw [h]; exact ⟨_, rfl, ha⟩
  · rw [h]; exact ⟨_, rfl, wellFormed_ofBOOL true⟩

theorem distinctKeys_sampleTree : DistinctKeys sampleTree := by
  have hb : DistinctKeys (AttributeValue.ofM [("b", some (AttributeValue.ofNULL true))]) := by
    apply distinctKeys_ofM _ (by decide)
    intro k c hc
    simp only [List.mem_singleton, Prod.mk.injEq, Option.some.injEq] at hc
    rw [hc.2]
    exact distinctKeys_of_leaf _ rfl rfl
  have ha : DistinctKeys (AttributeValue.ofL [some (AttributeValue.ofS "x"),
      some (AttributeValue.ofM [("b", some (AttributeValue.ofNULL true))])]) := by
    apply distinctKeys_ofL
    intro c hc
    simp only [List.mem_cons, List.mem_singleton, Option.some.injEq, List.not_mem_nil,
      or_false] at hc
    rcases hc with h | h
    · rw [h]; exact distinctKeys_of_leaf _ rfl rfl
    · rw [h]; exact hb
  apply distinctKeys_ofM _ (by decide)
  intro k c hc
  simp only [List.mem_cons, List.mem_singleton, Prod.mk.injEq, Option.some.injEq,
    List.not_mem_nil, or_false] at hc
  rcases hc with h | h
  · rw [h.2]; exact ha
  · rw [h.2]; exact distinctKeys_of_leaf _ rfl rfl

theorem numbersParse_sampleTree : NumbersParse sampleEnv sampleTree := by
  have hb : NumbersParse sampleEnv
      (AttributeValue.ofM [("b", some (AttributeValue.ofNULL true))]) := by
    apply numbersParse_ofM
    intro k c hc
    simp only [List.mem_singleton, Prod.mk.injEq, Option.some.injEq] at hc
    rw [hc.2]
    exact numbersParse_of_leaf _ _ (fun s hs => by cases hs) rfl rfl
  have ha : NumbersParse sampleEnv (AttributeValue.ofL [some (AttributeValue.ofS "x"),
      some (AttributeValue.ofM [("b", some (AttributeValue.ofNULL true))])]) := by
    apply numbersParse_ofL
    intro c hc
    simp only [List.mem_cons, List.mem_singleton, Option.some.injEq, List.not_mem_nil,
      or_false] at hc
    rcases hc with h | h
    · rw [h]; exact numbersParse_of_leaf _ _ (fun s hs => by cases hs) rfl rfl
    · rw [h]; exact hb
  apply numbersParse_ofM
  intro k c hc
  simp only [List.mem_cons, List.mem_singleton, Prod.mk.injEq, Option.some.injEq,
    List.not_mem_nil, or_false] at hc
  rcases hc with h | h
  · rw [h.2]; exact ha
  · rw [h.2]; exact numbersParse_of_leaf _ _ (fun s hs => by cases hs) rfl rfl

theorem wellFormed_sampleBadNumber : WellFormed sampleBadNumber := by
  apply wellFormed_ofL
  intro c hc
  rw [List.mem_singleton] at hc
  rw [hc]
  exact ⟨_, rfl, wellFormed_ofN "abc"⟩

theorem distinctKeys_sampleBadNumber : DistinctKeys sampleBadNumber := by
  apply distinctKeys_ofL
  intro c hc
  simp only [List.mem_singleton, Option.some.injEq] at hc
  rw [hc]
  exact distinctKeys_of_leaf _ rfl rfl

theorem not_numbersParse_sampleBadNumber : ¬ NumbersParse sampleNumberEnv sampleBadNumber := by
  intro h
  cases h with
  | intro _ num mKids lKids =>
    have h1 := lKids [some (AttributeValue.ofN "abc")] (AttributeValue.ofN "abc") rfl
      (List.mem_singleton.2 rfl)
    cases h1 with
    | intro _ num1 _ _ =>
      have h2 := num1 "abc" rfl
      revert h2
      decide

theorem C27_generic_decode_witness :
    WellFormed sampleTree ∧ DistinctKeys sampleTree ∧ NumbersParse sampleEnv sampleTree ∧
    (∃ g, sampleTree.generic sampleEnv = some g ∧
      ∀ (fuel : Nat) (t : GoType) (ms : MethodSet) (prior : Data), sampleTree.depth ≤ fuel →
        t.underlying = .iface ms → t.methods.numMethod = 0 → t.decHookFree = true →
        decodeAttribute sampleEnv fuel (some sampleTree) ⟨t, true, prior⟩ = ⟨g, .ok ()⟩) ∧
    sampleTree.generic sampleEnv
      = some (.iface (some (imapType, .map (some
          [(.str "a", .iface (some (ilistType, .slice (some
              [.iface (some (.string, .str "x")),
                .iface (some (imapType, .map (some [(.str "b", .iface none)])))])))),
            (.str "c", .iface (some (.bool, .bool true)))])))) ∧
    decodeAttribute sampleEnv 4 (some sampleTree) ⟨.iface MethodSet.empty, true, .iface none⟩
      = ⟨.iface (some (imapType, .map (some
          [(.str "a", .iface (some (ilistType, .slice (some
              [.iface (some (.string, .str "x")),
                .iface (some (imapType, .map (some [(.str "b", .iface none)])))])))),
            (.str "c", .iface (some (.bool, .bool true)))]))), .ok ()⟩ ∧
    WellFormed sampleBadNumber ∧ DistinctKeys sampleBadNumber ∧
    ¬ NumbersParse sampleNumberEnv sampleBadNumber ∧
    (∃ msg, decodeAttribute sampleNumberEnv 2 (some sampleBadNumber)
        ⟨.iface MethodSet.empty, true, .iface (some (.string, .str "old"))⟩
      = ⟨.iface (some (.string, .str "old")), .error ⟨msg, false⟩⟩) :=
  ⟨wellFormed_sampleTree, distinctKeys_sampleTree, numbersParse_sampleTree,
    (C27_generic_decode sampleEnv sampleTree wellFormed_sampleTree distinctKeys_sampleTree).1
      numbersParse_sampleTree,
    rfl, rfl, wellFormed_sampleBadNumber, distinctKeys_sampleBadNumber,
    not_numbersParse_sampleBadNumber,
    (C27_generic_decode sampleNumberEnv sampleBadNumber wellFormed_sampleBadNumber
      distinctKeys_sampleBadNumber).2 not_numbersParse_sampleBadNumber 2
        (.iface MethodSet.empty) MethodSet.empty _ (by decide) rfl rfl rfl⟩

/-- C27 as stated fails on a Number that is no number. The tree `{"L": [{"N": "abc"}]}` is
well formed, every node of it having exactly one variant; decoding it into an empty interface
reaches the Number, whose text `strconv.ParseFloat` rejects, and returns the `DecodeError` of
that case with the destination unchanged, and it does so for every fuel that reaches the
Number. The Number alone fails in the same way. -/
theorem C27_counterexample :
    WellFormed sampleBadNumber ∧
    (∀ fuel, decodeAttribute sampleNumberEnv (fuel + 2) (some sampleBadNumber)
        ⟨.iface MethodSet.empty, true, .iface none⟩
      = ⟨.iface none, .error ⟨"error parsing number abc into type float64", false⟩⟩) ∧
    (∀ fuel, decodeAttribute sampleNumberEnv (fuel + 1) (some (AttributeValue.ofN "abc"))
        ⟨.iface MethodSet.empty, true, .iface none⟩
      = ⟨.iface none, .error ⟨"error parsing number abc into type float64", false⟩⟩) ∧
    ¬ GenericDecodeClaim sampleNumberEnv := by
  refine ⟨wellFormed_sampleBadNumber, fun _ => rfl, fun _ => rfl, ?_⟩
  intro h
  obtain ⟨fuel, g, hg⟩ := h sampleBadNumber wellFormed_sampleBadNumber
  match fuel, hg with
  | 0, hg =>
    have h0 : decodeAttribute sampleNumberEnv 0 (some sampleBadNumber)
        ⟨.iface MethodSet.empty, true, .iface none⟩ = ⟨.iface none, .outOfFuel⟩ := rfl
    rw [h0] at hg
    cases hg
  | 1, hg =>
    have h1 : (decodeAttribute sampleNumberEnv 1 (some sampleBadNumber)
        ⟨.iface MethodSet.empty, true, .iface none⟩).status = .outOfFuel := rfl
    rw [hg] at h1
    cases h1
  | n + 2, hg =>
    have h2 : decodeAttribute sampleNumberEnv (n + 2) (some sampleBadNumber)
        ⟨.iface MethodSet.empty, true, .iface none⟩
        = ⟨.iface none, .error ⟨"error parsing number abc into type float64", false⟩⟩ := rfl
    rw [h2] at hg
    cases hg

/-! ## Field dominance -/

theorem find?_eq_some_of_unique {α : Type} (p : α → Bool) (c : α) :
    ∀ l : List α, c ∈ l → p c = true → (∀ x ∈ l, p x = true → x = c) →
      l.find? p = some c := by
  intro l
  induction l with
  | nil => intro hc; cases hc
  | cons y rest ih =>
    intro hc hp hu
    by_cases hy : p y = true
    · rw [List.find?_cons_of_pos _ hy, hu y (List.mem_cons_self _ _) hy]
    · rw [List.find?_cons_of_neg _ hy]
      rcases List.mem_cons.1 hc with h | h
      · rw [h] at hp
        exact absurd hp hy
      · exact ih h hp (fun x hx => hu x (List.mem_cons_of_mem _ hx))

theorem filter_length_le_of_imp {α : Type} (l : List α) (p q : α → Bool)
    (h : ∀ a, p a = true → q a = true) : (l.filter p).length ≤ (l.filter q).length :=
  (List.monotone_filter_right l h).length_le

theorem dominant_false_of_shared (cs : List Candidate) (k : String) (d : Nat)
    (h2 : 2 ≤ (cs.filter (fun x => decide (x.key = k ∧ x.depth = d))).length)
    (hmin : ∀ c ∈ cs, c.key = k → d ≤ c.depth) (c : Candidate) (hc : c ∈ cs)
    (hk : c.key = k) : dominantCandidate cs c = false := by
  have hle := filter_length_le_of_imp cs (fun x => decide (x.key = k ∧ x.depth = d))
    (fun x => decide (x.key = c.key ∧ x.depth ≤ c.depth)) (by
      intro x hx
      simp only [decide_eq_true_eq] at hx ⊢
      exact ⟨hx.1.trans hk.symm, hx.2 ▸ hmin c hc hk⟩)
  unfold dominantCandidate
  rw [decide_eq_false_iff_not]
  omega

theorem dominant_of_single (cs : List Candidate) (k : String) (d : Nat) (c0 : Candidate)
    (h1 : cs.filter (fun x => decide (x.key = k ∧ x.depth = d)) = [c0])
    (hmin : ∀ c ∈ cs, c.key = k → d ≤ c.depth) :
    c0 ∈ cs ∧ c0.key = k ∧ dominantCandidate cs c0 = true ∧
      ∀ x ∈ cs, x.key = k → dominantCandidate cs x = true → x = c0 := by
  have hmem : c0 ∈ cs.filter (fun x => decide (x.key = k ∧ x.depth = d)) := by
    rw [h1]
    exact List.mem_singleton_self _
  rw [List.mem_filter, decide_eq_true_eq] at hmem
  obtain ⟨hc0, hk0, hd0⟩ := hmem
  refine ⟨hc0, hk0, ?_, ?_⟩
  · unfold dominantCandidate
    rw [decide_eq_true_eq]
    have hcongr : cs.filter (fun x => decide (x.key = c0.key ∧ x.depth ≤ c0.depth))
        = cs.filter (fun x => decide (x.key = k ∧ x.depth = d)) := by
      apply List.filter_congr
      intro x hx
      by_cases hxk : x.key = k
      · have := hmin x hx hxk
        simp only [hxk, hk0, hd0, true_and, decide_eq_decide]
        omega
      · simp only [hxk, hk0, false_and]
    rw [hcongr, h1]
    rfl
  · intro x hx hxk hdom
    unfold dominantCandidate at hdom
    rw [decide_eq_true_eq] at hdom
    have hsub : (cs.filter (fun y => decide (y.key = k ∧ y.depth = d))).Sublist
        (cs.filter (fun y => decide (y.key = x.key ∧ y.depth ≤ x.depth))) := by
      apply List.monotone_filter_right
      intro y hy
      simp only [decide_eq_true_eq] at hy ⊢
      exact ⟨hy.1.trans hxk.symm, hy.2 ▸ hmin x hx hxk⟩
    have heq := hsub.eq_of_length_le (by rw [hdom, h1]; exact Nat.le_refl _)
    have hxm : x ∈ cs.filter (fun y => decide (y.key = x.key ∧ y.depth ≤ x.depth)) := by
      rw [List.mem_filter, decide_eq_true_eq]
      exact ⟨hx, rfl, Nat.le_refl _⟩
    rw [← heq, h1, List.mem_singleton] at hxm
    exact hxm

theorem typeFields_excluded (t : GoType) (k : String) (d : Nat)
    (h2 : 2 ≤ ((embeddedCandidates t 0 []).filter
      (fun x => decide (x.key = k ∧ x.depth = d))).length)
    (hmin : ∀ c ∈ embeddedCandidates t 0 [], c.key = k → d ≤ c.depth) :
    ∀ f ∈ typeFields t, f.name ≠ k := by
  intro f hf hname
  unfold typeFields at hf
  obtain ⟨c, hc, hcf⟩ := List.mem_map.1 hf
  rw [List.mem_filter] at hc
  have hk : c.key = k := by
    rw [← hcf] at hname
    exact hname
  rw [dominant_false_of_shared _ k d h2 hmin c hc.1 hk] at hc
  exact absurd hc.2 (by decide)

theorem typeFields_find (t : GoType) (k : String) (d : Nat) (c0 : Candidate)
    (h1 : (embeddedCandidates t 0 []).filter (fun x => decide (x.key = k ∧ x.depth = d))
      = [c0])
    (hmin : ∀ c ∈ embeddedCandidates t 0 [], c.key = k → d ≤ c.depth) :
    (typeFields t).find? (fun f => f.name = k) = some ⟨k, c0.index, c0.omitEmpty⟩ := by
  obtain ⟨hc0, hk0, hdom, huniq⟩ := dominant_of_single _ k d c0 h1 hmin
  apply find?_eq_some_of_unique
  · unfold typeFields
    refine List.mem_map.2 ⟨c0, ?_, by rw [hk0]⟩
    rw [List.mem_filter]
    exact ⟨hc0, hdom⟩
  · simp only [decide_True]
  · intro f hf hname
    simp only [decide_eq_true_eq] at hname
    unfold typeFields at hf
    obtain ⟨c, hc, hcf⟩ := List.mem_map.1 hf
    rw [List.mem_filter] at hc
    have hk : c.key = k := by
      rw [← hcf] at hname
      exact hname
    rw [← hcf, huniq c hc.1 hk hc.2, hk0]

theorem matchesDescriptor_false (table : List Field) (k : String)
    (h : ∀ f ∈ table, f.name ≠ k) : matchesDescriptor table k = false := by
  unfold matchesDescriptor
  have hn : table.find? (fun f => decide (f.name = k)) = none := by
    rw [List.find?_eq_none]
    intro f hf
    simp only [decide_eq_true_eq]
    exact h f hf
  rw [hn]
  rfl

theorem decodeStructEntries_drop_key (self : Option AttributeValue → Value → DecOut)
    (table : List Field) (t : GoType) (a : Bool) (k : String)
    (hk : matchesDescriptor table k = false) (m : AttributeValueMap) (d : Data) :
    decodeStructEntries self table t a m d
      = decodeStructEntries self table t a (m.filter (fun e => decide (e.1 ≠ k))) d := by
  rw [decodeStructEntries_filter self table t a m d,
    decodeStructEntries_filter self table t a (m.filter (fun e => decide (e.1 ≠ k))) d,
    List.filter_filter]
  congr 1
  apply List.filter_congr
  intro e _
  by_cases he : e.1 = k
  · rw [he, hk]
    rfl
  · simp only [ne_eq, he, not_false_eq_true, decide_True, Bool.and_true]

theorem decodeStructEntries_single (self : Option AttributeValue → Value → DecOut)
    (table : List Field) (t : GoType) (a : Bool) (k : String) (attr : Option AttributeValue)
    (prior : Data) (f : Field) (hfind : table.find? (fun f => f.name = k) = some f) :
    decodeStructEntries self table t a [(k, attr)] prior
      = decodeField self attr ⟨t, a, prior⟩ f.index := by
  rw [decodeStructEntries]
  simp only [hfind]
  rcases decodeField self attr ⟨t, a, prior⟩ f.index with ⟨d1, st⟩
  cases st with
  | ok u => rfl
  | error x => rfl
  | panic x => rfl
  | outOfFuel => rfl

theorem decodeAttribute_record (env : Env) (fuel : Nat) (t : GoType)
    (fields : List (StructField × GoType)) (a : Bool) (prior : Data) (m : AttributeValueMap)
    (ht : t.underlying = .struct fields) (hf : t.decHookFree = true) :
    decodeAttribute env (fuel + 1) (some (AttributeValue.ofM m)) ⟨t, a, prior⟩
      = decodeStructEntries (decodeAttribute env fuel) (env.cachedTypeFields t) t a m prior := by
  have hp : t.isPtr = false := by simp only [GoType.isPtr, ht]
  rw [decodeAttribute_kind env fuel _ t a prior hf hp]
  unfold decodeKind
  simp only [ht, AttributeValue.ofM, AttributeValue.M, decodeStruct]

/-- C28. Field dominance, with the Field Resolver of the spec as field table. Let `d` be the
minimum depth at which the resolved key `k` occurs among the fields of a hook-free record type
`t`. If two or more fields carry `k` at depth `d`, no descriptor has the key `k`: decoding a
Record is the same as decoding it with the entries of key `k` removed, and decoding a Record
that holds only `k` leaves the destination unchanged, so that neither these fields nor a
deeper field of the same key is written. If exactly one field carries `k` at depth `d`, its
descriptor is the one found for `k`, and decoding a Record that holds `k` decodes the member
into the field at the access path of this field. -/
theorem C28_field_dominance (env : Env) (fuel : Nat) (t : GoType)
    (fields : List (StructField × GoType)) (k : String) (d : Nat)
    (ht : t.underlying = .struct fields) (hf : t.decHookFree = true)
    (henv : env.cachedTypeFields t = typeFields t)
    (hmin : ∀ c ∈ embeddedCandidates t 0 [], c.key = k → d ≤ c.depth) :
    (2 ≤ ((embeddedCandidates t 0 []).filter
        (fun x => decide (x.key = k ∧ x.depth = d))).length →
      (∀ f ∈ typeFields t, f.name ≠ k) ∧
      (∀ (a : Bool) (prior : Data) (m : AttributeValueMap),
        decodeAttribute env (fuel + 1) (some (AttributeValue.ofM m)) ⟨t, a, prior⟩
          = decodeAttribute env (fuel + 1)
              (some (AttributeValue.ofM (m.filter (fun e => decide (e.1 ≠ k)))))
              ⟨t, a, prior⟩) ∧
      (∀ (a : Bool) (prior : Data) (attr : Option AttributeValue),
        decodeAttribute env (fuel + 1) (some (AttributeValue.ofM [(k, attr)])) ⟨t, a, prior⟩
          = ⟨prior, .ok ()⟩)) ∧
    (∀ c : Candidate,
      (embeddedCandidates t 0 []).filter (fun x => decide (x.key = k ∧ x.depth = d)) = [c] →
      (typeFields t).find? (fun f => f.name = k) = some ⟨k, c.index, c.omitEmpty⟩ ∧
      (∀ (a : Bool) (prior : Data) (attr : Option AttributeValue),
        decodeAttribute env (fuel + 1) (some (AttributeValue.ofM [(k, attr)])) ⟨t, a, prior⟩
          = decodeField (decodeAttribute env fuel) attr ⟨t, a, prior⟩ c.index)) := by
  constructor
  · intro h2
    have hex := typeFields_excluded t k d h2 hmin
    have hmd : matchesDescriptor (env.cachedTypeFields t) k = false := by
      rw [henv]
      exact matchesDescriptor_false _ k hex
    refine ⟨hex, ?_, ?_⟩
    · intro a prior m
      rw [decodeAttribute_record env fuel t fields a prior m ht hf,
        decodeAttribute_record env fuel t fields a prior _ ht hf]
      exact decodeStructEntries_drop_key _ _ t a k hmd m prior
    · intro a prior attr
      rw [decodeAttribute_record env fuel t fields a prior _ ht hf,
        decodeStructEntries_drop_key _ _ t a k hmd _ prior]
      have hnil : [(k, attr)].filter (fun e => decide (e.1 ≠ k)) = [] := by
        simp only [ne_eq, List.filter_cons, not_true_eq_false, decide_False, Bool.false_eq_true,
          if_false, List.filter_nil]
      rw [hnil]
      rfl
  · intro c h1
    have hfind := typeFields_find t k d c h1 hmin
    refine ⟨hfind, ?_⟩
    intro a prior attr
    rw [decodeAttribute_record env fuel t fields a prior _ ht hf, henv]
    exact decodeStructEntries_single _ _ t a k attr prior _ hfind

theorem C28_field_dominance_witness :
    sampleS5.decHookFree = true ∧ specEnv.cachedTypeFields sampleS5 = typeFields sampleS5 ∧
    (∀ c ∈ embeddedCandidates sampleS5 0 [], c.key = "X" → 1 ≤ c.depth) ∧
    2 ≤ ((embeddedCandidates sampleS5 0 []).filter
      (fun x => decide (x.key = "X" ∧ x.depth = 1))).length ∧
    (∀ f ∈ typeFields sampleS5, f.name ≠ "X") ∧
    typeFields sampleS5 = [⟨"Y", [2, 0, 1], false⟩] ∧
    decodeAttribute specEnv (1 + 1)
        (some (AttributeValue.ofM [("X", some (AttributeValue.ofN "1"))]))
        ⟨sampleS5, true, zero sampleS5⟩
      = ⟨zero sampleS5, .ok ()⟩ ∧
    decodeAttribute specEnv 2
        (some (AttributeValue.ofM
          [("X", some (AttributeValue.ofN "1")), ("Y", some (AttributeValue.ofN "2"))]))
        ⟨sampleS5, true, zero sampleS5⟩
      = ⟨.struct [.struct [.int 0], .struct [.int 0], .struct [.struct [.int 0, .int 2]]],
          .ok ()⟩ ∧
    (typeFields sampleS5).find? (fun f => f.name = "Y") = some ⟨"Y", [2, 0, 1], false⟩ :=
  ⟨rfl, rfl, by decide, by decide,
    ((C28_field_dominance specEnv 1 sampleS5 _ "X" 1 rfl rfl rfl (by decide)).1
      (by decide)).1,
    by decide,
    ((C28_field_dominance specEnv 1 sampleS5 _ "X" 1 rfl rfl rfl (by decide)).1
      (by decide)).2.2 true (zero sampleS5) (some (AttributeValue.ofN "1")),
    rfl,
    ((C28_field_dominance specEnv 1 sampleS5 _ "Y" 2 rfl rfl rfl (by decide)).2
      ⟨"Y", 2, [2, 0, 1], false⟩ (by decide)).1⟩

/-! ## Wire values that a destination has no rule for -/

/-- C31, amended. Decoding a wire value in which the List is not set (a Text, Number, Boolean,
Binary or Record, and Null as well) into an addressable hook-free slice destination that is not
a byte slice returns no error and resets the destination to the nil slice: no prior element is
preserved. -/
theorem C31_slice_without_list (env : Env) (fuel : Nat) (t e : GoType) (prior : Data)
    (a : AttributeValue)
    (ht : t.underlying = .slice e) (hb : e.isUint8 = false) (hf : t.decHookFree = true)
    (hl : a.L = none) :
    decodeAttribute env (fuel + 1) (some a) ⟨t, true, prior⟩ = ⟨.slice none, .ok ()⟩ := by
  have hp : t.isPtr = false := by simp only [GoType.isPtr, ht]
  have hz : zero t = .slice none := by rw [zero_underlying t, ht, zero]
  rw [decodeAttribute_kind env fuel _ t true prior hf hp]
  unfold decodeKind
  simp only [ht, hb, Bool.false_eq_true, if_false, decodeArray, hl]
  cases a.NULL <;> simp only [setValue, if_true, hz]

theorem C31_slice_without_list_witness :
    (GoType.slice (.int 64)).underlying = .slice (.int 64) ∧ (GoType.int 64).isUint8 = false ∧
    (GoType.slice (.int 64)).decHookFree = true ∧ (AttributeValue.ofS "x").L = none ∧
    decodeAttribute sampleEnv (0 + 1) (some (AttributeValue.ofS "x"))
        ⟨.slice (.int 64), true, .slice (some [.int 1, .int 2])⟩
      = ⟨.slice none, .ok ()⟩ :=
  ⟨rfl, rfl, rfl, rfl,
    C31_slice_without_list sampleEnv 0 (.slice (.int 64)) (.int 64)
      (.slice (some [.int 1, .int 2])) (AttributeValue.ofS "x") rfl rfl rfl rfl⟩

/-- C31 as stated fails: decoding a Text into a `[]int` that holds two elements returns no
error but leaves the nil slice, not the prior elements. -/
theorem C31_counterexample :
    decodeAttribute sampleEnv 1 (some (AttributeValue.ofS "x"))
        ⟨.slice (.int 64), true, .slice (some [.int 1, .int 2])⟩
      = ⟨.slice none, .ok ()⟩ ∧
    (decodeAttribute sampleEnv 1 (some (AttributeValue.ofS "x"))
        ⟨.slice (.int 64), true, .slice (some [.int 1, .int 2])⟩).dest
      ≠ .slice (some [.int 1, .int 2]) := by
  refine ⟨rfl, ?_⟩
  intro h
  have h1 : (decodeAttribute sampleEnv 1 (some (AttributeValue.ofS "x"))
      ⟨.slice (.int 64), true, .slice (some [.int 1, .int 2])⟩).dest = .slice none := rfl
  rw [h1] at h
  cases h

/-- C35. Decoding the wire value without variant into a hook-free destination of boolean,
numeric, string, record, map or byte-slice shape returns no error and leaves the destination
unchanged; decoding it into a hook-free destination of an interface type without methods
panics: the call returns neither normally nor with a DecodeError, and the destination is
unchanged. -/
theorem C35_empty_wire_value (env : Env) (fuel : Nat) (t : GoType) (c : Bool) (prior : Data)
    (hf : t.decHookFree = true) :
    (ignoresEmpty t = true →
      decodeAttribute env (fuel + 1) (some AttributeValue.empty) ⟨t, c, prior⟩
        = ⟨prior, .ok ()⟩) ∧
    (∀ ms, t.underlying = .iface ms → t.methods.numMethod = 0 →
      decodeAttribute env (fuel + 1) (some AttributeValue.empty) ⟨t, c, prior⟩
        = ⟨prior, .panic "unknown error decoding interface value"⟩) := by
  constructor
  · intro hs
    unfold ignoresEmpty at hs
    have hp : t.isPtr = false := by
      unfold GoType.isPtr
      cases hu : t.underlying <;> simp only [hu] at hs ⊢
      cases hs
    rw [decodeAttribute_kind env fuel _ t c prior hf hp]
    unfold decodeKind
    cases hu : t.underlying with
    | bool =>
      simp only [hu, AttributeValue.empty, AttributeValue.BOOL, AttributeValue.N,
        AttributeValue.S, AttributeValue.M, AttributeValue.NULL, Option.isSome_none,
        Bool.false_eq_true, if_false]
    | int w =>
      simp only [hu, AttributeValue.empty, AttributeValue.BOOL, AttributeValue.N,
        AttributeValue.S, AttributeValue.M, AttributeValue.NULL, Option.isSome_none,
        Bool.false_eq_true, if_false]
    | uint w =>
      simp only [hu, AttributeValue.empty, AttributeValue.BOOL, AttributeValue.N,
        AttributeValue.S, AttributeValue.M, AttributeValue.NULL, Option.isSome_none,
        Bool.false_eq_true, if_false]
    | float w =>
      simp only [hu, AttributeValue.empty, AttributeValue.BOOL, AttributeValue.N,
        AttributeValue.S, AttributeValue.M, AttributeValue.NULL, Option.isSome_none,
        Bool.false_eq_true, if_false]
    | string =>
      simp only [hu, AttributeValue.empty, AttributeValue.BOOL, AttributeValue.N,
        AttributeValue.S, AttributeValue.M, AttributeValue.NULL, Option.isSome_none,
        Bool.false_eq_true, if_false]
    | struct fs =>
      simp only [hu, AttributeValue.empty, AttributeValue.BOOL, AttributeValue.N,
        AttributeValue.S, AttributeValue.M, AttributeValue.NULL, Option.isSome_none,
        Bool.false_eq_true, if_false]
    | map k e =>
      simp only [hu, AttributeValue.empty, AttributeValue.BOOL, AttributeValue.N,
        AttributeValue.S, AttributeValue.M, AttributeValue.NULL, Option.isSome_none,
        Bool.false_eq_true, if_false]
    | slice e =>
      rw [hu] at hs
      dsimp only at hs
      simp only [hu, hs, if_true, decodeBytes, AttributeValue.empty, AttributeValue.B,
        AttributeValue.S, AttributeValue.NULL]
    | ptr e => rw [hu] at hs; cases hs
    | iface ms => rw [hu] at hs; cases hs
    | array n e => rw [hu] at hs; cases hs
    | named n ms pms u => rw [hu] at hs; cases hs
    | other s => rw [hu] at hs; cases hs
  · intro ms ht hm
    have hp : t.isPtr = false := by simp only [GoType.isPtr, ht]
    rw [decodeAttribute_kind env fuel _ t c prior hf hp]
    unfold decodeKind
    simp only [ht, decodeInterface, hm, ne_eq, not_true_eq_false, if_false,
      AttributeValue.empty, AttributeValue.B, AttributeValue.BOOL, AttributeValue.S,
      AttributeValue.N, AttributeValue.NULL, AttributeValue.M, AttributeValue.L]

theorem C35_empty_wire_value_witness :
    (GoType.iface MethodSet.empty).decHookFree = true ∧ GoType.string.decHookFree = true ∧
    ignoresEmpty .string = true ∧
    decodeAttribute sampleEnv (0 + 1) (some AttributeValue.empty) ⟨.string, true, .str "a"⟩
      = ⟨.str "a", .ok ()⟩ ∧
    decodeAttribute sampleEnv (0 + 1) (some AttributeValue.empty)
        ⟨.iface MethodSet.empty, true, .iface none⟩
      = ⟨.iface none, .panic "unknown error decoding interface value"⟩ :=
  ⟨rfl, rfl, rfl,
    (C35_empty_wire_value sampleEnv 0 .string true (.str "a") rfl).1 rfl,
    (C35_empty_wire_value sampleEnv 0 (.iface MethodSet.empty) true (.iface none) rfl).2
      MethodSet.empty rfl rfl⟩

/-! ## Decoding through a pointer -/

theorem decodeField_single_frame (self : Option AttributeValue → Value → DecOut)
    (attr : Option AttributeValue) (t : GoType) (fields : List (StructField × GoType))
    (c : Bool) (cur : List Data) (j : Nat) (ht : t.underlying = .struct fields) :
    ∃ cur1, (decodeField self attr ⟨t, c, .struct cur⟩ [j]).dest = .struct cur1 ∧
      ∀ i, j ≠ i → cur1.get? i = cur.get? i := by
  rw [decodeField]
  simp only [ht]
  cases h1 : fields.get? j with
  | none => exact ⟨cur, rfl, fun _ _ => rfl⟩
  | some ft =>
    cases h2 : cur.get? j with
    | none => exact ⟨cur, rfl, fun _ _ => rfl⟩
    | some fd =>
      refine ⟨cur.set j (decodeField self attr ⟨ft.2, c, fd⟩ []).dest, rfl, ?_⟩
      intro i hne
      rw [List.get?_eq_getElem?, List.get?_eq_getElem?, List.getElem?_set_ne hne]

theorem decodeStructEntries_frame (self : Option AttributeValue → Value → DecOut)
    (table : List Field) (t : GoType) (fields : List (StructField × GoType)) (c : Bool)
    (i : Nat) (ht : t.underlying = .struct fields) :
    ∀ (m : AttributeValueMap) (cur : List Data),
      (∀ f ∈ table, f.name ∈ m.map Prod.fst → ∃ j, f.index = [j] ∧ j ≠ i) →
      ∃ cur1, (decodeStructEntries self table t c m (.struct cur)).dest = .struct cur1 ∧
        cur1.get? i = cur.get? i := by
  intro m
  induction m with
  | nil => intro cur _; exact ⟨cur, rfl, rfl⟩
  | cons kv rest ih =>
    intro cur hun
    obtain ⟨k, attr⟩ := kv
    have hrest : ∀ f ∈ table, f.name ∈ rest.map Prod.fst → ∃ j, f.index = [j] ∧ j ≠ i :=
      fun f hf hm => hun f hf (by simp only [List.map_cons, List.mem_cons, hm, or_true])
    rw [decodeStructEntries]
    cases hfind : table.find? (fun f => f.name = k) with
    | none => exact ih cur hrest
    | some f =>
      have hmem : f ∈ table := List.mem_of_find?_eq_some hfind
      have hname : f.name = k := by
        have := List.find?_some hfind
        simpa using this
      obtain ⟨j, hj, hne⟩ := hun f hmem
        (by simp only [List.map_cons, List.mem_cons, hname, true_or])
      obtain ⟨cur1, h1, h2⟩ := decodeField_single_frame self attr t fields c cur j ht
      simp only [hj]
      rcases hr : decodeField self attr ⟨t, c, .struct cur⟩ [j] with ⟨d1, st⟩
      rw [hr] at h1
      simp only at h1
      subst h1
      cases st with
      | ok u =>
        obtain ⟨cur2, h3, h4⟩ := ih cur1 hrest
        exact ⟨cur2, h3, by rw [h4, h2 i hne]⟩
      | error x => exact ⟨cur1, rfl, h2 i hne⟩
      | panic x => exact ⟨cur1, rfl, h2 i hne⟩
      | outOfFuel => exact ⟨cur1, rfl, h2 i hne⟩

theorem decodeAttribute_nonPtr (env : Env) (fuel : Nat) (attr : Option AttributeValue)
    (t : GoType) (c : Bool) (d : Data) (hp : t.isPtr = false) :
    decodeAttribute env (fuel + 1) attr ⟨t, c, d⟩
      = decodeValue env (decodeAttribute env fuel) attr ⟨t, c, d⟩ := by
  rw [decodeAttribute]
  unfold decodeBody
  unfold GoType.isPtr at hp
  split
  · rename_i e he
    simp only [he] at hp
    cases hp
  · rfl

/-- C34. Decoding through a pointer replaces. Decoding a wire value in which Null is not set
into an addressable pointer destination gives the same result whatever the pointer held: the
pointer to a fresh zero value into which the wire value was decoded. Hence after decoding a
Record into a pointer to a hook-free record, a direct field that the Record does not name is at
the zero value of its type, whereas after decoding the same Record into the record itself such
a field is at its prior value. -/
theorem C34_pointer_replaces (env : Env) (fuel : Nat) (t e : GoType)
    (ht : t.underlying = .ptr e) :
    (∀ (a : AttributeValue) (p : Option Data), a.NULL = none →
      decodeAttribute env (fuel + 1) (some a) ⟨t, true, .ptr p⟩
        = decodeAttribute env (fuel + 1) (some a) ⟨t, true, .ptr none⟩) ∧
    (∀ (a : AttributeValue) (p : Option Data), a.NULL = none → e.isPtr = false →
      decodeAttribute env (fuel + 1) (some a) ⟨t, true, .ptr p⟩
        = ⟨.ptr (some (decodeAttribute env (fuel + 1) (some a) ⟨e, true, zero e⟩).dest),
            (decodeAttribute env (fuel + 1) (some a) ⟨e, true, zero e⟩).status⟩) ∧
    (∀ (fields : List (StructField × GoType)) (m : AttributeValueMap) (i : Nat),
      e.underlying = .struct fields → e.decHookFree = true →
      (∀ f ∈ env.cachedTypeFields e, f.name ∈ m.map Prod.fst → ∃ j, f.index = [j] ∧ j ≠ i) →
      (∀ p : Option Data, ∃ cur1,
        (decodeAttribute env (fuel + 1) (some (AttributeValue.ofM m)) ⟨t, true, .ptr p⟩).dest
          = .ptr (some (.struct cur1)) ∧
        cur1.get? i = (zeroFields fields).get? i) ∧
      (∀ (c : Bool) (cur : List Data), ∃ cur1,
        (decodeAttribute env (fuel + 1) (some (AttributeValue.ofM m)) ⟨e, c, .struct cur⟩).dest
          = .struct cur1 ∧
        cur1.get? i = cur.get? i)) := by
  have hrep : ∀ (a : AttributeValue) (p : Option Data), a.NULL = none →
      decodeAttribute env (fuel + 1) (some a) ⟨t, true, .ptr p⟩
        = ⟨.ptr (some (decodeValue env (decodeAttribute env fuel) (some a)
              ⟨e, true, zero e⟩).dest),
            (decodeValue env (decodeAttribute env fuel) (some a) ⟨e, true, zero e⟩).status⟩ := by
    intro a p hn
    rw [decodeAttribute]
    unfold decodeBody
    simp only [ht, hn, Option.isSome_none, Bool.false_eq_true, if_false, Bool.true_eq_false]
  refine ⟨?_, ?_, ?_⟩
  · intro a p hn
    rw [hrep a p hn, hrep a none hn]
  · intro a p hn hp
    rw [hrep a p hn, decodeAttribute_nonPtr env fuel (some a) e true (zero e) hp]
  · intro fields m i he hf hun
    have hp : e.isPtr = false := by simp only [GoType.isPtr, he]
    have hz : zero e = .struct (zeroFields fields) := by rw [zero_underlying e, he, zero]
    constructor
    · intro p
      rw [hrep (AttributeValue.ofM m) p rfl,
        ← decodeAttribute_nonPtr env fuel _ e true (zero e) hp, hz,
        decodeAttribute_record env fuel e fields true _ m he hf]
      obtain ⟨cur1, h1, h2⟩ := decodeStructEntries_frame (decodeAttribute env fuel)
        (env.cachedTypeFields e) e fields true i he m (zeroFields fields) hun
      exact ⟨cur1, by rw [h1], h2⟩
    · intro c cur
      rw [decodeAttribute_record env fuel e fields c _ m he hf]
      exact decodeStructEntries_frame (decodeAttribute env fuel)
        (env.cachedTypeFields e) e fields c i he m cur hun

theorem C34_pointer_replaces_witness :
    (GoType.ptr samplePair).underlying = .ptr samplePair ∧
    (AttributeValue.ofM [("A", some (AttributeValue.ofN "7"))]).NULL = none ∧
    decodeAttribute sampleEnv (1 + 1) (some (AttributeValue.ofM [("A", some (AttributeValue.ofN "7"))]))
        ⟨.ptr samplePair, true, .ptr (some (.struct [.int 5, .str "x"]))⟩
      = decodeAttribute sampleEnv (1 + 1)
          (some (AttributeValue.ofM [("A", some (AttributeValue.ofN "7"))]))
          ⟨.ptr samplePair, true, .ptr none⟩ ∧
    decodeAttribute sampleEnv 2 (some (AttributeValue.ofM [("A", some (AttributeValue.ofN "7"))]))
        ⟨.ptr samplePair, true, .ptr (some (.struct [.int 5, .str "x"]))⟩
      = ⟨.ptr (some (.struct [.int 7, .str ""])), .ok ()⟩ ∧
    decodeAttribute sampleEnv 2 (some (AttributeValue.ofM [("A", some (AttributeValue.ofN "7"))]))
        ⟨samplePair, true, .struct [.int 5, .str "x"]⟩
      = ⟨.struct [.int 7, .str "x"], .ok ()⟩ :=
  ⟨rfl, rfl,
    (C34_pointer_replaces sampleEnv 1 (.ptr samplePair) samplePair rfl).1
      (AttributeValue.ofM [("A", some (AttributeValue.ofN "7"))])
      (some (.struct [.int 5, .str "x"])) rfl,
    rfl, rfl⟩

/-! ## Hook dispatch of the decoder -/

theorem decodeHooks_cases (env : Env) (attr : Option AttributeValue) (v : Value) :
    (v.typ.methods.numMethod > 0 ∧ v.typ.methods.jsonMarshaler = true →
      decodeHooks env attr v = some (decodeJSONValue env attr v)) ∧
    (¬ (v.typ.methods.numMethod > 0 ∧ v.typ.methods.jsonMarshaler = true) →
      v.typ.methods.numMethod > 0 ∧ v.typ.methods.textUnmarshaler = true →
      decodeHooks env attr v = some (decodeTextValue env attr v)) ∧
    (¬ (v.typ.methods.numMethod > 0 ∧ v.typ.methods.jsonMarshaler = true) →
      ¬ (v.typ.methods.numMethod > 0 ∧ v.typ.methods.textUnmarshaler = true) →
      v.typ.isPtr = false → v.canAddr = true →
      (v.Addr.typ.methods.numMethod > 0 ∧ v.Addr.typ.methods.jsonMarshaler = true →
        decodeHooks env attr v = some (binaryPathAddr env attr v)) ∧
      (¬ (v.Addr.typ.methods.numMethod > 0 ∧ v.Addr.typ.methods.jsonMarshaler = true) →
        v.Addr.typ.methods.numMethod > 0 ∧ v.Addr.typ.methods.textUnmarshaler = true →
        decodeHooks env attr v = some (decodeTextValue env attr v)) ∧
      (¬ (v.Addr.typ.methods.numMethod > 0 ∧ v.Addr.typ.methods.jsonMarshaler = true) →
        ¬ (v.Addr.typ.methods.numMethod > 0 ∧ v.Addr.typ.methods.textUnmarshaler = true) →
        decodeHooks env attr v = none)) ∧
    (¬ (v.typ.methods.numMethod > 0 ∧ v.typ.methods.jsonMarshaler = true) →
      ¬ (v.typ.methods.numMethod > 0 ∧ v.typ.methods.textUnmarshaler = true) →
      v.canAddr = false → decodeHooks env attr v = none) := by
  refine ⟨?_, ?_, ?_, ?_⟩
  · intro h
    unfold decodeHooks
    rw [if_pos h]
  · intro h1 h2
    unfold decodeHooks
    rw [if_neg h1, if_pos h2]
  · intro h1 h2 hp ha
    have hc : (!v.typ.isPtr) = true ∧ v.canAddr = true := by
      rw [hp, ha]
      exact ⟨rfl, rfl⟩
    refine ⟨?_, ?_, ?_⟩
    · intro h3
      unfold decodeHooks
      rw [if_neg h1, if_neg h2, if_pos hc]
      dsimp only
      rw [if_pos h3]
      rfl
    · intro h3 h4
      unfold decodeHooks
      rw [if_neg h1, if_neg h2, if_pos hc]
      dsimp only
      rw [if_neg h3, if_pos h4]
    · intro h3 h4
      unfold decodeHooks
      rw [if_neg h1, if_neg h2, if_pos hc]
      dsimp only
      rw [if_neg h3, if_neg h4]
  · intro h1 h2 ha
    have hc : ¬ ((!v.typ.isPtr) = true ∧ v.canAddr = true) := by
      rw [ha]
      rintro ⟨_, h⟩
      cases h
    unfold decodeHooks
    rw [if_neg h1, if_neg h2, if_neg hc]

theorem consumesBinary_iff (ms : MethodSet) (hw : ms.binaryPairWhole) :
    ms.consumesBinary = true ↔ (ms.numMethod > 0 ∧ ms.jsonMarshaler = true) := by
  unfold MethodSet.binaryPairWhole at hw
  simp only [MethodSet.consumesBinary, Bool.and_eq_true, decide_eq_true_eq, hw]

theorem consumesText_iff (ms : MethodSet) :
    ms.consumesText = true ↔ (ms.numMethod > 0 ∧ ms.textUnmarshaler = true) := by
  simp only [MethodSet.consumesText, Bool.and_eq_true, decide_eq_true_eq]

theorem not_of_eq_false {b : Bool} {p : Prop} (h : b = true ↔ p) (hb : b = false) : ¬ p :=
  fun hp => by
    rw [h.2 hp] at hb
    cases hb

/-- C32, amended. Hook dispatch of the decoder, for a destination that is not a pointer and
whose method sets, of the type and of the pointer to it, have the binary pair whole or absent.
The binary-hook path is taken when the type exposes the consume side of the binary pair;
otherwise the text-hook path when the type exposes the consume side of the text pair;
otherwise, only for an addressable destination, the binary-hook path on the addressed form when
the pointer type exposes the binary consume side, else the text-hook path when the pointer type
exposes the text consume side; in every other case the destination is decoded by the rule of
its shape. The paths are the functions `decodeJSONValue` and `decodeTextValue` of the source;
what a path does with the wire value is not part of the statement (the text-hook path on an
addressable destination of interface kind, for one, ends in the panic of its type
assertion). -/
theorem C32_decoder_dispatch (env : Env) (fuel : Nat) (attr : Option AttributeValue)
    (v : Value) (hp : v.typ.isPtr = false) (hw1 : v.typ.methods.binaryPairWhole)
    (hw2 : v.Addr.typ.methods.binaryPairWhole) :
    (v.typ.methods.consumesBinary = true →
      decodeAttribute env (fuel + 1) attr v = decodeJSONValue env attr v) ∧
    (v.typ.methods.consumesBinary = false → v.typ.methods.consumesText = true →
      decodeAttribute env (fuel + 1) attr v = decodeTextValue env attr v) ∧
    (v.typ.methods.consumesBinary = false → v.typ.methods.consumesText = false →
      v.canAddr = true → v.Addr.typ.methods.consumesBinary = true →
      decodeAttribute env (fuel + 1) attr v = binaryPathAddr env attr v) ∧
    (v.typ.methods.consumesBinary = false → v.typ.methods.consumesText = false →
      v.canAddr = true → v.Addr.typ.methods.consumesBinary = false →
      v.Addr.typ.methods.consumesText = true →
      decodeAttribute env (fuel + 1) attr v = decodeTextValue env attr v) ∧
    (v.typ.methods.consumesBinary = false → v.typ.methods.consumesText = false →
      (v.canAddr = false ∨ (v.Addr.typ.methods.consumesBinary = false ∧
        v.Addr.typ.methods.consumesText = false)) →
      decodeAttribute env (fuel + 1) attr v
        = decodeKind env (decodeAttribute env fuel) attr v) := by
  obtain ⟨t, c, d⟩ := v
  have hcases := decodeHooks_cases env attr ⟨t, c, d⟩
  have hb1 := consumesBinary_iff _ hw1
  have hb2 := consumesBinary_iff _ hw2
  have ht1 := consumesText_iff (Value.mk t c d).typ.methods
  have ht2 := consumesText_iff (Value.mk t c d).Addr.typ.methods
  have hdec := decodeAttribute_nonPtr env fuel attr t c d hp
  refine ⟨?_, ?_, ?_, ?_, ?_⟩
  · intro h
    rw [hdec, decodeValue, hcases.1 (hb1.1 h)]
  · intro h1 h2
    rw [hdec, decodeValue, hcases.2.1 (not_of_eq_false hb1 h1) (ht1.1 h2)]
  · intro h1 h2 ha h3
    rw [hdec, decodeValue, ((hcases.2.2.1 (not_of_eq_false hb1 h1) (not_of_eq_false ht1 h2) hp
      ha).1 (hb2.1 h3))]
  · intro h1 h2 ha h3 h4
    rw [hdec, decodeValue, ((hcases.2.2.1 (not_of_eq_false hb1 h1) (not_of_eq_false ht1 h2) hp
      ha).2.1 (not_of_eq_false hb2 h3) (ht2.1 h4))]
  · intro h1 h2 h
    rw [hdec, decodeValue]
    rcases h with ha | ⟨h3, h4⟩
    · rw [hcases.2.2.2 (not_of_eq_false hb1 h1) (not_of_eq_false ht1 h2) ha]
    · rcases Bool.eq_false_or_eq_true c with hc | hc
      · rw [((hcases.2.2.1 (not_of_eq_false hb1 h1) (not_of_eq_false ht1 h2) hp hc).2.2
          (not_of_eq_false hb2 h3) (not_of_eq_false ht2 h4))]
      · rw [hcases.2.2.2 (not_of_eq_false hb1 h1) (not_of_eq_false ht1 h2) hc]

theorem C32_decoder_dispatch_witness :
    (Value.mk sampleBinaryType true (.struct [.str "x"])).typ.isPtr = false ∧
    (Value.mk sampleBinaryType true (.struct [.str "x"])).typ.methods.binaryPairWhole ∧
    (Value.mk sampleBinaryType true (.struct [.str "x"])).Addr.typ.methods.binaryPairWhole ∧
    (Value.mk sampleBinaryType true (.struct [.str "x"])).Addr.typ.methods.consumesBinary
      = true ∧
    decodeAttribute sampleConsumeEnv (0 + 1) (some (AttributeValue.ofB [34, 34]))
        ⟨sampleBinaryType, true, .struct [.str "x"]⟩
      = binaryPathAddr sampleConsumeEnv (some (AttributeValue.ofB [34, 34]))
          ⟨sampleBinaryType, true, .struct [.str "x"]⟩ ∧
    binaryPathAddr sampleConsumeEnv (some (AttributeValue.ofB [34, 34]))
        ⟨sampleBinaryType, true, .struct [.str "x"]⟩
      = ⟨.str "json", .ok ()⟩ ∧
    sampleTextConsumer.methods.consumesBinary = false ∧
    sampleTextConsumer.methods.consumesText = true ∧
    decodeAttribute sampleConsumeEnv (0 + 1) (some (AttributeValue.ofS "x"))
        ⟨sampleTextConsumer, true, .iface none⟩
      = decodeTextValue sampleConsumeEnv (some (AttributeValue.ofS "x"))
          ⟨sampleTextConsumer, true, .iface none⟩ ∧
    decodeTextValue sampleConsumeEnv (some (AttributeValue.ofS "x"))
        ⟨sampleTextConsumer, true, .iface none⟩
      = ⟨.iface none, .panic textAssertionOnPointer⟩ ∧
    decodeTextValue sampleConsumeEnv (some (AttributeValue.ofS "x"))
        ⟨sampleTextConsumer, false, .iface none⟩
      = ⟨.iface none, .panic textAssertionOnNil⟩ :=
  ⟨rfl, rfl, rfl, rfl,
    (C32_decoder_dispatch sampleConsumeEnv 0 (some (AttributeValue.ofB [34, 34]))
      ⟨sampleBinaryType, true, .struct [.str "x"]⟩ rfl rfl rfl).2.2.1 rfl rfl rfl rfl,
    rfl, rfl, rfl,
    (C32_decoder_dispatch sampleConsumeEnv 0 (some (AttributeValue.ofS "x"))
      ⟨sampleTextConsumer, true, .iface none⟩ rfl rfl rfl).2.1 rfl rfl,
    rfl, rfl⟩

/-- C32 as stated fails on the order of the tests: for an addressable value of a type that
exposes the text consume side on the value form and the whole binary pair on the pointer form,
the decoder takes the text-hook path, which ignores a Binary, and not the binary-hook path of
the addressed form. -/
theorem C32_counterexample :
    sampleTextFirst.methods.consumesBinary = false ∧
    (GoType.ptr sampleTextFirst).methods.consumesBinary = true ∧
    decodeAttribute sampleConsumeEnv 1 (some (AttributeValue.ofB [34, 34]))
        ⟨sampleTextFirst, true, .str "old"⟩
      = ⟨.str "old", .ok ()⟩ ∧
    binaryPathAddr sampleConsumeEnv (some (AttributeValue.ofB [34, 34]))
        ⟨sampleTextFirst, true, .str "old"⟩
      = ⟨.str "json", .ok ()⟩ ∧
    ¬ DecoderDispatchClaim sampleConsumeEnv 0 := by
  refine ⟨rfl, rfl, rfl, rfl, ?_⟩
  intro h
  have h1 := (h (some (AttributeValue.ofB [34, 34])) ⟨sampleTextFirst, true, .str "old"⟩
    rfl).2 rfl rfl rfl
  have h2 : decodeAttribute sampleConsumeEnv (0 + 1) (some (AttributeValue.ofB [34, 34]))
      ⟨sampleTextFirst, true, .str "old"⟩ = ⟨.str "old", .ok ()⟩ := rfl
  have h3 : binaryPathAddr sampleConsumeEnv (some (AttributeValue.ofB [34, 34]))
      ⟨sampleTextFirst, true, .str "old"⟩ = ⟨.str "json", .ok ()⟩ := rfl
  rw [h2, h3] at h1
  simp only [DecOut.mk.injEq, Data.str.injEq, and_true] at h1
  exact absurd h1 (by decide)

/-! ## Pointer transparency of the encoder -/

theorem indirect_agree (t : GoType) (a b : Bool) (d : Data) :
    indirect t a d = indirect t b d ∨
      (indirect t a d = some ⟨t, a, d⟩ ∧ indirect t b d = some ⟨t, b, d⟩) := by
  rw [indirect.eq_def t a d, indirect.eq_def t b d]
  dsimp only
  cases t.underlying <;> cases d <;>
    first
    | exact Or.inl rfl
    | exact Or.inr ⟨rfl, rfl⟩
    | (rename_i p
       cases p <;> exact Or.inl rfl)

theorem field_agree (t : GoType) (a b : Bool) (d : Data) (i : Nat) (hfree : HookFree t d) :
    ((Value.mk t a d).Field i = none ∧ (Value.mk t b d).Field i = none) ∨
      ∃ ft x, (Value.mk t a d).Field i = some ⟨ft, a, x⟩ ∧
        (Value.mk t b d).Field i = some ⟨ft, b, x⟩ ∧ HookFree ft x := by
  cases hfree with
  | intro _ _ free hptr hiface hslice harray hmap hstruct =>
  unfold Value.Field
  dsimp only
  cases hu : t.underlying with
  | struct fts =>
    cases d with
    | struct fs =>
      dsimp only
      cases h1 : fts.get? i with
      | none => exact Or.inl ⟨rfl, rfl⟩
      | some ft =>
        cases h2 : fs.get? i with
        | none => exact Or.inl ⟨rfl, rfl⟩
        | some x => exact Or.inr ⟨ft.2, x, rfl, rfl, hstruct fts fs i ft x hu rfl h1 h2⟩
    | _ => exact Or.inl ⟨rfl, rfl⟩
  | _ => exact Or.inl ⟨rfl, rfl⟩

theorem fieldByIndex_cons (t : GoType) (c : Bool) (d : Data) (i : Nat) (rest : List Nat) :
    fieldByIndex ⟨t, c, d⟩ (i :: rest) =
      match t.underlying, d with
      | .ptr _, .ptr none => none
      | .ptr e, .ptr (some d1) =>
        match (Value.mk e true d1).Field i with
        | some fv => fieldByIndex fv rest
        | none => none
      | _, _ =>
        match (Value.mk t c d).Field i with
        | some fv => fieldByIndex fv rest
        | none => none := by
  rw [fieldByIndex.eq_def]

theorem fieldByIndex_agree :
    ∀ (path : List Nat) (t : GoType) (a b : Bool) (d : Data), HookFree t d →
      fieldByIndex ⟨t, a, d⟩ path = fieldByIndex ⟨t, b, d⟩ path ∨
        ∃ ft a1 b1 x, fieldByIndex ⟨t, a, d⟩ path = some ⟨ft, a1, x⟩ ∧
          fieldByIndex ⟨t, b, d⟩ path = some ⟨ft, b1, x⟩ ∧ HookFree ft x := by
  intro path
  induction path with
  | nil =>
    intro t a b d hfree
    exact Or.inr ⟨t, a, b, d, rfl, rfl, hfree⟩
  | cons i rest ih =>
    intro t a b d hfree
    rw [fieldByIndex_cons t a d i rest, fieldByIndex_cons t b d i rest]
    have hfield : (match (Value.mk t a d).Field i with
          | some fv => fieldByIndex fv rest
          | none => none) = (match (Value.mk t b d).Field i with
          | some fv => fieldByIndex fv rest
          | none => none) ∨
        ∃ ft a1 b1 x, (match (Value.mk t a d).Field i with
            | some fv => fieldByIndex fv rest
            | none => none) = some ⟨ft, a1, x⟩ ∧
          (match (Value.mk t b d).Field i with
            | some fv => fieldByIndex fv rest
            | none => none) = some ⟨ft, b1, x⟩ ∧ HookFree ft x := by
      rcases field_agree t a b d i hfree with ⟨h1, h2⟩ | ⟨ft, x, h1, h2, hx⟩
      · rw [h1, h2]
        exact Or.inl rfl
      · rw [h1, h2]
        exact ih ft a b x hx
    cases t.underlying <;> cases d <;>
      first
      | exact hfield
      | (rename_i p
         cases p <;> exact Or.inl rfl)

theorem keptField_agree (env : Env) (henv : EmptyIgnoresAddr env) (t : GoType) (a b : Bool)
    (d : Data) (f : Field) (hfree : HookFree t d) :
    keptField env ⟨t, a, d⟩ f = keptField env ⟨t, b, d⟩ f ∨
      ∃ ft a1 b1 x, keptField env ⟨t, a, d⟩ f = some ⟨ft, a1, x⟩ ∧
        keptField env ⟨t, b, d⟩ f = some ⟨ft, b1, x⟩ ∧ HookFree ft x := by
  unfold keptField
  rcases fieldByIndex_agree f.index t a b d hfree with h | ⟨ft, a1, b1, x, h1, h2, hx⟩
  · rw [h]
    exact Or.inl rfl
  · rw [h1, h2]
    dsimp only
    rw [henv ft a1 b1 x]
    by_cases hc : f.omitEmpty = true ∧ env.isEmptyValue ⟨ft, b1, x⟩ = true
    · rw [if_pos hc, if_pos hc]
      exact Or.inl rfl
    · rw [if_neg hc, if_neg hc]
      exact Or.inr ⟨ft, a1, b1, x, rfl, rfl, hx⟩

theorem encodeFields_agree (env : Env) (henv : EmptyIgnoresAddr env) (self : Value → EncOut)
    (hself : ∀ ft x a1 b1, HookFree ft x → self ⟨ft, a1, x⟩ = self ⟨ft, b1, x⟩)
    (t : GoType) (a b : Bool) (d : Data) (hfree : HookFree t d) :
    ∀ (table : List Field) (out : AttributeValueMap),
      encodeFields env self ⟨t, a, d⟩ table out = encodeFields env self ⟨t, b, d⟩ table out := by
  intro table
  induction table with
  | nil => intro out; rfl
  | cons f rest ih =>
    intro out
    rw [encodeFields_cons, encodeFields_cons]
    rcases keptField_agree env henv t a b d f hfree with h | ⟨ft, a1, b1, x, h1, h2, hx⟩
    · rw [h]
      simp only [ih]
    · rw [h1, h2]
      dsimp only
      rw [hself ft x a1 b1 hx]
      simp only [ih]

theorem encodeElems_agree (self : Value → EncOut) (e : GoType) (a b : Bool) :
    ∀ xs : List Data, (∀ x ∈ xs, self ⟨e, a, x⟩ = self ⟨e, b, x⟩) →
      encodeElems self e a xs = encodeElems self e b xs := by
  intro xs
  induction xs with
  | nil => intro _; rfl
  | cons x rest ih =>
    intro h
    rw [encodeElems, encodeElems, h x (List.mem_cons_self _ _),
      ih (fun y hy => h y (List.mem_cons_of_mem _ hy))]

theorem encodeKind_agree (env : Env) (henv : EmptyIgnoresAddr env) (self : Value → EncOut)
    (hself : ∀ ft x a1 b1, HookFree ft x → self ⟨ft, a1, x⟩ = self ⟨ft, b1, x⟩)
    (t : GoType) (a b : Bool) (d : Data) (hfree : HookFree t d) :
    encodeKind env self ⟨t, a, d⟩ = encodeKind env self ⟨t, b, d⟩ := by
  have hfields := encodeFields_agree env henv self hself t a b d hfree
    (env.cachedTypeFields t) []
  cases hfree with
  | intro _ _ free hptr hiface hslice harray hmap hstruct =>
  unfold encodeKind
  dsimp only
  cases hu : t.underlying with
  | struct fts =>
    cases d with
    | struct fs =>
      dsimp only [encodeStruct]
      rw [hfields]
    | _ => rfl
  | array n e =>
    cases d with
    | array xs =>
      dsimp only
      rw [encodeElems_agree self e a b xs
        (fun x hx => hself e x a b (harray n e xs x hu rfl hx))]
    | _ => rfl
  | _ =>
    cases d <;>
      first
      | rfl
      | (rename_i p
         cases p <;> rfl)

theorem afterHooks_agree (env : Env) (henv : EmptyIgnoresAddr env) (self : Value → EncOut)
    (hself : ∀ ft x a1 b1, HookFree ft x → self ⟨ft, a1, x⟩ = self ⟨ft, b1, x⟩)
    (t : GoType) (a b : Bool) (d : Data) (hfree : HookFree t d) :
    (match indirect t a d with
      | none => nullAttribute
      | some v1 => encodeKind env self v1)
    = (match indirect t b d with
      | none => nullAttribute
      | some v1 => encodeKind env self v1) := by
  rcases indirect_agree t a b d with h | ⟨h1, h2⟩
  · rw [h]
  · rw [h1, h2]
    exact encodeKind_agree env henv self hself t a b d hfree

theorem convert_addr_irrelevant (env : Env) (henv : EmptyIgnoresAddr env) :
    ∀ (fuel : Nat) (t : GoType) (d : Data) (a b : Bool), HookFree t d →
      convertToAttribute env fuel ⟨t, a, d⟩ = convertToAttribute env fuel ⟨t, b, d⟩ := by
  intro fuel
  induction fuel with
  | zero => intro t d a b _; rfl
  | succ fuel ih =>
    intro t d a b hfree
    have hf : t.encHookFree = true := by
      cases hfree with
      | intro _ _ free => exact free
    simp only [convertToAttribute, convertBody, encodeHooks_none env t _ d hf]
    exact afterHooks_agree env henv _ (fun ft x a1 b1 hx => ih ft x a1 b1 hx) t a b d hfree

theorem encHookFree_ptr (t : GoType) (h : t.encHookFree = true) :
    (GoType.ptr t).encHookFree = true := by
  simp only [GoType.encHookFree, Bool.and_eq_true, Bool.not_eq_true'] at h ⊢
  exact ⟨h.2, rfl⟩

/-- C33. Pointer transparency of the encoder. When no type reachable in the value `v` exposes
a conversion hook, converting a non-nil pointer to `v`, a pointer to a pointer to `v`, or an
interface of a hook-free interface type that holds `v`, gives exactly the outcome (wire value,
error or panic) of converting `v` itself, addressable or not, with the same fuel. The
emptiness test of the environment is taken not to depend on addressability. -/
theorem C33_pointer_transparency (env : Env) (fuel : Nat) (t : GoType) (a : Bool) (d : Data)
    (henv : EmptyIgnoresAddr env) (hfree : HookFree t d) :
    (∀ c : Bool, convertToAttribute env (fuel + 1) ⟨.ptr t, c, .ptr (some d)⟩
      = convertToAttribute env (fuel + 1) ⟨t, a, d⟩) ∧
    (∀ c : Bool,
      convertToAttribute env (fuel + 1) ⟨.ptr (.ptr t), c, .ptr (some (.ptr (some d)))⟩
        = convertToAttribute env (fuel + 1) ⟨t, a, d⟩) ∧
    (∀ (c : Bool) (it : GoType) (ms : MethodSet), it.underlying = .iface ms →
      it.encHookFree = true →
      convertToAttribute env (fuel + 1) ⟨it, c, .iface (some (t, d))⟩
        = convertToAttribute env (fuel + 1) ⟨t, a, d⟩) := by
  have hf : t.encHookFree = true := by
    cases hfree with
    | intro _ _ free => exact free
  have hself : ∀ ft x a1 b1, HookFree ft x →
      convertToAttribute env fuel ⟨ft, a1, x⟩ = convertToAttribute env fuel ⟨ft, b1, x⟩ :=
    fun ft x a1 b1 hx => convert_addr_irrelevant env henv fuel ft x a1 b1 hx
  have hrhs : convertToAttribute env (fuel + 1) ⟨t, a, d⟩
      = (match indirect t a d with
        | none => nullAttribute
        | some v1 => encodeKind env (convertToAttribute env fuel) v1) := by
    simp only [convertToAttribute, convertBody, encodeHooks_none env t a d hf]
  refine ⟨?_, ?_, ?_⟩
  · intro c
    have hl : convertToAttribute env (fuel + 1) ⟨.ptr t, c, .ptr (some d)⟩
        = (match indirect t true d with
          | none => nullAttribute
          | some v1 => encodeKind env (convertToAttribute env fuel) v1) := by
      simp only [convertToAttribute, convertBody,
        encodeHooks_none env (.ptr t) c _ (encHookFree_ptr t hf)]
      rw [indirect.eq_def (.ptr t) c]
      rfl
    rw [hl, hrhs]
    exact afterHooks_agree env henv _ hself t true a d hfree
  · intro c
    have hl : convertToAttribute env (fuel + 1)
          ⟨.ptr (.ptr t), c, .ptr (some (.ptr (some d)))⟩
        = (match indirect t true d with
          | none => nullAttribute
          | some v1 => encodeKind env (convertToAttribute env fuel) v1) := by
      simp only [convertToAttribute, convertBody,
        encodeHooks_none env (.ptr (.ptr t)) c _ (encHookFree_ptr _ (encHookFree_ptr t hf))]
      rw [indirect.eq_def (.ptr (.ptr t)) c]
      dsimp only [GoType.underlying]
      rw [indirect.eq_def (.ptr t) true]
      rfl
    rw [hl, hrhs]
    exact afterHooks_agree env henv _ hself t true a d hfree
  · intro c it ms hit hif
    have hl : convertToAttribute env (fuel + 1) ⟨it, c, .iface (some (t, d))⟩
        = (match indirect t false d with
          | none => nullAttribute
          | some v1 => encodeKind env (convertToAttribute env fuel) v1) := by
      simp only [convertToAttribute, convertBody, encodeHooks_none env it c _ hif]
      rw [indirect.eq_def it c]
      simp only [hit]
    rw [hl, hrhs]
    exact afterHooks_agree env henv _ hself t false a d hfree

theorem hookFree_of_leaf (t : GoType) (d : Data) (free : t.encHookFree = true)
    (h1 : ∀ p, d ≠ .ptr p) (h2 : ∀ p, d ≠ .iface p) (h3 : ∀ p, d ≠ .slice p)
    (h4 : ∀ xs, d ≠ .array xs) (h5 : ∀ p, d ≠ .map p) (h6 : ∀ fs, d ≠ .struct fs) :
    HookFree t d := by
  refine HookFree.intro t d free ?_ ?_ ?_ ?_ ?_ ?_
  · intro e d1 _ h; exact absurd h (h1 _)
  · intro ms dt d1 _ h; exact absurd h (h2 _)
  · intro e xs x _ h; exact absurd h (h3 _)
  · intro n e xs x _ h; exact absurd h (h4 _)
  · intro k e es kx _ h; exact absurd h (h5 _)
  · intro fts fs i ft x _ h; exact absurd h (h6 _)

theorem hookFree_sampleRecordValue : HookFree sampleRecord sampleRecordValue := by
  have hint : HookFree (.int 8) (.int (-3)) :=
    hookFree_of_leaf _ _ rfl (fun _ h => by cases h) (fun _ h => by cases h)
      (fun _ h => by cases h) (fun _ h => by cases h) (fun _ h => by cases h)
      (fun _ h => by cases h)
  have hstr : HookFree .string (.str "a") :=
    hookFree_of_leaf _ _ rfl (fun _ h => by cases h) (fun _ h => by cases h)
      (fun _ h => by cases h) (fun _ h => by cases h) (fun _ h => by cases h)
      (fun _ h => by cases h)
  have hnames : HookFree (.slice .string) (.slice (some [.str "a"])) := by
    refine HookFree.intro _ _ rfl ?_ ?_ ?_ ?_ ?_ ?_
    · intro e d1 _ h; cases h
    · intro ms dt d1 _ h; cases h
    · intro e xs x hu hd hx
      cases hu
      cases hd
      rw [List.mem_singleton] at hx
      rw [hx]
      exact hstr
    · intro n e xs x _ h; cases h
    · intro k e es kx _ h; cases h
    · intro fts fs i ft x _ h; cases h
  refine HookFree.intro _ _ rfl ?_ ?_ ?_ ?_ ?_ ?_
  · intro e d1 _ h; cases h
  · intro ms dt d1 _ h; cases h
  · intro e xs x _ h; cases h
  · intro n e xs x _ h; cases h
  · intro k e es kx _ h; cases h
  · intro fts fs i ft x hu hd h1 h2
    cases hu
    cases hd
    cases i with
    | zero =>
      simp only [List.get?_cons_zero, Option.some.injEq] at h1 h2
      rw [← h1, ← h2]
      exact hint
    | succ j =>
      cases j with
      | zero =>
        simp only [List.get?_cons_succ, List.get?_cons_zero, Option.some.injEq] at h1 h2
        rw [← h1, ← h2]
        exact hnames
      | succ k =>
        simp only [List.get?_cons_succ, List.get?_nil] at h1
        cases h1

theorem emptyIgnoresAddr_sampleEnv : EmptyIgnoresAddr sampleEnv := fun _ _ _ _ => rfl

theorem C33_pointer_transparency_witness :
    EmptyIgnoresAddr sampleEnv ∧ HookFree sampleRecord sampleRecordValue ∧
    convertToAttribute sampleEnv (2 + 1) ⟨.ptr sampleRecord, false, .ptr (some sampleRecordValue)⟩
      = convertToAttribute sampleEnv (2 + 1) ⟨sampleRecord, false, sampleRecordValue⟩ ∧
    convertToAttribute sampleEnv (2 + 1)
        ⟨.iface MethodSet.empty, false, .iface (some (sampleRecord, sampleRecordValue))⟩
      = convertToAttribute sampleEnv (2 + 1) ⟨sampleRecord, false, sampleRecordValue⟩ ∧
    convertToAttribute sampleEnv (2 + 1) ⟨sampleRecord, false, sampleRecordValue⟩
      = .ok (some (AttributeValue.ofM [("Value", some (AttributeValue.ofN "-3")),
          ("Names", some (AttributeValue.ofL [some (AttributeValue.ofS "a")]))])) :=
  ⟨emptyIgnoresAddr_sampleEnv, hookFree_sampleRecordValue,
    (C33_pointer_transparency sampleEnv 2 sampleRecord false sampleRecordValue
      emptyIgnoresAddr_sampleEnv hookFree_sampleRecordValue).1 false,
    (C33_pointer_transparency sampleEnv 2 sampleRecord false sampleRecordValue
      emptyIgnoresAddr_sampleEnv hookFree_sampleRecordValue).2.2 false (.iface MethodSet.empty)
      MethodSet.empty rfl rfl,
    rfl⟩
/-! ## Lemmas on the round trip -/

theorem hookFree_enc {t : GoType} (h : t.hookFree = true) : t.encHookFree = true := by
  simp only [GoType.hookFree, Bool.and_eq_true] at h
  exact h.1

theorem hookFree_dec {t : GoType} (h : t.hookFree = true) : t.decHookFree = true := by
  simp only [GoType.hookFree, Bool.and_eq_true] at h
  exact h.2

theorem convertBody_free (env : Env) (self : Value → EncOut) (t : GoType) (a : Bool)
    (d : Data) (hf : t.encHookFree = true) (hp : ∀ e, t.underlying ≠ .ptr e)
    (hi : ∀ ms, t.underlying ≠ .iface ms) :
    convertBody env self ⟨t, a, d⟩ = encodeKind env self ⟨t, a, d⟩ := by
  simp only [convertBody, encodeHooks_none env t a d hf, indirect_of_shape t a d hp hi]

/-- One step of the walk of `decodeStruct` in terms of `openRecord`. -/
theorem decodeField_cons (self : Option AttributeValue → Value → DecOut)
    (attr : Option AttributeValue) (t : GoType) (d : Data) (i : Nat) (rest : List Nat)
    (fts : List (StructField × GoType)) (fs : List Data) (b : Bool)
    (ft : StructField × GoType) (fd : Data) (ho : openRecord t d = some (fts, fs, b))
    (h1 : fts.get? i = some ft) (h2 : fs.get? i = some fd) :
    decodeField self attr ⟨t, true, d⟩ (i :: rest)
      = ⟨closeRecord b (fs.set i (decodeField self attr ⟨ft.2, true, fd⟩ rest).dest),
          (decodeField self attr ⟨ft.2, true, fd⟩ rest).status⟩ := by
  unfold openRecord at ho
  rw [decodeField.eq_def]
  dsimp only
  split at ho
  · rename_i _ _ e p hu
    split at ho
    · rename_i _ _ fts1 fs1 hu1 hd1
      simp only [Option.some.injEq, Prod.mk.injEq] at ho
      obtain ⟨rfl, rfl, rfl⟩ := ho
      cases p with
      | none =>
        simp only [Option.getD_none] at hd1
        simp only [hu, hu1, hd1, h1, h2, closeRecord, if_true]
      | some d1 =>
        simp only [Option.getD_some] at hd1
        subst hd1
        simp only [hu, hu1, h1, h2, closeRecord, if_true]
    · cases ho
  · rename_i _ _ fts1 fs1 hu
    simp only [Option.some.injEq, Prod.mk.injEq] at ho
    obtain ⟨rfl, rfl, rfl⟩ := ho
    simp only [hu, h1, h2, closeRecord, Bool.false_eq_true, if_false]
  · cases ho

/-- One step of `storeField` through a record that `openRecord` opened. -/
theorem storeField_cons (x : Data) (t : GoType) (d : Data) (i : Nat) (rest : List Nat)
    (fts : List (StructField × GoType)) (fs : List Data) (b : Bool)
    (ft : StructField × GoType) (fd : Data) (ho : openRecord t d = some (fts, fs, b))
    (h1 : fts.get? i = some ft) (h2 : fs.get? i = some fd) :
    storeField x t d (i :: rest) = closeRecord b (fs.set i (storeField x ft.2 fd rest)) := by
  rw [storeField]
  simp only [ho, h1, h2]

theorem reachField_cons (t : GoType) (d : Data) (i : Nat) (rest : List Nat)
    (fts : List (StructField × GoType)) (fs : List Data) (b : Bool)
    (ft : StructField × GoType) (fd : Data) (ho : openRecord t d = some (fts, fs, b))
    (h1 : fts.get? i = some ft) (h2 : fs.get? i = some fd) :
    reachField t d (i :: rest) = reachField ft.2 fd rest := by
  rw [reachField]
  simp only [ho, h1, h2]

/-- What a successful step of `reachField` went through. -/
theorem reachField_cons_some (t : GoType) (d : Data) (i : Nat) (rest : List Nat)
    (w : GoType × Data) (h : reachField t d (i :: rest) = some w) :
    ∃ fts fs b ft fd, openRecord t d = some (fts, fs, b) ∧ fts.get? i = some ft ∧
      fs.get? i = some fd ∧ reachField ft.2 fd rest = some w := by
  rw [reachField] at h
  cases ho : openRecord t d with
  | none => rw [ho] at h; cases h
  | some r =>
    obtain ⟨fts, fs, b⟩ := r
    rw [ho] at h
    dsimp only at h
    cases h1 : fts.get? i with
    | none => rw [h1] at h; cases h
    | some ft =>
      cases h2 : fs.get? i with
      | none => rw [h1, h2] at h; cases h
      | some fd =>
        rw [h1, h2] at h
        exact ⟨fts, fs, b, ft, fd, rfl, h1, h2, h⟩

/-- The walk of `decodeStruct` along an access path depends on the decoding function only
through the call on the field it arrives at, and puts the result of that call in the place of
the field. -/
theorem decodeField_store (self : Option AttributeValue → Value → DecOut)
    (attr : Option AttributeValue) :
    ∀ (p : List Nat) (t : GoType) (d : Data) (ft : GoType) (c : Data),
      reachField t d p = some (ft, c) →
      decodeField self attr ⟨t, true, d⟩ p
        = ⟨storeField (self attr ⟨ft, true, c⟩).dest t d p,
            (self attr ⟨ft, true, c⟩).status⟩ := by
  intro p
  induction p with
  | nil =>
    intro t d ft c h
    simp only [reachField, Option.some.injEq, Prod.mk.injEq] at h
    obtain ⟨h1, h2⟩ := h
    subst h1 h2
    rfl
  | cons i rest ih =>
    intro t d ft c h
    obtain ⟨fts, fs, b, ft1, fd, ho, h1, h2, hr⟩ := reachField_cons_some t d i rest _ h
    rw [decodeField_cons self attr t d i rest fts fs b ft1 fd ho h1 h2,
      storeField_cons _ t d i rest fts fs b ft1 fd ho h1 h2, ih ft1.2 fd ft c hr]

theorem diverge_cons (i j : Nat) (p q : List Nat) :
    diverge (i :: p) (j :: q) = if i = j then diverge p q else true := by
  rw [diverge]

theorem openRecord_closeRecord (t : GoType) (d : Data)
    (fts : List (StructField × GoType)) (fs gs : List Data) (b : Bool)
    (ho : openRecord t d = some (fts, fs, b)) :
    openRecord t (closeRecord b gs) = some (fts, gs, b) := by
  unfold openRecord at ho ⊢
  split at ho
  · rename_i _ _ e p hu
    split at ho
    · rename_i _ _ fts1 fs1 hu1 hd1
      simp only [Option.some.injEq, Prod.mk.injEq] at ho
      obtain ⟨rfl, rfl, rfl⟩ := ho
      simp only [hu, closeRecord, if_true, Option.getD_some, hu1]
    · cases ho
  · rename_i _ _ fts1 fs1 hu
    simp only [Option.some.injEq, Prod.mk.injEq] at ho
    obtain ⟨rfl, rfl, rfl⟩ := ho
    simp only [hu, closeRecord, Bool.false_eq_true, if_false]
  · cases ho

/-- Storing at one access path does not change what the walk finds at a path that parts ways
with it. -/
theorem reachField_storeField (x : Data) :
    ∀ (p q : List Nat) (t : GoType) (d : Data) (w : GoType × Data),
      diverge p q = true → reachField t d q = some w →
      reachField t (storeField x t d q) p = reachField t d p := by
  intro p
  induction p with
  | nil =>
    intro q t d w hd
    cases q <;> simp only [diverge] at hd <;> cases hd
  | cons i p ih =>
    intro q t d w hd hr
    cases q with
    | nil => simp only [diverge] at hd; cases hd
    | cons j q =>
      obtain ⟨fts, fs, b, ft, fd, ho, h1, h2, hr1⟩ := reachField_cons_some t d j q _ hr
      have hj : j < fs.length := by
        rw [List.get?_eq_getElem?] at h2
        exact (List.getElem?_eq_some_iff.1 h2).1
      rw [storeField_cons x t d j q fts fs b ft fd ho h1 h2]
      have ho2 := openRecord_closeRecord t d fts fs (fs.set j (storeField x ft.2 fd q)) b ho
      rw [diverge_cons] at hd
      by_cases hij : i = j
      · subst hij
        rw [if_pos rfl] at hd
        have hg : (fs.set i (storeField x ft.2 fd q)).get? i
            = some (storeField x ft.2 fd q) := by
          rw [List.get?_eq_getElem?, List.getElem?_set_self hj]
        rw [reachField_cons t _ i p fts _ b ft _ ho2 h1 hg,
          reachField_cons t d i p fts fs b ft fd ho h1 h2]
        exact ih q ft.2 fd w hd hr1
      · have hg : (fs.set j (storeField x ft.2 fd q)).get? i = fs.get? i := by
          rw [List.get?_eq_getElem?, List.get?_eq_getElem?,
            List.getElem?_set_ne (fun h => hij h.symm)]
        rw [reachField, reachField, ho2, ho]
        dsimp only
        rw [hg]

theorem diverge_comm : ∀ p q : List Nat, diverge p q = diverge q p
  | [], [] => rfl
  | [], _ :: _ => rfl
  | _ :: _, [] => rfl
  | i :: p, j :: q => by
    rw [diverge_cons, diverge_cons, diverge_comm p q]
    by_cases h : i = j
    · rw [if_pos h, if_pos h.symm]
    · rw [if_neg h, if_neg (fun h1 => h h1.symm)]

theorem field_some (t : GoType) (a : Bool) (d : Data) (i : Nat) (fv : Value)
    (h : (Value.mk t a d).Field i = some fv) :
    ∃ fts fs ft x, t.underlying = .struct fts ∧ d = .struct fs ∧ fts.get? i = some ft ∧
      fs.get? i = some x ∧ fv = ⟨ft.2, a, x⟩ := by
  unfold Value.Field at h
  dsimp only at h
  split at h
  · rename_i fts fs hu
    cases h1 : fts.get? i with
    | none => rw [h1] at h; cases h
    | some ft =>
      cases h2 : fs.get? i with
      | none => rw [h1, h2] at h; cases h
      | some x =>
        rw [h1, h2] at h
        simp only [Option.some.injEq] at h
        exact ⟨fts, fs, ft, x, hu, rfl, h1, h2, h.symm⟩
  · cases h

theorem openRecord_zero_struct (t : GoType) (fts : List (StructField × GoType))
    (hu : t.underlying = .struct fts) :
    openRecord t (zero t) = some (fts, zeroFields fts, false) := by
  have hz : zero t = .struct (zeroFields fts) := by rw [zero_underlying t, hu, zero]
  rw [hz]
  unfold openRecord
  simp only [hu]

theorem openRecord_zero_ptr (t e : GoType) (fts : List (StructField × GoType))
    (hu : t.underlying = .ptr e) (he : e.underlying = .struct fts) :
    openRecord t (zero t) = some (fts, zeroFields fts, true) := by
  have hz : zero t = .ptr none := by rw [zero_underlying t, hu, zero]
  have hze : zero e = .struct (zeroFields fts) := by rw [zero_underlying e, he, zero]
  rw [hz]
  unfold openRecord
  simp only [hu, Option.getD_none, hze, he]

/-- In the zero value of a record type, the walk of `decodeStruct` finds the zero value of the
field at every access path that leads to a field of some value of the type. -/
theorem reachField_zero :
    ∀ (p : List Nat) (t : GoType) (a : Bool) (d : Data) (fv : Value),
      fieldByIndex ⟨t, a, d⟩ p = some fv →
      reachField t (zero t) p = some (fv.typ, zero fv.typ) := by
  intro p
  induction p with
  | nil =>
    intro t a d fv h
    simp only [fieldByIndex, Option.some.injEq] at h
    subst h
    rfl
  | cons i rest ih =>
    intro t a d fv h
    rw [fieldByIndex_cons] at h
    split at h
    · cases h
    · rename_i e d1 hu
      cases hF : (Value.mk e true d1).Field i with
      | none => rw [hF] at h; cases h
      | some fv1 =>
        rw [hF] at h
        obtain ⟨fts, fs, ft, x, he, _, h1, _, hfv⟩ := field_some e true d1 i fv1 hF
        subst hfv
        rw [reachField_cons t (zero t) i rest fts (zeroFields fts) true ft (zero ft.2)
          (openRecord_zero_ptr t e fts hu he) h1 (get?_zeroFields fts i ft h1)]
        exact ih ft.2 true x fv h
    · rename_i d _ _ _ _
      cases hF : (Value.mk t a d).Field i with
      | none => rw [hF] at h; cases h
      | some fv1 =>
        rw [hF] at h
        obtain ⟨fts, fs, ft, x, hu, _, h1, _, hfv⟩ := field_some t a d i fv1 hF
        subst hfv
        rw [reachField_cons t (zero t) i rest fts (zeroFields fts) false ft (zero ft.2)
          (openRecord_zero_struct t fts hu) h1 (get?_zeroFields fts i ft h1)]
        exact ih ft.2 a x fv h

theorem keptField_some (env : Env) (v : Value) (g : Field) (fv : Value)
    (h : keptField env v g = some fv) : fieldByIndex v g.index = some fv := by
  unfold keptField at h
  cases hf : fieldByIndex v g.index with
  | none => rw [hf] at h; cases h
  | some fv1 =>
    rw [hf] at h
    dsimp only at h
    split at h
    · cases h
    · exact h

/-- The record loop of the encoder followed by the record loop of the decoder: the fields
that the encoder keeps are stored, one by one, at their access paths. -/
theorem struct_aux (env : Env) (f : Nat) (t : GoType) (a : Bool) (d : Data)
    (table : List Field) (hnames : (table.map (fun g => g.name)).Nodup)
    (FF : ∀ g ∈ table, ∀ fv, keptField env ⟨t, a, d⟩ g = some fv →
      RoundTripsStrong env f fv.typ fv.data) :
    ∀ (rem : List Field) (acc : AttributeValueMap) (cur : Data),
      (∀ g ∈ rem, g ∈ table) → (rem.map (fun g => g.name)).Nodup →
      (∀ g ∈ rem, g.name ∉ acc.map Prod.fst) →
      rem.Pairwise (fun g h => diverge g.index h.index = true) →
      (∀ g ∈ rem, ∀ fv, fieldByIndex ⟨t, a, d⟩ g.index = some fv →
        reachField t cur g.index = some (fv.typ, zero fv.typ)) →
      ∃ m1 : AttributeValueMap,
        encodeFields env (convertToAttribute env f) ⟨t, a, d⟩ rem acc = .ok (acc ++ m1) ∧
        decodeStructEntries (decodeAttribute env f) table t true m1 cur
          = ⟨rebuild env ⟨t, a, d⟩ rem cur, .ok ()⟩ := by
  intro rem
  induction rem with
  | nil =>
    intro acc cur _ _ _ _ _
    exact ⟨[], by simp [encodeFields], by simp [decodeStructEntries, rebuild]⟩
  | cons g rest ih =>
    intro acc cur hmem hnd hacc hpw hzero
    simp only [List.map_cons, List.nodup_cons] at hnd
    rw [List.pairwise_cons] at hpw
    cases hk : keptField env ⟨t, a, d⟩ g with
    | none =>
      obtain ⟨m1, hE, hD⟩ := ih acc cur
        (fun g1 hg1 => hmem g1 (List.mem_cons_of_mem _ hg1)) hnd.2
        (fun g1 hg1 => hacc g1 (List.mem_cons_of_mem _ hg1)) hpw.2
        (fun g1 hg1 => hzero g1 (List.mem_cons_of_mem _ hg1))
      refine ⟨m1, ?_, ?_⟩
      · rw [encodeFields_cons, hk]
        exact hE
      · rw [rebuild, hk]
        exact hD
    | some fv =>
      have hfb := keptField_some env _ g fv hk
      obtain ⟨av, hconv, _, hdec⟩ := FF g (hmem g (List.mem_cons_self _ _)) fv hk fv.canAddr
      have hreach := hzero g (List.mem_cons_self _ _) fv hfb
      have hname : g.name ∉ acc.map Prod.fst := hacc g (List.mem_cons_self _ _)
      have hstore := decodeField_store (decodeAttribute env f) (some av) g.index t cur fv.typ
        (zero fv.typ) hreach
      rw [hdec] at hstore
      obtain ⟨m1, hE, hD⟩ := ih (acc ++ [(g.name, some av)])
        (storeField fv.data t cur g.index)
        (fun g1 hg1 => hmem g1 (List.mem_cons_of_mem _ hg1)) hnd.2
        (by
          intro g1 hg1
          simp only [List.map_append, List.map_cons, List.map_nil, List.mem_append,
            List.mem_singleton, not_or]
          refine ⟨hacc g1 (List.mem_cons_of_mem _ hg1), ?_⟩
          intro heq
          apply hnd.1
          rw [← heq]
          exact List.mem_map_of_mem (fun g => g.name) hg1)
        hpw.2
        (by
          intro g1 hg1 fv1 hfv1
          have hdv : diverge g1.index g.index = true := by
            rw [diverge_comm]
            exact hpw.1 g1 hg1
          rw [reachField_storeField fv.data g1.index g.index t cur _ hdv hreach]
          exact hzero g1 (List.mem_cons_of_mem _ hg1) fv1 hfv1)
      refine ⟨(g.name, some av) :: m1, ?_, ?_⟩
      · rw [encodeFields_cons, hk]
        have hfv : (⟨fv.typ, fv.canAddr, fv.data⟩ : Value) = fv := rfl
        rw [hfv] at hconv
        simp only [hconv, mapSet_append acc _ _ hname, hE]
        simp
      · have hfind := find?_of_nodup_names table g hnames (hmem g (List.mem_cons_self _ _))
        rw [decodeStructEntries]
        simp only [hfind, hstore]
        rw [rebuild, hk]
        exact hD

theorem roundTrip_struct (env : Env) (f : Nat) (t : GoType)
    (fts : List (StructField × GoType)) (fs : List Data) (hu : t.underlying = .struct fts)
    (hf : t.hookFree = true) (htable : Unambiguous (env.cachedTypeFields t))
    (FF : ∀ (a : Bool) (g : Field) (fv : Value), g ∈ env.cachedTypeFields t →
      keptField env ⟨t, a, .struct fs⟩ g = some fv → RoundTripsStrong env f fv.typ fv.data)
    (hdet : ∀ a : Bool,
      rebuild env ⟨t, a, .struct fs⟩ (env.cachedTypeFields t) (zero t) = .struct fs) :
    RoundTripsStrong env (f + 1) t (.struct fs) := by
  intro a
  obtain ⟨hnames, hpaths⟩ := htable
  obtain ⟨m1, hE, hD⟩ := struct_aux env f t a (.struct fs) (env.cachedTypeFields t) hnames
    (fun g hg fv hk => FF a g fv hg hk) (env.cachedTypeFields t) [] (zero t)
    (fun g hg => hg) hnames (fun g _ => by simp) hpaths
    (fun g _ fv hfv => reachField_zero g.index t a (.struct fs) fv hfv)
  simp only [List.nil_append] at hE
  rw [hdet a] at hD
  have hp : t.isPtr = false := by simp only [GoType.isPtr, hu]
  refine ⟨AttributeValue.ofM m1, ?_, fun _ _ => rfl, ?_⟩
  · rw [convertToAttribute, convertBody_free env _ t a _ (hookFree_enc hf) (by simp [hu])
      (by simp [hu])]
    unfold encodeKind
    simp only [hu, encodeStruct, hE]
  · rw [decodeAttribute_kind env f _ t true _ (hookFree_dec hf) hp]
    unfold decodeKind
    simp only [hu, AttributeValue.ofM, AttributeValue.M, decodeStruct, hD]

/-! ## The round trip, shape by shape -/

theorem Built.not_iface {env : Env} {strict : Bool} {t : GoType} {d : Data}
    (h : Built env strict t d) : ∀ ms, t.underlying ≠ .iface ms := by
  intro ms hms
  cases h <;> simp_all

theorem Built.isPtr_of_ptr {env : Env} {strict : Bool} {t : GoType} {p : Option Data}
    (h : Built env strict t (.ptr p)) : t.isPtr = true := by
  cases h with
  | nilPtr _ e hu hf => simp only [GoType.isPtr, hu]
  | ptr _ e x hu hf hx hs => simp only [GoType.isPtr, hu]

theorem roundTrip_bool (env : Env) (f : Nat) (b : Bool) :
    RoundTripsStrong env (f + 1) .bool (.bool b) := by
  intro a
  refine ⟨AttributeValue.ofBOOL b, ?_, fun _ _ => rfl, rfl⟩
  rw [convertToAttribute, convertBody_free env _ .bool a _ rfl (by simp [GoType.underlying])
    (by simp [GoType.underlying])]
  rfl

theorem roundTrip_string (env : Env) (f : Nat) (t : GoType) (s : String)
    (hu : t.underlying = .string) (hf : t.hookFree = true) (hs : s.length ≠ 0) :
    RoundTripsStrong env (f + 1) t (.str s) := by
  intro a
  have hp : t.isPtr = false := by simp only [GoType.isPtr, hu]
  refine ⟨AttributeValue.ofS s, ?_, fun _ _ => rfl, ?_⟩
  · rw [convert_string env f t a s hu (hookFree_enc hf), if_neg hs]
  · rw [decodeAttribute_kind env f _ t true _ (hookFree_dec hf) hp]
    unfold decodeKind
    simp only [hu, AttributeValue.ofS, AttributeValue.S, setValue, if_true]

theorem roundTrip_int (env : Env) (f : Nat) (t : GoType) (w : Nat) (n : Int)
    (hu : t.underlying = .int w) (hf : t.hookFree = true) (hw : w ∈ [8, 16, 32, 64])
    (hn : fitsSigned w n) : RoundTripsStrong env (f + 1) t (.int n) := by
  intro a
  obtain ⟨hp1, _⟩ := pow_le_of_width w hw
  simp only [fitsSigned] at hn
  refine ⟨AttributeValue.ofN (FormatInt n), convert_int env f t w a n hu (hookFree_enc hf),
    fun _ _ => rfl, ?_⟩
  rw [decode_int env f t w _ _ hu (hookFree_dec hf),
    ParseInt_FormatInt n (by omega) (by omega)]
  have : OverflowInt w n = false := by
    simp only [OverflowInt, decide_eq_false_iff_not]
    omega
  simp [this]

theorem roundTrip_uint (env : Env) (f : Nat) (t : GoType) (w : Nat) (n : Nat)
    (hu : t.underlying = .uint w) (hf : t.hookFree = true) (hw : w ∈ [8, 16, 32, 64])
    (hn : fitsUnsigned w n) : RoundTripsStrong env (f + 1) t (.uint n) := by
  intro a
  obtain ⟨_, hp2⟩ := pow_le_of_width w hw
  simp only [fitsUnsigned] at hn
  refine ⟨AttributeValue.ofN (FormatUint n), convert_uint env f t w a n hu (hookFree_enc hf),
    fun _ _ => rfl, ?_⟩
  rw [decode_uint env f t w _ _ hu (hookFree_dec hf), ParseUint_FormatUint n (by omega)]
  have : OverflowUint w n = false := by
    simp only [OverflowUint, decide_eq_false_iff_not]
    omega
  simp [this]

theorem roundTrip_nilMap (env : Env) (f : Nat) (t k e : GoType) (hu : t.underlying = .map k e)
    (hf : t.hookFree = true) : RoundTripsStrong env (f + 1) t (.map none) := by
  intro a
  have hp : t.isPtr = false := by simp only [GoType.isPtr, hu]
  have hz : zero t = .map none := by rw [zero_underlying t, hu, zero]
  refine ⟨AttributeValue.ofNULL true, ?_, fun _ h => absurd rfl h, ?_⟩
  · rw [convertToAttribute, convertBody_free env _ t a _ (hookFree_enc hf) (by simp [hu])
      (by simp [hu])]
    unfold encodeKind
    simp only [hu, nullAttribute]
  · rw [decodeAttribute_kind env f _ t true _ (hookFree_dec hf) hp]
    unfold decodeKind
    simp only [hu, AttributeValue.ofNULL, AttributeValue.M, AttributeValue.NULL,
      Option.isSome_some, if_true, setValue, hz]

theorem roundTrip_bytes (env : Env) (f : Nat) (t : GoType) (xs : List Data)
    (hu : t.underlying = .slice (.uint 8)) (hf : t.hookFree = true) (hne : xs ≠ [])
    (hb : ∀ x ∈ xs, ∃ b : Nat, x = .uint b) :
    RoundTripsStrong env (f + 1) t (.slice (some xs)) := by
  intro a
  have hp : t.isPtr = false := by simp only [GoType.isPtr, hu]
  have hlen : ¬ xs.length = 0 := fun h => hne (List.length_eq_zero.1 h)
  refine ⟨AttributeValue.ofB (xs.map (fun x => match x with
      | .uint n => n
      | _ => 0)), ?_, fun _ _ => rfl, ?_⟩
  · rw [convertToAttribute, convertBody_free env _ t a _ (hookFree_enc hf) (by simp [hu])
      (by simp [hu])]
    unfold encodeKind
    simp only [hu, hlen, if_false, GoType.isUint8, GoType.underlying, if_true]
  · rw [decodeAttribute_kind env f _ t true _ (hookFree_dec hf) hp]
    unfold decodeKind
    simp only [hu, GoType.isUint8, GoType.underlying, if_true, decodeBytes,
      AttributeValue.ofB, AttributeValue.B, setAssignable, setValue]
    exact congrArg (fun l => DecOut.mk (.slice (some l)) (.ok ())) (map_uint_bytes xs hb)

theorem decodeArray_slice (self : Option AttributeValue → Value → DecOut) (t e : GoType)
    (hu : t.underlying = .slice e) (hi : ∀ ms, e.underlying ≠ .iface ms)
    (l : List (Option AttributeValue)) (hl : l.length ≠ 0) (prior : Data) :
    decodeArray self (some (AttributeValue.ofL l)) ⟨t, true, prior⟩
      = ⟨.slice (some (decodeElems self e true l (List.replicate l.length (zero e))).1),
          (decodeElems self e true l (List.replicate l.length (zero e))).2⟩ := by
  simp only [decodeArray, AttributeValue.ofL, AttributeValue.NULL, AttributeValue.L, hu, hl,
    if_false, Bool.true_eq_false]

theorem decodeArray_array (self : Option AttributeValue → Value → DecOut) (t e : GoType)
    (n : Nat) (hu : t.underlying = .array n e) (hi : ∀ ms, e.underlying ≠ .iface ms)
    (l : List (Option AttributeValue)) (xs : List Data) (hx : xs.length ≠ 0) :
    decodeArray self (some (AttributeValue.ofL l)) ⟨t, true, .array xs⟩
      = ⟨.array (decodeElems self e true l xs).1, (decodeElems self e true l xs).2⟩ := by
  simp only [decodeArray, AttributeValue.ofL, AttributeValue.NULL, AttributeValue.L, hu, hx,
    if_false]

theorem roundTrip_slice (env : Env) (f : Nat) (t e : GoType) (xs : List Data)
    (hu : t.underlying = .slice e) (hf : t.hookFree = true)
    (hi : ∀ ms, e.underlying ≠ .iface ms) (he : e.isUint8 = false) (hne : xs ≠ [])
    (hall : ∀ x ∈ xs, RoundTripsStrong env f e x) :
    RoundTripsStrong env (f + 1) t (.slice (some xs)) := by
  intro a
  have hp : t.isPtr = false := by simp only [GoType.isPtr, hu]
  have hlen : ¬ xs.length = 0 := fun h => hne (List.length_eq_zero.1 h)
  obtain ⟨outs, houts⟩ := forall₂_of_forall_mem
    (fun x o => convertToAttribute env f ⟨e, true, x⟩ = .ok (some o) ∧
      decodeAttribute env f (some o) ⟨e, true, zero e⟩ = ⟨x, .ok ()⟩) xs
    (fun x hx => by
      obtain ⟨av, h1, _, h3⟩ := hall x hx true
      exact ⟨av, h1, h3⟩)
  have hE := encodeElems_of_forall₂ (convertToAttribute env f) e true xs outs
    (houts.imp (fun _ _ h => h.1))
  have hD := decodeElems_of_forall₂ (decodeAttribute env f) e xs outs
    (houts.imp (fun _ _ h => h.2))
  have hol : (outs.map some).length = xs.length := by
    rw [List.length_map, houts.length_eq]
  refine ⟨AttributeValue.ofL (outs.map some), ?_, fun _ _ => rfl, ?_⟩
  · rw [convertToAttribute, convertBody_free env _ t a _ (hookFree_enc hf) (by simp [hu])
      (by simp [hu])]
    unfold encodeKind
    simp only [hu, hlen, if_false, he, Bool.false_eq_true, hE]
  · rw [decodeAttribute_kind env f _ t true _ (hookFree_dec hf) hp]
    unfold decodeKind
    simp only [hu, he, Bool.false_eq_true, if_false]
    rw [decodeArray_slice _ t e hu hi _ (by rw [hol]; exact hlen), hol, hD]

theorem roundTrip_array (env : Env) (f : Nat) (t e : GoType) (xs : List Data)
    (hu : t.underlying = .array xs.length e) (hf : t.hookFree = true)
    (hi : xs ≠ [] → ∀ ms, e.underlying ≠ .iface ms)
    (hall : ∀ x ∈ xs, RoundTripsStrong env f e x) :
    RoundTripsStrong env (f + 1) t (.array xs) := by
  intro a
  have hp : t.isPtr = false := by simp only [GoType.isPtr, hu]
  have hz : zero t = .array (List.replicate xs.length (zero e)) := by
    rw [zero_underlying t, hu, zero]
  obtain ⟨outs, houts⟩ := forall₂_of_forall_mem
    (fun x o => convertToAttribute env f ⟨e, a, x⟩ = .ok (some o) ∧
      decodeAttribute env f (some o) ⟨e, true, zero e⟩ = ⟨x, .ok ()⟩) xs
    (fun x hx => by
      obtain ⟨av, h1, _, h3⟩ := hall x hx a
      exact ⟨av, h1, h3⟩)
  have hE := encodeElems_of_forall₂ (convertToAttribute env f) e a xs outs
    (houts.imp (fun _ _ h => h.1))
  have hD := decodeElems_of_forall₂ (decodeAttribute env f) e xs outs
    (houts.imp (fun _ _ h => h.2))
  refine ⟨AttributeValue.ofL (outs.map some), ?_, fun _ _ => rfl, ?_⟩
  · rw [convertToAttribute, convertBody_free env _ t a _ (hookFree_enc hf) (by simp [hu])
      (by simp [hu])]
    unfold encodeKind
    simp only [hu, hE]
  · rw [decodeAttribute_kind env f _ t true _ (hookFree_dec hf) hp]
    unfold decodeKind
    simp only [hu, hz]
    by_cases h0 : xs.length = 0
    · have hnil : xs = [] := List.length_eq_zero.1 h0
      subst hnil
      cases houts
      simp only [decodeArray, AttributeValue.ofL, AttributeValue.NULL, AttributeValue.L, hu,
        List.length_nil, List.replicate_zero, List.map_nil, if_true]
    · have hne : xs ≠ [] := fun h => h0 (by rw [h]; rfl)
      rw [decodeArray_array _ t e _ hu (hi hne) _ _ (by simpa using h0), hD]

theorem roundTrip_map (env : Env) (f : Nat) (t k e : GoType) (entries : List (Data × Data))
    (hu : t.underlying = .map k e) (hf : t.hookFree = true) (hks : k.isString = true)
    (hk : ∀ kv ∈ entries, ∃ s : String, kv.1 = .str s)
    (hnd : (entries.map (fun kv => keyString kv.1)).Nodup)
    (hall : ∀ kv ∈ entries, RoundTripsStrong env f e kv.2) :
    RoundTripsStrong env (f + 1) t (.map (some entries)) := by
  intro a
  have hp : t.isPtr = false := by simp only [GoType.isPtr, hu]
  have hz : zero t = .map none := by rw [zero_underlying t, hu, zero]
  obtain ⟨wire, hwire⟩ := forall₂_of_forall_mem
    (fun (kv : Data × Data) (we : String × Option AttributeValue) =>
      (we.1 = keyString kv.1 ∧ kv.1 = Data.str we.1) ∧
      ∃ o, we.2 = some o ∧ convertToAttribute env f ⟨e, false, kv.2⟩ = .ok (some o) ∧
        decodeAttribute env f (some o) ⟨e, true, zero e⟩ = ⟨kv.2, .ok ()⟩) entries
    (fun kv hkv => by
      obtain ⟨av, h1, _, h3⟩ := hall kv hkv false
      obtain ⟨s, hkk⟩ := hk kv hkv
      exact ⟨(s, some av), ⟨by simp [hkk, keyString], hkk⟩, av, rfl, h1, h3⟩)
  have hkeys : wire.map Prod.fst = entries.map (fun kv => keyString kv.1) := by
    clear hnd hall hk
    induction hwire with
    | nil => rfl
    | cons h1 _ ih => simp [h1.1.1, ih]
  have hnd2 : (wire.map Prod.fst).Nodup := by rw [hkeys]; exact hnd
  have hE := encodeEntries_of_forall₂ (convertToAttribute env f) e entries wire
    (hwire.imp (fun _ _ h => ⟨h.1.1, by
      obtain ⟨o, h1, h2, _⟩ := h.2
      exact ⟨o, h1, h2⟩⟩)) [] hnd2 (by simp)
  have hD := decodeMap_of_forall₂ (decodeAttribute env f) e entries wire
    (hwire.imp (fun _ _ h => ⟨h.1.2, by
      obtain ⟨o, h1, _, h3⟩ := h.2
      exact ⟨o, h1, h3⟩⟩)) [] hnd2 (by simp)
  simp only [List.nil_append] at hE hD
  refine ⟨AttributeValue.ofM wire, ?_, fun _ _ => rfl, ?_⟩
  · rw [convertToAttribute, convertBody_free env _ t a _ (hookFree_enc hf) (by simp [hu])
      (by simp [hu])]
    unfold encodeKind
    simp only [hu, hks, hE, Bool.true_eq_false, if_false]
  · rw [decodeAttribute_kind env f _ t true _ (hookFree_dec hf) hp]
    unfold decodeKind
    simp only [hu, hks, AttributeValue.ofM, AttributeValue.M, hz, Bool.true_eq_false,
      if_false, if_true, hD]

theorem roundTrip_nilPtr (env : Env) (f : Nat) (t e : GoType) (hu : t.underlying = .ptr e) :
    RoundTripsStrong env (f + 1) t (.ptr none) := by
  intro a
  have hp : t.isPtr = true := by simp only [GoType.isPtr, hu]
  have hz : zero t = .ptr none := by rw [zero_underlying t, hu, zero]
  refine ⟨AttributeValue.ofNULL true, ?_, fun h => absurd rfl h, ?_⟩
  · rw [convertToAttribute, convertBody_nilPtr env _ t a hp]
    rfl
  · rw [decodeAttribute_null_ptr env f t e _ true hu, hz]

theorem roundTrip_ptr (env : Env) (fuel : Nat) (t e : GoType) (x : Data)
    (hu : t.underlying = .ptr e) (hf : t.hookFree = true) (hfe : e.hookFree = true)
    (hn : e.isPtr = false) (hi : ∀ ms, e.underlying ≠ .iface ms) (hx1 : x ≠ .ptr none)
    (hx2 : x ≠ .map none) (h : RoundTripsStrong env fuel e x) :
    RoundTripsStrong env fuel t (.ptr (some x)) := by
  intro a
  obtain ⟨av, hconv, hnull, hdec⟩ := h true
  cases fuel with
  | zero => cases hconv
  | succ f =>
    have hpe : ∀ e1, e.underlying ≠ .ptr e1 := by
      intro e1 he1
      simp [GoType.isPtr, he1] at hn
    have hind : indirect e true x = some ⟨e, true, x⟩ := indirect_of_shape e true x hpe hi
    refine ⟨av, ?_, fun _ _ => hnull hx1 hx2, ?_⟩
    · rw [convertToAttribute, convertBody_free env _ e true _ (hookFree_enc hfe) hpe hi]
        at hconv
      rw [convertToAttribute, convertBody, encodeHooks_none env t a _ (hookFree_enc hf)]
      dsimp only
      rw [indirect.eq_def]
      simp only [hu, hind]
      exact hconv
    · rw [decodeAttribute_nonPtr env f _ e true _ hn] at hdec
      rw [decodeAttribute, decodeBody]
      simp only [hu, hnull hx1 hx2, Option.isSome_none, Bool.false_eq_true, if_false, hdec,
        Bool.true_eq_false]

theorem bound_both (P : Nat → Bool → Prop) (h : ∀ a, ∃ n, ∀ fuel, n ≤ fuel → P fuel a) :
    ∃ n, ∀ fuel, n ≤ fuel → ∀ a, P fuel a := by
  obtain ⟨n1, h1⟩ := h true
  obtain ⟨n2, h2⟩ := h false
  refine ⟨max n1 n2, fun fuel hf a => ?_⟩
  cases a
  · exact h2 fuel (le_trans (le_max_right _ _) hf)
  · exact h1 fuel (le_trans (le_max_left _ _) hf)

theorem Built.hookFree {env : Env} {strict : Bool} {t : GoType} {d : Data}
    (h : Built env strict t d) : t.hookFree = true := by
  cases h <;> assumption

/-- The round trip holds for every value of the strict universe once the fuel is large
enough. -/
theorem roundTrip_strong (env : Env) (t : GoType) (d : Data) (h : Built env true t d) :
    ∃ N, ∀ fuel, N ≤ fuel → RoundTripsStrong env fuel t d := by
  induction h with
  | bool t b hu hf hs =>
    refine ⟨1, fun fuel hfu => ?_⟩
    obtain ⟨f, rfl⟩ := Nat.exists_eq_add_of_le' hfu
    rw [hs rfl]
    exact roundTrip_bool env f b
  | int t w n hu hf hw hn =>
    refine ⟨1, fun fuel hfu => ?_⟩
    obtain ⟨f, rfl⟩ := Nat.exists_eq_add_of_le' hfu
    exact roundTrip_int env f t w n hu hf hw hn
  | uint t w n hu hf hw hn =>
    refine ⟨1, fun fuel hfu => ?_⟩
    obtain ⟨f, rfl⟩ := Nat.exists_eq_add_of_le' hfu
    exact roundTrip_uint env f t w n hu hf hw hn
  | string t s hu hf hs =>
    refine ⟨1, fun fuel hfu => ?_⟩
    obtain ⟨f, rfl⟩ := Nat.exists_eq_add_of_le' hfu
    exact roundTrip_string env f t s hu hf hs
  | bytes t e xs hu hf he hne hb hs =>
    refine ⟨1, fun fuel hfu => ?_⟩
    obtain ⟨f, rfl⟩ := Nat.exists_eq_add_of_le' hfu
    rw [hs rfl] at hu
    exact roundTrip_bytes env f t xs hu hf hne hb
  | slice t e xs hu hf he hne hx ih =>
    obtain ⟨N, hN⟩ := exists_common_bound (fun fuel x => RoundTripsStrong env fuel e x) xs ih
    refine ⟨N + 1, fun fuel hfu => ?_⟩
    obtain ⟨f, rfl⟩ := Nat.exists_eq_add_of_le' (Nat.le_trans (Nat.le_add_left 1 N) hfu)
    obtain ⟨x, rest, rfl⟩ := List.exists_cons_of_ne_nil hne
    have hi := (hx x (List.mem_cons_self _ _)).not_iface
    exact roundTrip_slice env f t e _ hu hf hi he hne (hN f (by omega))
  | array t e xs hu hf hx ih =>
    obtain ⟨N, hN⟩ := exists_common_bound (fun fuel x => RoundTripsStrong env fuel e x) xs ih
    refine ⟨N + 1, fun fuel hfu => ?_⟩
    obtain ⟨f, rfl⟩ := Nat.exists_eq_add_of_le' (Nat.le_trans (Nat.le_add_left 1 N) hfu)
    refine roundTrip_array env f t e xs hu hf ?_ (hN f (by omega))
    intro hne
    obtain ⟨x, rest, rfl⟩ := List.exists_cons_of_ne_nil hne
    exact (hx x (List.mem_cons_self _ _)).not_iface
  | nilMap t k e hu hf hk =>
    refine ⟨1, fun fuel hfu => ?_⟩
    obtain ⟨f, rfl⟩ := Nat.exists_eq_add_of_le' hfu
    exact roundTrip_nilMap env f t k e hu hf
  | map t k e entries hu hf hk hkeys hnd hx ih =>
    obtain ⟨N, hN⟩ := exists_common_bound
      (fun fuel (kv : Data × Data) => RoundTripsStrong env fuel e kv.2) entries ih
    refine ⟨N + 1, fun fuel hfu => ?_⟩
    obtain ⟨f, rfl⟩ := Nat.exists_eq_add_of_le' (Nat.le_trans (Nat.le_add_left 1 N) hfu)
    exact roundTrip_map env f t k e entries hu hf hk hkeys hnd (hN f (by omega))
  | struct t fts fs hu hf htable hx hs ih =>
    obtain ⟨N, hN⟩ := exists_common_bound
      (fun fuel (g : Field) => ∀ (a : Bool) (fv : Value),
        keptField env ⟨t, a, .struct fs⟩ g = some fv → RoundTripsStrong env fuel fv.typ fv.data)
      (env.cachedTypeFields t)
      (fun g hg => bound_both
        (fun fuel a => ∀ fv : Value, keptField env ⟨t, a, .struct fs⟩ g = some fv →
          RoundTripsStrong env fuel fv.typ fv.data)
        (fun a => by
          cases hk : keptField env ⟨t, a, .struct fs⟩ g with
          | none =>
            refine ⟨0, fun _ _ fv h => ?_⟩
            rw [hk] at h
            cases h
          | some fv0 =>
            obtain ⟨n, hn⟩ := ih a g fv0 hg hk
            refine ⟨n, fun fuel hfu fv h => ?_⟩
            rw [hk] at h
            cases h
            exact hn fuel hfu))
    refine ⟨N + 1, fun fuel hfu => ?_⟩
    obtain ⟨f, rfl⟩ := Nat.exists_eq_add_of_le' (Nat.le_trans (Nat.le_add_left 1 N) hfu)
    exact roundTrip_struct env f t fts fs hu hf htable
      (fun a g fv hg hk => hN f (by omega) g hg a fv hk) (hs rfl)
  | nilPtr t e hu hf =>
    refine ⟨1, fun fuel hfu => ?_⟩
    obtain ⟨f, rfl⟩ := Nat.exists_eq_add_of_le' hfu
    exact roundTrip_nilPtr env f t e hu
  | ptr t e x hu hf hx hs ih =>
    obtain ⟨N, hN⟩ := ih
    obtain ⟨hn, hx2⟩ := hs rfl
    have hx1 : x ≠ .ptr none := by
      intro heq
      subst heq
      have := hx.isPtr_of_ptr
      rw [hn] at this
      cases this
    exact ⟨N, fun fuel hfu =>
      roundTrip_ptr env fuel t e x hu hf hx.hookFree hn hx.not_iface hx1 hx2 (hN fuel hfu)⟩

/-! ## The round-trip claim -/

/-- C1, amended. Round trip: for every native value `v` whose types expose no conversion hook
and that is built from booleans of the type `bool` itself, integers, non-empty strings,
non-empty byte sequences whose element type is `byte` itself, non-empty sequences, fixed-size
arrays, string-keyed maps, records with an unambiguous field table (pairwise distinct wire keys,
no access path a prefix of another) that the encoded fields determine (a field that no
descriptor stores, being unreachable or left out by omit-if-empty, holds the zero value), and
pointers that are nil or whose pointee is such a value, neither of pointer type nor a nil map:
converting `v` returns a wire value, and decoding that wire value into a fresh zero destination
of the type of `v` returns no error and yields `v`, once the fuel is large enough. -/
theorem C1_round_trip (env : Env) (t : GoType) (d : Data) (h : Built env true t d) :
    ∃ N, ∀ fuel, N ≤ fuel → ∀ a : Bool, RoundTrips env fuel a t d := by
  obtain ⟨N, hN⟩ := roundTrip_strong env t d h
  refine ⟨N, fun fuel hf a => ?_⟩
  obtain ⟨av, h1, _, h3⟩ := hN fuel hf a
  exact ⟨av, h1, h3⟩

theorem table_sampleOuter :
    specEnv.cachedTypeFields sampleOuter
      = [⟨"Name", [0, 0], false⟩, ⟨"Note", [1, 0], false⟩, ⟨"Count", [2], true⟩,
          ⟨"Tags", [3], false⟩] := by
  rfl

theorem built_sampleOuter :
    Built specEnv true (.ptr sampleOuter) (.ptr (some sampleOuterValue)) := by
  refine Built.ptr _ sampleOuter _ rfl rfl ?_ (fun _ => ⟨rfl, fun h => by cases h⟩)
  refine Built.struct sampleOuter _ _ rfl rfl ?_ ?_ ?_
  · rw [table_sampleOuter]
    exact ⟨by decide, by decide⟩
  · intro a f fv hf hk
    rw [table_sampleOuter] at hf
    simp only [List.mem_cons, List.mem_singleton, List.not_mem_nil, or_false] at hf
    rcases hf with rfl | rfl | rfl | rfl
    · have h1 : keptField specEnv ⟨sampleOuter, a, sampleOuterValue⟩ ⟨"Name", [0, 0], false⟩
          = some ⟨.string, a, .str "n"⟩ := by cases a <;> rfl
      have h2 : some fv = some ⟨.string, a, .str "n"⟩ := hk.symm.trans h1
      cases h2
      exact Built.string _ "n" rfl rfl (by decide)
    · have h1 : keptField specEnv ⟨sampleOuter, a, sampleOuterValue⟩ ⟨"Note", [1, 0], false⟩
          = some ⟨.string, true, .str "x"⟩ := by cases a <;> rfl
      have h2 : some fv = some ⟨.string, true, .str "x"⟩ := hk.symm.trans h1
      cases h2
      exact Built.string _ "x" rfl rfl (by decide)
    · have h1 : keptField specEnv ⟨sampleOuter, a, sampleOuterValue⟩ ⟨"Count", [2], true⟩
          = none := by cases a <;> rfl
      have h2 : some fv = none := hk.symm.trans h1
      cases h2
    · have h1 : keptField specEnv ⟨sampleOuter, a, sampleOuterValue⟩ ⟨"Tags", [3], false⟩
          = some ⟨.slice sampleLabel, a, .slice (some [.str "a"])⟩ := by cases a <;> rfl
      have h2 : some fv = some ⟨.slice sampleLabel, a, .slice (some [.str "a"])⟩ :=
        hk.symm.trans h1
      cases h2
      refine Built.slice _ sampleLabel _ rfl rfl rfl (by simp) ?_
      intro x hx
      rw [List.mem_singleton] at hx
      subst hx
      exact Built.string sampleLabel "a" rfl rfl (by decide)
  · intro _ a
    cases a <;> rfl

theorem built_sampleRecord :
    Built sampleEnv true (.ptr sampleRecord) (.ptr (some sampleRecordValue)) := by
  refine Built.ptr _ sampleRecord _ rfl rfl ?_ (fun _ => ⟨rfl, fun h => by cases h⟩)
  refine Built.struct sampleRecord _ _ rfl rfl ⟨by decide, by decide⟩ ?_ ?_
  · intro a f fv hf hk
    have hf1 : f = ⟨"Value", [0], false⟩ ∨ f = ⟨"Names", [1], false⟩ := by
      simpa [sampleEnv, sampleRecord, GoType.underlying, directFields] using hf
    rcases hf1 with rfl | rfl
    · have h1 : keptField sampleEnv ⟨sampleRecord, a, sampleRecordValue⟩
          ⟨"Value", [0], false⟩ = some ⟨.int 8, a, .int (-3)⟩ := by cases a <;> rfl
      have h2 : some fv = some ⟨.int 8, a, .int (-3)⟩ := hk.symm.trans h1
      cases h2
      exact Built.int _ 8 (-3) rfl rfl (by decide) (by simp [fitsSigned])
    · have h1 : keptField sampleEnv ⟨sampleRecord, a, sampleRecordValue⟩
          ⟨"Names", [1], false⟩ = some ⟨.slice .string, a, .slice (some [.str "a"])⟩ := by
        cases a <;> rfl
      have h2 : some fv = some ⟨.slice .string, a, .slice (some [.str "a"])⟩ :=
        hk.symm.trans h1
      cases h2
      refine Built.slice _ .string _ rfl rfl rfl (by simp) ?_
      intro x hx
      rw [List.mem_singleton] at hx
      subst hx
      exact Built.string _ "a" rfl rfl (by decide)
  · intro _ a
    cases a <;> rfl

theorem C1_round_trip_witness :
    Built specEnv true (.ptr sampleOuter) (.ptr (some sampleOuterValue)) ∧
    convertToAttribute specEnv 4 ⟨.ptr sampleOuter, false, .ptr (some sampleOuterValue)⟩
      = .ok (some (AttributeValue.ofM [("Name", some (AttributeValue.ofS "n")),
          ("Note", some (AttributeValue.ofS "x")),
          ("Tags", some (AttributeValue.ofL [some (AttributeValue.ofS "a")]))])) ∧
    decodeAttribute specEnv 4
        (some (AttributeValue.ofM [("Name", some (AttributeValue.ofS "n")),
          ("Note", some (AttributeValue.ofS "x")),
          ("Tags", some (AttributeValue.ofL [some (AttributeValue.ofS "a")]))]))
        ⟨.ptr sampleOuter, true, zero (.ptr sampleOuter)⟩
      = ⟨.ptr (some sampleOuterValue), .ok ()⟩ ∧
    (∃ N, ∀ fuel, N ≤ fuel → ∀ a : Bool,
      RoundTrips specEnv fuel a (.ptr sampleOuter) (.ptr (some sampleOuterValue))) ∧
    Built sampleEnv true (.ptr sampleRecord) (.ptr (some sampleRecordValue)) ∧
    convertToAttribute sampleEnv 3 ⟨.ptr sampleRecord, false, .ptr (some sampleRecordValue)⟩
      = .ok (some (AttributeValue.ofM [("Value", some (AttributeValue.ofN "-3")),
          ("Names", some (AttributeValue.ofL [some (AttributeValue.ofS "a")]))])) ∧
    ∃ N, ∀ fuel, N ≤ fuel → ∀ a : Bool,
      RoundTrips sampleEnv fuel a (.ptr sampleRecord) (.ptr (some sampleRecordValue)) :=
  ⟨built_sampleOuter, rfl, rfl, C1_round_trip specEnv _ _ built_sampleOuter,
    built_sampleRecord, rfl, C1_round_trip sampleEnv _ _ built_sampleRecord⟩

/-- A value whose conversion and whose decoding from a fresh zero destination are known for
every fuel does not make the round trip when the decoding ends otherwise. -/
theorem roundTrips_absurd (env : Env) (a : Bool) (t : GoType) (d : Data) (av : AttributeValue)
    (out : DecOut) (hc : ∀ fuel, convertToAttribute env (fuel + 1) ⟨t, a, d⟩ = .ok (some av))
    (hd : ∀ fuel, decodeAttribute env (fuel + 1) (some av) ⟨t, true, zero t⟩ = out)
    (hne : out ≠ ⟨d, .ok ()⟩) : ∀ fuel, ¬ RoundTrips env fuel a t d := by
  intro fuel h
  obtain ⟨av1, h1, h2⟩ := h
  cases fuel with
  | zero => cases h1
  | succ f =>
    rw [hc f] at h1
    cases h1
    rw [hd f] at h2
    exact hne h2

/-- C1 as stated fails in four ways.
A pointer to a pointer to the integer 5 converts to the Number `5`, and decoding that Number
into a fresh destination of the same type panics, the decoder taking one pointer layer only.
A pointer to a nil string-keyed map converts to Null, and decoding Null leaves the nil pointer,
not the pointer to the map.
The value `true` of a defined boolean type converts to the Boolean `true`, and decoding it
panics in `reflect.Value.Set`, a `bool` not being assignable to the defined type; a non-empty
sequence of a defined byte type converts to a Binary, and decoding it panics in the same way.
A record whose omit-if-empty field holds an empty map that is not nil converts to the Record
without that key, and decoding leaves the field nil. -/
theorem C1_counterexample :
    (Built sampleEnv false (.ptr (.ptr (.int 64))) (.ptr (some (.ptr (some (.int 5))))) ∧
      (∀ fuel, convertToAttribute sampleEnv (fuel + 1)
          ⟨.ptr (.ptr (.int 64)), false, .ptr (some (.ptr (some (.int 5))))⟩
        = .ok (some (AttributeValue.ofN "5"))) ∧
      (∀ fuel, decodeAttribute sampleEnv (fuel + 1) (some (AttributeValue.ofN "5"))
          ⟨.ptr (.ptr (.int 64)), true, zero (.ptr (.ptr (.int 64)))⟩
        = ⟨.ptr (some (.ptr none)), .panic "could not handle multiple layers of pointers"⟩) ∧
      (∀ fuel, ¬ RoundTrips sampleEnv fuel false (.ptr (.ptr (.int 64)))
        (.ptr (some (.ptr (some (.int 5))))))) ∧
    (Built sampleEnv false (.ptr (.map .string (.int 64))) (.ptr (some (.map none))) ∧
      (∀ fuel, convertToAttribute sampleEnv (fuel + 1)
          ⟨.ptr (.map .string (.int 64)), false, .ptr (some (.map none))⟩
        = .ok (some (AttributeValue.ofNULL true))) ∧
      (∀ fuel, decodeAttribute sampleEnv (fuel + 1) (some (AttributeValue.ofNULL true))
          ⟨.ptr (.map .string (.int 64)), true, zero (.ptr (.map .string (.int 64)))⟩
        = ⟨.ptr none, .ok ()⟩) ∧
      (∀ fuel, ¬ RoundTrips sampleEnv fuel false (.ptr (.map .string (.int 64)))
        (.ptr (some (.map none))))) ∧
    (Built sampleEnv false sampleFlagType (.bool true) ∧
      (∀ fuel, convertToAttribute sampleEnv (fuel + 1) ⟨sampleFlagType, false, .bool true⟩
        = .ok (some (AttributeValue.ofBOOL true))) ∧
      (∀ fuel, decodeAttribute sampleEnv (fuel + 1) (some (AttributeValue.ofBOOL true))
          ⟨sampleFlagType, true, zero sampleFlagType⟩
        = ⟨.bool false, .panic "reflect.Set: value is not assignable to the type"⟩) ∧
      (∀ fuel, ¬ RoundTrips sampleEnv fuel false sampleFlagType (.bool true))) ∧
    (Built sampleEnv false (.slice sampleByteType) (.slice (some [.uint 7])) ∧
      (∀ fuel, convertToAttribute sampleEnv (fuel + 1)
          ⟨.slice sampleByteType, false, .slice (some [.uint 7])⟩
        = .ok (some (AttributeValue.ofB [7]))) ∧
      (∀ fuel, decodeAttribute sampleEnv (fuel + 1) (some (AttributeValue.ofB [7]))
          ⟨.slice sampleByteType, true, zero (.slice sampleByteType)⟩
        = ⟨.slice none, .panic "reflect.Set: value is not assignable to the type"⟩) ∧
      (∀ fuel, ¬ RoundTrips sampleEnv fuel false (.slice sampleByteType)
        (.slice (some [.uint 7])))) ∧
    (Built sampleEnv false sampleOmitMap (.struct [.map (some [])]) ∧
      Built sampleEnv false (.map .string (.int 64)) (.map (some [])) ∧
      (∀ fuel, convertToAttribute sampleEnv (fuel + 1)
          ⟨sampleOmitMap, false, .struct [.map (some [])]⟩
        = .ok (some (AttributeValue.ofM []))) ∧
      (∀ fuel, decodeAttribute sampleEnv (fuel + 1) (some (AttributeValue.ofM []))
          ⟨sampleOmitMap, true, zero sampleOmitMap⟩
        = ⟨.struct [.map none], .ok ()⟩) ∧
      (∀ fuel, ¬ RoundTrips sampleEnv fuel false sampleOmitMap (.struct [.map (some [])]))) := by
  refine ⟨⟨?_, fun _ => rfl, fun _ => rfl, ?_⟩, ⟨?_, fun _ => rfl, fun _ => rfl, ?_⟩,
    ⟨?_, fun _ => rfl, fun _ => rfl, ?_⟩, ⟨?_, fun _ => rfl, fun _ => rfl, ?_⟩,
    ⟨?_, ?_, fun _ => rfl, fun _ => rfl, ?_⟩⟩
  · exact Built.ptr _ (.ptr (.int 64)) _ rfl rfl
      (Built.ptr _ (.int 64) _ rfl rfl
        (Built.int _ 64 5 rfl rfl (by decide) (by simp [fitsSigned])) (fun h => by cases h))
      (fun h => by cases h)
  · exact roundTrips_absurd _ _ _ _ (AttributeValue.ofN "5")
      ⟨.ptr (some (.ptr none)), .panic "could not handle multiple layers of pointers"⟩
      (fun _ => rfl) (fun _ => rfl) (fun h => by cases h)
  · exact Built.ptr _ (.map .string (.int 64)) _ rfl rfl
      (Built.nilMap _ .string (.int 64) rfl rfl rfl) (fun h => by cases h)
  · exact roundTrips_absurd _ _ _ _ (AttributeValue.ofNULL true) ⟨.ptr none, .ok ()⟩
      (fun _ => rfl) (fun _ => rfl) (fun h => by cases h)
  · exact Built.bool _ true rfl rfl (fun h => by cases h)
  · exact roundTrips_absurd _ _ _ _ (AttributeValue.ofBOOL true)
      ⟨.bool false, .panic "reflect.Set: value is not assignable to the type"⟩
      (fun _ => rfl) (fun _ => rfl) (fun h => by cases h)
  · exact Built.bytes _ sampleByteType _ rfl rfl rfl (by simp)
      (fun x hx => ⟨7, List.mem_singleton.1 hx⟩) (fun h => by cases h)
  · exact roundTrips_absurd _ _ _ _ (AttributeValue.ofB [7])
      ⟨.slice none, .panic "reflect.Set: value is not assignable to the type"⟩
      (fun _ => rfl) (fun _ => rfl) (fun h => by cases h)
  · refine Built.struct sampleOmitMap _ _ rfl rfl ⟨by decide, by decide⟩ ?_
      (fun h => by cases h)
    intro a f fv hf hk
    have hf1 : f = ⟨"M", [0], true⟩ := List.mem_singleton.1 hf
    subst hf1
    have h1 : keptField sampleEnv ⟨sampleOmitMap, a, .struct [.map (some [])]⟩
        ⟨"M", [0], true⟩ = none := by cases a <;> rfl
    have h2 : some fv = none := hk.symm.trans h1
    cases h2
  · exact Built.map _ .string (.int 64) [] rfl rfl rfl (fun kv h => by cases h)
      List.nodup_nil (fun kv h => by cases h)
  · exact roundTrips_absurd _ _ _ _ (AttributeValue.ofM []) ⟨.struct [.map none], .ok ()⟩
      (fun _ => rfl) (fun _ => rfl) (fun h => by cases h)

/-! ## Field tables that resolve every field directly -/

theorem keptField_direct (env : Env) (t : GoType) (a : Bool)
    (fts : List (StructField × GoType)) (fs : List Data) (hu : t.underlying = .struct fts)
    (g : Field) (i : Nat) (hg : g.index = [i]) (fv : Value)
    (hk : keptField env ⟨t, a, .struct fs⟩ g = some fv) :
    ∃ ft, fts.get? i = some ft ∧ fs.get? i = some fv.data := by
  have h := keptField_some env _ g fv hk
  rw [hg, fieldByIndex_cons] at h
  simp only [hu] at h
  cases hF : (Value.mk t a (.struct fs)).Field i with
  | none => rw [hF] at h; cases h
  | some fv1 =>
    rw [hF] at h
    obtain ⟨fts1, fs1, ft, x, hu1, hd1, h1, h2, hfv⟩ := field_some t a _ i fv1 hF
    rw [hu] at hu1
    cases hu1
    cases hd1
    simp only [fieldByIndex, Option.some.injEq] at h
    subst h
    subst hfv
    exact ⟨ft, h1, h2⟩

theorem rebuild_direct_aux (env : Env) (t : GoType) (a : Bool)
    (fts : List (StructField × GoType)) (fs : List Data) (hu : t.underlying = .struct fts) :
    ∀ (rem : List Field) (cur : List Data),
      (∀ g ∈ rem, ∃ i, i < fts.length ∧ g.index = [i]) → cur.length = fts.length →
      ∃ final : List Data,
        rebuild env ⟨t, a, .struct fs⟩ rem (.struct cur) = .struct final ∧
        final.length = fts.length ∧
        (∀ i, cur.get? i = fs.get? i → final.get? i = fs.get? i) ∧
        (∀ i, final.get? i = fs.get? i ∨
          (final.get? i = cur.get? i ∧
            ∀ g ∈ rem, g.index = [i] → keptField env ⟨t, a, .struct fs⟩ g = none)) := by
  intro rem
  induction rem with
  | nil =>
    intro cur _ hcl
    exact ⟨cur, rfl, hcl, fun _ h => h, fun i => Or.inr ⟨rfl, fun g hg => by cases hg⟩⟩
  | cons g rest ih =>
    intro cur hdirect hcl
    obtain ⟨i0, hi0, hgi⟩ := hdirect g (List.mem_cons_self _ _)
    have hrest : ∀ g1 ∈ rest, ∃ i, i < fts.length ∧ g1.index = [i] :=
      fun g1 hg1 => hdirect g1 (List.mem_cons_of_mem _ hg1)
    cases hk : keptField env ⟨t, a, .struct fs⟩ g with
    | none =>
      obtain ⟨final, hR, hL, hS, hZ⟩ := ih cur hrest hcl
      refine ⟨final, ?_, hL, hS, ?_⟩
      · rw [rebuild, hk]
        exact hR
      · intro i
        rcases hZ i with h | ⟨h1, h2⟩
        · exact Or.inl h
        · refine Or.inr ⟨h1, ?_⟩
          intro g1 hg1 hg1i
          rcases List.mem_cons.1 hg1 with rfl | hg1
          · exact hk
          · exact h2 g1 hg1 hg1i
    | some fv =>
      obtain ⟨ft, h1, h2⟩ := keptField_direct env t a fts fs hu g i0 hgi fv hk
      have hc : i0 < cur.length := by omega
      have hcg : cur.get? i0 = some cur[i0] := by
        rw [List.get?_eq_getElem?, List.getElem?_eq_getElem hc]
      have hopen : openRecord t (.struct cur) = some (fts, cur, false) := by
        unfold openRecord
        simp only [hu]
      have hstore : storeField fv.data t (.struct cur) [i0] = .struct (cur.set i0 fv.data) := by
        rw [storeField_cons fv.data t _ i0 [] fts cur false ft cur[i0] hopen h1 hcg, storeField]
        rfl
      obtain ⟨final, hR, hL, hS, hZ⟩ := ih (cur.set i0 fv.data) hrest (by simp [hcl])
      have hset : (cur.set i0 fv.data).get? i0 = fs.get? i0 := by
        rw [List.get?_eq_getElem?, List.getElem?_set_self hc, h2]
      refine ⟨final, ?_, hL, ?_, ?_⟩
      · rw [rebuild, hk]
        dsimp only
        rw [hgi, hstore]
        exact hR
      · intro i hi
        by_cases hii : i = i0
        · subst hii
          exact hS i hset
        · apply hS i
          rw [List.get?_eq_getElem?, List.getElem?_set_ne (fun h => hii h.symm),
            ← List.get?_eq_getElem?]
          exact hi
      · intro i
        by_cases hii : i = i0
        · subst hii
          exact Or.inl (hS i hset)
        · rcases hZ i with h | ⟨h3, h4⟩
          · exact Or.inl h
          · refine Or.inr ⟨?_, ?_⟩
            · rw [h3, List.get?_eq_getElem?, List.getElem?_set_ne (fun h => hii h.symm),
                ← List.get?_eq_getElem?]
            · intro g1 hg1 hg1i
              rcases List.mem_cons.1 hg1 with rfl | hg1
              · rw [hgi] at hg1i
                simp only [List.cons.injEq, and_true] at hg1i
                exact absurd hg1i.symm hii
              · exact h4 g1 hg1 hg1i

/-- A record whose field table resolves every field directly, each field having a descriptor,
is the record that its encoded fields determine as soon as every field that the encoder leaves
out holds the zero value of its type. -/
theorem rebuild_direct (env : Env) (t : GoType) (a : Bool)
    (fts : List (StructField × GoType)) (fs : List Data) (hu : t.underlying = .struct fts)
    (hlen : fs.length = fts.length)
    (hdirect : ∀ g ∈ env.cachedTypeFields t, ∃ i, i < fts.length ∧ g.index = [i])
    (hcover : ∀ i, i < fts.length → ∃ g ∈ env.cachedTypeFields t, g.index = [i])
    (homit : ∀ g ∈ env.cachedTypeFields t, ∀ (i : Nat) (ft : StructField × GoType) (x : Data),
      g.index = [i] → fts.get? i = some ft → fs.get? i = some x →
      keptField env ⟨t, a, .struct fs⟩ g = none → x = zero ft.2) :
    rebuild env ⟨t, a, .struct fs⟩ (env.cachedTypeFields t) (zero t) = .struct fs := by
  have hz : zero t = .struct (zeroFields fts) := by rw [zero_underlying t, hu, zero]
  have hzl : (zeroFields fts).length = fts.length := by
    rw [zeroFields_eq_map, List.length_map]
  obtain ⟨final, hR, hL, _, hZ⟩ := rebuild_direct_aux env t a fts fs hu
    (env.cachedTypeFields t) (zeroFields fts) hdirect hzl
  rw [hz, hR]
  congr 1
  apply List.ext_get?
  intro i
  by_cases hi : i < fts.length
  · rcases hZ i with h | ⟨h1, h2⟩
    · exact h
    · obtain ⟨g, hg, hgi⟩ := hcover i hi
      have hfi : fts.get? i = some fts[i] := by
        rw [List.get?_eq_getElem?, List.getElem?_eq_getElem hi]
      have hi2 : i < fs.length := by omega
      have hsi : fs.get? i = some fs[i] := by
        rw [List.get?_eq_getElem?, List.getElem?_eq_getElem hi2]
      have hx := homit g hg i _ _ hgi hfi hsi (h2 g hg hgi)
      rw [h1, get?_zeroFields fts i _ hfi, hsi, hx]
  · rw [List.get?_eq_none.2 (by omega), List.get?_eq_none.2 (by omega)]

end Dynamodb
